import Mathlib

/-!
# cmnist: a verification development

A shallow embedding of `matrix.c` and of the computation-graph engine of
`cmnist.c`, with theorems about forward evaluation, gradient propagation and
the parameter update.

Modelling conventions.

* `float` is an abstract scalar type `α`; each definition asks only for the
  operations the C function uses (`0.0f` is `0`, `1.0f` is `1`, `+ - * /`
  are the operations of `α`).  `exp` of `math.h` is not part of the
  repository: it is a parameter `exp : α → α`.  Theorems are stated over the
  algebraic structure they need (a semiring, a field, the reals), that is
  over exact arithmetic.  Rounding is modelled in one place only: the section
  on binary floating point evaluates `sigmoid` with the rounding of its C types.
* `int` dimensions and indices are natural numbers; the index arithmetic
  `i*b + k` is the one of the source, taken without wrap-around.
* A buffer `float *data` is a `List α` whose length is the allocated size.
  A read or write outside the allocation, the dereference of a `NULL` or
  dangling `node *`, and running out of recursion fuel give `none`.
* `for(int i = 0; i < n; i++) body` is `forLoop n body`.
* The nodes live in a heap addressed by natural numbers; `node *` is
  `Option Nat` with `none` for `NULL`.  Each node holds its two buffers by
  value: the constructors give every node freshly allocated buffers.  A kernel
  therefore takes its operands by value and returns the new destination; the
  destination of a kernel call is the buffer of an operand only when a node is
  its own operand, and then the recursion of the caller does not end.
* Recursion is bounded by a fuel argument: the C functions return exactly when
  some amount of fuel lets the embedded function return `some` heap.
-/

set_option autoImplicit false

/-! ## matrix.h -/

/-- The struct `mlmatrix` of `matrix.h`. -/
structure mlmatrix (α : Type) where
  rows : Nat
  cols : Nat
  data : List α
deriving DecidableEq, Repr

/-- The read `m->data[i]`. -/
def mlmatrix.load {α : Type} (m : mlmatrix α) (i : Nat) : Option α :=
  m.data[i]?

/-- The write `m->data[i] = v`. -/
def mlmatrix.store {α : Type} (m : mlmatrix α) (i : Nat) (v : α) : Option (mlmatrix α) :=
  if i < m.data.length then some { m with data := m.data.set i v } else none

/-- The loop `for(int i = 0; i < n; i++) body` on a state `s`. -/
def forLoop {σ : Type} (n : Nat) (body : Nat → σ → Option σ) (s : σ) : Option σ :=
  (List.range n).foldlM (fun s i => body i s) s

/-! ## matrix.c -/

/-- The function `sigmoid` of `matrix.c`: `1.0f / (1.0f + exp(-x))`. -/
def sigmoid {α : Type} [One α] [Add α] [Neg α] [Div α] (exp : α → α) (x : α) : α :=
  1 / (1 + exp (-x))

/-- The function `mat_mul` of `matrix.c`. -/
def mat_mul {α : Type} [Zero α] [Add α] [Mul α] (dst x y : mlmatrix α) : Option (mlmatrix α) :=
  let a := x.rows
  let b := x.cols
  let c := y.cols
  forLoop a (fun i dst =>
    forLoop c (fun j dst => do
      let sum ← forLoop b (fun k sum => do
        let xv ← x.load (i * b + k)
        let yv ← y.load (k * c + j)
        pure (sum + xv * yv)) (0 : α)
      dst.store (i * c + j) sum) dst) dst

/-- The function `mat_add` of `matrix.c`. -/
def mat_add {α : Type} [Add α] (dst x y : mlmatrix α) : Option (mlmatrix α) :=
  forLoop (dst.rows * dst.cols) (fun i dst => do
    let xv ← x.load i
    let yv ← y.load i
    dst.store i (xv + yv)) dst

/-- The function `mat_sub` of `matrix.c`. -/
def mat_sub {α : Type} [Sub α] (dst x y : mlmatrix α) : Option (mlmatrix α) :=
  forLoop (dst.rows * dst.cols) (fun i dst => do
    let xv ← x.load i
    let yv ← y.load i
    dst.store i (xv - yv)) dst

/-- The function `mat_copy` of `matrix.c`. -/
def mat_copy {α : Type} (dst src : mlmatrix α) : Option (mlmatrix α) :=
  forLoop (dst.rows * dst.cols) (fun i dst => do
    let v ← src.load i
    dst.store i v) dst

/-- The function `mat_transpose` of `matrix.c`. -/
def mat_transpose {α : Type} (dst src : mlmatrix α) : Option (mlmatrix α) :=
  forLoop dst.rows (fun i dst =>
    forLoop dst.cols (fun j dst => do
      let v ← src.load (j * src.cols + i)
      dst.store (i * dst.cols + j) v) dst) dst

/-- The function `mat_nl` of `matrix.c`. -/
def mat_nl {α : Type} [One α] [Add α] [Neg α] [Div α] (exp : α → α)
    (dst src : mlmatrix α) : Option (mlmatrix α) :=
  forLoop (dst.rows * dst.cols) (fun i dst => do
    let v ← src.load i
    dst.store i (sigmoid exp v)) dst

/-- The function `mat_invnl` of `matrix.c`: `dx = dy * y * (1 - y)`. -/
def mat_invnl {α : Type} [One α] [Sub α] [Mul α] (dx y dy : mlmatrix α) : Option (mlmatrix α) :=
  forLoop (dx.rows * dx.cols) (fun i dx => do
    let dyv ← dy.load i
    let yv ← y.load i
    let yv2 ← y.load i
    dx.store i (dyv * yv * (1 - yv2))) dx

/-- The function `mat_param_update` of `matrix.c`: `m->data[i] -= alpha * deriv->data[i]`. -/
def mat_param_update {α : Type} [Sub α] [Mul α] (m deriv : mlmatrix α) (alpha : α) :
    Option (mlmatrix α) :=
  forLoop (m.rows * m.cols) (fun i m => do
    let d ← deriv.load i
    let old ← m.load i
    m.store i (old - alpha * d)) m

/-! ## cmnist.c -/

/-- The constant `LEARNING_RATE` of `cmnist.c`. -/
def LEARNING_RATE {α : Type} [OfScientific α] : α := 0.1

/-- The enum `node_type` of `cmnist.c`. -/
inductive node_type where
  | INPUT_NODE
  | PARAM_NODE
  | MUL_NODE
  | ADD_NODE
  | NL_NODE
deriving DecidableEq, Repr

/-- The struct `node` of `cmnist.c`; `left` and `right` are addresses in the heap. -/
structure node (α : Type) where
  type : node_type
  left : Option Nat
  right : Option Nat
  matrix : mlmatrix α
  deriv : mlmatrix α
deriving DecidableEq, Repr

/-- The memory holding the nodes: the node at address `p` is the `p`-th element. -/
abbrev Heap (α : Type) := List (node α)

/-- The dereference `*p` of a `node *`. -/
def Heap.deref {α : Type} (h : Heap α) : Option Nat → Option (node α)
  | none => none
  | some p => h[p]?

/-- The heap after the buffer `p->matrix` has been replaced by `m`. -/
def Heap.setMatrix {α : Type} (h : Heap α) (p : Option Nat) (m : mlmatrix α) :
    Option (Heap α) := do
  let q ← p
  let n ← h[q]?
  pure (h.set q { n with matrix := m })

/-- The heap after the buffer `p->deriv` has been replaced by `d`. -/
def Heap.setDeriv {α : Type} (h : Heap α) (p : Option Nat) (d : mlmatrix α) :
    Option (Heap α) := do
  let q ← p
  let n ← h[q]?
  pure (h.set q { n with deriv := d })

/-- The function `make_matrix` of `cmnist.c`: a zeroed buffer of `rows*cols` entries. -/
def make_matrix {α : Type} [Zero α] (rows cols : Nat) : mlmatrix α :=
  { rows := rows, cols := cols, data := List.replicate (rows * cols) 0 }

/-- The function `forward_prop` of `cmnist.c`.  The fields `type`, `left` and
`right` of a node are never written, so they are read once; the buffers are
read where the source reads them. -/
def forward_prop {α : Type} [Zero α] [One α] [Add α] [Mul α] [Neg α] [Div α]
    (exp : α → α) : Nat → Heap α → Option Nat → Option (Heap α)
  | _, h, none => some h
  | 0, _, some _ => none
  | fuel + 1, h, some p => do
    let n ← h[p]?
    let h1 ← forward_prop exp fuel h n.left
    let h2 ← forward_prop exp fuel h1 n.right
    match n.type with
    | .INPUT_NODE => some h2
    | .PARAM_NODE => some h2
    | .MUL_NODE => do
      let dst ← h2[p]?
      let l ← h2.deref n.left
      let r ← h2.deref n.right
      let m ← mat_mul dst.matrix l.matrix r.matrix
      h2.setMatrix (some p) m
    | .ADD_NODE => do
      let dst ← h2[p]?
      let l ← h2.deref n.left
      let r ← h2.deref n.right
      let m ← mat_add dst.matrix l.matrix r.matrix
      h2.setMatrix (some p) m
    | .NL_NODE => do
      let dst ← h2[p]?
      let l ← h2.deref n.left
      let m ← mat_nl exp dst.matrix l.matrix
      h2.setMatrix (some p) m

/-- The function `backprop` of `cmnist.c`; `n` is dereferenced without a `NULL` test. -/
def backprop {α : Type} [Zero α] [One α] [Add α] [Sub α] [Mul α] :
    Nat → Heap α → Option Nat → Option (Heap α)
  | 0, _, _ => none
  | fuel + 1, h, p => do
    let n ← h.deref p
    match n.type with
    | .INPUT_NODE => some h
    | .PARAM_NODE => some h
    | .MUL_NODE => do
      let l ← h.deref n.left
      let r ← h.deref n.right
      let LT ← mat_transpose (make_matrix l.matrix.cols l.matrix.rows) l.matrix
      let RT ← mat_transpose (make_matrix r.matrix.cols r.matrix.rows) r.matrix
      let dl ← mat_mul l.deriv n.deriv RT
      let h1 ← h.setDeriv n.left dl
      let n1 ← h1.deref p
      let r1 ← h1.deref n.right
      let dr ← mat_mul r1.deriv LT n1.deriv
      let h2 ← h1.setDeriv n.right dr
      let h3 ← backprop fuel h2 n.left
      backprop fuel h3 n.right
    | .ADD_NODE => do
      let l ← h.deref n.left
      let dl ← mat_copy l.deriv n.deriv
      let h1 ← h.setDeriv n.left dl
      let n1 ← h1.deref p
      let r1 ← h1.deref n.right
      let dr ← mat_copy r1.deriv n1.deriv
      let h2 ← h1.setDeriv n.right dr
      let h3 ← backprop fuel h2 n.left
      backprop fuel h3 n.right
    | .NL_NODE => do
      let l ← h.deref n.left
      let dl ← mat_invnl l.deriv n.matrix n.deriv
      let h1 ← h.setDeriv n.left dl
      backprop fuel h1 n.left

/-- The function `update_weights` of `cmnist.c`. -/
def update_weights {α : Type} [Sub α] [Mul α] [OfScientific α] :
    Nat → Heap α → Option Nat → Option (Heap α)
  | _, h, none => some h
  | 0, _, some _ => none
  | fuel + 1, h, some p => do
    let n ← h[p]?
    let h1 ← if n.type = node_type.PARAM_NODE then do
        let m ← mat_param_update n.matrix n.deriv LEARNING_RATE
        h.setMatrix (some p) m
      else some h
    let h2 ← update_weights fuel h1 n.left
    update_weights fuel h2 n.right

/-! ## Specification vocabulary -/

/-- The entry `m[i,j]` of a buffer read in row-major order (`0` outside the allocation). -/
def mlmatrix.entry {α : Type} [Zero α] (m : mlmatrix α) (i j : Nat) : α :=
  (m.data[i * m.cols + j]?).getD 0

/-- A buffer is sized when it holds exactly `rows*cols` entries. -/
def mlmatrix.Sized {α : Type} (m : mlmatrix α) : Prop :=
  m.data.length = m.rows * m.cols

instance {α : Type} (m : mlmatrix α) : Decidable m.Sized := by
  unfold mlmatrix.Sized; infer_instance

/-- The buffer `m` is an `r × c` matrix: its fields say so and it holds `r*c` entries. -/
def mlmatrix.HasShape {α : Type} (m : mlmatrix α) (r c : Nat) : Prop :=
  m.rows = r ∧ m.cols = c ∧ m.data.length = r * c

instance {α : Type} (m : mlmatrix α) (r c : Nat) : Decidable (m.HasShape r c) := by
  unfold mlmatrix.HasShape; infer_instance

/-- The `n × n` identity matrix `I_n` as a row-major buffer. -/
def identity {α : Type} [Zero α] [One α] (n : Nat) : mlmatrix α :=
  { rows := n, cols := n,
    data := (List.range (n * n)).map (fun idx => if idx / n = idx % n then 1 else 0) }

/-- The buffer `m` read as an `r × c` matrix of Mathlib. -/
def mlmatrix.toMatrix {α : Type} [Zero α] (m : mlmatrix α) (r c : Nat) :
    Matrix (Fin r) (Fin c) α :=
  Matrix.of (fun i j => m.entry i.val j.val)

/-- The matrix product as a buffer: entry `(i,j)` is the sum over `k` of `x[i,k] * y[k,j]`. -/
def mlmatrix.mul {α : Type} [Zero α] [Add α] [Mul α] (x y : mlmatrix α) : mlmatrix α :=
  { rows := x.rows, cols := y.cols,
    data := (List.range (x.rows * y.cols)).map (fun idx =>
      (List.range x.cols).foldl
        (fun s k => s + x.entry (idx / y.cols) k * y.entry k (idx % y.cols)) 0) }

/-- The elementwise sum as a buffer, with the shape of `x`. -/
def mlmatrix.add {α : Type} [Add α] (x y : mlmatrix α) : mlmatrix α :=
  { x with data := List.zipWith (· + ·) x.data y.data }

/-- The function `f` applied to every entry. -/
def mlmatrix.map {α : Type} (f : α → α) (x : mlmatrix α) : mlmatrix α :=
  { x with data := x.data.map f }

/-- The transpose as a buffer. -/
def mlmatrix.transpose {α : Type} [Zero α] (x : mlmatrix α) : mlmatrix α :=
  { rows := x.cols, cols := x.rows,
    data := (List.range (x.cols * x.rows)).map (fun idx => x.entry (idx % x.rows) (idx / x.rows)) }

/-- The invariant of the two buffers of a node: the value buffer is sized and the
gradient buffer has its shape. -/
def node.Ok {α : Type} (n : node α) : Prop :=
  n.matrix.Sized ∧ n.deriv.HasShape n.matrix.rows n.matrix.cols

instance {α : Type} (n : node α) : Decidable n.Ok := by
  unfold node.Ok; infer_instance

/-- A tree-shaped graph: which address holds which kind of node, operands included. -/
inductive NodeTree where
  | input (p : Nat)
  | param (p : Nat)
  | mul (p : Nat) (l r : NodeTree)
  | add (p : Nat) (l r : NodeTree)
  | nl (p : Nat) (x : NodeTree)
deriving DecidableEq, Repr

/-- The address of the root node. -/
def NodeTree.root : NodeTree → Nat
  | .input p => p
  | .param p => p
  | .mul p _ _ => p
  | .add p _ _ => p
  | .nl p _ => p

/-- The addresses of all nodes. -/
def NodeTree.addrs : NodeTree → List Nat
  | .input p => [p]
  | .param p => [p]
  | .mul p l r => p :: (l.addrs ++ r.addrs)
  | .add p l r => p :: (l.addrs ++ r.addrs)
  | .nl p x => p :: x.addrs

/-- The addresses of the nodes that have operands (MatMul, Add, Nonlinearity). -/
def NodeTree.inner : NodeTree → List Nat
  | .input _ => []
  | .param _ => []
  | .mul p l r => p :: (l.inner ++ r.inner)
  | .add p l r => p :: (l.inner ++ r.inner)
  | .nl p x => p :: x.inner

/-- The addresses of the Parameter nodes. -/
def NodeTree.params : NodeTree → List Nat
  | .input _ => []
  | .param p => [p]
  | .mul _ l r => l.params ++ r.params
  | .add _ l r => l.params ++ r.params
  | .nl _ x => x.params

/-- The addresses of the nodes below the root. -/
def NodeTree.descendants : NodeTree → List Nat
  | .input _ => []
  | .param _ => []
  | .mul _ l r => l.addrs ++ r.addrs
  | .add _ l r => l.addrs ++ r.addrs
  | .nl _ x => x.addrs

/-- The number of nodes on the longest path from the root to a leaf. -/
def NodeTree.depth : NodeTree → Nat
  | .input _ => 1
  | .param _ => 1
  | .mul _ l r => max l.depth r.depth + 1
  | .add _ l r => max l.depth r.depth + 1
  | .nl _ x => x.depth + 1

/-- The subtrees of a tree, itself included. -/
def NodeTree.subtrees : NodeTree → List NodeTree
  | .input p => [.input p]
  | .param p => [.param p]
  | .mul p l r => .mul p l r :: (l.subtrees ++ r.subtrees)
  | .add p l r => .add p l r :: (l.subtrees ++ r.subtrees)
  | .nl p x => .nl p x :: x.subtrees

/-- The heap `h` holds the graph `t` as the constructors of `cmnist.c` build it:
every node has the kind and the operands `t` says, its buffers satisfy `node.Ok`,
a MatMul node has `left.cols == right.rows` and the shape `left.rows × right.cols`,
an Add node and its operands have one shape, and a Nonlinearity node has the
shape of its operand. -/
def WF {α : Type} (h : Heap α) : NodeTree → Prop
  | .input p =>
    match h[p]? with
    | some n => n.type = node_type.INPUT_NODE ∧ n.left = none ∧ n.right = none ∧ n.Ok
    | none => False
  | .param p =>
    match h[p]? with
    | some n => n.type = node_type.PARAM_NODE ∧ n.left = none ∧ n.right = none ∧ n.Ok
    | none => False
  | .mul p l r =>
    match h[p]?, h[l.root]?, h[r.root]? with
    | some n, some a, some b =>
      n.type = node_type.MUL_NODE ∧ n.left = some l.root ∧ n.right = some r.root ∧ n.Ok ∧
      a.matrix.cols = b.matrix.rows ∧
      n.matrix.rows = a.matrix.rows ∧ n.matrix.cols = b.matrix.cols ∧ WF h l ∧ WF h r
    | _, _, _ => False
  | .add p l r =>
    match h[p]?, h[l.root]?, h[r.root]? with
    | some n, some a, some b =>
      n.type = node_type.ADD_NODE ∧ n.left = some l.root ∧ n.right = some r.root ∧ n.Ok ∧
      n.matrix.rows = a.matrix.rows ∧ n.matrix.cols = a.matrix.cols ∧
      b.matrix.rows = a.matrix.rows ∧ b.matrix.cols = a.matrix.cols ∧ WF h l ∧ WF h r
    | _, _, _ => False
  | .nl p x =>
    match h[p]?, h[x.root]? with
    | some n, some a =>
      n.type = node_type.NL_NODE ∧ n.left = some x.root ∧ n.right = none ∧ n.Ok ∧
      n.matrix.rows = a.matrix.rows ∧ n.matrix.cols = a.matrix.cols ∧ WF h x
    | _, _ => False

instance WF.decidable {α : Type} (h : Heap α) : (t : NodeTree) → Decidable (WF h t)
  | .input p => by unfold WF; split <;> infer_instance
  | .param p => by unfold WF; split <;> infer_instance
  | .mul p l r => by
    have := WF.decidable h l
    have := WF.decidable h r
    unfold WF; split <;> infer_instance
  | .add p l r => by
    have := WF.decidable h l
    have := WF.decidable h r
    unfold WF; split <;> infer_instance
  | .nl p x => by
    have := WF.decidable h x
    unfold WF; split <;> infer_instance

/-- The value buffer of the node at address `p` (an empty buffer when there is none). -/
def Heap.value {α : Type} (h : Heap α) (p : Nat) : mlmatrix α :=
  match h[p]? with
  | some n => n.matrix
  | none => ⟨0, 0, []⟩

/-- The gradient buffer of the node at address `p` (an empty buffer when there is none). -/
def Heap.grad {α : Type} (h : Heap α) (p : Nat) : mlmatrix α :=
  match h[p]? with
  | some n => n.deriv
  | none => ⟨0, 0, []⟩

/-- The recursive, operands-first evaluation of the expression `t` over the values
the leaves (Input and Parameter nodes) hold in `h`. -/
def NodeTree.eval {α : Type} [Zero α] [One α] [Add α] [Mul α] [Neg α] [Div α]
    (exp : α → α) (h : Heap α) : NodeTree → mlmatrix α
  | .input p => h.value p
  | .param p => h.value p
  | .mul _ l r => (l.eval exp h).mul (r.eval exp h)
  | .add _ l r => (l.eval exp h).add (r.eval exp h)
  | .nl _ x => (x.eval exp h).map (sigmoid exp)

/-- Every node of `t` holds in `h` the value its kind computes from the values its
operands hold in `h`: product, elementwise sum, elementwise sigmoid. -/
def Evaluated {α : Type} [Zero α] [One α] [Add α] [Mul α] [Neg α] [Div α]
    (exp : α → α) (h : Heap α) : NodeTree → Prop
  | .input _ => True
  | .param _ => True
  | .mul p l r =>
    h.value p = (h.value l.root).mul (h.value r.root) ∧ Evaluated exp h l ∧ Evaluated exp h r
  | .add p l r =>
    h.value p = (h.value l.root).add (h.value r.root) ∧ Evaluated exp h l ∧ Evaluated exp h r
  | .nl p x =>
    h.value p = (h.value x.root).map (sigmoid exp) ∧ Evaluated exp h x

/-- The addresses of the Input and Parameter nodes. -/
def NodeTree.leaves : NodeTree → List Nat
  | .input p => [p]
  | .param p => [p]
  | .mul _ l r => l.leaves ++ r.leaves
  | .add _ l r => l.leaves ++ r.leaves
  | .nl _ x => x.leaves

/-- The node `n'` differs from `n` at most in the contents of its two buffers. -/
def node.SameShape {α : Type} (n n' : node α) : Prop :=
  n'.type = n.type ∧ n'.left = n.left ∧ n'.right = n.right ∧
  n'.matrix.rows = n.matrix.rows ∧ n'.matrix.cols = n.matrix.cols ∧
  n'.matrix.data.length = n.matrix.data.length ∧
  n'.deriv.rows = n.deriv.rows ∧ n'.deriv.cols = n.deriv.cols ∧
  n'.deriv.data.length = n.deriv.data.length

/-- The heap `h'` has the nodes of `h`, with at most the contents of buffers changed. -/
def Heap.SameShape {α : Type} (h h' : Heap α) : Prop :=
  h'.length = h.length ∧ ∀ (q : Nat) (n n' : node α), h[q]? = some n → h'[q]? = some n' → n.SameShape n'

/-- The gradient routed through a sigmoid whose output is `y`, for the incoming
gradient `dy`: `dy * y * (1 - y)` entry by entry, in a buffer shaped as `y`. -/
def mlmatrix.invnl {α : Type} [One α] [Sub α] [Mul α] (y dy : mlmatrix α) : mlmatrix α :=
  { y with data := List.zipWith (fun g v => g * v * (1 - v)) dy.data y.data }

/-- Every operand in `t` holds in `h` the gradient its consumer routes to it from the
consumer's gradient `G`: for a MatMul node of operands `L` and `R`, `G × Rᵗ` on the
left and `Lᵗ × G` on the right; for an Add node, `G` on both sides; for a
Nonlinearity node of output `y`, `G ⊙ y ⊙ (1 - y)`. -/
def Backpropagated {α : Type} [Zero α] [One α] [Add α] [Sub α] [Mul α]
    (h : Heap α) : NodeTree → Prop
  | .input _ => True
  | .param _ => True
  | .mul p l r =>
    h.grad l.root = (h.grad p).mul (h.value r.root).transpose ∧
    h.grad r.root = (h.value l.root).transpose.mul (h.grad p) ∧
    Backpropagated h l ∧ Backpropagated h r
  | .add p l r =>
    h.grad l.root = h.grad p ∧ h.grad r.root = h.grad p ∧
    Backpropagated h l ∧ Backpropagated h r
  | .nl p x =>
    h.grad x.root = (h.value p).invnl (h.grad p) ∧ Backpropagated h x

/-- A leaf of the graph: an Input or a Parameter node. -/
def node.IsLeaf {α : Type} (n : node α) : Prop :=
  n.type = node_type.INPUT_NODE ∨ n.type = node_type.PARAM_NODE

instance {α : Type} (n : node α) : Decidable n.IsLeaf := by
  unfold node.IsLeaf; infer_instance

/-- One gradient-descent step on a buffer: `m[i] - rate * g[i]` at every entry. -/
def mlmatrix.step {α : Type} [Sub α] [Mul α] (m g : mlmatrix α) (rate : α) : mlmatrix α :=
  { m with data := List.zipWith (fun v d => v - rate * d) m.data g.data }

/-! ## The derivative of the loss: vocabulary -/

/-- The heap in which entry `(a,b)` of the value of the node at address `q` is `x`. -/
def Heap.perturb {α : Type} (h : Heap α) (q a b : Nat) (x : α) : Heap α :=
  match h[q]? with
  | some n =>
    h.set q { n with
      matrix := { n.matrix with data := n.matrix.data.set (a * n.matrix.cols + b) x } }
  | none => h

/-- The sum over all entries `(i,j)` of `G[i,j] * Y[i,j]`, `G` giving the shape. -/
def mlmatrix.pairing {α : Type} [Semiring α] (G Y : mlmatrix α) : α :=
  ∑ i in Finset.range G.rows, ∑ j in Finset.range G.cols, G.entry i j * Y.entry i j

/-- A buffer shaped as `m` that holds `1` at entry `(a,b)` and `0` elsewhere. -/
def mlmatrix.unitAt {α : Type} [Zero α] [One α] (m : mlmatrix α) (a b : Nat) : mlmatrix α :=
  { rows := m.rows, cols := m.cols,
    data := List.map (fun k => if k = a * m.cols + b then 1 else 0) (List.range m.data.length) }

/-- A buffer shaped as `m` that holds `0` everywhere. -/
def mlmatrix.zeroLike {α : Type} [Zero α] (m : mlmatrix α) : mlmatrix α :=
  { m with data := List.replicate m.data.length 0 }

/-- Forward mode: the derivative of the evaluation of `t` with respect to entry
`(a,b)` of the leaf at address `q`, by the rules of differentiation (product rule
for MatMul, sum rule for Add, `y * (1 - y)` for the sigmoid of output `y`). -/
def NodeTree.tangent {α : Type} [Zero α] [One α] [Add α] [Sub α] [Mul α] [Neg α] [Div α]
    (exp : α → α) (h : Heap α) (q a b : Nat) : NodeTree → mlmatrix α
  | .input p => if p = q then (h.value p).unitAt a b else (h.value p).zeroLike
  | .param p => if p = q then (h.value p).unitAt a b else (h.value p).zeroLike
  | .mul _ l r =>
    ((l.tangent exp h q a b).mul (r.eval exp h)).add ((l.eval exp h).mul (r.tangent exp h q a b))
  | .add _ l r => (l.tangent exp h q a b).add (r.tangent exp h q a b)
  | .nl p x =>
    let y := (NodeTree.nl p x).eval exp h
    { rows := y.rows, cols := y.cols,
      data := List.zipWith (fun v d => v * (1 - v) * d) y.data (x.tangent exp h q a b).data }

/-- Reverse mode: the derivative, with respect to entry `(a,b)` of the leaf at address
`q`, of the pairing of `G` with the evaluation of `t`, by the chain rule of §4.3 of the
specification: a MatMul node passes `G × Rᵗ` to the left and `Lᵗ × G` to the right, an
Add node passes `G` to both sides, a Nonlinearity node of output `y` passes
`G ⊙ y ⊙ (1 - y)`, and the leaf at `q` reads entry `(a,b)`. -/
def NodeTree.gradAt {α : Type} [Zero α] [One α] [Add α] [Sub α] [Mul α] [Neg α] [Div α]
    (exp : α → α) (h : Heap α) (q a b : Nat) : NodeTree → mlmatrix α → α
  | .input p, G => if p = q then G.entry a b else 0
  | .param p, G => if p = q then G.entry a b else 0
  | .mul _ l r, G =>
    l.gradAt exp h q a b (G.mul (r.eval exp h).transpose) +
      r.gradAt exp h q a b ((l.eval exp h).transpose.mul G)
  | .add _ l r, G => l.gradAt exp h q a b G + r.gradAt exp h q a b G
  | .nl p x, G => x.gradAt exp h q a b (((NodeTree.nl p x).eval exp h).invnl G)

/-! ## Sample graphs -/

/-- One layer `sigmoid(W × X + b)` over the reals: the Nonlinearity node at address 0,
the Add node at 1, the MatMul node at 2, the Parameter `W = [[1,1]]` at 3, the Input
`X = [[3],[4]]` at 4 and the Parameter `b = [[-7]]` at 5. -/
def layerHeap : Heap ℝ := [
  ⟨node_type.NL_NODE, some 1, none, ⟨1, 1, [0]⟩, ⟨1, 1, [1]⟩⟩,
  ⟨node_type.ADD_NODE, some 2, some 5, ⟨1, 1, [0]⟩, ⟨1, 1, [0]⟩⟩,
  ⟨node_type.MUL_NODE, some 3, some 4, ⟨1, 1, [0]⟩, ⟨1, 1, [0]⟩⟩,
  ⟨node_type.PARAM_NODE, none, none, ⟨1, 2, [1, 1]⟩, ⟨1, 2, [0, 0]⟩⟩,
  ⟨node_type.INPUT_NODE, none, none, ⟨2, 1, [3, 4]⟩, ⟨2, 1, [0, 0]⟩⟩,
  ⟨node_type.PARAM_NODE, none, none, ⟨1, 1, [-7]⟩, ⟨1, 1, [0]⟩⟩]

/-- The tree of `layerHeap`. -/
def layerTree : NodeTree :=
  .nl 0 (.add 1 (.mul 2 (.param 3) (.input 4)) (.param 5))

/-- A MatMul node at address 0 with gradient `G = [[1],[2]]`, its left operand
`L = [[1,2],[3,4]]` (a Parameter at 1) and its right operand `R = [[5],[6]]` (an Input at 2). -/
def mulHeap : Heap Int := [
  ⟨node_type.MUL_NODE, some 1, some 2, ⟨2, 1, [0, 0]⟩, ⟨2, 1, [1, 2]⟩⟩,
  ⟨node_type.PARAM_NODE, none, none, ⟨2, 2, [1, 2, 3, 4]⟩, ⟨2, 2, [0, 0, 0, 0]⟩⟩,
  ⟨node_type.INPUT_NODE, none, none, ⟨2, 1, [5, 6]⟩, ⟨2, 1, [0, 0]⟩⟩]

/-- Scenario B: a Nonlinearity node at address 0 with the upstream gradient `[[1]]`
in its `deriv` buffer, over an Input at address 1 holding `[[0]]`. -/
def scenarioB : Heap ℝ := [
  ⟨node_type.NL_NODE, some 1, none, ⟨1, 1, [0]⟩, ⟨1, 1, [1]⟩⟩,
  ⟨node_type.INPUT_NODE, none, none, ⟨1, 1, [0]⟩, ⟨1, 1, [0]⟩⟩]

/-- An Add node at address 0 with gradient `[[1],[2]]` over two leaves at 1 and 2. -/
def addHeap : Heap Int := [
  ⟨node_type.ADD_NODE, some 1, some 2, ⟨2, 1, [0, 0]⟩, ⟨2, 1, [1, 2]⟩⟩,
  ⟨node_type.PARAM_NODE, none, none, ⟨2, 1, [3, 4]⟩, ⟨2, 1, [0, 0]⟩⟩,
  ⟨node_type.INPUT_NODE, none, none, ⟨2, 1, [5, 6]⟩, ⟨2, 1, [9, 9]⟩⟩]

/-- An Add node at address 0 with gradient `[[1]]` whose two operands are one and
the same Parameter node, at address 1. -/
def sharedHeap : Heap Int := [
  ⟨node_type.ADD_NODE, some 1, some 1, ⟨1, 1, [0]⟩, ⟨1, 1, [1]⟩⟩,
  ⟨node_type.PARAM_NODE, none, none, ⟨1, 1, [2]⟩, ⟨1, 1, [0]⟩⟩]

/-- Scenario A: the MatMul node at address 0 over the Parameter `[[1,1]]` at address 1
and the Input `[[3],[4]]` at address 2, all buffers of the right shape and the
gradient buffers zeroed as the constructors leave them. -/
def scenarioA : Heap ℚ := [
  ⟨node_type.MUL_NODE, some 1, some 2, ⟨1, 1, [0]⟩, ⟨1, 1, [0]⟩⟩,
  ⟨node_type.PARAM_NODE, none, none, ⟨1, 2, [1, 1]⟩, ⟨1, 2, [0, 0]⟩⟩,
  ⟨node_type.INPUT_NODE, none, none, ⟨2, 1, [3, 4]⟩, ⟨2, 1, [0, 0]⟩⟩]

/-- The tree of scenario A. -/
def scenarioATree : NodeTree := .mul 0 (.param 1) (.input 2)

/-- Scenario A after forward evaluation and gradient propagation from the root
gradient `[[1]]`. -/
def scenarioATrained : Heap ℚ := [
  ⟨node_type.MUL_NODE, some 1, some 2, ⟨1, 1, [7]⟩, ⟨1, 1, [1]⟩⟩,
  ⟨node_type.PARAM_NODE, none, none, ⟨1, 2, [1, 1]⟩, ⟨1, 2, [3, 4]⟩⟩,
  ⟨node_type.INPUT_NODE, none, none, ⟨2, 1, [3, 4]⟩, ⟨2, 1, [1, 1]⟩⟩]

/-- A MatMul node at address 0 with gradient `G = [[1,0],[0,0]]` whose two operands
are one and the same Parameter node `X = [[1,2],[3,4]]`, at address 1. -/
def mulSharedHeap : Heap Int := [
  ⟨node_type.MUL_NODE, some 1, some 1, ⟨2, 2, [0, 0, 0, 0]⟩, ⟨2, 2, [1, 0, 0, 0]⟩⟩,
  ⟨node_type.PARAM_NODE, none, none, ⟨2, 2, [1, 2, 3, 4]⟩, ⟨2, 2, [0, 0, 0, 0]⟩⟩]

/-! ## cmnist.c: buffers of the driver, node constructors, loader and decision rule -/

/-- The function `random_matrix` of `cmnist.c`.  The C library's `rand()` is not part
of the repository: its state is the sequence `rand` of the values it will return, and
`RAND_MAX` is a parameter.  Entry `i` is `(rand()/(float)RAND_MAX) - 0.5f` for the
`i`-th call; the sequence left for later calls is returned with the buffer. -/
def random_matrix {α : Type} [NatCast α] [Sub α] [Div α] [OfScientific α]
    (rand : Nat → Nat) (RAND_MAX : Nat) (rows cols : Nat) : mlmatrix α × (Nat → Nat) :=
  ({ rows := rows, cols := cols,
     data := (List.range (rows * cols)).map
       (fun i => ((rand i : Nat) : α) / ((RAND_MAX : Nat) : α) - 0.5) },
   fun k => rand (rows * cols + k))

/-- The function `onehot_encode` of `cmnist.c`; `n` is a C `int`, and a negative
index is a write outside the buffer. -/
def onehot_encode {α : Type} [Zero α] [One α] (m : mlmatrix α) (n : Int) :
    Option (mlmatrix α) := do
  let m ← forLoop (m.rows * m.cols) (fun i m => m.store i 0) m
  if n < 0 then none else m.store n.toNat 1

/-- The function `make_input_node` of `cmnist.c`. -/
def make_input_node {α : Type} [Zero α] (rows cols : Nat) : node α :=
  { type := node_type.INPUT_NODE, left := none, right := none,
    matrix := make_matrix rows cols, deriv := make_matrix rows cols }

/-- The function `make_param_node` of `cmnist.c`, with the state of `rand()`. -/
def make_param_node {α : Type} [Zero α] [NatCast α] [Sub α] [Div α] [OfScientific α]
    (rand : Nat → Nat) (RAND_MAX : Nat) (rows cols : Nat) : node α × (Nat → Nat) :=
  let m := random_matrix rand RAND_MAX rows cols
  ({ type := node_type.PARAM_NODE, left := none, right := none,
     matrix := m.1, deriv := make_matrix rows cols }, m.2)

/-- The function `make_mul_node` of `cmnist.c`: it reads `left->matrix.rows` and
`right->matrix.cols` and tests nothing. -/
def make_mul_node {α : Type} [Zero α] (h : Heap α) (left right : Option Nat) :
    Option (node α) := do
  let l ← h.deref left
  let r ← h.deref right
  pure { type := node_type.MUL_NODE, left := left, right := right,
         matrix := make_matrix l.matrix.rows r.matrix.cols,
         deriv := make_matrix l.matrix.rows r.matrix.cols }

/-- The function `make_add_node` of `cmnist.c`: only `left` is dereferenced. -/
def make_add_node {α : Type} [Zero α] (h : Heap α) (left right : Option Nat) :
    Option (node α) := do
  let l ← h.deref left
  pure { type := node_type.ADD_NODE, left := left, right := right,
         matrix := make_matrix l.matrix.rows l.matrix.cols,
         deriv := make_matrix l.matrix.rows l.matrix.cols }

/-- The function `make_nl_node` of `cmnist.c`. -/
def make_nl_node {α : Type} [Zero α] (h : Heap α) (x : Option Nat) : Option (node α) := do
  let l ← h.deref x
  pure { type := node_type.NL_NODE, left := x, right := none,
         matrix := make_matrix l.matrix.rows l.matrix.cols,
         deriv := make_matrix l.matrix.rows l.matrix.cols }

/-- A declaration `node v = ...;` of `main`: the node returned by a constructor is
stored at a fresh address, which is returned with the new heap. -/
def Heap.alloc {α : Type} (h : Heap α) (n : node α) : Heap α × Nat :=
  (h ++ [n], h.length)

/-- The type `uint8_t`: a byte holds a number below 256. -/
abbrev uint8_t : Type := Fin 256

/-- The function `load_input` of `cmnist.c`: entry `i` of the value buffer becomes
`dataset[idx*784 + i] / 255.0f`, the byte being converted to `float` first. -/
def load_input {α : Type} [NatCast α] [Div α] (h : Heap α) (n : Option Nat)
    (dataset : List uint8_t) (idx : Nat) : Option (Heap α) :=
  forLoop 784 (fun i h => do
    let nd ← h.deref n
    let b ← dataset[idx * 784 + i]?
    let m ← nd.matrix.store i (((b.val : Nat) : α) / ((255 : Nat) : α))
    h.setMatrix n m) h

/-- The function `interpret_result` of `cmnist.c`. -/
def interpret_result {α : Type} [LT α] [DecidableRel (α := α) (· < ·)] (h : Heap α)
    (n : Option Nat) : Option Nat := do
  let nd ← h.deref n
  forLoop (nd.matrix.rows * nd.matrix.cols) (fun i max_idx => do
    let v ← nd.matrix.load i
    let m ← nd.matrix.load max_idx
    pure (if v > m then i else max_idx)) 0

/-- A heap holding one Input node of shape `784 × 1`, as `make_input_node` returns it. -/
def inputHeap : Heap ℚ := [make_input_node 784 1]

/-- A dataset of two samples of 784 bytes: byte `k` holds `k` modulo 256. -/
def sampleBytes : List uint8_t := (List.range 1568).map (fun k => Fin.ofNat k)

/-- Scenario C: a node whose value buffer is `[[0.1],[0.9],[0.3]]`. -/
def scenarioC : Heap ℚ := [
  ⟨node_type.NL_NODE, none, none, ⟨3, 1, [0.1, 0.9, 0.3]⟩, ⟨3, 1, [0, 0, 0]⟩⟩]

/-! ## Binary floating point: `sigmoid` as the compiled program evaluates it -/

/-- An IEEE 754 binary format: `prec` significand bits, exponents `emin` to `emax`. -/
structure FloatFormat where
  prec : Nat
  emin : Int
  emax : Int

/-- The format of `float`. -/
def binary32 : FloatFormat := ⟨24, -126, 127⟩

/-- The format of `double`. -/
def binary64 : FloatFormat := ⟨53, -1022, 1023⟩

/-- A value of a floating-point type: a finite number, which is a rational, one of
the two infinities, or a NaN. -/
inductive FloatVal where
  | fin (q : ℚ)
  | pinf
  | ninf
  | nan
deriving DecidableEq

/-- The negation `-x`. -/
def FloatVal.neg : FloatVal → FloatVal
  | .fin q => .fin (-q)
  | .pinf => .ninf
  | .ninf => .pinf
  | .nan => .nan

/-- The integer nearest to `t`, the even one of the two when `t` is half-way. -/
def roundHalfEven (t : ℚ) : Int :=
  if t - ⌊t⌋ < 1 / 2 then ⌊t⌋
  else if 1 / 2 < t - ⌊t⌋ then ⌊t⌋ + 1
  else if ⌊t⌋ % 2 = 0 then ⌊t⌋ else ⌊t⌋ + 1

/-- The spacing of the numbers of the format around `q`: `2 ^ (e - prec + 1)` for the
exponent `e` with `2 ^ e ≤ |q| < 2 ^ (e + 1)`, which is not taken below `emin`. -/
def FloatFormat.ulp (f : FloatFormat) (q : ℚ) : ℚ :=
  (2 : ℚ) ^ (max (Int.log 2 |q|) f.emin - ((f.prec : Int) - 1))

/-- Rounding to the nearest number of the format, ties to even; the result is an
infinity when the rounded magnitude reaches `2 ^ (emax + 1)`. -/
def FloatFormat.round (f : FloatFormat) (q : ℚ) : FloatVal :=
  let r := (roundHalfEven (q / f.ulp q) : ℚ) * f.ulp q
  if |r| < (2 : ℚ) ^ (f.emax + 1) then .fin r else if 0 < r then .pinf else .ninf

/-- The sum `1.0f + e` for a `double` `e`, evaluated in `double`. -/
def binary64_one_add : FloatVal → FloatVal
  | .fin e => binary64.round (1 + e)
  | .pinf => .pinf
  | .ninf => .ninf
  | .nan => .nan

/-- The quotient `1.0f / s` for a `double` `s`, evaluated in `double`: an infinity
when `s` is zero, zero when `s` is an infinity. -/
def binary64_one_div : FloatVal → FloatVal
  | .fin s => if s = 0 then .pinf else binary64.round (1 / s)
  | .pinf => .fin 0
  | .ninf => .fin 0
  | .nan => .nan

/-- The conversion of a `double` to `float`, as `return` does in a function that
returns `float`. -/
def binary32_of_double : FloatVal → FloatVal
  | .fin d => binary32.round d
  | .pinf => .pinf
  | .ninf => .ninf
  | .nan => .nan

/-- The function `sigmoid` of `matrix.c` with the arithmetic of its types: `x` is a
`float`, converted without change to `double` for `exp` of `math.h`, which takes
and returns a `double` and is a parameter; `1.0f + exp(-x)` and the quotient are
evaluated in `double`; the returned value is converted to `float`. -/
def sigmoid_binary32 (exp : FloatVal → FloatVal) (x : FloatVal) : FloatVal :=
  binary32_of_double (binary64_one_div (binary64_one_add (exp x.neg)))

/-- The function `mat_nl` of `matrix.c` on buffers of `float`, with `sigmoid`
evaluated as `sigmoid_binary32`. -/
def mat_nl_binary32 (exp : FloatVal → FloatVal) (dst src : mlmatrix FloatVal) :
    Option (mlmatrix FloatVal) :=
  forLoop (dst.rows * dst.cols) (fun i dst => do
    let v ← src.load i
    dst.store i (sigmoid_binary32 exp v)) dst

/-- What the C standard says of `exp` at a finite argument: the result is a
non-negative number or, on overflow, the positive infinity. -/
def ExpRange (exp : FloatVal → FloatVal) : Prop :=
  ∀ y : ℚ, exp (.fin y) = .pinf ∨ ∃ e : ℚ, exp (.fin y) = .fin e ∧ 0 ≤ e

/-- A table of `exp` with the three entries the evaluations of `sigmoid(20.0f)`,
`sigmoid(-200.0f)` and `sigmoid(-1000.0f)` read: the `double` nearest to `e ^ (-20)`,
about `2.0611536e-9`, the `double` nearest to `e ^ 200`, about `7.2259738e86`, and
the positive infinity at `1000`, where `exp` overflows.  The other entries are
left as NaN. -/
def exp_table : FloatVal → FloatVal
  | .fin y =>
    if y = -20 then .fin (4983563664716391 / 2 ^ 81)
    else if y = 200 then .fin (6543609947616697 * 2 ^ 236)
    else if y = 1000 then .pinf
    else .nan
  | _ => .nan

/-- A crude stand-in for `exp` on every argument, used in examples: `2 ^ ⌊y⌋` at a
finite `y`, with the limits at the infinities. -/
def exp_floor2 : FloatVal → FloatVal
  | .fin y => .fin ((2 : ℚ) ^ ⌊y⌋)
  | .pinf => .pinf
  | .ninf => .fin 0
  | .nan => .nan

/-! ## forward_prop with a record of the values it recomputes -/

/-- The function `forward_prop` of `cmnist.c` with a record of its kernel calls: the
list gains the address of a node each time `mat_mul`, `mat_add` or `mat_nl` has
recomputed the value buffer of that node.  Without the list it is `forward_prop`. -/
def forward_prop_log {α : Type} [Zero α] [One α] [Add α] [Mul α] [Neg α] [Div α]
    (exp : α → α) : Nat → Heap α × List Nat → Option Nat → Option (Heap α × List Nat)
  | _, s, none => some s
  | 0, _, some _ => none
  | fuel + 1, s, some p => do
    let n ← s.1[p]?
    let s1 ← forward_prop_log exp fuel s n.left
    let s2 ← forward_prop_log exp fuel s1 n.right
    match n.type with
    | .INPUT_NODE => some s2
    | .PARAM_NODE => some s2
    | .MUL_NODE => do
      let dst ← s2.1[p]?
      let l ← s2.1.deref n.left
      let r ← s2.1.deref n.right
      let m ← mat_mul dst.matrix l.matrix r.matrix
      let h3 ← s2.1.setMatrix (some p) m
      pure (h3, s2.2 ++ [p])
    | .ADD_NODE => do
      let dst ← s2.1[p]?
      let l ← s2.1.deref n.left
      let r ← s2.1.deref n.right
      let m ← mat_add dst.matrix l.matrix r.matrix
      let h3 ← s2.1.setMatrix (some p) m
      pure (h3, s2.2 ++ [p])
    | .NL_NODE => do
      let dst ← s2.1[p]?
      let l ← s2.1.deref n.left
      let m ← mat_nl exp dst.matrix l.matrix
      let h3 ← s2.1.setMatrix (some p) m
      pure (h3, s2.2 ++ [p])

/-- The addresses of the nodes that have operands, operands first (post-order); a
node reached along several paths is listed once for each path. -/
def NodeTree.postInner : NodeTree → List Nat
  | .input _ => []
  | .param _ => []
  | .mul p l r => l.postInner ++ r.postInner ++ [p]
  | .add p l r => l.postInner ++ r.postInner ++ [p]
  | .nl p x => x.postInner ++ [p]

/-- A graph with a shared node: the Add node at address 0 has the Add node at
address 1 as both operands; node 1 adds the Parameter at 2 and the Input at 3. -/
def dagHeap : Heap Int := [
  ⟨node_type.ADD_NODE, some 1, some 1, ⟨1, 1, [0]⟩, ⟨1, 1, [0]⟩⟩,
  ⟨node_type.ADD_NODE, some 2, some 3, ⟨1, 1, [0]⟩, ⟨1, 1, [0]⟩⟩,
  ⟨node_type.PARAM_NODE, none, none, ⟨1, 1, [2]⟩, ⟨1, 1, [0]⟩⟩,
  ⟨node_type.INPUT_NODE, none, none, ⟨1, 1, [3]⟩, ⟨1, 1, [0]⟩⟩]

/-- The graph of `dagHeap`, unfolded from the root: node 1 appears under both
operands of node 0. -/
def dagTree : NodeTree :=
  .add 0 (.add 1 (.param 2) (.input 3)) (.add 1 (.param 2) (.input 3))

/-- Scenario A in another state: the Parameter and the Input hold the values of
`scenarioA`, the MatMul node holds a stale value and the gradient buffers differ. -/
def scenarioAStale : Heap ℚ := [
  ⟨node_type.MUL_NODE, some 1, some 2, ⟨1, 1, [99]⟩, ⟨1, 1, [5]⟩⟩,
  ⟨node_type.PARAM_NODE, none, none, ⟨1, 2, [1, 1]⟩, ⟨1, 2, [8, 9]⟩⟩,
  ⟨node_type.INPUT_NODE, none, none, ⟨2, 1, [3, 4]⟩, ⟨2, 1, [6, 7]⟩⟩]

/-! ## Graphs built with the node constructors -/

/-- The architecture of a graph: which constructor builds each node, with the
dimensions given to `make_input_node` and `make_param_node`. -/
inductive Arch where
  | input (rows cols : Nat)
  | param (rows cols : Nat)
  | mul (l r : Arch)
  | add (l r : Arch)
  | nl (x : Arch)
deriving DecidableEq, Repr

/-- The `rows` the constructors give to the value buffer of the root. -/
def Arch.rows : Arch → Nat
  | .input r _ => r
  | .param r _ => r
  | .mul l _ => l.rows
  | .add l _ => l.rows
  | .nl x => x.rows

/-- The `cols` the constructors give to the value buffer of the root. -/
def Arch.cols : Arch → Nat
  | .input _ c => c
  | .param _ c => c
  | .mul _ r => r.cols
  | .add l _ => l.cols
  | .nl x => x.cols

/-- Every MatMul node has `left.cols == right.rows` and the operands of every Add
node have one shape. -/
def Arch.Conformant : Arch → Prop
  | .input _ _ => True
  | .param _ _ => True
  | .mul l r => l.cols = r.rows ∧ l.Conformant ∧ r.Conformant
  | .add l r => r.rows = l.rows ∧ r.cols = l.cols ∧ l.Conformant ∧ r.Conformant
  | .nl x => x.Conformant

instance Arch.decidableConformant : (a : Arch) → Decidable a.Conformant
  | .input _ _ => by unfold Arch.Conformant; infer_instance
  | .param _ _ => by unfold Arch.Conformant; infer_instance
  | .mul l r => by
    have := Arch.decidableConformant l
    have := Arch.decidableConformant r
    unfold Arch.Conformant; infer_instance
  | .add l r => by
    have := Arch.decidableConformant l
    have := Arch.decidableConformant r
    unfold Arch.Conformant; infer_instance
  | .nl x => by
    have := Arch.decidableConformant x
    unfold Arch.Conformant; infer_instance

/-- The number of nodes on the longest path from the root to a leaf. -/
def Arch.depth : Arch → Nat
  | .input _ _ => 1
  | .param _ _ => 1
  | .mul l r => max l.depth r.depth + 1
  | .add l r => max l.depth r.depth + 1
  | .nl x => x.depth + 1

/-- The declarations that build the graph, as in `main`: the operands are built
first, every node returned by a constructor is stored in a variable of its own, and
a node with operands is given their addresses.  The state is the heap and the
sequence of `rand()`; the address of the root is returned with the new state. -/
def Arch.build {α : Type} [Zero α] [NatCast α] [Sub α] [Div α] [OfScientific α]
    (RAND_MAX : Nat) : Arch → Heap α × (Nat → Nat) → Option ((Heap α × (Nat → Nat)) × Nat)
  | .input rows cols, s =>
    let v := s.1.alloc (make_input_node rows cols)
    some ((v.1, s.2), v.2)
  | .param rows cols, s =>
    let n := make_param_node s.2 RAND_MAX rows cols
    let v := s.1.alloc n.1
    some ((v.1, n.2), v.2)
  | .mul l r, s => do
    let sl ← l.build RAND_MAX s
    let sr ← r.build RAND_MAX sl.1
    let n ← make_mul_node sr.1.1 (some sl.2) (some sr.2)
    let v := sr.1.1.alloc n
    pure ((v.1, sr.1.2), v.2)
  | .add l r, s => do
    let sl ← l.build RAND_MAX s
    let sr ← r.build RAND_MAX sl.1
    let n ← make_add_node sr.1.1 (some sl.2) (some sr.2)
    let v := sr.1.1.alloc n
    pure ((v.1, sr.1.2), v.2)
  | .nl x, s => do
    let sx ← x.build RAND_MAX s
    let n ← make_nl_node sx.1.1 (some sx.2)
    let v := sx.1.1.alloc n
    pure ((v.1, sx.1.2), v.2)

/-- The architecture that `main` builds: three layers `sigmoid(W × x + b)` of 40, 30
and 10 units over an Input of 784 entries. -/
def mainArch : Arch :=
  .nl (.add (.mul (.param 10 30)
    (.nl (.add (.mul (.param 30 40)
      (.nl (.add (.mul (.param 40 784) (.input 784 1)) (.param 40 1))))
      (.param 30 1))))
    (.param 10 1))

/-- Two leaves whose shapes do not conform for a product or a sum: a Parameter
`[[1,1]]` of shape `1 × 2` at address 0 and an Input `[[3]]` of shape `1 × 1` at
address 1. -/
def mismatchHeap : Heap Int := [
  ⟨node_type.PARAM_NODE, none, none, ⟨1, 2, [1, 1]⟩, ⟨1, 2, [0, 0]⟩⟩,
  ⟨node_type.INPUT_NODE, none, none, ⟨1, 1, [3]⟩, ⟨1, 1, [0]⟩⟩]

/-- The buffer `m'` has the `rows`, the `cols` and the length of `m`. -/
def mlmatrix.SameDims {α : Type} (m m' : mlmatrix α) : Prop :=
  m'.rows = m.rows ∧ m'.cols = m.cols ∧ m'.data.length = m.data.length

/-! # Theorems -/

/-! ## Loops and buffers -/

theorem forLoop_zero {σ : Type} (body : Nat → σ → Option σ) (s : σ) :
    forLoop 0 body s = some s := by
  simp [forLoop]

theorem forLoop_succ {σ : Type} (n : Nat) (body : Nat → σ → Option σ) (s : σ) :
    forLoop (n + 1) body s = (forLoop n body s).bind (body n) := by
  simp [forLoop, List.range_succ, List.foldlM_append]

/-- Loop invariant rule: an invariant that holds initially and is carried by every
iteration (which must not fail) holds of the final state, and the loop does not fail. -/
theorem forLoop_inv {σ : Type} (P : Nat → σ → Prop) (n : Nat) (body : Nat → σ → Option σ)
    (s : σ) (h0 : P 0 s)
    (hstep : ∀ i s, i < n → P i s → ∃ s', body i s = some s' ∧ P (i + 1) s') :
    ∃ s', forLoop n body s = some s' ∧ P n s' := by
  induction n with
  | zero => exact ⟨s, forLoop_zero body s, h0⟩
  | succ n ih =>
    obtain ⟨s1, hs1, hP1⟩ := ih (fun i s hi hP => hstep i s (Nat.lt_succ_of_lt hi) hP)
    obtain ⟨s2, hs2, hP2⟩ := hstep n s1 (Nat.lt_succ_self n) hP1
    exact ⟨s2, by rw [forLoop_succ, hs1]; simpa using hs2, hP2⟩

theorem mlmatrix.store_eq_some {α : Type} (m : mlmatrix α) (i : Nat) (v : α)
    (hi : i < m.data.length) :
    m.store i v = some { m with data := m.data.set i v } := by
  simp [mlmatrix.store, hi]

/-- A row-major index of an in-range row and column lies inside the buffer. -/
theorem idx_lt {nrows ncols i j : Nat} (hrow : i < nrows) (hcol : j < ncols) :
    i * ncols + j < nrows * ncols := by
  have hle : (i + 1) * ncols ≤ nrows * ncols := Nat.mul_le_mul_right ncols hrow
  rw [Nat.succ_mul] at hle
  omega

theorem idx_inj {c i j i' j' : Nat} (hj : j < c) (hj' : j' < c)
    (h : i * c + j = i' * c + j') : i = i' ∧ j = j' := by
  have h1 : (i * c + j) / c = i := by
    rw [Nat.add_comm, Nat.add_mul_div_right _ _ (by omega : 0 < c), Nat.div_eq_of_lt hj]; simp
  have h2 : (i' * c + j') / c = i' := by
    rw [Nat.add_comm, Nat.add_mul_div_right _ _ (by omega : 0 < c), Nat.div_eq_of_lt hj']; simp
  have hi : i = i' := by rw [← h1, ← h2, h]
  subst hi
  exact ⟨rfl, by omega⟩

/-- An elementwise loop: when iteration `i` stores `v i` at index `i`, the loop
succeeds on a buffer of at least `n` entries and the result holds `v k` at every
`k < n`, the old entry elsewhere. -/
theorem forLoop_pointwise {α : Type} (n : Nat) (dst : mlmatrix α)
    (body : Nat → mlmatrix α → Option (mlmatrix α)) (v : Nat → α)
    (hlen : n ≤ dst.data.length)
    (hbody : ∀ i d, i < n → d.data.length = dst.data.length →
      (∀ k, i ≤ k → d.data[k]? = dst.data[k]?) → body i d = d.store i (v i)) :
    ∃ d, forLoop n body dst = some d ∧ d.rows = dst.rows ∧ d.cols = dst.cols ∧
      d.data.length = dst.data.length ∧
      ∀ k, d.data[k]? = if k < n then some (v k) else dst.data[k]? := by
  have key := forLoop_inv
    (fun i (d : mlmatrix α) => d.rows = dst.rows ∧ d.cols = dst.cols ∧
      d.data.length = dst.data.length ∧
      ∀ k, d.data[k]? = if k < i then some (v k) else dst.data[k]?)
    n body dst ⟨rfl, rfl, rfl, by simp⟩
    (by
      rintro i d hi ⟨hr, hc, hl, hd⟩
      have hb := hbody i d hi hl (fun k hk => by rw [hd k, if_neg (by omega)])
      rw [hb, mlmatrix.store_eq_some d i (v i) (by omega)]
      refine ⟨_, rfl, hr, hc, by simpa using hl, ?_⟩
      intro k
      simp only [List.getElem?_set]
      by_cases hik : i = k
      · subst hik
        simp [show i < d.data.length by omega]
      · rw [if_neg hik, hd k]
        by_cases hk : k < i
        · simp [hk, show k < i + 1 by omega]
        · simp [hk, show ¬ k < i + 1 by omega])
  exact key

theorem mlmatrix.load_entry {α : Type} [Zero α] (m : mlmatrix α) (hm : m.Sized) {i j : Nat}
    (hi : i < m.rows) (hj : j < m.cols) :
    m.load (i * m.cols + j) = some (m.entry i j) := by
  have hlt : i * m.cols + j < m.data.length := by rw [hm]; exact idx_lt hi hj
  simp [mlmatrix.load, mlmatrix.entry, List.getElem?_eq_getElem hlt]

/-! ## mat_mul -/

/-- The innermost loop of `mat_mul` computes the dot product of row `i` and column `j`. -/
theorem mat_mul_dot {α : Type} [NonUnitalNonAssocSemiring α] (x y : mlmatrix α)
    (hx : x.Sized) (hy : y.Sized) (hxy : x.cols = y.rows) {i j : Nat}
    (hi : i < x.rows) (hj : j < y.cols) :
    forLoop x.cols (fun k sum => do
        let xv ← x.load (i * x.cols + k)
        let yv ← y.load (k * y.cols + j)
        pure (sum + xv * yv)) (0 : α)
      = some (∑ k in Finset.range x.cols, x.entry i k * y.entry k j) := by
  obtain ⟨s, hs, hP⟩ := forLoop_inv
    (fun k (s : α) => s = ∑ k' in Finset.range k, x.entry i k' * y.entry k' j)
    x.cols (fun k sum => do
        let xv ← x.load (i * x.cols + k)
        let yv ← y.load (k * y.cols + j)
        pure (sum + xv * yv)) (0 : α) (by simp)
    (by
      intro k s hk hs
      refine ⟨s + x.entry i k * y.entry k j, ?_, ?_⟩
      · dsimp only
        rw [x.load_entry hx hi hk, y.load_entry hy (hxy ▸ hk) hj]; rfl
      · dsimp only
        rw [Finset.sum_range_succ, hs])
  rw [hs, hP]

/-- Functional behaviour of `mat_mul` on conformant operands and a destination with
room for `x.rows * y.cols` entries. -/
theorem mat_mul_ok {α : Type} [NonUnitalNonAssocSemiring α] (dst x y : mlmatrix α)
    (hx : x.Sized) (hy : y.Sized) (hxy : x.cols = y.rows)
    (hd : x.rows * y.cols ≤ dst.data.length) :
    ∃ d, mat_mul dst x y = some d ∧ d.rows = dst.rows ∧ d.cols = dst.cols ∧
      d.data.length = dst.data.length ∧
      (∀ i j, i < x.rows → j < y.cols →
        d.data[i * y.cols + j]? = some (∑ k in Finset.range x.cols, x.entry i k * y.entry k j)) ∧
      (∀ k, x.rows * y.cols ≤ k → d.data[k]? = dst.data[k]?) := by
  let dot := fun i j => ∑ k in Finset.range x.cols, x.entry i k * y.entry k j
  -- invariant of the loop on `j`, inside iteration `i`
  have inner : ∀ i, i < x.rows → ∀ d0 : mlmatrix α,
      (d0.rows = dst.rows ∧ d0.cols = dst.cols ∧ d0.data.length = dst.data.length ∧
        (∀ i' j', i' < i → j' < y.cols → d0.data[i' * y.cols + j']? = some (dot i' j')) ∧
        (∀ k, x.rows * y.cols ≤ k → d0.data[k]? = dst.data[k]?)) →
      ∃ d1, forLoop y.cols (fun j dst => do
          let sum ← forLoop x.cols (fun k sum => do
            let xv ← x.load (i * x.cols + k)
            let yv ← y.load (k * y.cols + j)
            pure (sum + xv * yv)) (0 : α)
          dst.store (i * y.cols + j) sum) d0 = some d1 ∧
        (d1.rows = dst.rows ∧ d1.cols = dst.cols ∧ d1.data.length = dst.data.length ∧
          (∀ i' j', i' < i + 1 → j' < y.cols →
            d1.data[i' * y.cols + j']? = some (dot i' j')) ∧
          (∀ k, x.rows * y.cols ≤ k → d1.data[k]? = dst.data[k]?)) := by
    intro i hi d0 ⟨hr0, hc0, hl0, hprev0, hrest0⟩
    obtain ⟨d1, hd1, hr1, hc1, hl1, hrow1, hprev1, hrest1⟩ := forLoop_inv
      (fun j (d : mlmatrix α) => d.rows = dst.rows ∧ d.cols = dst.cols ∧
        d.data.length = dst.data.length ∧
        (∀ j', j' < j → d.data[i * y.cols + j']? = some (dot i j')) ∧
        (∀ i' j', i' < i → j' < y.cols → d.data[i' * y.cols + j']? = some (dot i' j')) ∧
        (∀ k, x.rows * y.cols ≤ k → d.data[k]? = dst.data[k]?))
      y.cols (fun j dst => do
          let sum ← forLoop x.cols (fun k sum => do
            let xv ← x.load (i * x.cols + k)
            let yv ← y.load (k * y.cols + j)
            pure (sum + xv * yv)) (0 : α)
          dst.store (i * y.cols + j) sum) d0 ⟨hr0, hc0, hl0, by simp, hprev0, hrest0⟩
      (by
        rintro j d hj ⟨hr, hc, hl, hrow, hprev, hrest⟩
        have hlt : i * y.cols + j < d.data.length := by
          have := idx_lt hi hj; omega
        refine ⟨{ d with data := d.data.set (i * y.cols + j) (dot i j) }, ?_, hr, hc,
          by simpa using hl, ?_, ?_, ?_⟩
        · dsimp only
          rw [mat_mul_dot x y hx hy hxy hi hj]
          exact d.store_eq_some _ _ hlt
        · intro j' hj'
          by_cases hjj : j' = j
          · subst hjj; simp [List.getElem?_set, hlt]
          · rw [List.getElem?_set_ne (by omega)]
            exact hrow j' (by omega)
        · intro i' j' hi' hj'
          have hne : i * y.cols + j ≠ i' * y.cols + j' := by
            intro heq
            have := (idx_inj hj hj' heq).1
            omega
          simp only [List.getElem?_set_ne hne]
          exact hprev i' j' hi' hj'
        · intro k hk
          have := idx_lt hi hj
          simp only [List.getElem?_set_ne (show i * y.cols + j ≠ k by omega)]
          exact hrest k hk)
    refine ⟨d1, hd1, hr1, hc1, hl1, ?_, hrest1⟩
    intro i' j' hi' hj'
    by_cases hii : i' = i
    · subst hii; exact hrow1 j' hj'
    · exact hprev1 i' j' (by omega) hj'
  obtain ⟨d, hdeq, hr, hc, hl, hall, hrest⟩ := forLoop_inv
    (fun i (d : mlmatrix α) => d.rows = dst.rows ∧ d.cols = dst.cols ∧
      d.data.length = dst.data.length ∧
      (∀ i' j', i' < i → j' < y.cols → d.data[i' * y.cols + j']? = some (dot i' j')) ∧
      (∀ k, x.rows * y.cols ≤ k → d.data[k]? = dst.data[k]?))
    x.rows (fun i dst =>
      forLoop y.cols (fun j dst => do
        let sum ← forLoop x.cols (fun k sum => do
          let xv ← x.load (i * x.cols + k)
          let yv ← y.load (k * y.cols + j)
          pure (sum + xv * yv)) (0 : α)
        dst.store (i * y.cols + j) sum) dst) dst ⟨rfl, rfl, rfl, by simp, by simp⟩
    (fun i d hi hP => inner i hi d hP)
  exact ⟨d, hdeq, hr, hc, hl, fun i j hi hj => hall i j hi hj, hrest⟩

theorem mlmatrix.HasShape.sized {α : Type} {m : mlmatrix α} {r c : Nat}
    (h : m.HasShape r c) : m.Sized := by
  obtain ⟨h1, h2, h3⟩ := h
  simp [mlmatrix.Sized, h1, h2, h3]

theorem mlmatrix.Sized.hasShape {α : Type} {m : mlmatrix α} (h : m.Sized) :
    m.HasShape m.rows m.cols := ⟨rfl, rfl, h⟩

theorem mlmatrix.entry_eq_of_getElem? {α : Type} [Zero α] (m : mlmatrix α) {i j : Nat} {v : α}
    (h : m.data[i * m.cols + j]? = some v) : m.entry i j = v := by
  simp [mlmatrix.entry, h]

theorem mlmatrix.getElem?_entry {α : Type} [Zero α] (m : mlmatrix α) (hm : m.Sized) {i j : Nat}
    (hi : i < m.rows) (hj : j < m.cols) :
    m.data[i * m.cols + j]? = some (m.entry i j) :=
  m.load_entry hm hi hj

theorem identity_entry {α : Type} [Zero α] [One α] (n : Nat) {i k : Nat}
    (hi : i < n) (hk : k < n) :
    (identity n : mlmatrix α).entry i k = if i = k then 1 else 0 := by
  have hlt : i * n + k < n * n := idx_lt hi hk
  have h1 : (i * n + k) / n = i := by
    rw [Nat.add_comm, Nat.add_mul_div_right _ _ (by omega : 0 < n), Nat.div_eq_of_lt hk]; simp
  have h2 : (i * n + k) % n = k := by
    rw [Nat.add_comm, Nat.add_mul_mod_self_right, Nat.mod_eq_of_lt hk]
  simp [mlmatrix.entry, identity, List.getElem?_map, List.getElem?_range hlt, h1, h2]

theorem identity_hasShape {α : Type} [Zero α] [One α] (n : Nat) :
    (identity n : mlmatrix α).HasShape n n := by
  simp [mlmatrix.HasShape, identity]

/-! ## Elementwise kernels -/

/-- An elementwise loop over a buffer of exactly `n` entries that stores the `i`-th
element of `vs` at index `i` returns the buffer `vs`. -/
theorem forLoop_store_list {α : Type} [Zero α] (n : Nat) (dst : mlmatrix α)
    (body : Nat → mlmatrix α → Option (mlmatrix α)) (vs : List α)
    (hd : dst.data.length = n) (hvs : vs.length = n)
    (hbody : ∀ i d, i < n → d.data.length = n →
      (∀ k, i ≤ k → d.data[k]? = dst.data[k]?) → body i d = d.store i (vs.getD i 0)) :
    forLoop n body dst = some { dst with data := vs } := by
  obtain ⟨d, hd1, hr, hc, hl, hk⟩ := forLoop_pointwise n dst body (fun i => vs.getD i 0)
    (by omega) (fun i d hi hlen hrest => hbody i d hi (by omega) hrest)
  rw [hd1]
  have hdata : d.data = vs := by
    apply List.ext_getElem?
    intro k
    rw [hk k]
    by_cases hkn : k < n
    · rw [if_pos hkn, List.getD_eq_getElem?_getD, List.getElem?_eq_getElem (by omega)]
      simp
    · rw [if_neg hkn, List.getElem?_eq_none (by omega), List.getElem?_eq_none (by omega)]
  cases d
  simp_all

theorem zipWith_getD {α : Type} [Zero α] (f : α → α → α) (xs ys : List α) {i : Nat}
    (hx : i < xs.length) (hy : i < ys.length) :
    (List.zipWith f xs ys).getD i 0 = f xs[i] ys[i] := by
  rw [List.getD_eq_getElem?_getD, List.getElem?_eq_getElem (by simp; omega)]
  simp

theorem mat_add_ok {α : Type} [Zero α] [Add α] (dst x y : mlmatrix α) (hd : dst.Sized)
    (hx : x.data.length = dst.data.length) (hy : y.data.length = dst.data.length) :
    mat_add dst x y = some { dst with data := List.zipWith (· + ·) x.data y.data } := by
  apply forLoop_store_list _ _ _ _ hd (by simp [hx, hy, hd.symm])
  intro i d hi _ _
  have hd' : dst.data.length = dst.rows * dst.cols := hd
  rw [zipWith_getD _ _ _ (by omega) (by omega)]
  simp [mlmatrix.load, List.getElem?_eq_getElem (show i < x.data.length by omega),
    List.getElem?_eq_getElem (show i < y.data.length by omega)]

theorem mat_sub_ok {α : Type} [Zero α] [Sub α] (dst x y : mlmatrix α) (hd : dst.Sized)
    (hx : x.data.length = dst.data.length) (hy : y.data.length = dst.data.length) :
    mat_sub dst x y = some { dst with data := List.zipWith (· - ·) x.data y.data } := by
  apply forLoop_store_list _ _ _ _ hd (by simp [hx, hy, hd.symm])
  intro i d hi _ _
  have hd' : dst.data.length = dst.rows * dst.cols := hd
  rw [zipWith_getD _ _ _ (by omega) (by omega)]
  simp [mlmatrix.load, List.getElem?_eq_getElem (show i < x.data.length by omega),
    List.getElem?_eq_getElem (show i < y.data.length by omega)]

theorem mat_copy_ok {α : Type} [Zero α] (dst src : mlmatrix α) (hd : dst.Sized)
    (hs : src.data.length = dst.data.length) :
    mat_copy dst src = some { dst with data := src.data } := by
  apply forLoop_store_list _ _ _ _ hd (by rw [hs]; exact hd)
  intro i d hi _ _
  have hd' : dst.data.length = dst.rows * dst.cols := hd
  simp [mlmatrix.load, List.getD_eq_getElem?_getD,
    List.getElem?_eq_getElem (show i < src.data.length by omega)]

theorem mat_nl_ok {α : Type} [Zero α] [One α] [Add α] [Neg α] [Div α] (exp : α → α)
    (dst src : mlmatrix α) (hd : dst.Sized) (hs : src.data.length = dst.data.length) :
    mat_nl exp dst src = some { dst with data := src.data.map (sigmoid exp) } := by
  apply forLoop_store_list _ _ _ _ hd (by simp [hs]; exact hd)
  intro i d hi _ _
  have hd' : dst.data.length = dst.rows * dst.cols := hd
  simp [mlmatrix.load, List.getD_eq_getElem?_getD,
    List.getElem?_eq_getElem (show i < src.data.length by omega)]

theorem mat_invnl_ok {α : Type} [Zero α] [One α] [Sub α] [Mul α] (dx y dy : mlmatrix α)
    (hd : dx.Sized) (hy : y.data.length = dx.data.length)
    (hdy : dy.data.length = dx.data.length) :
    mat_invnl dx y dy =
      some { dx with data := List.zipWith (fun g v => g * v * (1 - v)) dy.data y.data } := by
  apply forLoop_store_list _ _ _ _ hd (by simp [hy, hdy, hd.symm])
  intro i d hi _ _
  have hd' : dx.data.length = dx.rows * dx.cols := hd
  rw [zipWith_getD _ _ _ (by omega) (by omega)]
  simp [mlmatrix.load, List.getElem?_eq_getElem (show i < y.data.length by omega),
    List.getElem?_eq_getElem (show i < dy.data.length by omega)]

theorem mat_param_update_ok {α : Type} [Zero α] [Sub α] [Mul α] (m deriv : mlmatrix α)
    (alpha : α) (hm : m.Sized) (hg : deriv.data.length = m.data.length) :
    mat_param_update m deriv alpha =
      some { m with data := List.zipWith (fun v g => v - alpha * g) m.data deriv.data } := by
  apply forLoop_store_list _ _ _ _ hm (by simp [hg, hm.symm])
  intro i d hi hlen hrest
  have hm' : m.data.length = m.rows * m.cols := hm
  rw [zipWith_getD _ _ _ (by omega) (by omega)]
  have hdi : d.data[i]? = some m.data[i] := by
    rw [hrest i (le_refl i), List.getElem?_eq_getElem]
  simp [mlmatrix.load, hdi, List.getElem?_eq_getElem (show i < deriv.data.length by omega)]

/-! ## mat_transpose -/

theorem mat_transpose_ok {α : Type} [Zero α] (dst src : mlmatrix α) (hs : src.Sized)
    (hrows : dst.rows = src.cols) (hcols : dst.cols = src.rows)
    (hd : dst.rows * dst.cols ≤ dst.data.length) :
    ∃ d, mat_transpose dst src = some d ∧ d.rows = dst.rows ∧ d.cols = dst.cols ∧
      d.data.length = dst.data.length ∧
      (∀ i j, i < dst.rows → j < dst.cols →
        d.data[i * dst.cols + j]? = some (src.entry j i)) ∧
      (∀ k, dst.rows * dst.cols ≤ k → d.data[k]? = dst.data[k]?) := by
  have inner : ∀ i, i < dst.rows → ∀ d0 : mlmatrix α,
      (d0.rows = dst.rows ∧ d0.cols = dst.cols ∧ d0.data.length = dst.data.length ∧
        (∀ i' j', i' < i → j' < dst.cols →
          d0.data[i' * dst.cols + j']? = some (src.entry j' i')) ∧
        (∀ k, dst.rows * dst.cols ≤ k → d0.data[k]? = dst.data[k]?)) →
      ∃ d1, forLoop d0.cols (fun j dst => do
          let v ← src.load (j * src.cols + i)
          dst.store (i * dst.cols + j) v) d0 = some d1 ∧
        (d1.rows = dst.rows ∧ d1.cols = dst.cols ∧ d1.data.length = dst.data.length ∧
          (∀ i' j', i' < i + 1 → j' < dst.cols →
            d1.data[i' * dst.cols + j']? = some (src.entry j' i')) ∧
          (∀ k, dst.rows * dst.cols ≤ k → d1.data[k]? = dst.data[k]?)) := by
    intro i hi d0 ⟨hr0, hc0, hl0, hprev0, hrest0⟩
    rw [hc0]
    obtain ⟨d1, hd1, hr1, hc1, hl1, hrow1, hprev1, hrest1⟩ := forLoop_inv
      (fun j (d : mlmatrix α) => d.rows = dst.rows ∧ d.cols = dst.cols ∧
        d.data.length = dst.data.length ∧
        (∀ j', j' < j → d.data[i * dst.cols + j']? = some (src.entry j' i)) ∧
        (∀ i' j', i' < i → j' < dst.cols →
          d.data[i' * dst.cols + j']? = some (src.entry j' i')) ∧
        (∀ k, dst.rows * dst.cols ≤ k → d.data[k]? = dst.data[k]?))
      dst.cols (fun j dst => do
          let v ← src.load (j * src.cols + i)
          dst.store (i * dst.cols + j) v) d0 ⟨hr0, hc0, hl0, by simp, hprev0, hrest0⟩
      (by
        rintro j d hj ⟨hr, hc, hl, hrow, hprev, hrest⟩
        have hlt : i * dst.cols + j < d.data.length := by
          have := idx_lt hi hj; omega
        refine ⟨{ d with data := d.data.set (i * dst.cols + j) (src.entry j i) }, ?_, hr, hc,
          by simpa using hl, ?_, ?_, ?_⟩
        · dsimp only
          rw [src.load_entry hs (hcols ▸ hj) (hrows ▸ hi)]
          show d.store (i * d.cols + j) (src.entry j i) = _
          rw [d.store_eq_some _ _ (by rw [hc]; exact hlt), hc]
        · intro j' hj'
          by_cases hjj : j' = j
          · subst hjj; simp [List.getElem?_set, hlt]
          · rw [List.getElem?_set_ne (by omega)]
            exact hrow j' (by omega)
        · intro i' j' hi' hj'
          have hne : i * dst.cols + j ≠ i' * dst.cols + j' := by
            intro heq
            have := (idx_inj hj hj' heq).1
            omega
          simp only [List.getElem?_set_ne hne]
          exact hprev i' j' hi' hj'
        · intro k hk
          have := idx_lt hi hj
          simp only [List.getElem?_set_ne (show i * dst.cols + j ≠ k by omega)]
          exact hrest k hk)
    refine ⟨d1, hd1, hr1, hc1, hl1, ?_, hrest1⟩
    intro i' j' hi' hj'
    by_cases hii : i' = i
    · subst hii; exact hrow1 j' hj'
    · exact hprev1 i' j' (by omega) hj'
  obtain ⟨d, hdeq, hr, hc, hl, hall, hrest⟩ := forLoop_inv
    (fun i (d : mlmatrix α) => d.rows = dst.rows ∧ d.cols = dst.cols ∧
      d.data.length = dst.data.length ∧
      (∀ i' j', i' < i → j' < dst.cols →
        d.data[i' * dst.cols + j']? = some (src.entry j' i')) ∧
      (∀ k, dst.rows * dst.cols ≤ k → d.data[k]? = dst.data[k]?))
    dst.rows (fun i dst =>
      forLoop dst.cols (fun j dst => do
        let v ← src.load (j * src.cols + i)
        dst.store (i * dst.cols + j) v) dst) dst ⟨rfl, rfl, rfl, by simp, by simp⟩
    (fun i d hi hP => inner i hi d hP)
  exact ⟨d, hdeq, hr, hc, hl, fun i j hi hj => hall i j hi hj, hrest⟩

theorem make_matrix_hasShape {α : Type} [Zero α] (r c : Nat) :
    (make_matrix r c : mlmatrix α).HasShape r c := by
  simp [mlmatrix.HasShape, make_matrix]

/-! ## Heaps and well-formed trees -/

theorem node.SameShape.refl_node {α : Type} (n : node α) : n.SameShape n :=
  ⟨rfl, rfl, rfl, rfl, rfl, rfl, rfl, rfl, rfl⟩

theorem node.SameShape.trans_node {α : Type} {a b c : node α} (h1 : a.SameShape b)
    (h2 : b.SameShape c) : a.SameShape c := by
  obtain ⟨a1, a2, a3, a4, a5, a6, a7, a8, a9⟩ := h1
  obtain ⟨b1, b2, b3, b4, b5, b6, b7, b8, b9⟩ := h2
  exact ⟨b1.trans a1, b2.trans a2, b3.trans a3, b4.trans a4, b5.trans a5, b6.trans a6,
    b7.trans a7, b8.trans a8, b9.trans a9⟩

theorem node.SameShape.ok {α : Type} {a b : node α} (h : a.SameShape b) (ha : a.Ok) :
    b.Ok := by
  obtain ⟨-, -, -, a4, a5, a6, a7, a8, a9⟩ := h
  obtain ⟨h1, h2, h3, h4⟩ := ha
  unfold mlmatrix.Sized at h1
  refine ⟨?_, ?_, ?_, ?_⟩
  · unfold mlmatrix.Sized; rw [a6, a4, a5, h1]
  · rw [a7, a4, h2]
  · rw [a8, a5, h3]
  · rw [a9, a4, a5, h4]

theorem Heap.SameShape.refl {α : Type} (h : Heap α) : h.SameShape h :=
  ⟨rfl, fun _ n n' h1 h2 => by
    rw [h1] at h2
    cases h2
    exact node.SameShape.refl_node n⟩

theorem Heap.SameShape.exists {α : Type} {h h' : Heap α} (hs : h.SameShape h') {q : Nat}
    {n : node α} (hn : h[q]? = some n) : ∃ n', h'[q]? = some n' ∧ n.SameShape n' := by
  have hq : q < h.length := by
    rcases Nat.lt_or_ge q h.length with hlt | hge
    · exact hlt
    · rw [List.getElem?_eq_none hge] at hn; cases hn
  have hq' : q < h'.length := by rw [hs.1]; exact hq
  exact ⟨h'[q], List.getElem?_eq_getElem hq', hs.2 q n _ hn (List.getElem?_eq_getElem hq')⟩

theorem Heap.SameShape.trans {α : Type} {a b c : Heap α} (h1 : a.SameShape b)
    (h2 : b.SameShape c) : a.SameShape c := by
  refine ⟨h2.1.trans h1.1, ?_⟩
  intro q n n'' hn hn''
  obtain ⟨n', hn', hs'⟩ := h1.exists hn
  exact hs'.trans_node (h2.2 q n' n'' hn' hn'')

theorem Heap.SameShape.symm {α : Type} {a b : Heap α} (h1 : a.SameShape b) :
    b.SameShape a := by
  refine ⟨h1.1.symm, ?_⟩
  intro q n n' hn hn'
  obtain ⟨a1, a2, a3, a4, a5, a6, a7, a8, a9⟩ := h1.2 q n' n hn' hn
  exact ⟨a1.symm, a2.symm, a3.symm, a4.symm, a5.symm, a6.symm, a7.symm, a8.symm, a9.symm⟩

/-- Replacing a node by one of the same shape gives a heap of the same shape. -/
theorem Heap.SameShape.set {α : Type} (h : Heap α) {q : Nat} {n n' : node α}
    (hn : h[q]? = some n) (hs : n.SameShape n') : h.SameShape (h.set q n') := by
  refine ⟨by simp, ?_⟩
  intro k a a' ha ha'
  rw [List.getElem?_set] at ha'
  by_cases hk : q = k
  · subst hk
    rw [if_pos rfl] at ha'
    split at ha'
    · cases ha'
      rw [hn] at ha
      cases ha
      exact hs
    · cases ha'
  · rw [if_neg hk, ha] at ha'
    cases ha'
    exact node.SameShape.refl_node a

theorem WF_input_iff {α : Type} (h : Heap α) (p : Nat) :
    WF h (.input p) ↔ ∃ n, h[p]? = some n ∧ n.type = node_type.INPUT_NODE ∧
      n.left = none ∧ n.right = none ∧ n.Ok := by
  unfold WF
  cases h[p]? <;> simp

theorem WF_param_iff {α : Type} (h : Heap α) (p : Nat) :
    WF h (.param p) ↔ ∃ n, h[p]? = some n ∧ n.type = node_type.PARAM_NODE ∧
      n.left = none ∧ n.right = none ∧ n.Ok := by
  unfold WF
  cases h[p]? <;> simp

theorem WF_mul_iff {α : Type} (h : Heap α) (p : Nat) (l r : NodeTree) :
    WF h (.mul p l r) ↔ ∃ n a b, h[p]? = some n ∧ h[l.root]? = some a ∧
      h[r.root]? = some b ∧
      n.type = node_type.MUL_NODE ∧ n.left = some l.root ∧ n.right = some r.root ∧ n.Ok ∧
      a.matrix.cols = b.matrix.rows ∧
      n.matrix.rows = a.matrix.rows ∧ n.matrix.cols = b.matrix.cols ∧ WF h l ∧ WF h r := by
  rw [WF]
  cases h[p]? <;> cases h[l.root]? <;> cases h[r.root]? <;> simp

theorem WF_add_iff {α : Type} (h : Heap α) (p : Nat) (l r : NodeTree) :
    WF h (.add p l r) ↔ ∃ n a b, h[p]? = some n ∧ h[l.root]? = some a ∧
      h[r.root]? = some b ∧
      n.type = node_type.ADD_NODE ∧ n.left = some l.root ∧ n.right = some r.root ∧ n.Ok ∧
      n.matrix.rows = a.matrix.rows ∧ n.matrix.cols = a.matrix.cols ∧
      b.matrix.rows = a.matrix.rows ∧ b.matrix.cols = a.matrix.cols ∧ WF h l ∧ WF h r := by
  rw [WF]
  cases h[p]? <;> cases h[l.root]? <;> cases h[r.root]? <;> simp

theorem WF_nl_iff {α : Type} (h : Heap α) (p : Nat) (x : NodeTree) :
    WF h (.nl p x) ↔ ∃ n a, h[p]? = some n ∧ h[x.root]? = some a ∧
      n.type = node_type.NL_NODE ∧ n.left = some x.root ∧ n.right = none ∧ n.Ok ∧
      n.matrix.rows = a.matrix.rows ∧ n.matrix.cols = a.matrix.cols ∧ WF h x := by
  rw [WF]
  cases h[p]? <;> cases h[x.root]? <;> simp

/-- The root of a well-formed tree is an allocated node with sound buffers. -/
theorem WF.root_ok {α : Type} {h : Heap α} {t : NodeTree} (hw : WF h t) :
    ∃ n, h[t.root]? = some n ∧ n.Ok := by
  cases t with
  | input p => obtain ⟨n, hn, -, -, -, hok⟩ := (WF_input_iff h p).mp hw; exact ⟨n, hn, hok⟩
  | param p => obtain ⟨n, hn, -, -, -, hok⟩ := (WF_param_iff h p).mp hw; exact ⟨n, hn, hok⟩
  | mul p l r =>
    obtain ⟨n, a, b, hn, -, -, -, -, -, hok, -⟩ := (WF_mul_iff h p l r).mp hw
    exact ⟨n, hn, hok⟩
  | add p l r =>
    obtain ⟨n, a, b, hn, -, -, -, -, -, hok, -⟩ := (WF_add_iff h p l r).mp hw
    exact ⟨n, hn, hok⟩
  | nl p x =>
    obtain ⟨n, a, hn, -, -, -, -, hok, -⟩ := (WF_nl_iff h p x).mp hw
    exact ⟨n, hn, hok⟩

/-- Well-formedness speaks of kinds, operands and shapes only. -/
theorem WF.sameShape {α : Type} {h h' : Heap α} (hs : h.SameShape h') {t : NodeTree}
    (hw : WF h t) : WF h' t := by
  induction t with
  | input p =>
    obtain ⟨n, hn, h1, h2, h3, hok⟩ := (WF_input_iff h p).mp hw
    obtain ⟨n', hn', s⟩ := hs.exists hn
    exact (WF_input_iff h' p).mpr ⟨n', hn', s.1.trans h1, s.2.1.trans h2, s.2.2.1.trans h3,
      s.ok hok⟩
  | param p =>
    obtain ⟨n, hn, h1, h2, h3, hok⟩ := (WF_param_iff h p).mp hw
    obtain ⟨n', hn', s⟩ := hs.exists hn
    exact (WF_param_iff h' p).mpr ⟨n', hn', s.1.trans h1, s.2.1.trans h2, s.2.2.1.trans h3,
      s.ok hok⟩
  | mul p l r ihl ihr =>
    obtain ⟨n, a, b, hn, ha, hb, h1, h2, h3, hok, e1, e2, e3, wl, wr⟩ :=
      (WF_mul_iff h p l r).mp hw
    obtain ⟨n', hn', s⟩ := hs.exists hn
    obtain ⟨a', ha', sa⟩ := hs.exists ha
    obtain ⟨b', hb', sb⟩ := hs.exists hb
    refine (WF_mul_iff h' p l r).mpr ⟨n', a', b', hn', ha', hb', s.1.trans h1, s.2.1.trans h2,
      s.2.2.1.trans h3, s.ok hok, ?_, ?_, ?_, ihl wl, ihr wr⟩
    · rw [sa.2.2.2.2.1, sb.2.2.2.1, e1]
    · rw [s.2.2.2.1, sa.2.2.2.1, e2]
    · rw [s.2.2.2.2.1, sb.2.2.2.2.1, e3]
  | add p l r ihl ihr =>
    obtain ⟨n, a, b, hn, ha, hb, h1, h2, h3, hok, e1, e2, e3, e4, wl, wr⟩ :=
      (WF_add_iff h p l r).mp hw
    obtain ⟨n', hn', s⟩ := hs.exists hn
    obtain ⟨a', ha', sa⟩ := hs.exists ha
    obtain ⟨b', hb', sb⟩ := hs.exists hb
    refine (WF_add_iff h' p l r).mpr ⟨n', a', b', hn', ha', hb', s.1.trans h1, s.2.1.trans h2,
      s.2.2.1.trans h3, s.ok hok, ?_, ?_, ?_, ?_, ihl wl, ihr wr⟩
    · rw [s.2.2.2.1, sa.2.2.2.1, e1]
    · rw [s.2.2.2.2.1, sa.2.2.2.2.1, e2]
    · rw [sb.2.2.2.1, sa.2.2.2.1, e3]
    · rw [sb.2.2.2.2.1, sa.2.2.2.2.1, e4]
  | nl p x ih =>
    obtain ⟨n, a, hn, ha, h1, h2, h3, hok, e1, e2, wx⟩ := (WF_nl_iff h p x).mp hw
    obtain ⟨n', hn', s⟩ := hs.exists hn
    obtain ⟨a', ha', sa⟩ := hs.exists ha
    refine (WF_nl_iff h' p x).mpr ⟨n', a', hn', ha', s.1.trans h1, s.2.1.trans h2,
      s.2.2.1.trans h3, s.ok hok, ?_, ?_, ih wx⟩
    · rw [s.2.2.2.1, sa.2.2.2.1, e1]
    · rw [s.2.2.2.2.1, sa.2.2.2.2.1, e2]

/-! ## The kernels against the matrix operations -/

theorem foldl_add_eq_sum {α : Type} [AddCommMonoid α] (f : Nat → α) (n : Nat) :
    (List.range n).foldl (fun s k => s + f k) 0 = ∑ k in Finset.range n, f k := by
  induction n with
  | zero => simp
  | succ n ih => rw [List.range_succ, List.foldl_append, ih, Finset.sum_range_succ]; rfl

theorem div_mul_add_mod_lt {k r c : Nat} (hk : k < r * c) :
    0 < c ∧ k / c < r ∧ k % c < c ∧ k / c * c + k % c = k := by
  have hc : 0 < c := by
    rcases Nat.eq_zero_or_pos c with h0 | h0
    · subst h0; simp at hk
    · exact h0
  exact ⟨hc, (Nat.div_lt_iff_lt_mul hc).mpr hk, Nat.mod_lt k hc, Nat.div_add_mod' k c⟩

theorem mlmatrix.mul_entry {α : Type} [NonUnitalNonAssocSemiring α] (x y : mlmatrix α)
    {i j : Nat} (hi : i < x.rows) (hj : j < y.cols) :
    (x.mul y).data[i * y.cols + j]? =
      some (∑ k in Finset.range x.cols, x.entry i k * y.entry k j) := by
  have hlt : i * y.cols + j < x.rows * y.cols := idx_lt hi hj
  have h1 : (i * y.cols + j) / y.cols = i := by
    rw [Nat.add_comm, Nat.add_mul_div_right _ _ (by omega : 0 < y.cols), Nat.div_eq_of_lt hj]
    simp
  have h2 : (i * y.cols + j) % y.cols = j := by
    rw [Nat.add_comm, Nat.add_mul_mod_self_right, Nat.mod_eq_of_lt hj]
  simp only [mlmatrix.mul, List.getElem?_map, List.getElem?_range hlt, Option.map_some', h1, h2]
  rw [foldl_add_eq_sum]

/-- On conformant operands and a destination of the product's shape, `mat_mul`
returns the matrix product. -/
theorem mat_mul_eq_mul {α : Type} [NonUnitalNonAssocSemiring α] (dst x y : mlmatrix α)
    (hx : x.Sized) (hy : y.Sized) (hxy : x.cols = y.rows)
    (hd : dst.HasShape x.rows y.cols) : mat_mul dst x y = some (x.mul y) := by
  obtain ⟨hdr, hdc, hdl⟩ := hd
  obtain ⟨d, hd1, hr, hc, hl, hent, -⟩ := mat_mul_ok dst x y hx hy hxy (by omega)
  rw [hd1]
  have hdata : d.data = (x.mul y).data := by
    apply List.ext_getElem?
    intro k
    by_cases hk : k < x.rows * y.cols
    · obtain ⟨-, h1, h2, h3⟩ := div_mul_add_mod_lt hk
      rw [← h3, hent _ _ h1 h2, mlmatrix.mul_entry x y h1 h2]
    · rw [List.getElem?_eq_none (by omega), List.getElem?_eq_none (by simp [mlmatrix.mul]; omega)]
  have hrows : d.rows = (x.mul y).rows := by rw [hr, hdr]; rfl
  have hcols : d.cols = (x.mul y).cols := by rw [hc, hdc]; rfl
  cases d
  simp_all [mlmatrix.mul]

theorem mat_add_eq_add {α : Type} [Zero α] [Add α] (dst x y : mlmatrix α)
    (hx : x.Sized) (hy : y.HasShape x.rows x.cols) (hd : dst.HasShape x.rows x.cols) :
    mat_add dst x y = some (x.add y) := by
  obtain ⟨hdr, hdc, hdl⟩ := hd
  have hx' : x.data.length = x.rows * x.cols := hx
  rw [mat_add_ok dst x y (by unfold mlmatrix.Sized; rw [hdl, hdr, hdc]) (by omega)
    (by rw [hy.2.2, hdl])]
  cases dst
  simp_all [mlmatrix.add]

theorem mat_nl_eq_map {α : Type} [Zero α] [One α] [Add α] [Neg α] [Div α] (exp : α → α)
    (dst x : mlmatrix α) (hx : x.Sized) (hd : dst.HasShape x.rows x.cols) :
    mat_nl exp dst x = some (x.map (sigmoid exp)) := by
  obtain ⟨hdr, hdc, hdl⟩ := hd
  have hx' : x.data.length = x.rows * x.cols := hx
  rw [mat_nl_ok exp dst x (by unfold mlmatrix.Sized; rw [hdl, hdr, hdc]) (by omega)]
  cases dst
  simp_all [mlmatrix.map]

theorem mlmatrix.mul_hasShape {α : Type} [Zero α] [Add α] [Mul α] (x y : mlmatrix α) :
    (x.mul y).HasShape x.rows y.cols := by
  simp [mlmatrix.HasShape, mlmatrix.mul]

theorem mlmatrix.transpose_hasShape {α : Type} [Zero α] (x : mlmatrix α) :
    x.transpose.HasShape x.cols x.rows := by
  simp [mlmatrix.HasShape, mlmatrix.transpose]

theorem mlmatrix.transpose_entry {α : Type} [Zero α] (x : mlmatrix α) {i j : Nat}
    (hi : i < x.cols) (hj : j < x.rows) : x.transpose.entry i j = x.entry j i := by
  have hlt : i * x.rows + j < x.cols * x.rows := idx_lt hi hj
  have h1 : (i * x.rows + j) / x.rows = i := by
    rw [Nat.add_comm, Nat.add_mul_div_right _ _ (by omega : 0 < x.rows), Nat.div_eq_of_lt hj]
    simp
  have h2 : (i * x.rows + j) % x.rows = j := by
    rw [Nat.add_comm, Nat.add_mul_mod_self_right, Nat.mod_eq_of_lt hj]
  simp [mlmatrix.entry, mlmatrix.transpose, List.getElem?_map, List.getElem?_range hlt, h1, h2]

/-- On a zeroed buffer of the transposed shape, `mat_transpose` returns the transpose. -/
theorem mat_transpose_eq_transpose {α : Type} [Zero α] (x : mlmatrix α) (hx : x.Sized) :
    mat_transpose (make_matrix x.cols x.rows) x = some x.transpose := by
  obtain ⟨d, hd1, hr, hc, hl, hent, -⟩ := mat_transpose_ok (make_matrix x.cols x.rows) x hx
    rfl rfl (by simp [make_matrix])
  rw [hd1]
  have hdata : d.data = x.transpose.data := by
    apply List.ext_getElem?
    intro k
    have hlen : d.data.length = x.cols * x.rows := by rw [hl]; simp [make_matrix]
    by_cases hk : k < x.cols * x.rows
    · obtain ⟨-, h1, h2, h3⟩ := div_mul_add_mod_lt hk
      have := hent (k / x.rows) (k % x.rows) h1 h2
      simp only [make_matrix] at this
      rw [h3] at this
      rw [this]
      simp [mlmatrix.transpose, List.getElem?_map, List.getElem?_range hk]
    · rw [List.getElem?_eq_none (by omega),
        List.getElem?_eq_none (by simp [mlmatrix.transpose]; omega)]
  have hrows : d.rows = x.cols := by rw [hr]; rfl
  have hcols : d.cols = x.rows := by rw [hc]; rfl
  cases d
  simp_all [mlmatrix.transpose]

/-! ## Trees -/

theorem NodeTree.root_mem_addrs (t : NodeTree) : t.root ∈ t.addrs := by
  cases t <;> simp [NodeTree.root, NodeTree.addrs]

theorem NodeTree.inner_subset_addrs (t : NodeTree) : ∀ q, q ∈ t.inner → q ∈ t.addrs := by
  induction t with
  | input p => simp [NodeTree.inner]
  | param p => simp [NodeTree.inner]
  | mul p l r ihl ihr =>
    intro q hq
    simp only [NodeTree.inner, NodeTree.addrs, List.mem_cons, List.mem_append] at hq ⊢
    rcases hq with h | h | h
    · exact Or.inl h
    · exact Or.inr (Or.inl (ihl q h))
    · exact Or.inr (Or.inr (ihr q h))
  | add p l r ihl ihr =>
    intro q hq
    simp only [NodeTree.inner, NodeTree.addrs, List.mem_cons, List.mem_append] at hq ⊢
    rcases hq with h | h | h
    · exact Or.inl h
    · exact Or.inr (Or.inl (ihl q h))
    · exact Or.inr (Or.inr (ihr q h))
  | nl p x ih =>
    intro q hq
    simp only [NodeTree.inner, NodeTree.addrs, List.mem_cons] at hq ⊢
    rcases hq with h | h
    · exact Or.inl h
    · exact Or.inr (ih q h)

theorem NodeTree.leaves_subset_addrs (t : NodeTree) : ∀ q, q ∈ t.leaves → q ∈ t.addrs := by
  induction t with
  | input p => simp [NodeTree.leaves, NodeTree.addrs]
  | param p => simp [NodeTree.leaves, NodeTree.addrs]
  | mul p l r ihl ihr =>
    intro q hq
    simp only [NodeTree.leaves, NodeTree.addrs, List.mem_cons, List.mem_append] at hq ⊢
    rcases hq with h | h
    · exact Or.inr (Or.inl (ihl q h))
    · exact Or.inr (Or.inr (ihr q h))
  | add p l r ihl ihr =>
    intro q hq
    simp only [NodeTree.leaves, NodeTree.addrs, List.mem_cons, List.mem_append] at hq ⊢
    rcases hq with h | h
    · exact Or.inr (Or.inl (ihl q h))
    · exact Or.inr (Or.inr (ihr q h))
  | nl p x ih =>
    intro q hq
    simp only [NodeTree.leaves, NodeTree.addrs, List.mem_cons] at hq ⊢
    exact Or.inr (ih q hq)

/-- When no address occurs twice, no leaf is the address of a node with operands. -/
theorem NodeTree.leaves_not_inner (t : NodeTree) (hnd : t.addrs.Nodup) :
    ∀ q, q ∈ t.leaves → q ∉ t.inner := by
  induction t with
  | input p => simp [NodeTree.inner]
  | param p => simp [NodeTree.inner]
  | mul p l r ihl ihr =>
    simp only [NodeTree.addrs, List.nodup_cons, List.nodup_append, List.mem_append,
      not_or] at hnd
    obtain ⟨⟨hpl, hpr⟩, hl, hr, hdis⟩ := hnd
    intro q hq
    simp only [NodeTree.leaves, List.mem_append] at hq
    simp only [NodeTree.inner, List.mem_cons, List.mem_append, not_or]
    rcases hq with h | h
    · refine ⟨?_, ihl hl q h, fun hr' => hdis (l.leaves_subset_addrs q h)
        (r.inner_subset_addrs q hr')⟩
      rintro rfl; exact hpl (l.leaves_subset_addrs _ h)
    · refine ⟨?_, fun hl' => hdis (l.inner_subset_addrs q hl')
        (r.leaves_subset_addrs q h), ihr hr q h⟩
      rintro rfl; exact hpr (r.leaves_subset_addrs _ h)
  | add p l r ihl ihr =>
    simp only [NodeTree.addrs, List.nodup_cons, List.nodup_append, List.mem_append,
      not_or] at hnd
    obtain ⟨⟨hpl, hpr⟩, hl, hr, hdis⟩ := hnd
    intro q hq
    simp only [NodeTree.leaves, List.mem_append] at hq
    simp only [NodeTree.inner, List.mem_cons, List.mem_append, not_or]
    rcases hq with h | h
    · refine ⟨?_, ihl hl q h, fun hr' => hdis (l.leaves_subset_addrs q h)
        (r.inner_subset_addrs q hr')⟩
      rintro rfl; exact hpl (l.leaves_subset_addrs _ h)
    · refine ⟨?_, fun hl' => hdis (l.inner_subset_addrs q hl')
        (r.leaves_subset_addrs q h), ihr hr q h⟩
      rintro rfl; exact hpr (r.leaves_subset_addrs _ h)
  | nl p x ih =>
    simp only [NodeTree.addrs, List.nodup_cons] at hnd
    obtain ⟨hpx, hx⟩ := hnd
    intro q hq
    simp only [NodeTree.leaves] at hq
    simp only [NodeTree.inner, List.mem_cons, not_or]
    refine ⟨?_, ih hx q hq⟩
    rintro rfl; exact hpx (x.leaves_subset_addrs _ hq)

theorem Heap.value_congr {α : Type} {h h' : Heap α} {q : Nat} (e : h'[q]? = h[q]?) :
    h'.value q = h.value q := by
  simp [Heap.value, e]

theorem Heap.grad_congr {α : Type} {h h' : Heap α} {q : Nat} (e : h'[q]? = h[q]?) :
    h'.grad q = h.grad q := by
  simp [Heap.grad, e]

theorem Heap.value_of_getElem? {α : Type} {h : Heap α} {q : Nat} {n : node α}
    (e : h[q]? = some n) : h.value q = n.matrix := by
  simp [Heap.value, e]

theorem Heap.grad_of_getElem? {α : Type} {h : Heap α} {q : Nat} {n : node α}
    (e : h[q]? = some n) : h.grad q = n.deriv := by
  simp [Heap.grad, e]

/-- The predicate `Evaluated` speaks of the values of the nodes of the tree only. -/
theorem Evaluated.congr_values {α : Type} [Zero α] [One α] [Add α] [Mul α] [Neg α] [Div α]
    (exp : α → α) {h h' : Heap α} {t : NodeTree}
    (e : ∀ q, q ∈ t.addrs → h'.value q = h.value q) (he : Evaluated exp h t) :
    Evaluated exp h' t := by
  induction t with
  | input p => trivial
  | param p => trivial
  | mul p l r ihl ihr =>
    obtain ⟨h1, h2, h3⟩ := he
    refine ⟨?_, ihl (fun q hq => e q (by simp [NodeTree.addrs, hq])) h2,
      ihr (fun q hq => e q (by simp [NodeTree.addrs, hq])) h3⟩
    rw [e p (by simp [NodeTree.addrs]),
      e l.root (by simp [NodeTree.addrs, l.root_mem_addrs]),
      e r.root (by simp [NodeTree.addrs, r.root_mem_addrs]), h1]
  | add p l r ihl ihr =>
    obtain ⟨h1, h2, h3⟩ := he
    refine ⟨?_, ihl (fun q hq => e q (by simp [NodeTree.addrs, hq])) h2,
      ihr (fun q hq => e q (by simp [NodeTree.addrs, hq])) h3⟩
    rw [e p (by simp [NodeTree.addrs]),
      e l.root (by simp [NodeTree.addrs, l.root_mem_addrs]),
      e r.root (by simp [NodeTree.addrs, r.root_mem_addrs]), h1]
  | nl p x ih =>
    obtain ⟨h1, h2⟩ := he
    refine ⟨?_, ih (fun q hq => e q (by simp [NodeTree.addrs, hq])) h2⟩
    rw [e p (by simp [NodeTree.addrs]),
      e x.root (by simp [NodeTree.addrs, x.root_mem_addrs]), h1]

/-- The recursive evaluation reads the leaves only. -/
theorem NodeTree.eval_congr {α : Type} [Zero α] [One α] [Add α] [Mul α] [Neg α] [Div α]
    (exp : α → α) {h h' : Heap α} {t : NodeTree}
    (e : ∀ q, q ∈ t.leaves → h'.value q = h.value q) : t.eval exp h' = t.eval exp h := by
  induction t with
  | input p => exact e p (by simp [NodeTree.leaves])
  | param p => exact e p (by simp [NodeTree.leaves])
  | mul p l r ihl ihr =>
    simp only [NodeTree.eval]
    rw [ihl (fun q hq => e q (by simp [NodeTree.leaves, hq])),
      ihr (fun q hq => e q (by simp [NodeTree.leaves, hq]))]
  | add p l r ihl ihr =>
    simp only [NodeTree.eval]
    rw [ihl (fun q hq => e q (by simp [NodeTree.leaves, hq])),
      ihr (fun q hq => e q (by simp [NodeTree.leaves, hq]))]
  | nl p x ih =>
    simp only [NodeTree.eval]
    rw [ih (fun q hq => e q (by simp [NodeTree.leaves, hq]))]

/-- In an evaluated tree the root holds the recursive evaluation of the tree. -/
theorem Evaluated.value_root {α : Type} [Zero α] [One α] [Add α] [Mul α] [Neg α] [Div α]
    (exp : α → α) {h : Heap α} {t : NodeTree} (he : Evaluated exp h t) :
    h.value t.root = t.eval exp h := by
  induction t with
  | input p => rfl
  | param p => rfl
  | mul p l r ihl ihr =>
    obtain ⟨h1, h2, h3⟩ := he
    simp only [NodeTree.eval, NodeTree.root]
    rw [h1, ihl h2, ihr h3]
  | add p l r ihl ihr =>
    obtain ⟨h1, h2, h3⟩ := he
    simp only [NodeTree.eval, NodeTree.root]
    rw [h1, ihl h2, ihr h3]
  | nl p x ih =>
    obtain ⟨h1, h2⟩ := he
    simp only [NodeTree.eval, NodeTree.root]
    rw [h1, ih h2]

/-! ## forward_prop on a tree -/

theorem forward_prop_null {α : Type} [Zero α] [One α] [Add α] [Mul α] [Neg α] [Div α]
    (exp : α → α) (fuel : Nat) (h : Heap α) : forward_prop exp fuel h none = some h := by
  cases fuel <;> simp [forward_prop]

theorem Heap.setMatrix_eq {α : Type} (h : Heap α) {p : Nat} {n : node α} (m : mlmatrix α)
    (hn : h[p]? = some n) :
    h.setMatrix (some p) m = some (h.set p { n with matrix := m }) := by
  simp [Heap.setMatrix, hn]

theorem Heap.setDeriv_eq {α : Type} (h : Heap α) {p : Nat} {n : node α} (d : mlmatrix α)
    (hn : h[p]? = some n) :
    h.setDeriv (some p) d = some (h.set p { n with deriv := d }) := by
  simp [Heap.setDeriv, hn]

theorem List.getElem?_set_self_of_some {β : Type} {l : List β} {p : Nat} {a b : β}
    (h : l[p]? = some a) : (l.set p b)[p]? = some b := by
  have hp : p < l.length := by
    rcases Nat.lt_or_ge p l.length with hlt | hge
    · exact hlt
    · rw [List.getElem?_eq_none hge] at h; cases h
  simp [List.getElem?_set, hp]

/-- The frame and the result of `forward_prop` on a well-formed tree whose addresses
are distinct: enough fuel gives a heap of the same shape, in which every node of the
tree is evaluated, the gradients are the old ones, and every node that is not an
operation node of the tree is untouched. -/
theorem forward_prop_tree {α : Type} [Field α] (exp : α → α) (t : NodeTree) :
    ∀ (h : Heap α) (fuel : Nat), WF h t → t.addrs.Nodup → t.depth ≤ fuel →
      ∃ h', forward_prop exp fuel h (some t.root) = some h' ∧ h.SameShape h' ∧
        (∀ q, q ∉ t.inner → h'[q]? = h[q]?) ∧ (∀ q, h'.grad q = h.grad q) ∧
        Evaluated exp h' t := by
  induction t with
  | input p =>
    intro h fuel hw _ hf
    obtain ⟨n, hn, h1, h2, h3, -⟩ := (WF_input_iff h p).mp hw
    obtain ⟨f, rfl⟩ : ∃ f, fuel = f + 1 := ⟨fuel - 1, by simp [NodeTree.depth] at hf; omega⟩
    refine ⟨h, ?_, Heap.SameShape.refl h, fun _ _ => rfl, fun _ => rfl, trivial⟩
    rw [NodeTree.root, forward_prop]
    simp [hn, h1, h2, h3, forward_prop_null]
  | param p =>
    intro h fuel hw _ hf
    obtain ⟨n, hn, h1, h2, h3, -⟩ := (WF_param_iff h p).mp hw
    obtain ⟨f, rfl⟩ : ∃ f, fuel = f + 1 := ⟨fuel - 1, by simp [NodeTree.depth] at hf; omega⟩
    refine ⟨h, ?_, Heap.SameShape.refl h, fun _ _ => rfl, fun _ => rfl, trivial⟩
    rw [NodeTree.root, forward_prop]
    simp [hn, h1, h2, h3, forward_prop_null]
  | mul p l r ihl ihr =>
    intro h fuel hw hnd hf
    obtain ⟨f, rfl⟩ : ∃ f, fuel = f + 1 := ⟨fuel - 1, by simp [NodeTree.depth] at hf; omega⟩
    simp only [NodeTree.depth, Nat.add_le_add_iff_right, max_le_iff] at hf
    simp only [NodeTree.addrs, List.nodup_cons, List.nodup_append, List.mem_append,
      not_or] at hnd
    obtain ⟨⟨hpl, hpr⟩, hndl, hndr, hdis⟩ := hnd
    obtain ⟨n, a, b, hn, -, -, hty, hleft, hright, -, -, -, -, wl, wr⟩ :=
      (WF_mul_iff h p l r).mp hw
    obtain ⟨h1, e1, s1, fr1, g1, ev1⟩ := ihl h f wl hndl hf.1
    obtain ⟨h2, e2, s2, fr2, g2, ev2⟩ := ihr h1 f (wr.sameShape s1) hndr hf.2
    have hw2 : WF h2 (.mul p l r) := hw.sameShape (s1.trans s2)
    obtain ⟨n2, a2, b2, hn2, ha2, hb2, -, -, -, hok2, c1, c2, c3, wl2, wr2⟩ :=
      (WF_mul_iff h2 p l r).mp hw2
    obtain ⟨a', ha', hoka⟩ := wl2.root_ok
    obtain ⟨b', hb', hokb⟩ := wr2.root_ok
    rw [ha2] at ha'; cases ha'
    rw [hb2] at hb'; cases hb'
    have hm := mat_mul_eq_mul n2.matrix a2.matrix b2.matrix hoka.1 hokb.1 c1
      ⟨c2, c3, by rw [hok2.1, c2, c3]⟩
    have hplr : p ≠ l.root := fun e => hpl (e ▸ l.root_mem_addrs)
    have hprr : p ≠ r.root := fun e => hpr (e ▸ r.root_mem_addrs)
    refine ⟨h2.set p { n2 with matrix := a2.matrix.mul b2.matrix }, ?_, ?_, ?_, ?_, ?_⟩
    · rw [NodeTree.root, forward_prop]
      simp only [hn, Option.bind_eq_bind, Option.some_bind, hleft, hright, e1, e2, hty, hn2,
        Heap.deref, ha2, hb2, hm]
      exact h2.setMatrix_eq _ hn2
    · exact (s1.trans s2).trans (Heap.SameShape.set h2 hn2
        ⟨rfl, rfl, rfl, c2.symm, c3.symm, by
          have hs2 : n2.matrix.data.length = n2.matrix.rows * n2.matrix.cols := hok2.1
          simp [mlmatrix.mul, hs2, c2, c3], rfl, rfl, rfl⟩)
    · intro q hq
      simp only [NodeTree.inner, List.mem_cons, List.mem_append, not_or] at hq
      rw [List.getElem?_set_ne (fun e => hq.1 e.symm), fr2 q hq.2.2, fr1 q hq.2.1]
    · intro q
      rw [← g1 q, ← g2 q]
      by_cases hqp : q = p
      · subst hqp
        rw [Heap.grad_of_getElem? (List.getElem?_set_self_of_some hn2),
          Heap.grad_of_getElem? hn2]
      · exact Heap.grad_congr (List.getElem?_set_ne (fun e => hqp e.symm))
    · have evl2 : Evaluated exp h2 l := ev1.congr_values exp (fun q hq =>
        Heap.value_congr (fr2 q (fun hq' => hdis hq (r.inner_subset_addrs q hq'))))
      refine ⟨?_, evl2.congr_values exp (fun q hq => ?_), ev2.congr_values exp (fun q hq => ?_)⟩
      · rw [Heap.value_of_getElem? (List.getElem?_set_self_of_some hn2),
          Heap.value_congr (List.getElem?_set_ne hplr),
          Heap.value_congr (List.getElem?_set_ne hprr),
          Heap.value_of_getElem? ha2, Heap.value_of_getElem? hb2]
      · exact Heap.value_congr (List.getElem?_set_ne (by rintro rfl; exact hpl hq))
      · exact Heap.value_congr (List.getElem?_set_ne (by rintro rfl; exact hpr hq))
  | add p l r ihl ihr =>
    intro h fuel hw hnd hf
    obtain ⟨f, rfl⟩ : ∃ f, fuel = f + 1 := ⟨fuel - 1, by simp [NodeTree.depth] at hf; omega⟩
    simp only [NodeTree.depth, Nat.add_le_add_iff_right, max_le_iff] at hf
    simp only [NodeTree.addrs, List.nodup_cons, List.nodup_append, List.mem_append,
      not_or] at hnd
    obtain ⟨⟨hpl, hpr⟩, hndl, hndr, hdis⟩ := hnd
    obtain ⟨n, a, b, hn, -, -, hty, hleft, hright, -, -, -, -, -, wl, wr⟩ :=
      (WF_add_iff h p l r).mp hw
    obtain ⟨h1, e1, s1, fr1, g1, ev1⟩ := ihl h f wl hndl hf.1
    obtain ⟨h2, e2, s2, fr2, g2, ev2⟩ := ihr h1 f (wr.sameShape s1) hndr hf.2
    have hw2 : WF h2 (.add p l r) := hw.sameShape (s1.trans s2)
    obtain ⟨n2, a2, b2, hn2, ha2, hb2, -, -, -, hok2, c1, c2, c3, c4, wl2, wr2⟩ :=
      (WF_add_iff h2 p l r).mp hw2
    obtain ⟨a', ha', hoka⟩ := wl2.root_ok
    obtain ⟨b', hb', hokb⟩ := wr2.root_ok
    rw [ha2] at ha'; cases ha'
    rw [hb2] at hb'; cases hb'
    have hm := mat_add_eq_add n2.matrix a2.matrix b2.matrix hoka.1
      ⟨c3, c4, by rw [hokb.1, c3, c4]⟩ ⟨c1, c2, by rw [hok2.1, c1, c2]⟩
    have hplr : p ≠ l.root := fun e => hpl (e ▸ l.root_mem_addrs)
    have hprr : p ≠ r.root := fun e => hpr (e ▸ r.root_mem_addrs)
    refine ⟨h2.set p { n2 with matrix := a2.matrix.add b2.matrix }, ?_, ?_, ?_, ?_, ?_⟩
    · rw [NodeTree.root, forward_prop]
      simp only [hn, Option.bind_eq_bind, Option.some_bind, hleft, hright, e1, e2, hty, hn2,
        Heap.deref, ha2, hb2, hm]
      exact h2.setMatrix_eq _ hn2
    · exact (s1.trans s2).trans (Heap.SameShape.set h2 hn2
        ⟨rfl, rfl, rfl, c1.symm, c2.symm, by
          have hsa : a2.matrix.data.length = a2.matrix.rows * a2.matrix.cols := hoka.1
          have hsb : b2.matrix.data.length = b2.matrix.rows * b2.matrix.cols := hokb.1
          have hs2 : n2.matrix.data.length = n2.matrix.rows * n2.matrix.cols := hok2.1
          simp [mlmatrix.add, hs2, hsa, hsb, c1, c2, c3, c4], rfl, rfl, rfl⟩)
    · intro q hq
      simp only [NodeTree.inner, List.mem_cons, List.mem_append, not_or] at hq
      rw [List.getElem?_set_ne (fun e => hq.1 e.symm), fr2 q hq.2.2, fr1 q hq.2.1]
    · intro q
      rw [← g1 q, ← g2 q]
      by_cases hqp : q = p
      · subst hqp
        rw [Heap.grad_of_getElem? (List.getElem?_set_self_of_some hn2),
          Heap.grad_of_getElem? hn2]
      · exact Heap.grad_congr (List.getElem?_set_ne (fun e => hqp e.symm))
    · have evl2 : Evaluated exp h2 l := ev1.congr_values exp (fun q hq =>
        Heap.value_congr (fr2 q (fun hq' => hdis hq (r.inner_subset_addrs q hq'))))
      refine ⟨?_, evl2.congr_values exp (fun q hq => ?_), ev2.congr_values exp (fun q hq => ?_)⟩
      · rw [Heap.value_of_getElem? (List.getElem?_set_self_of_some hn2),
          Heap.value_congr (List.getElem?_set_ne hplr),
          Heap.value_congr (List.getElem?_set_ne hprr),
          Heap.value_of_getElem? ha2, Heap.value_of_getElem? hb2]
      · exact Heap.value_congr (List.getElem?_set_ne (by rintro rfl; exact hpl hq))
      · exact Heap.value_congr (List.getElem?_set_ne (by rintro rfl; exact hpr hq))
  | nl p x ih =>
    intro h fuel hw hnd hf
    obtain ⟨f, rfl⟩ : ∃ f, fuel = f + 1 := ⟨fuel - 1, by simp [NodeTree.depth] at hf; omega⟩
    simp only [NodeTree.depth, Nat.add_le_add_iff_right] at hf
    simp only [NodeTree.addrs, List.nodup_cons] at hnd
    obtain ⟨hpx, hndx⟩ := hnd
    obtain ⟨n, a, hn, -, hty, hleft, hright, -, -, -, wx⟩ := (WF_nl_iff h p x).mp hw
    obtain ⟨h1, e1, s1, fr1, g1, ev1⟩ := ih h f wx hndx hf
    have hw1 : WF h1 (.nl p x) := hw.sameShape s1
    obtain ⟨n1, a1, hn1, ha1, -, -, -, hok1, c1, c2, wx1⟩ := (WF_nl_iff h1 p x).mp hw1
    obtain ⟨a', ha', hoka⟩ := wx1.root_ok
    rw [ha1] at ha'; cases ha'
    have hm := mat_nl_eq_map exp n1.matrix a1.matrix hoka.1 ⟨c1, c2, by rw [hok1.1, c1, c2]⟩
    have hpxr : p ≠ x.root := fun e => hpx (e ▸ x.root_mem_addrs)
    refine ⟨h1.set p { n1 with matrix := a1.matrix.map (sigmoid exp) }, ?_, ?_, ?_, ?_, ?_⟩
    · rw [NodeTree.root, forward_prop]
      simp only [hn, Option.bind_eq_bind, Option.some_bind, hleft, hright, e1,
        forward_prop_null, hty, hn1, Heap.deref, ha1, hm]
      exact h1.setMatrix_eq _ hn1
    · exact s1.trans (Heap.SameShape.set h1 hn1
        ⟨rfl, rfl, rfl, c1.symm, c2.symm, by
          have hsa : a1.matrix.data.length = a1.matrix.rows * a1.matrix.cols := hoka.1
          have hs1 : n1.matrix.data.length = n1.matrix.rows * n1.matrix.cols := hok1.1
          simp [mlmatrix.map, hs1, hsa, c1, c2], rfl, rfl, rfl⟩)
    · intro q hq
      simp only [NodeTree.inner, List.mem_cons, not_or] at hq
      rw [List.getElem?_set_ne (fun e => hq.1 e.symm), fr1 q hq.2]
    · intro q
      rw [← g1 q]
      by_cases hqp : q = p
      · subst hqp
        rw [Heap.grad_of_getElem? (List.getElem?_set_self_of_some hn1),
          Heap.grad_of_getElem? hn1]
      · exact Heap.grad_congr (List.getElem?_set_ne (fun e => hqp e.symm))
    · refine ⟨?_, ev1.congr_values exp (fun q hq => ?_)⟩
      · rw [Heap.value_of_getElem? (List.getElem?_set_self_of_some hn1),
          Heap.value_congr (List.getElem?_set_ne hpxr), Heap.value_of_getElem? ha1]
      · exact Heap.value_congr (List.getElem?_set_ne (by rintro rfl; exact hpx hq))

/-! ## The matrix operations against Mathlib's matrices -/

theorem mlmatrix.mul_entry_eq {α : Type} [NonUnitalNonAssocSemiring α] (x y : mlmatrix α)
    {i j : Nat} (hi : i < x.rows) (hj : j < y.cols) :
    (x.mul y).entry i j = ∑ k in Finset.range x.cols, x.entry i k * y.entry k j :=
  mlmatrix.entry_eq_of_getElem? _ (mlmatrix.mul_entry x y hi hj)

/-- The buffer product is the product of Mathlib's matrices. -/
theorem mlmatrix.toMatrix_mul {α : Type} [NonUnitalNonAssocSemiring α] (x y : mlmatrix α)
    (r n c : Nat) (hx : x.HasShape r n) (hy : y.HasShape n c) :
    (x.mul y).toMatrix r c = x.toMatrix r n * y.toMatrix n c := by
  obtain ⟨hxr, hxc, -⟩ := hx
  obtain ⟨-, hyc, -⟩ := hy
  ext i j
  rw [Matrix.mul_apply]
  simp only [mlmatrix.toMatrix, Matrix.of_apply]
  rw [mlmatrix.mul_entry_eq x y (by rw [hxr]; exact i.isLt) (by rw [hyc]; exact j.isLt), hxc]
  exact (Fin.sum_univ_eq_sum_range (fun k => x.entry i.val k * y.entry k j.val) n).symm

/-- The buffer transpose is the transpose of Mathlib's matrices. -/
theorem mlmatrix.toMatrix_transpose {α : Type} [Zero α] (x : mlmatrix α) (r c : Nat)
    (hx : x.HasShape r c) : x.transpose.toMatrix c r = (x.toMatrix r c).transpose := by
  obtain ⟨hxr, hxc, -⟩ := hx
  ext i j
  simp only [mlmatrix.toMatrix, Matrix.of_apply, Matrix.transpose_apply]
  exact x.transpose_entry (by rw [hxc]; exact i.isLt) (by rw [hxr]; exact j.isLt)

/-! ## backprop on a tree -/

theorem NodeTree.addrs_eq (t : NodeTree) : t.addrs = t.root :: t.descendants := by
  cases t <;> rfl

theorem NodeTree.root_not_mem_descendants (t : NodeTree) (hnd : t.addrs.Nodup) :
    t.root ∉ t.descendants := by
  rw [t.addrs_eq] at hnd
  exact (List.nodup_cons.mp hnd).1

theorem NodeTree.descendants_subset_addrs (t : NodeTree) :
    ∀ q, q ∈ t.descendants → q ∈ t.addrs := by
  intro q hq
  rw [t.addrs_eq]
  exact List.mem_cons_of_mem _ hq

theorem NodeTree.depth_pos (t : NodeTree) : 0 < t.depth := by
  cases t <;> simp [NodeTree.depth]

/-- The predicate `Backpropagated` speaks of the values and gradients of the nodes of the tree only. -/
theorem Backpropagated.congr_heap {α : Type} [Zero α] [One α] [Add α] [Sub α] [Mul α]
    {h h' : Heap α} {t : NodeTree}
    (e : ∀ q, q ∈ t.addrs → h'[q]? = h[q]?) (hb : Backpropagated h t) :
    Backpropagated h' t := by
  induction t with
  | input p => trivial
  | param p => trivial
  | mul p l r ihl ihr =>
    obtain ⟨h1, h2, h3, h4⟩ := hb
    have ep := e p (by simp [NodeTree.addrs])
    have el := e l.root (by simp [NodeTree.addrs, l.root_mem_addrs])
    have er := e r.root (by simp [NodeTree.addrs, r.root_mem_addrs])
    refine ⟨?_, ?_, ihl (fun q hq => e q (by simp [NodeTree.addrs, hq])) h3,
      ihr (fun q hq => e q (by simp [NodeTree.addrs, hq])) h4⟩
    · rw [Heap.grad_congr el, Heap.grad_congr ep, Heap.value_congr er, h1]
    · rw [Heap.grad_congr er, Heap.grad_congr ep, Heap.value_congr el, h2]
  | add p l r ihl ihr =>
    obtain ⟨h1, h2, h3, h4⟩ := hb
    have ep := e p (by simp [NodeTree.addrs])
    have el := e l.root (by simp [NodeTree.addrs, l.root_mem_addrs])
    have er := e r.root (by simp [NodeTree.addrs, r.root_mem_addrs])
    refine ⟨?_, ?_, ihl (fun q hq => e q (by simp [NodeTree.addrs, hq])) h3,
      ihr (fun q hq => e q (by simp [NodeTree.addrs, hq])) h4⟩
    · rw [Heap.grad_congr el, Heap.grad_congr ep, h1]
    · rw [Heap.grad_congr er, Heap.grad_congr ep, h2]
  | nl p x ih =>
    obtain ⟨h1, h2⟩ := hb
    have ep := e p (by simp [NodeTree.addrs])
    have ex := e x.root (by simp [NodeTree.addrs, x.root_mem_addrs])
    refine ⟨?_, ih (fun q hq => e q (by simp [NodeTree.addrs, hq])) h2⟩
    rw [Heap.grad_congr ex, Heap.grad_congr ep, Heap.value_congr ep, h1]

theorem mat_copy_eq {α : Type} [Zero α] (dst src : mlmatrix α) (r c : Nat)
    (hd : dst.HasShape r c) (hs : src.HasShape r c) : mat_copy dst src = some src := by
  obtain ⟨hdr, hdc, hdl⟩ := hd
  obtain ⟨hsr, hsc, hsl⟩ := hs
  rw [mat_copy_ok dst src (by unfold mlmatrix.Sized; rw [hdl, hdr, hdc]) (by omega)]
  cases dst; cases src
  simp_all

theorem mat_invnl_eq {α : Type} [Zero α] [One α] [Sub α] [Mul α] (dx y dy : mlmatrix α)
    (r c : Nat) (hd : dx.HasShape r c) (hy : y.HasShape r c) (hdy : dy.HasShape r c) :
    mat_invnl dx y dy = some (y.invnl dy) := by
  obtain ⟨hdr, hdc, hdl⟩ := hd
  obtain ⟨hyr, hyc, hyl⟩ := hy
  rw [mat_invnl_ok dx y dy (by unfold mlmatrix.Sized; rw [hdl, hdr, hdc]) (by omega)
    (by rw [hdy.2.2, hdl])]
  cases dx; cases y
  simp_all [mlmatrix.invnl]

theorem Heap.getElem?_set_deriv {α : Type} (h : Heap α) {p : Nat} {n : node α}
    (d : mlmatrix α) (hn : h[p]? = some n) :
    (h.set p { n with deriv := d })[p]? = some { n with deriv := d } :=
  List.getElem?_set_self_of_some hn

/-! ## backprop on a tree: one node -/

/-- The MatMul case of `backprop_tree`. -/
theorem backprop_tree_mul {α : Type} [Ring α] (p : Nat) (l r : NodeTree)
    (ihl : (∀ (h : Heap α) (fuel : Nat), WF h l → l.addrs.Nodup → l.depth ≤ fuel →
      ∃ h', backprop fuel h (some l.root) = some h' ∧ h.SameShape h' ∧
        (∀ q, q ∉ l.descendants → h'[q]? = h[q]?) ∧ (∀ q, h'.value q = h.value q) ∧
        Backpropagated h' l))
    (ihr : (∀ (h : Heap α) (fuel : Nat), WF h r → r.addrs.Nodup → r.depth ≤ fuel →
      ∃ h', backprop fuel h (some r.root) = some h' ∧ h.SameShape h' ∧
        (∀ q, q ∉ r.descendants → h'[q]? = h[q]?) ∧ (∀ q, h'.value q = h.value q) ∧
        Backpropagated h' r)) :
    ∀ (h : Heap α) (fuel : Nat), WF h (NodeTree.mul p l r) → (NodeTree.mul p l r).addrs.Nodup → (NodeTree.mul p l r).depth ≤ fuel →
      ∃ h', backprop fuel h (some (NodeTree.mul p l r).root) = some h' ∧ h.SameShape h' ∧
        (∀ q, q ∉ (NodeTree.mul p l r).descendants → h'[q]? = h[q]?) ∧ (∀ q, h'.value q = h.value q) ∧
        Backpropagated h' (NodeTree.mul p l r) := by
  intro h fuel hw hnd hf
  obtain ⟨f, rfl⟩ : ∃ f, fuel = f + 1 := ⟨fuel - 1, by simp [NodeTree.depth] at hf; omega⟩
  simp only [NodeTree.depth, Nat.add_le_add_iff_right, max_le_iff] at hf
  simp only [NodeTree.addrs, List.nodup_cons, List.nodup_append, List.mem_append,
    not_or] at hnd
  obtain ⟨⟨hpl, hpr⟩, hndl, hndr, hdis⟩ := hnd
  obtain ⟨n, a, b, hn, ha, hb, hty, hleft, hright, hok, c1, c2, c3, wl, wr⟩ :=
    (WF_mul_iff h p l r).mp hw
  obtain ⟨a', ha', hoka⟩ := wl.root_ok
  obtain ⟨b', hb', hokb⟩ := wr.root_ok
  rw [ha] at ha'; cases ha'
  rw [hb] at hb'; cases hb'
  have hplr : l.root ≠ p := by rintro rfl; exact hpl l.root_mem_addrs
  have hprr : r.root ≠ p := by rintro rfl; exact hpr r.root_mem_addrs
  have hlr : l.root ≠ r.root := fun e => hdis l.root_mem_addrs (e ▸ r.root_mem_addrs)
  have hLT := mat_transpose_eq_transpose a.matrix hoka.1
  have hRT := mat_transpose_eq_transpose b.matrix hokb.1
  have hdl := mat_mul_eq_mul a.deriv n.deriv b.matrix.transpose hok.2.sized
    b.matrix.transpose_hasShape.sized (by rw [hok.2.2.1, c3]; rfl)
    ⟨by rw [hoka.2.1, hok.2.1, c2], by rw [hoka.2.2.1, c1]; rfl, by
      rw [hoka.2.2.2, hok.2.1, c2, c1]; rfl⟩
  have hdr := mat_mul_eq_mul b.deriv a.matrix.transpose n.deriv
    a.matrix.transpose_hasShape.sized hok.2.sized (by rw [hok.2.1, c2]; rfl)
    ⟨by rw [hokb.2.1, ← c1]; rfl, by rw [hokb.2.2.1, hok.2.2.1, c3], by
      rw [hokb.2.2.2, hok.2.2.1, c3, ← c1]; rfl⟩
  -- the two writes
  obtain ⟨h1, eh1⟩ : ∃ h1 : Heap α,
      h1 = h.set l.root { a with deriv := n.deriv.mul b.matrix.transpose } := ⟨_, rfl⟩
  have hset1 : h.setDeriv (some l.root) (n.deriv.mul b.matrix.transpose) = some h1 := by
    rw [eh1]; exact h.setDeriv_eq _ ha
  have hn1 : h1[p]? = some n := by rw [eh1, List.getElem?_set_ne hplr]; exact hn
  have hb1 : h1[r.root]? = some b := by rw [eh1, List.getElem?_set_ne hlr]; exact hb
  have ha1 : h1[l.root]? = some { a with deriv := n.deriv.mul b.matrix.transpose } := by
    rw [eh1]; exact List.getElem?_set_self_of_some ha
  have s1 : h.SameShape h1 := by
    rw [eh1]
    refine Heap.SameShape.set h ha ⟨rfl, rfl, rfl, rfl, rfl, rfl, ?_, ?_, ?_⟩
    · show n.deriv.rows = a.deriv.rows
      rw [hoka.2.1, hok.2.1, c2]
    · show b.matrix.rows = a.deriv.cols
      rw [hoka.2.2.1, c1]
    · rw [hoka.2.2.2, (mlmatrix.mul_hasShape _ _).2.2, hok.2.1, c2, c1]; rfl
  obtain ⟨h2, eh2⟩ : ∃ h2 : Heap α,
      h2 = h1.set r.root { b with deriv := a.matrix.transpose.mul n.deriv } := ⟨_, rfl⟩
  have hset2 : h1.setDeriv (some r.root) (a.matrix.transpose.mul n.deriv) = some h2 := by
    rw [eh2]; exact h1.setDeriv_eq _ hb1
  have s2 : h1.SameShape h2 := by
    rw [eh2]
    refine Heap.SameShape.set h1 hb1 ⟨rfl, rfl, rfl, rfl, rfl, rfl, ?_, ?_, ?_⟩
    · show a.matrix.cols = b.deriv.rows
      rw [hokb.2.1, c1]
    · show n.deriv.cols = b.deriv.cols
      rw [hokb.2.2.1, hok.2.2.1, c3]
    · rw [hokb.2.2.2, (mlmatrix.mul_hasShape _ _).2.2, hok.2.2.1, c3, ← c1]; rfl
  have hb2 : h2[r.root]? = some { b with deriv := a.matrix.transpose.mul n.deriv } := by
    rw [eh2]; exact List.getElem?_set_self_of_some hb1
  have keep2 : ∀ q, q ≠ l.root → q ≠ r.root → h2[q]? = h[q]? := by
    intro q hql hqr
    rw [eh2, List.getElem?_set_ne hqr.symm, eh1, List.getElem?_set_ne hql.symm]
  have val2 : ∀ q, h2.value q = h.value q := by
    intro q
    by_cases hqr : q = r.root
    · subst hqr
      rw [Heap.value_of_getElem? hb2, Heap.value_of_getElem? hb]
    · by_cases hql : q = l.root
      · subst hql
        rw [Heap.value_congr (show h2[l.root]? = h1[l.root]? by
          rw [eh2, List.getElem?_set_ne hlr.symm]),
          Heap.value_of_getElem? ha1, Heap.value_of_getElem? ha]
      · exact Heap.value_congr (keep2 q hql hqr)
  obtain ⟨h3, e3, s3, fr3, v3, bp3⟩ := ihl h2 f (wl.sameShape (s1.trans s2)) hndl hf.1
  obtain ⟨h4, e4, s4, fr4, v4, bp4⟩ := ihr h3 f (wr.sameShape ((s1.trans s2).trans s3))
    hndr hf.2
  -- what the final heap holds at the three nodes
  have keep : ∀ q, q ∉ l.addrs → q ∉ r.addrs → h4[q]? = h[q]? := by
    intro q hql hqr
    rw [fr4 q (fun hq => hqr (r.descendants_subset_addrs q hq)),
      fr3 q (fun hq => hql (l.descendants_subset_addrs q hq))]
    exact keep2 q (by rintro rfl; exact hql l.root_mem_addrs)
      (by rintro rfl; exact hqr r.root_mem_addrs)
  have hl4 : h4[l.root]? = some { a with deriv := n.deriv.mul b.matrix.transpose } := by
    rw [fr4 _ (fun hq => hdis l.root_mem_addrs (r.descendants_subset_addrs _ hq)),
      fr3 _ (l.root_not_mem_descendants hndl), eh2, List.getElem?_set_ne hlr.symm]
    exact ha1
  have hr4 : h4[r.root]? = some { b with deriv := a.matrix.transpose.mul n.deriv } := by
    rw [fr4 _ (r.root_not_mem_descendants hndr),
      fr3 _ (fun hq => hdis (l.descendants_subset_addrs _ hq) r.root_mem_addrs)]
    exact hb2
  have hp4 : h4[p]? = some n := by rw [keep p hpl hpr]; exact hn
  refine ⟨h4, ?_, ((s1.trans s2).trans s3).trans s4, ?_, ?_, ?_, ?_, ?_, ?_⟩
  · rw [NodeTree.root, backprop]
    simp only [Heap.deref, hn, Option.bind_eq_bind, Option.some_bind, hty, hleft, hright,
      ha, hb, hLT, hRT, hdl, hset1, hn1, hb1, hdr, hset2, e3, e4]
  · intro q hq
    simp only [NodeTree.descendants, List.mem_append, not_or] at hq
    exact keep q hq.1 hq.2
  · intro q
    rw [v4 q, v3 q, val2 q]
  · rw [Heap.grad_of_getElem? hl4, Heap.grad_of_getElem? hp4, Heap.value_of_getElem? hr4]
  · rw [Heap.grad_of_getElem? hr4, Heap.grad_of_getElem? hp4, Heap.value_of_getElem? hl4]
  · exact bp3.congr_heap (fun q hq =>
      fr4 q (fun hq' => hdis hq (r.descendants_subset_addrs q hq')))
  · exact bp4

/-- The Add case of `backprop_tree`. -/
theorem backprop_tree_add {α : Type} [Ring α] (p : Nat) (l r : NodeTree)
    (ihl : (∀ (h : Heap α) (fuel : Nat), WF h l → l.addrs.Nodup → l.depth ≤ fuel →
      ∃ h', backprop fuel h (some l.root) = some h' ∧ h.SameShape h' ∧
        (∀ q, q ∉ l.descendants → h'[q]? = h[q]?) ∧ (∀ q, h'.value q = h.value q) ∧
        Backpropagated h' l))
    (ihr : (∀ (h : Heap α) (fuel : Nat), WF h r → r.addrs.Nodup → r.depth ≤ fuel →
      ∃ h', backprop fuel h (some r.root) = some h' ∧ h.SameShape h' ∧
        (∀ q, q ∉ r.descendants → h'[q]? = h[q]?) ∧ (∀ q, h'.value q = h.value q) ∧
        Backpropagated h' r)) :
    ∀ (h : Heap α) (fuel : Nat), WF h (NodeTree.add p l r) → (NodeTree.add p l r).addrs.Nodup → (NodeTree.add p l r).depth ≤ fuel →
      ∃ h', backprop fuel h (some (NodeTree.add p l r).root) = some h' ∧ h.SameShape h' ∧
        (∀ q, q ∉ (NodeTree.add p l r).descendants → h'[q]? = h[q]?) ∧ (∀ q, h'.value q = h.value q) ∧
        Backpropagated h' (NodeTree.add p l r) := by
  intro h fuel hw hnd hf
  obtain ⟨f, rfl⟩ : ∃ f, fuel = f + 1 := ⟨fuel - 1, by simp [NodeTree.depth] at hf; omega⟩
  simp only [NodeTree.depth, Nat.add_le_add_iff_right, max_le_iff] at hf
  simp only [NodeTree.addrs, List.nodup_cons, List.nodup_append, List.mem_append,
    not_or] at hnd
  obtain ⟨⟨hpl, hpr⟩, hndl, hndr, hdis⟩ := hnd
  obtain ⟨n, a, b, hn, ha, hb, hty, hleft, hright, hok, c1, c2, c3, c4, wl, wr⟩ :=
    (WF_add_iff h p l r).mp hw
  obtain ⟨a', ha', hoka⟩ := wl.root_ok
  obtain ⟨b', hb', hokb⟩ := wr.root_ok
  rw [ha] at ha'; cases ha'
  rw [hb] at hb'; cases hb'
  have hplr : l.root ≠ p := by rintro rfl; exact hpl l.root_mem_addrs
  have hprr : r.root ≠ p := by rintro rfl; exact hpr r.root_mem_addrs
  have hlr : l.root ≠ r.root := fun e => hdis l.root_mem_addrs (e ▸ r.root_mem_addrs)
  have hdl := mat_copy_eq a.deriv n.deriv n.matrix.rows n.matrix.cols
    ⟨by rw [hoka.2.1, c1], by rw [hoka.2.2.1, c2], by rw [hoka.2.2.2, c1, c2]⟩ hok.2
  have hdr := mat_copy_eq b.deriv n.deriv n.matrix.rows n.matrix.cols
    ⟨by rw [hokb.2.1, c3, c1], by rw [hokb.2.2.1, c4, c2], by
      rw [hokb.2.2.2, c3, c4, c1, c2]⟩ hok.2
  obtain ⟨h1, eh1⟩ : ∃ h1 : Heap α, h1 = h.set l.root { a with deriv := n.deriv } :=
    ⟨_, rfl⟩
  have hset1 : h.setDeriv (some l.root) n.deriv = some h1 := by
    rw [eh1]; exact h.setDeriv_eq _ ha
  have hn1 : h1[p]? = some n := by rw [eh1, List.getElem?_set_ne hplr]; exact hn
  have hb1 : h1[r.root]? = some b := by rw [eh1, List.getElem?_set_ne hlr]; exact hb
  have ha1 : h1[l.root]? = some { a with deriv := n.deriv } := by
    rw [eh1]; exact List.getElem?_set_self_of_some ha
  have s1 : h.SameShape h1 := by
    rw [eh1]
    refine Heap.SameShape.set h ha ⟨rfl, rfl, rfl, rfl, rfl, rfl, ?_, ?_, ?_⟩
    · show n.deriv.rows = a.deriv.rows
      rw [hoka.2.1, hok.2.1, c1]
    · show n.deriv.cols = a.deriv.cols
      rw [hoka.2.2.1, hok.2.2.1, c2]
    · show n.deriv.data.length = a.deriv.data.length
      rw [hoka.2.2.2, hok.2.2.2, c1, c2]
  obtain ⟨h2, eh2⟩ : ∃ h2 : Heap α, h2 = h1.set r.root { b with deriv := n.deriv } :=
    ⟨_, rfl⟩
  have hset2 : h1.setDeriv (some r.root) n.deriv = some h2 := by
    rw [eh2]; exact h1.setDeriv_eq _ hb1
  have s2 : h1.SameShape h2 := by
    rw [eh2]
    refine Heap.SameShape.set h1 hb1 ⟨rfl, rfl, rfl, rfl, rfl, rfl, ?_, ?_, ?_⟩
    · show n.deriv.rows = b.deriv.rows
      rw [hokb.2.1, hok.2.1, c3, c1]
    · show n.deriv.cols = b.deriv.cols
      rw [hokb.2.2.1, hok.2.2.1, c4, c2]
    · show n.deriv.data.length = b.deriv.data.length
      rw [hokb.2.2.2, hok.2.2.2, c3, c4, c1, c2]
  have hb2 : h2[r.root]? = some { b with deriv := n.deriv } := by
    rw [eh2]; exact List.getElem?_set_self_of_some hb1
  have keep2 : ∀ q, q ≠ l.root → q ≠ r.root → h2[q]? = h[q]? := by
    intro q hql hqr
    rw [eh2, List.getElem?_set_ne hqr.symm, eh1, List.getElem?_set_ne hql.symm]
  have val2 : ∀ q, h2.value q = h.value q := by
    intro q
    by_cases hqr : q = r.root
    · subst hqr
      rw [Heap.value_of_getElem? hb2, Heap.value_of_getElem? hb]
    · by_cases hql : q = l.root
      · subst hql
        rw [Heap.value_congr (show h2[l.root]? = h1[l.root]? by
          rw [eh2, List.getElem?_set_ne hlr.symm]),
          Heap.value_of_getElem? ha1, Heap.value_of_getElem? ha]
      · exact Heap.value_congr (keep2 q hql hqr)
  obtain ⟨h3, e3, s3, fr3, v3, bp3⟩ := ihl h2 f (wl.sameShape (s1.trans s2)) hndl hf.1
  obtain ⟨h4, e4, s4, fr4, v4, bp4⟩ := ihr h3 f (wr.sameShape ((s1.trans s2).trans s3))
    hndr hf.2
  have keep : ∀ q, q ∉ l.addrs → q ∉ r.addrs → h4[q]? = h[q]? := by
    intro q hql hqr
    rw [fr4 q (fun hq => hqr (r.descendants_subset_addrs q hq)),
      fr3 q (fun hq => hql (l.descendants_subset_addrs q hq))]
    exact keep2 q (by rintro rfl; exact hql l.root_mem_addrs)
      (by rintro rfl; exact hqr r.root_mem_addrs)
  have hl4 : h4[l.root]? = some { a with deriv := n.deriv } := by
    rw [fr4 _ (fun hq => hdis l.root_mem_addrs (r.descendants_subset_addrs _ hq)),
      fr3 _ (l.root_not_mem_descendants hndl), eh2, List.getElem?_set_ne hlr.symm]
    exact ha1
  have hr4 : h4[r.root]? = some { b with deriv := n.deriv } := by
    rw [fr4 _ (r.root_not_mem_descendants hndr),
      fr3 _ (fun hq => hdis (l.descendants_subset_addrs _ hq) r.root_mem_addrs)]
    exact hb2
  have hp4 : h4[p]? = some n := by rw [keep p hpl hpr]; exact hn
  refine ⟨h4, ?_, ((s1.trans s2).trans s3).trans s4, ?_, ?_, ?_, ?_, ?_, ?_⟩
  · rw [NodeTree.root, backprop]
    simp only [Heap.deref, hn, Option.bind_eq_bind, Option.some_bind, hty, hleft, hright,
      ha, hdl, hset1, hn1, hb1, hdr, hset2, e3, e4]
  · intro q hq
    simp only [NodeTree.descendants, List.mem_append, not_or] at hq
    exact keep q hq.1 hq.2
  · intro q
    rw [v4 q, v3 q, val2 q]
  · rw [Heap.grad_of_getElem? hl4, Heap.grad_of_getElem? hp4]
  · rw [Heap.grad_of_getElem? hr4, Heap.grad_of_getElem? hp4]
  · exact bp3.congr_heap (fun q hq =>
      fr4 q (fun hq' => hdis hq (r.descendants_subset_addrs q hq')))
  · exact bp4

/-- The Nonlinearity case of `backprop_tree`. -/
theorem backprop_tree_nl {α : Type} [Ring α] (p : Nat) (x : NodeTree)
    (ih : (∀ (h : Heap α) (fuel : Nat), WF h x → x.addrs.Nodup → x.depth ≤ fuel →
      ∃ h', backprop fuel h (some x.root) = some h' ∧ h.SameShape h' ∧
        (∀ q, q ∉ x.descendants → h'[q]? = h[q]?) ∧ (∀ q, h'.value q = h.value q) ∧
        Backpropagated h' x)) :
    ∀ (h : Heap α) (fuel : Nat), WF h (NodeTree.nl p x) → (NodeTree.nl p x).addrs.Nodup → (NodeTree.nl p x).depth ≤ fuel →
      ∃ h', backprop fuel h (some (NodeTree.nl p x).root) = some h' ∧ h.SameShape h' ∧
        (∀ q, q ∉ (NodeTree.nl p x).descendants → h'[q]? = h[q]?) ∧ (∀ q, h'.value q = h.value q) ∧
        Backpropagated h' (NodeTree.nl p x) := by
  intro h fuel hw hnd hf
  obtain ⟨f, rfl⟩ : ∃ f, fuel = f + 1 := ⟨fuel - 1, by simp [NodeTree.depth] at hf; omega⟩
  simp only [NodeTree.depth, Nat.add_le_add_iff_right] at hf
  simp only [NodeTree.addrs, List.nodup_cons] at hnd
  obtain ⟨hpx, hndx⟩ := hnd
  obtain ⟨n, a, hn, ha, hty, hleft, hright, hok, c1, c2, wx⟩ := (WF_nl_iff h p x).mp hw
  obtain ⟨a', ha', hoka⟩ := wx.root_ok
  rw [ha] at ha'; cases ha'
  have hpxr : x.root ≠ p := by rintro rfl; exact hpx x.root_mem_addrs
  have hdl := mat_invnl_eq a.deriv n.matrix n.deriv n.matrix.rows n.matrix.cols
    ⟨by rw [hoka.2.1, c1], by rw [hoka.2.2.1, c2], by rw [hoka.2.2.2, c1, c2]⟩
    hok.1.hasShape hok.2
  obtain ⟨h1, eh1⟩ : ∃ h1 : Heap α,
      h1 = h.set x.root { a with deriv := n.matrix.invnl n.deriv } := ⟨_, rfl⟩
  have hset1 : h.setDeriv (some x.root) (n.matrix.invnl n.deriv) = some h1 := by
    rw [eh1]; exact h.setDeriv_eq _ ha
  have ha1 : h1[x.root]? = some { a with deriv := n.matrix.invnl n.deriv } := by
    rw [eh1]; exact List.getElem?_set_self_of_some ha
  have s1 : h.SameShape h1 := by
    rw [eh1]
    refine Heap.SameShape.set h ha ⟨rfl, rfl, rfl, rfl, rfl, rfl, ?_, ?_, ?_⟩
    · show n.matrix.rows = a.deriv.rows
      rw [hoka.2.1, c1]
    · show n.matrix.cols = a.deriv.cols
      rw [hoka.2.2.1, c2]
    · have hs : n.matrix.data.length = n.matrix.rows * n.matrix.cols := hok.1
      simp [mlmatrix.invnl, hoka.2.2.2, hok.2.2.2, hs, c1, c2]
  have val1 : ∀ q, h1.value q = h.value q := by
    intro q
    by_cases hqx : q = x.root
    · subst hqx
      rw [Heap.value_of_getElem? ha1, Heap.value_of_getElem? ha]
    · exact Heap.value_congr (by rw [eh1, List.getElem?_set_ne (fun e => hqx e.symm)])
  obtain ⟨h2, e2, s2, fr2, v2, bp2⟩ := ih h1 f (wx.sameShape s1) hndx hf
  have hx2 : h2[x.root]? = some { a with deriv := n.matrix.invnl n.deriv } := by
    rw [fr2 _ (x.root_not_mem_descendants hndx)]; exact ha1
  have keep : ∀ q, q ∉ x.addrs → h2[q]? = h[q]? := by
    intro q hq
    rw [fr2 q (fun hq' => hq (x.descendants_subset_addrs q hq')), eh1,
      List.getElem?_set_ne (by rintro rfl; exact hq x.root_mem_addrs)]
  have hp2 : h2[p]? = some n := by rw [keep p hpx]; exact hn
  refine ⟨h2, ?_, s1.trans s2, ?_, ?_, ?_, bp2⟩
  · rw [NodeTree.root, backprop]
    simp only [Heap.deref, hn, Option.bind_eq_bind, Option.some_bind, hty, hleft,
      ha, hdl, hset1, e2]
  · intro q hq
    simp only [NodeTree.descendants] at hq
    exact keep q hq
  · intro q
    rw [v2 q, val1 q]
  · rw [Heap.grad_of_getElem? hx2, Heap.grad_of_getElem? hp2, Heap.value_of_getElem? hp2]


/-! ## backprop on a tree -/

/-- The frame and the result of `backprop` on a well-formed tree whose addresses are
distinct: enough fuel gives a heap of the same shape in which every operand holds the
gradient its consumer routes to it, the values are the old ones, and every node that
is not below the root is untouched. -/
theorem backprop_tree {α : Type} [Ring α] (t : NodeTree) :
    ∀ (h : Heap α) (fuel : Nat), WF h t → t.addrs.Nodup → t.depth ≤ fuel →
      ∃ h', backprop fuel h (some t.root) = some h' ∧ h.SameShape h' ∧
        (∀ q, q ∉ t.descendants → h'[q]? = h[q]?) ∧ (∀ q, h'.value q = h.value q) ∧
        Backpropagated h' t := by
  induction t with
  | input p =>
    intro h fuel hw _ hf
    obtain ⟨n, hn, h1, -⟩ := (WF_input_iff h p).mp hw
    obtain ⟨f, rfl⟩ : ∃ f, fuel = f + 1 := ⟨fuel - 1, by simp [NodeTree.depth] at hf; omega⟩
    refine ⟨h, ?_, Heap.SameShape.refl h, fun _ _ => rfl, fun _ => rfl, trivial⟩
    rw [NodeTree.root, backprop]
    simp [Heap.deref, hn, h1]
  | param p =>
    intro h fuel hw _ hf
    obtain ⟨n, hn, h1, -⟩ := (WF_param_iff h p).mp hw
    obtain ⟨f, rfl⟩ : ∃ f, fuel = f + 1 := ⟨fuel - 1, by simp [NodeTree.depth] at hf; omega⟩
    refine ⟨h, ?_, Heap.SameShape.refl h, fun _ _ => rfl, fun _ => rfl, trivial⟩
    rw [NodeTree.root, backprop]
    simp [Heap.deref, hn, h1]
  | mul p l r ihl ihr => exact backprop_tree_mul p l r ihl ihr
  | add p l r ihl ihr => exact backprop_tree_add p l r ihl ihr
  | nl p x ih => exact backprop_tree_nl p x ih

/-! ## backprop at a leaf -/

theorem backprop_leaf {α : Type} [Zero α] [One α] [Add α] [Sub α] [Mul α] (fuel : Nat)
    (h : Heap α) {q : Nat} {m : node α} (hq : h[q]? = some m) (hm : m.IsLeaf) :
    backprop (fuel + 1) h (some q) = some h := by
  rw [backprop]
  rcases hm with hm | hm <;> simp [Heap.deref, hq, hm]

/-- The function `backprop` on an Add node over two leaves, which may be one and the same node:
both gradient buffers receive the node's gradient. -/
theorem backprop_add_leaves {α : Type} [Ring α] (h : Heap α) (p a b : Nat)
    (n na nb : node α) (rows cols fuel : Nat)
    (hn : h[p]? = some n) (hty : n.type = node_type.ADD_NODE)
    (hleft : n.left = some a) (hright : n.right = some b)
    (ha : h[a]? = some na) (hb : h[b]? = some nb) (hla : na.IsLeaf) (hlb : nb.IsLeaf)
    (hs : n.deriv.HasShape rows cols) (hsa : na.deriv.HasShape rows cols)
    (hsb : nb.deriv.HasShape rows cols) (hf : 2 ≤ fuel) :
    ∃ h', backprop fuel h (some p) = some h' ∧
      h'.grad a = n.deriv ∧ h'.grad b = n.deriv ∧ h'.grad p = n.deriv ∧
      h'.value p = n.matrix := by
  obtain ⟨f, rfl⟩ : ∃ f, fuel = f + 2 := ⟨fuel - 2, by omega⟩
  have hap : a ≠ p := by
    rintro rfl
    rw [hn] at ha; cases ha
    rcases hla with e | e <;> rw [hty] at e <;> cases e
  have hbp : b ≠ p := by
    rintro rfl
    rw [hn] at hb; cases hb
    rcases hlb with e | e <;> rw [hty] at e <;> cases e
  obtain ⟨h1, eh1⟩ : ∃ h1 : Heap α, h1 = h.set a { na with deriv := n.deriv } := ⟨_, rfl⟩
  have hset1 : h.setDeriv (some a) n.deriv = some h1 := by
    rw [eh1]; exact h.setDeriv_eq _ ha
  have hn1 : h1[p]? = some n := by rw [eh1, List.getElem?_set_ne hap]; exact hn
  have ha1 : h1[a]? = some { na with deriv := n.deriv } := by
    rw [eh1]; exact List.getElem?_set_self_of_some ha
  obtain ⟨nb1, hb1, hlb1, hsb1⟩ : ∃ nb1, h1[b]? = some nb1 ∧ nb1.IsLeaf ∧
      nb1.deriv.HasShape rows cols := by
    by_cases hab : a = b
    · subst hab
      exact ⟨_, ha1, hla, hs⟩
    · exact ⟨nb, by rw [eh1, List.getElem?_set_ne hab]; exact hb, hlb, hsb⟩
  obtain ⟨h2, eh2⟩ : ∃ h2 : Heap α, h2 = h1.set b { nb1 with deriv := n.deriv } := ⟨_, rfl⟩
  have hset2 : h1.setDeriv (some b) n.deriv = some h2 := by
    rw [eh2]; exact h1.setDeriv_eq _ hb1
  have hb2 : h2[b]? = some { nb1 with deriv := n.deriv } := by
    rw [eh2]; exact List.getElem?_set_self_of_some hb1
  have hn2 : h2[p]? = some n := by rw [eh2, List.getElem?_set_ne hbp]; exact hn1
  obtain ⟨na2, ha2, hla2, hda2⟩ : ∃ na2, h2[a]? = some na2 ∧ na2.IsLeaf ∧
      na2.deriv = n.deriv := by
    by_cases hab : a = b
    · subst hab
      exact ⟨_, hb2, hlb1, rfl⟩
    · exact ⟨{ na with deriv := n.deriv },
        by rw [eh2, List.getElem?_set_ne (fun e => hab e.symm)]; exact ha1, hla, rfl⟩
  refine ⟨h2, ?_, ?_, ?_, ?_, ?_⟩
  · rw [backprop]
    simp only [Heap.deref, hn, Option.bind_eq_bind, Option.some_bind, hty, hleft, hright, ha,
      mat_copy_eq _ _ rows cols hsa hs, hset1, hn1, hb1, mat_copy_eq _ _ rows cols hsb1 hs,
      hset2, backprop_leaf f h2 ha2 hla2, backprop_leaf f h2 hb2 hlb1]
  · rw [Heap.grad_of_getElem? ha2, hda2]
  · rw [Heap.grad_of_getElem? hb2]
  · rw [Heap.grad_of_getElem? hn2]
  · rw [Heap.value_of_getElem? hn2]


theorem zipWith_add_self_eq {α : Type} [AddGroup α] :
    ∀ l : List α, List.zipWith (· + ·) l l = l → ∀ v, v ∈ l → v = 0 := by
  intro l
  induction l with
  | nil => intro _ v hv; cases hv
  | cons x xs ih =>
    intro hl v hv
    simp only [List.zipWith_cons_cons, List.cons.injEq, add_right_eq_self] at hl
    rcases List.mem_cons.mp hv with e | e
    · rw [e]; exact hl.1
    · exact ih hl.2 v e


/-! ## update_weights on a tree -/

theorem update_weights_null {α : Type} [Sub α] [Mul α] [OfScientific α] (fuel : Nat)
    (h : Heap α) : update_weights fuel h none = some h := by
  cases fuel <;> simp [update_weights]

theorem NodeTree.params_subset_leaves (t : NodeTree) : ∀ q, q ∈ t.params → q ∈ t.leaves := by
  induction t with
  | input p => simp [NodeTree.params]
  | param p => simp [NodeTree.params, NodeTree.leaves]
  | mul p l r ihl ihr =>
    intro q hq
    simp only [NodeTree.params, NodeTree.leaves, List.mem_append] at hq ⊢
    exact hq.imp (ihl q) (ihr q)
  | add p l r ihl ihr =>
    intro q hq
    simp only [NodeTree.params, NodeTree.leaves, List.mem_append] at hq ⊢
    exact hq.imp (ihl q) (ihr q)
  | nl p x ih =>
    intro q hq
    simp only [NodeTree.params, NodeTree.leaves] at hq ⊢
    exact ih q hq

theorem NodeTree.params_subset_addrs (t : NodeTree) : ∀ q, q ∈ t.params → q ∈ t.addrs :=
  fun q hq => t.leaves_subset_addrs q (t.params_subset_leaves q hq)

theorem mat_param_update_eq {α : Type} [Zero α] [Sub α] [Mul α] (m g : mlmatrix α) (rate : α)
    (r c : Nat) (hm : m.HasShape r c) (hg : g.HasShape r c) :
    mat_param_update m g rate = some (m.step g rate) := by
  rw [mat_param_update_ok m g rate hm.sized (by rw [hg.2.2, hm.2.2])]
  rfl

/-- The frame and the result of `update_weights` on a well-formed tree whose addresses
are distinct: enough fuel gives a heap of the same shape in which every Parameter node
of the tree has taken one step against its gradient, every other node is untouched
and the gradients are the old ones. -/
theorem update_weights_tree {α : Type} [Field α] (t : NodeTree) :
    ∀ (h : Heap α) (fuel : Nat), WF h t → t.addrs.Nodup → t.depth ≤ fuel →
      ∃ h', update_weights fuel h (some t.root) = some h' ∧ h.SameShape h' ∧
        (∀ q, q ∉ t.params → h'[q]? = h[q]?) ∧ (∀ q, h'.grad q = h.grad q) ∧
        (∀ q, q ∈ t.params → h'.value q = (h.value q).step (h.grad q) LEARNING_RATE) := by
  induction t with
  | input p =>
    intro h fuel hw _ hf
    obtain ⟨n, hn, h1, h2, h3, -⟩ := (WF_input_iff h p).mp hw
    obtain ⟨f, rfl⟩ : ∃ f, fuel = f + 1 := ⟨fuel - 1, by simp [NodeTree.depth] at hf; omega⟩
    refine ⟨h, ?_, Heap.SameShape.refl h, fun _ _ => rfl, fun _ => rfl, ?_⟩
    · rw [NodeTree.root, update_weights]
      simp [hn, h1, h2, h3, update_weights_null]
    · intro q hq
      simp [NodeTree.params] at hq
  | param p =>
    intro h fuel hw _ hf
    obtain ⟨n, hn, h1, h2, h3, hok⟩ := (WF_param_iff h p).mp hw
    obtain ⟨f, rfl⟩ : ∃ f, fuel = f + 1 := ⟨fuel - 1, by simp [NodeTree.depth] at hf; omega⟩
    have hm := mat_param_update_eq n.matrix n.deriv LEARNING_RATE _ _ hok.1.hasShape hok.2
    refine ⟨h.set p { n with matrix := n.matrix.step n.deriv LEARNING_RATE }, ?_, ?_, ?_, ?_, ?_⟩
    · rw [NodeTree.root, update_weights]
      simp only [hn, Option.bind_eq_bind, Option.some_bind, h1, if_true, hm,
        h.setMatrix_eq _ hn, h2, h3, update_weights_null]
    · refine Heap.SameShape.set h hn ⟨rfl, rfl, rfl, rfl, rfl, ?_, rfl, rfl, rfl⟩
      have hs : n.matrix.data.length = n.matrix.rows * n.matrix.cols := hok.1
      simp [mlmatrix.step, hok.2.2.2, hs]
    · intro q hq
      simp only [NodeTree.params, List.mem_singleton] at hq
      exact List.getElem?_set_ne (fun e => hq e.symm)
    · intro q
      by_cases hqp : q = p
      · subst hqp
        rw [Heap.grad_of_getElem? (List.getElem?_set_self_of_some hn),
          Heap.grad_of_getElem? hn]
      · exact Heap.grad_congr (List.getElem?_set_ne (fun e => hqp e.symm))
    · intro q hq
      simp only [NodeTree.params, List.mem_singleton] at hq
      subst hq
      rw [Heap.value_of_getElem? (List.getElem?_set_self_of_some hn),
        Heap.value_of_getElem? hn, Heap.grad_of_getElem? hn]
  | mul p l r ihl ihr =>
    intro h fuel hw hnd hf
    obtain ⟨f, rfl⟩ : ∃ f, fuel = f + 1 := ⟨fuel - 1, by simp [NodeTree.depth] at hf; omega⟩
    simp only [NodeTree.depth, Nat.add_le_add_iff_right, max_le_iff] at hf
    simp only [NodeTree.addrs, List.nodup_cons, List.nodup_append, List.mem_append,
      not_or] at hnd
    obtain ⟨-, hndl, hndr, hdis⟩ := hnd
    obtain ⟨n, a, b, hn, -, -, hty, hleft, hright, -, -, -, -, wl, wr⟩ :=
      (WF_mul_iff h p l r).mp hw
    obtain ⟨h1, e1, s1, fr1, g1, u1⟩ := ihl h f wl hndl hf.1
    obtain ⟨h2, e2, s2, fr2, g2, u2⟩ := ihr h1 f (wr.sameShape s1) hndr hf.2
    refine ⟨h2, ?_, s1.trans s2, ?_, ?_, ?_⟩
    · rw [NodeTree.root, update_weights]
      simp [hn, hty, hleft, hright, e1, e2]
    · intro q hq
      simp only [NodeTree.params, List.mem_append, not_or] at hq
      rw [fr2 q hq.2, fr1 q hq.1]
    · intro q
      rw [g2 q, g1 q]
    · intro q hq
      simp only [NodeTree.params, List.mem_append] at hq
      rcases hq with hq | hq
      · rw [Heap.value_congr (fr2 q (fun hq' =>
          hdis (l.params_subset_addrs q hq) (r.params_subset_addrs q hq'))), u1 q hq]
      · rw [u2 q hq, Heap.value_congr (fr1 q (fun hq' =>
          hdis (l.params_subset_addrs q hq') (r.params_subset_addrs q hq))), g1 q]
  | add p l r ihl ihr =>
    intro h fuel hw hnd hf
    obtain ⟨f, rfl⟩ : ∃ f, fuel = f + 1 := ⟨fuel - 1, by simp [NodeTree.depth] at hf; omega⟩
    simp only [NodeTree.depth, Nat.add_le_add_iff_right, max_le_iff] at hf
    simp only [NodeTree.addrs, List.nodup_cons, List.nodup_append, List.mem_append,
      not_or] at hnd
    obtain ⟨-, hndl, hndr, hdis⟩ := hnd
    obtain ⟨n, a, b, hn, -, -, hty, hleft, hright, -, -, -, -, -, wl, wr⟩ :=
      (WF_add_iff h p l r).mp hw
    obtain ⟨h1, e1, s1, fr1, g1, u1⟩ := ihl h f wl hndl hf.1
    obtain ⟨h2, e2, s2, fr2, g2, u2⟩ := ihr h1 f (wr.sameShape s1) hndr hf.2
    refine ⟨h2, ?_, s1.trans s2, ?_, ?_, ?_⟩
    · rw [NodeTree.root, update_weights]
      simp [hn, hty, hleft, hright, e1, e2]
    · intro q hq
      simp only [NodeTree.params, List.mem_append, not_or] at hq
      rw [fr2 q hq.2, fr1 q hq.1]
    · intro q
      rw [g2 q, g1 q]
    · intro q hq
      simp only [NodeTree.params, List.mem_append] at hq
      rcases hq with hq | hq
      · rw [Heap.value_congr (fr2 q (fun hq' =>
          hdis (l.params_subset_addrs q hq) (r.params_subset_addrs q hq'))), u1 q hq]
      · rw [u2 q hq, Heap.value_congr (fr1 q (fun hq' =>
          hdis (l.params_subset_addrs q hq') (r.params_subset_addrs q hq))), g1 q]
  | nl p x ih =>
    intro h fuel hw hnd hf
    obtain ⟨f, rfl⟩ : ∃ f, fuel = f + 1 := ⟨fuel - 1, by simp [NodeTree.depth] at hf; omega⟩
    simp only [NodeTree.depth, Nat.add_le_add_iff_right] at hf
    simp only [NodeTree.addrs, List.nodup_cons] at hnd
    obtain ⟨n, a, hn, -, hty, hleft, hright, -, -, -, wx⟩ := (WF_nl_iff h p x).mp hw
    obtain ⟨h1, e1, s1, fr1, g1, u1⟩ := ih h f wx hnd.2 hf
    refine ⟨h1, ?_, s1, fr1, g1, u1⟩
    rw [NodeTree.root, update_weights]
    simp [hn, hty, hleft, hright, e1, update_weights_null]

/-- Every node of a well-formed tree is allocated and has sound buffers. -/
theorem WF.node_ok {α : Type} {h : Heap α} {t : NodeTree} (hw : WF h t) :
    ∀ q, q ∈ t.addrs → ∃ n, h[q]? = some n ∧ n.Ok := by
  induction t with
  | input p =>
    intro q hq
    simp only [NodeTree.addrs, List.mem_singleton] at hq
    subst hq
    exact hw.root_ok
  | param p =>
    intro q hq
    simp only [NodeTree.addrs, List.mem_singleton] at hq
    subst hq
    exact hw.root_ok
  | mul p l r ihl ihr =>
    intro q hq
    obtain ⟨n, a, b, hn, -, -, -, -, -, hok, -, -, -, wl, wr⟩ := (WF_mul_iff h p l r).mp hw
    simp only [NodeTree.addrs, List.mem_cons, List.mem_append] at hq
    rcases hq with rfl | hq | hq
    · exact ⟨n, hn, hok⟩
    · exact ihl wl q hq
    · exact ihr wr q hq
  | add p l r ihl ihr =>
    intro q hq
    obtain ⟨n, a, b, hn, -, -, -, -, -, hok, -, -, -, -, wl, wr⟩ := (WF_add_iff h p l r).mp hw
    simp only [NodeTree.addrs, List.mem_cons, List.mem_append] at hq
    rcases hq with rfl | hq | hq
    · exact ⟨n, hn, hok⟩
    · exact ihl wl q hq
    · exact ihr wr q hq
  | nl p x ih =>
    intro q hq
    obtain ⟨n, a, hn, -, -, -, -, hok, -, -, wx⟩ := (WF_nl_iff h p x).mp hw
    simp only [NodeTree.addrs, List.mem_cons] at hq
    rcases hq with rfl | hq
    · exact ⟨n, hn, hok⟩
    · exact ih wx q hq

/-! ## Perturbing one entry of a leaf -/

theorem Heap.SameShape.value_shape {α : Type} {h h' : Heap α} (hs : h.SameShape h')
    (p : Nat) : (h'.value p).rows = (h.value p).rows ∧ (h'.value p).cols = (h.value p).cols ∧
      (h'.value p).data.length = (h.value p).data.length := by
  cases hp : h[p]? with
  | none =>
    have hp' : h'[p]? = none := by
      rw [List.getElem?_eq_none_iff] at hp ⊢
      rw [hs.1]; exact hp
    simp [Heap.value, hp, hp']
  | some n =>
    obtain ⟨n', hn', s⟩ := hs.exists hp
    rw [Heap.value_of_getElem? hn', Heap.value_of_getElem? hp]
    exact ⟨s.2.2.2.1, s.2.2.2.2.1, s.2.2.2.2.2.1⟩

theorem Heap.perturb_sameShape {α : Type} (h : Heap α) (q a b : Nat) (x : α) :
    h.SameShape (h.perturb q a b x) := by
  unfold Heap.perturb
  cases hq : h[q]? with
  | none => exact Heap.SameShape.refl h
  | some n =>
    exact Heap.SameShape.set h hq ⟨rfl, rfl, rfl, rfl, rfl, by simp, rfl, rfl, rfl⟩

theorem Heap.perturb_value_ne {α : Type} (h : Heap α) (q a b : Nat) (x : α) {p : Nat}
    (hp : p ≠ q) : (h.perturb q a b x).value p = h.value p := by
  unfold Heap.perturb
  cases hq : h[q]? with
  | none => rfl
  | some n => exact Heap.value_congr (List.getElem?_set_ne (fun e => hp e.symm))

theorem Heap.perturb_value_eq {α : Type} (h : Heap α) (q a b : Nat) (x : α) :
    (h.perturb q a b x).value q =
      { h.value q with data := (h.value q).data.set (a * (h.value q).cols + b) x } := by
  unfold Heap.perturb
  cases hq : h[q]? with
  | none => simp [Heap.value, hq]
  | some n =>
    rw [Heap.value_of_getElem? (List.getElem?_set_self_of_some hq), Heap.value_of_getElem? hq]

theorem Heap.perturb_value_self {α : Type} [Zero α] (h : Heap α) (q a b : Nat) (p : Nat) :
    (h.perturb q a b ((h.value q).entry a b)).value p = h.value p := by
  by_cases hp : p = q
  · subst hp
    rw [Heap.perturb_value_eq]
    have : (h.value p).data.set (a * (h.value p).cols + b) ((h.value p).entry a b) =
        (h.value p).data := by
      apply List.ext_getElem?
      intro k
      rw [List.getElem?_set]
      by_cases hk : a * (h.value p).cols + b = k
      · subst hk
        rw [if_pos rfl]
        split
        · next hlt => simp [mlmatrix.entry, List.getElem?_eq_getElem hlt]
        · next hge => rw [List.getElem?_eq_none (by omega)]
      · rw [if_neg hk]
    rw [this]
  · exact Heap.perturb_value_ne h q a b _ hp

/-! ## The shape of the evaluation -/

theorem mlmatrix.add_hasShape {α : Type} [Add α] {x y : mlmatrix α} {r c : Nat}
    (hx : x.HasShape r c) (hy : y.HasShape r c) : (x.add y).HasShape r c := by
  obtain ⟨h1, h2, h3⟩ := hx
  exact ⟨h1, h2, by simp [mlmatrix.add, h3, hy.2.2]⟩

theorem mlmatrix.map_hasShape {α : Type} (f : α → α) {x : mlmatrix α} {r c : Nat}
    (hx : x.HasShape r c) : (x.map f).HasShape r c := by
  obtain ⟨h1, h2, h3⟩ := hx
  exact ⟨h1, h2, by simp [mlmatrix.map, h3]⟩

/-- The evaluation of a well-formed tree has the shape of the value of its root. -/
theorem NodeTree.eval_hasShape {α : Type} [Field α] (exp : α → α) {h : Heap α}
    {t : NodeTree} (hw : WF h t) :
    (t.eval exp h).HasShape (h.value t.root).rows (h.value t.root).cols := by
  induction t with
  | input p =>
    obtain ⟨n, hn, -, -, -, hok⟩ := (WF_input_iff h p).mp hw
    simp only [NodeTree.eval, NodeTree.root, Heap.value_of_getElem? hn]
    exact hok.1.hasShape
  | param p =>
    obtain ⟨n, hn, -, -, -, hok⟩ := (WF_param_iff h p).mp hw
    simp only [NodeTree.eval, NodeTree.root, Heap.value_of_getElem? hn]
    exact hok.1.hasShape
  | mul p l r ihl ihr =>
    obtain ⟨n, a, b, hn, ha, hb, -, -, -, -, -, c2, c3, wl, wr⟩ := (WF_mul_iff h p l r).mp hw
    have hl := ihl wl
    have hr := ihr wr
    rw [Heap.value_of_getElem? ha] at hl
    rw [Heap.value_of_getElem? hb] at hr
    simp only [NodeTree.eval, NodeTree.root, Heap.value_of_getElem? hn]
    have := mlmatrix.mul_hasShape (l.eval exp h) (r.eval exp h)
    rw [hl.1, hr.2.1, ← c2, ← c3] at this
    exact this
  | add p l r ihl ihr =>
    obtain ⟨n, a, b, hn, ha, hb, -, -, -, -, c1, c2, c3, c4, wl, wr⟩ :=
      (WF_add_iff h p l r).mp hw
    have hl := ihl wl
    have hr := ihr wr
    rw [Heap.value_of_getElem? ha] at hl
    rw [Heap.value_of_getElem? hb, c3, c4] at hr
    simp only [NodeTree.eval, NodeTree.root, Heap.value_of_getElem? hn]
    rw [c1, c2]
    exact mlmatrix.add_hasShape hl hr
  | nl p x ih =>
    obtain ⟨n, a, hn, ha, -, -, -, -, c1, c2, wx⟩ := (WF_nl_iff h p x).mp hw
    have hx := ih wx
    rw [Heap.value_of_getElem? ha] at hx
    simp only [NodeTree.eval, NodeTree.root, Heap.value_of_getElem? hn]
    rw [c1, c2]
    exact mlmatrix.map_hasShape _ hx

/-- Perturbing an entry of a leaf does not change the shape of the evaluation. -/
theorem NodeTree.eval_perturb_hasShape {α : Type} [Field α] (exp : α → α) {h : Heap α}
    {t : NodeTree} (hw : WF h t) (q a b : Nat) (x : α) :
    (t.eval exp (h.perturb q a b x)).HasShape (h.value t.root).rows (h.value t.root).cols := by
  have hs := Heap.perturb_sameShape h q a b x
  have := NodeTree.eval_hasShape exp (hw.sameShape hs)
  rw [(hs.value_shape t.root).1, (hs.value_shape t.root).2.1] at this
  exact this

/-! ## Entries of the matrix operations -/

theorem mlmatrix.HasShape.entry_eq {α : Type} [Zero α] {m : mlmatrix α} {r c : Nat}
    (hm : m.HasShape r c) {i j : Nat} (hi : i < r) (hj : j < c) :
    ∃ hlt : i * c + j < m.data.length, m.entry i j = m.data[i * c + j] := by
  obtain ⟨-, h2, h3⟩ := hm
  have hlt : i * c + j < m.data.length := by rw [h3]; exact idx_lt hi hj
  exact ⟨hlt, by simp [mlmatrix.entry, h2, List.getElem?_eq_getElem hlt]⟩

theorem mlmatrix.entry_zipWith {α : Type} [Zero α] (f : α → α → α) {x y z : mlmatrix α}
    {r c : Nat} (hx : x.HasShape r c) (hy : y.HasShape r c) (hzc : z.cols = c)
    (hz : z.data = List.zipWith f x.data y.data) {i j : Nat} (hi : i < r) (hj : j < c) :
    z.entry i j = f (x.entry i j) (y.entry i j) := by
  obtain ⟨hxl, hxe⟩ := hx.entry_eq hi hj
  obtain ⟨hyl, hye⟩ := hy.entry_eq hi hj
  rw [hxe, hye]
  simp [mlmatrix.entry, hzc, hz, List.getElem?_zipWith, List.getElem?_eq_getElem hxl,
    List.getElem?_eq_getElem hyl]

theorem mlmatrix.add_entry {α : Type} [Zero α] [Add α] {x y : mlmatrix α} {r c : Nat}
    (hx : x.HasShape r c) (hy : y.HasShape r c) {i j : Nat} (hi : i < r) (hj : j < c) :
    (x.add y).entry i j = x.entry i j + y.entry i j :=
  mlmatrix.entry_zipWith (z := x.add y) (· + ·) hx hy hx.2.1 rfl hi hj

theorem mlmatrix.invnl_entry {α : Type} [Zero α] [One α] [Sub α] [Mul α] {y g : mlmatrix α}
    {r c : Nat} (hy : y.HasShape r c) (hg : g.HasShape r c) {i j : Nat} (hi : i < r)
    (hj : j < c) : (y.invnl g).entry i j = g.entry i j * y.entry i j * (1 - y.entry i j) :=
  mlmatrix.entry_zipWith (z := y.invnl g) (fun d v => d * v * (1 - v)) hg hy hy.2.1 rfl hi hj

theorem mlmatrix.invnl_hasShape {α : Type} [One α] [Sub α] [Mul α] {y g : mlmatrix α}
    {r c : Nat} (hy : y.HasShape r c) (hg : g.HasShape r c) : (y.invnl g).HasShape r c := by
  obtain ⟨h1, h2, h3⟩ := hy
  exact ⟨h1, h2, by simp [mlmatrix.invnl, h3, hg.2.2]⟩

theorem mlmatrix.map_entry {α : Type} [Zero α] (f : α → α) {x : mlmatrix α} {r c : Nat}
    (hx : x.HasShape r c) {i j : Nat} (hi : i < r) (hj : j < c) :
    (x.map f).entry i j = f (x.entry i j) := by
  obtain ⟨hxl, hxe⟩ := hx.entry_eq hi hj
  rw [hxe]
  simp [mlmatrix.entry, mlmatrix.map, hx.2.1, List.getElem?_map, List.getElem?_eq_getElem hxl]

theorem mlmatrix.unitAt_hasShape {α : Type} [Zero α] [One α] {m : mlmatrix α} {r c : Nat}
    (hm : m.HasShape r c) (a b : Nat) : (m.unitAt a b).HasShape r c := by
  obtain ⟨h1, h2, h3⟩ := hm
  exact ⟨h1, h2, by simp [mlmatrix.unitAt, h3]⟩

theorem mlmatrix.zeroLike_hasShape {α : Type} [Zero α] {m : mlmatrix α} {r c : Nat}
    (hm : m.HasShape r c) : m.zeroLike.HasShape r c := by
  obtain ⟨h1, h2, h3⟩ := hm
  exact ⟨h1, h2, by simp [mlmatrix.zeroLike, h3]⟩

theorem mlmatrix.unitAt_entry {α : Type} [Zero α] [One α] {m : mlmatrix α} {r c : Nat}
    (hm : m.HasShape r c) (a b : Nat) {i j : Nat} (hi : i < r) (hj : j < c) :
    (m.unitAt a b).entry i j = if i * c + j = a * c + b then 1 else 0 := by
  obtain ⟨hlt, -⟩ := hm.entry_eq hi hj
  simp [mlmatrix.entry, mlmatrix.unitAt, hm.2.1, List.getElem?_map, List.getElem?_range hlt]

theorem mlmatrix.zeroLike_entry {α : Type} [Zero α] (m : mlmatrix α) (i j : Nat) :
    m.zeroLike.entry i j = 0 := by
  simp only [mlmatrix.entry, mlmatrix.zeroLike, List.getElem?_replicate]
  split <;> rfl

/-- The tangent of a well-formed tree has the shape of the value of its root. -/
theorem NodeTree.tangent_hasShape {α : Type} [Field α] (exp : α → α) {h : Heap α}
    {t : NodeTree} (hw : WF h t) (q a b : Nat) :
    (t.tangent exp h q a b).HasShape (h.value t.root).rows (h.value t.root).cols := by
  induction t with
  | input p =>
    have hs := NodeTree.eval_hasShape exp hw
    simp only [NodeTree.eval, NodeTree.root] at hs
    simp only [NodeTree.tangent, NodeTree.root]
    split
    · exact mlmatrix.unitAt_hasShape hs a b
    · exact mlmatrix.zeroLike_hasShape hs
  | param p =>
    have hs := NodeTree.eval_hasShape exp hw
    simp only [NodeTree.eval, NodeTree.root] at hs
    simp only [NodeTree.tangent, NodeTree.root]
    split
    · exact mlmatrix.unitAt_hasShape hs a b
    · exact mlmatrix.zeroLike_hasShape hs
  | mul p l r ihl ihr =>
    obtain ⟨n, na, nb, hn, ha, hb, -, -, -, -, c1, c2, c3, wl, wr⟩ :=
      (WF_mul_iff h p l r).mp hw
    have hl := ihl wl
    have hr := ihr wr
    have el := NodeTree.eval_hasShape exp wl
    have er := NodeTree.eval_hasShape exp wr
    rw [Heap.value_of_getElem? ha] at hl el
    rw [Heap.value_of_getElem? hb] at hr er
    simp only [NodeTree.tangent, NodeTree.root, Heap.value_of_getElem? hn]
    have s1 := mlmatrix.mul_hasShape (l.tangent exp h q a b) (r.eval exp h)
    have s2 := mlmatrix.mul_hasShape (l.eval exp h) (r.tangent exp h q a b)
    rw [hl.1, er.2.1, ← c2, ← c3] at s1
    rw [el.1, hr.2.1, ← c2, ← c3] at s2
    exact mlmatrix.add_hasShape s1 s2
  | add p l r ihl ihr =>
    obtain ⟨n, na, nb, hn, ha, hb, -, -, -, -, c1, c2, c3, c4, wl, wr⟩ :=
      (WF_add_iff h p l r).mp hw
    have hl := ihl wl
    have hr := ihr wr
    rw [Heap.value_of_getElem? ha] at hl
    rw [Heap.value_of_getElem? hb, c3, c4] at hr
    simp only [NodeTree.tangent, NodeTree.root, Heap.value_of_getElem? hn]
    rw [c1, c2]
    exact mlmatrix.add_hasShape hl hr
  | nl p x ih =>
    obtain ⟨n, na, hn, ha, -, -, -, -, c1, c2, wx⟩ := (WF_nl_iff h p x).mp hw
    have hx := ih wx
    have ey := NodeTree.eval_hasShape exp hw
    rw [Heap.value_of_getElem? ha, ← c1, ← c2] at hx
    simp only [NodeTree.root, Heap.value_of_getElem? hn] at ey ⊢
    simp only [NodeTree.tangent]
    exact ⟨ey.1, ey.2.1, by simp [ey.2.2, hx.2.2]⟩

/-! ## Forward mode: the tangent is the derivative of the evaluation -/

theorem hasDerivAt_sigmoid (v : ℝ) :
    HasDerivAt (sigmoid Real.exp) (sigmoid Real.exp v * (1 - sigmoid Real.exp v)) v := by
  have hpos : (1 + Real.exp (-v)) ≠ 0 := by positivity
  have h1 : HasDerivAt (fun y : ℝ => 1 + Real.exp (-y)) (-Real.exp (-v)) v := by
    have := ((hasDerivAt_neg v).exp).const_add 1
    simpa using this
  have h2 := h1.inv hpos
  have h3 : sigmoid Real.exp = fun y : ℝ => (1 + Real.exp (-y))⁻¹ := by
    funext y
    simp [sigmoid]
  rw [h3]
  convert h2 using 1
  field_simp
  ring

/-- The value of a leaf, as a function of the perturbed entry. -/
theorem Heap.hasDerivAt_leaf_entry (h : Heap ℝ) (q a b p : Nat) {r c : Nat}
    (hs : (h.value p).HasShape r c) {i j : Nat} (hi : i < r) (hj : j < c) (x0 : ℝ) :
    HasDerivAt (fun x => ((h.perturb q a b x).value p).entry i j)
      ((if p = q then (h.value p).unitAt a b else (h.value p).zeroLike).entry i j) x0 := by
  by_cases hpq : p = q
  · subst hpq
    rw [if_pos rfl, mlmatrix.unitAt_entry hs a b hi hj]
    obtain ⟨hlt, -⟩ := hs.entry_eq hi hj
    have hfun : (fun x => ((h.perturb p a b x).value p).entry i j) =
        fun x => if i * c + j = a * c + b then x else (h.value p).entry i j := by
      funext x
      rw [Heap.perturb_value_eq]
      simp only [mlmatrix.entry, hs.2.1, List.getElem?_set]
      by_cases hk : a * c + b = i * c + j
      · rw [if_pos hk, if_pos hk.symm, if_pos (by omega)]
        rfl
      · rw [if_neg hk, if_neg (fun e => hk e.symm)]
    rw [hfun]
    by_cases hk : i * c + j = a * c + b
    · simp only [if_pos hk]
      exact hasDerivAt_id x0
    · simp only [if_neg hk]
      exact hasDerivAt_const x0 _
  · rw [if_neg hpq, mlmatrix.zeroLike_entry]
    have hfun : (fun x => ((h.perturb q a b x).value p).entry i j) =
        fun _ => (h.value p).entry i j := by
      funext x
      rw [Heap.perturb_value_ne h q a b x hpq]
    rw [hfun]
    exact hasDerivAt_const x0 _

/-- Forward mode is sound: every entry of the evaluation of a well-formed tree, as a
function of entry `(a,b)` of the leaf at `q`, has the matching entry of the tangent as
its derivative at the current value of that entry. -/
theorem NodeTree.hasDerivAt_eval_entry (h : Heap ℝ) (q a b : Nat) (t : NodeTree)
    (hw : WF h t) :
    ∀ i j, i < (h.value t.root).rows → j < (h.value t.root).cols →
      HasDerivAt (fun x => (t.eval Real.exp (h.perturb q a b x)).entry i j)
        ((t.tangent Real.exp h q a b).entry i j) ((h.value q).entry a b) := by
  have hself : ∀ s : NodeTree,
      s.eval Real.exp (h.perturb q a b ((h.value q).entry a b)) = s.eval Real.exp h :=
    fun s => NodeTree.eval_congr Real.exp (fun p _ => Heap.perturb_value_self h q a b p)
  induction t with
  | input p =>
    intro i j hi hj
    have hs := NodeTree.eval_hasShape Real.exp hw
    exact Heap.hasDerivAt_leaf_entry h q a b p hs hi hj _
  | param p =>
    intro i j hi hj
    have hs := NodeTree.eval_hasShape Real.exp hw
    exact Heap.hasDerivAt_leaf_entry h q a b p hs hi hj _
  | mul p l r ihl ihr =>
    intro i j hi hj
    obtain ⟨n, na, nb, hn, ha, hb, -, -, -, -, c1, c2, c3, wl, wr⟩ :=
      (WF_mul_iff h p l r).mp hw
    simp only [NodeTree.root, Heap.value_of_getElem? hn] at hi hj
    have sl := fun x => NodeTree.eval_perturb_hasShape Real.exp wl q a b x
    have sr := fun x => NodeTree.eval_perturb_hasShape Real.exp wr q a b x
    have tl := NodeTree.tangent_hasShape Real.exp wl q a b
    have tr := NodeTree.tangent_hasShape Real.exp wr q a b
    have el := NodeTree.eval_hasShape Real.exp wl
    have er := NodeTree.eval_hasShape Real.exp wr
    have dl := ihl wl
    have dr := ihr wr
    rw [Heap.value_of_getElem? ha] at sl tl el dl
    rw [Heap.value_of_getElem? hb] at sr tr er dr
    have hfun : (fun x => ((NodeTree.mul p l r).eval Real.exp (h.perturb q a b x)).entry i j) =
        fun x => ∑ k in Finset.range na.matrix.cols,
          (l.eval Real.exp (h.perturb q a b x)).entry i k *
            (r.eval Real.exp (h.perturb q a b x)).entry k j := by
      funext x
      simp only [NodeTree.eval]
      rw [mlmatrix.mul_entry_eq _ _ (by rw [(sl x).1, ← c2]; exact hi)
        (by rw [(sr x).2.1, ← c3]; exact hj), (sl x).2.1]
    have htan : ((NodeTree.mul p l r).tangent Real.exp h q a b).entry i j =
        ∑ k in Finset.range na.matrix.cols,
          ((l.tangent Real.exp h q a b).entry i k * (r.eval Real.exp h).entry k j +
            (l.eval Real.exp h).entry i k * (r.tangent Real.exp h q a b).entry k j) := by
      simp only [NodeTree.tangent]
      have s1 := mlmatrix.mul_hasShape (l.tangent Real.exp h q a b) (r.eval Real.exp h)
      have s2 := mlmatrix.mul_hasShape (l.eval Real.exp h) (r.tangent Real.exp h q a b)
      rw [tl.1, er.2.1] at s1
      rw [el.1, tr.2.1] at s2
      rw [mlmatrix.add_entry s1 s2 (by rw [← c2]; exact hi) (by rw [← c3]; exact hj),
        mlmatrix.mul_entry_eq _ _ (by rw [tl.1, ← c2]; exact hi) (by rw [er.2.1, ← c3]; exact hj),
        mlmatrix.mul_entry_eq _ _ (by rw [el.1, ← c2]; exact hi) (by rw [tr.2.1, ← c3]; exact hj),
        tl.2.1, el.2.1, Finset.sum_add_distrib]
    rw [hfun, htan]
    apply HasDerivAt.sum
    intro k hk
    have hk' : k < na.matrix.cols := Finset.mem_range.mp hk
    have d1 := dl i k (by rw [← c2]; exact hi) hk'
    have d2 := dr k j (by rw [← c1]; exact hk') (by rw [← c3]; exact hj)
    have := d1.mul d2
    rw [hself l, hself r] at this
    exact this
  | add p l r ihl ihr =>
    intro i j hi hj
    obtain ⟨n, na, nb, hn, ha, hb, -, -, -, -, c1, c2, c3, c4, wl, wr⟩ :=
      (WF_add_iff h p l r).mp hw
    simp only [NodeTree.root, Heap.value_of_getElem? hn] at hi hj
    have sl := fun x => NodeTree.eval_perturb_hasShape Real.exp wl q a b x
    have sr := fun x => NodeTree.eval_perturb_hasShape Real.exp wr q a b x
    have tl := NodeTree.tangent_hasShape Real.exp wl q a b
    have tr := NodeTree.tangent_hasShape Real.exp wr q a b
    have dl := ihl wl
    have dr := ihr wr
    rw [Heap.value_of_getElem? ha] at sl tl dl
    rw [Heap.value_of_getElem? hb, c3, c4] at sr tr
    rw [Heap.value_of_getElem? hb] at dr
    have hi' : i < na.matrix.rows := by rw [← c1]; exact hi
    have hj' : j < na.matrix.cols := by rw [← c2]; exact hj
    have hfun : (fun x => ((NodeTree.add p l r).eval Real.exp (h.perturb q a b x)).entry i j) =
        fun x => (l.eval Real.exp (h.perturb q a b x)).entry i j +
          (r.eval Real.exp (h.perturb q a b x)).entry i j := by
      funext x
      simp only [NodeTree.eval]
      exact mlmatrix.add_entry (sl x) (sr x) hi' hj'
    have htan : ((NodeTree.add p l r).tangent Real.exp h q a b).entry i j =
        (l.tangent Real.exp h q a b).entry i j + (r.tangent Real.exp h q a b).entry i j := by
      simp only [NodeTree.tangent]
      exact mlmatrix.add_entry tl tr hi' hj'
    rw [hfun, htan]
    exact (dl i j hi' hj').add (dr i j (by rw [c3]; exact hi') (by rw [c4]; exact hj'))
  | nl p x ih =>
    intro i j hi hj
    obtain ⟨n, na, hn, ha, -, -, -, -, c1, c2, wx⟩ := (WF_nl_iff h p x).mp hw
    simp only [NodeTree.root, Heap.value_of_getElem? hn] at hi hj
    have sx := fun y => NodeTree.eval_perturb_hasShape Real.exp wx q a b y
    have tx := NodeTree.tangent_hasShape Real.exp wx q a b
    have ex := NodeTree.eval_hasShape Real.exp wx
    have dx := ih wx
    rw [Heap.value_of_getElem? ha] at sx tx ex dx
    have hi' : i < na.matrix.rows := by rw [← c1]; exact hi
    have hj' : j < na.matrix.cols := by rw [← c2]; exact hj
    have hfun : (fun y => ((NodeTree.nl p x).eval Real.exp (h.perturb q a b y)).entry i j) =
        fun y => sigmoid Real.exp ((x.eval Real.exp (h.perturb q a b y)).entry i j) := by
      funext y
      simp only [NodeTree.eval]
      exact mlmatrix.map_entry _ (sx y) hi' hj'
    have hy : ((NodeTree.nl p x).eval Real.exp h).entry i j =
        sigmoid Real.exp ((x.eval Real.exp h).entry i j) := by
      simp only [NodeTree.eval]
      exact mlmatrix.map_entry _ ex hi' hj'
    have htan : ((NodeTree.nl p x).tangent Real.exp h q a b).entry i j =
        sigmoid Real.exp ((x.eval Real.exp h).entry i j) *
          (1 - sigmoid Real.exp ((x.eval Real.exp h).entry i j)) *
          (x.tangent Real.exp h q a b).entry i j := by
      rw [← hy]
      have ey := mlmatrix.map_hasShape (sigmoid Real.exp) ex
      exact mlmatrix.entry_zipWith (z := (NodeTree.nl p x).tangent Real.exp h q a b)
        (fun v d => v * (1 - v) * d) ey tx ey.2.1 rfl hi' hj'
    rw [hfun, htan]
    have d1 := dx i j hi' hj'
    have d2 := hasDerivAt_sigmoid ((x.eval Real.exp h).entry i j)
    rw [← hself x] at d2
    have d3 : HasDerivAt
        (sigmoid Real.exp ∘ fun y => (x.eval Real.exp (h.perturb q a b y)).entry i j)
        (sigmoid Real.exp
            ((x.eval Real.exp (h.perturb q a b ((h.value q).entry a b))).entry i j) *
          (1 - sigmoid Real.exp
            ((x.eval Real.exp (h.perturb q a b ((h.value q).entry a b))).entry i j)) *
          (x.tangent Real.exp h q a b).entry i j) ((h.value q).entry a b) :=
      HasDerivAt.comp ((h.value q).entry a b) d2 d1
    rw [hself x] at d3
    exact d3

/-! ## Reverse mode against forward mode -/

/-- The adjoint identity behind the MatMul rule: pairing `G` with `T × R + L × S` is
pairing `G × Rᵗ` with `T` plus pairing `Lᵗ × G` with `S`. -/
theorem sum_adjoint_mul {α : Type} [CommSemiring α] (r c n : Nat)
    (G T L R S : Nat → Nat → α) :
    ∑ i in Finset.range r, ∑ j in Finset.range c,
        G i j * (∑ k in Finset.range n, T i k * R k j + ∑ k in Finset.range n, L i k * S k j) =
      ∑ i in Finset.range r, ∑ k in Finset.range n,
          (∑ j in Finset.range c, G i j * R k j) * T i k +
        ∑ k in Finset.range n, ∑ j in Finset.range c,
          (∑ i in Finset.range r, L i k * G i j) * S k j := by
  simp only [mul_add, Finset.mul_sum, Finset.sum_mul, Finset.sum_add_distrib]
  congr 1
  · refine Finset.sum_congr rfl (fun i _ => ?_)
    rw [Finset.sum_comm]
    refine Finset.sum_congr rfl (fun k _ => Finset.sum_congr rfl (fun j _ => ?_))
    ring
  · have h1 : ∀ i, i ∈ Finset.range r →
        ∑ j in Finset.range c, ∑ k in Finset.range n, G i j * (L i k * S k j) =
          ∑ k in Finset.range n, ∑ j in Finset.range c, G i j * (L i k * S k j) :=
      fun i _ => Finset.sum_comm
    rw [Finset.sum_congr rfl h1, Finset.sum_comm]
    refine Finset.sum_congr rfl (fun k _ => ?_)
    rw [Finset.sum_comm]
    refine Finset.sum_congr rfl (fun j _ => Finset.sum_congr rfl (fun i _ => ?_))
    ring

theorem mlmatrix.pairing_unitAt {α : Type} [Semiring α] {G m : mlmatrix α} {r c : Nat}
    (hG : G.HasShape r c) (hm : m.HasShape r c) {a b : Nat} (ha : a < r) (hb : b < c) :
    G.pairing (m.unitAt a b) = G.entry a b := by
  unfold mlmatrix.pairing
  rw [hG.1, hG.2.1]
  rw [Finset.sum_eq_single a, Finset.sum_eq_single b]
  · rw [mlmatrix.unitAt_entry hm a b ha hb, if_pos rfl, mul_one]
  · intro j hj hjb
    rw [mlmatrix.unitAt_entry hm a b ha (Finset.mem_range.mp hj),
      if_neg (fun e => hjb (idx_inj (Finset.mem_range.mp hj) hb e).2), mul_zero]
  · intro hb'; exact absurd (Finset.mem_range.mpr hb) hb'
  · intro i hi hia
    refine Finset.sum_eq_zero (fun j hj => ?_)
    rw [mlmatrix.unitAt_entry hm a b (Finset.mem_range.mp hi) (Finset.mem_range.mp hj),
      if_neg (fun e => hia (idx_inj (Finset.mem_range.mp hj) hb e).1), mul_zero]
  · intro ha'; exact absurd (Finset.mem_range.mpr ha) ha'

theorem mlmatrix.pairing_zeroLike {α : Type} [Semiring α] (G m : mlmatrix α) :
    G.pairing m.zeroLike = 0 := by
  unfold mlmatrix.pairing
  simp [mlmatrix.zeroLike_entry]

/-- Reverse mode agrees with forward mode: pairing `G` with the tangent of a
well-formed tree gives the gradient the chain rule of `backprop` computes from `G`. -/
theorem NodeTree.pairing_tangent {α : Type} [Field α] (exp : α → α) (h : Heap α)
    (q a b : Nat) (ha : a < (h.value q).rows) (hb : b < (h.value q).cols) (t : NodeTree)
    (hw : WF h t) :
    ∀ G : mlmatrix α, G.HasShape (h.value t.root).rows (h.value t.root).cols →
      G.pairing (t.tangent exp h q a b) = t.gradAt exp h q a b G := by
  induction t with
  | input p =>
    intro G hG
    have hs := NodeTree.eval_hasShape exp hw
    simp only [NodeTree.eval, NodeTree.root] at hs hG
    simp only [NodeTree.tangent, NodeTree.gradAt]
    by_cases hpq : p = q
    · subst hpq
      rw [if_pos rfl, if_pos rfl]
      exact mlmatrix.pairing_unitAt hG hs ha hb
    · rw [if_neg hpq, if_neg hpq]
      exact mlmatrix.pairing_zeroLike _ _
  | param p =>
    intro G hG
    have hs := NodeTree.eval_hasShape exp hw
    simp only [NodeTree.eval, NodeTree.root] at hs hG
    simp only [NodeTree.tangent, NodeTree.gradAt]
    by_cases hpq : p = q
    · subst hpq
      rw [if_pos rfl, if_pos rfl]
      exact mlmatrix.pairing_unitAt hG hs ha hb
    · rw [if_neg hpq, if_neg hpq]
      exact mlmatrix.pairing_zeroLike _ _
  | mul p l r ihl ihr =>
    intro G hG
    obtain ⟨n, na, nb, hn, hna, hnb, -, -, -, -, c1, c2, c3, wl, wr⟩ :=
      (WF_mul_iff h p l r).mp hw
    simp only [NodeTree.root, Heap.value_of_getElem? hn] at hG
    have tl := NodeTree.tangent_hasShape exp wl q a b
    have tr := NodeTree.tangent_hasShape exp wr q a b
    have el := NodeTree.eval_hasShape exp wl
    have er := NodeTree.eval_hasShape exp wr
    have il := ihl wl
    have ir := ihr wr
    rw [Heap.value_of_getElem? hna] at tl el il
    rw [Heap.value_of_getElem? hnb] at tr er ir
    rw [c2, c3] at hG
    -- the two gradients passed down, and their entries
    have sGR : (G.mul (r.eval exp h).transpose).HasShape na.matrix.rows na.matrix.cols := by
      have := mlmatrix.mul_hasShape G (r.eval exp h).transpose
      rw [hG.1, (mlmatrix.transpose_hasShape _).2.1, er.1, ← c1] at this
      exact this
    have sLG : ((l.eval exp h).transpose.mul G).HasShape nb.matrix.rows nb.matrix.cols := by
      have := mlmatrix.mul_hasShape (l.eval exp h).transpose G
      rw [hG.2.1, (mlmatrix.transpose_hasShape _).1, el.2.1, c1] at this
      exact this
    simp only [NodeTree.gradAt]
    rw [← il _ sGR, ← ir _ sLG]
    unfold mlmatrix.pairing
    rw [hG.1, hG.2.1, sGR.1, sGR.2.1, sLG.1, sLG.2.1, ← c1]
    have s1 := mlmatrix.mul_hasShape (l.tangent exp h q a b) (r.eval exp h)
    have s2 := mlmatrix.mul_hasShape (l.eval exp h) (r.tangent exp h q a b)
    rw [tl.1, er.2.1] at s1
    rw [el.1, tr.2.1] at s2
    have lhs : ∀ i, i ∈ Finset.range na.matrix.rows → ∀ j, j ∈ Finset.range nb.matrix.cols →
        G.entry i j * ((NodeTree.mul p l r).tangent exp h q a b).entry i j =
          G.entry i j * (∑ k in Finset.range na.matrix.cols,
              (l.tangent exp h q a b).entry i k * (r.eval exp h).entry k j +
            ∑ k in Finset.range na.matrix.cols,
              (l.eval exp h).entry i k * (r.tangent exp h q a b).entry k j) := by
      intro i hi j hj
      have hi' := Finset.mem_range.mp hi
      have hj' := Finset.mem_range.mp hj
      simp only [NodeTree.tangent]
      rw [mlmatrix.add_entry s1 s2 hi' hj',
        mlmatrix.mul_entry_eq _ _ (by rw [tl.1]; exact hi') (by rw [er.2.1]; exact hj'),
        mlmatrix.mul_entry_eq _ _ (by rw [el.1]; exact hi') (by rw [tr.2.1]; exact hj'),
        tl.2.1, el.2.1]
    have r1 : ∀ i, i ∈ Finset.range na.matrix.rows → ∀ k, k ∈ Finset.range na.matrix.cols →
        (G.mul (r.eval exp h).transpose).entry i k * (l.tangent exp h q a b).entry i k =
          (∑ j in Finset.range nb.matrix.cols, G.entry i j * (r.eval exp h).entry k j) *
            (l.tangent exp h q a b).entry i k := by
      intro i hi k hk
      have hi' := Finset.mem_range.mp hi
      have hk' := Finset.mem_range.mp hk
      rw [mlmatrix.mul_entry_eq _ _ (by rw [hG.1]; exact hi')
        (by rw [(mlmatrix.transpose_hasShape _).2.1, er.1, ← c1]; exact hk'), hG.2.1]
      congr 1
      refine Finset.sum_congr rfl (fun j hj => ?_)
      rw [mlmatrix.transpose_entry _ (by rw [er.2.1]; exact Finset.mem_range.mp hj)
        (by rw [er.1, ← c1]; exact hk')]
    have r2 : ∀ k, k ∈ Finset.range na.matrix.cols → ∀ j, j ∈ Finset.range nb.matrix.cols →
        ((l.eval exp h).transpose.mul G).entry k j * (r.tangent exp h q a b).entry k j =
          (∑ i in Finset.range na.matrix.rows, (l.eval exp h).entry i k * G.entry i j) *
            (r.tangent exp h q a b).entry k j := by
      intro k hk j hj
      have hk' := Finset.mem_range.mp hk
      have hj' := Finset.mem_range.mp hj
      rw [mlmatrix.mul_entry_eq _ _
        (by rw [(mlmatrix.transpose_hasShape _).1, el.2.1]; exact hk')
        (by rw [hG.2.1]; exact hj'), (mlmatrix.transpose_hasShape _).2.1, el.1]
      congr 1
      refine Finset.sum_congr rfl (fun i hi => ?_)
      rw [mlmatrix.transpose_entry _ (by rw [el.2.1]; exact hk')
        (by rw [el.1]; exact Finset.mem_range.mp hi)]
    rw [Finset.sum_congr rfl (fun i hi => Finset.sum_congr rfl (lhs i hi)),
      Finset.sum_congr rfl (fun i hi => Finset.sum_congr rfl (r1 i hi)),
      Finset.sum_congr rfl (fun k hk => Finset.sum_congr rfl (r2 k hk))]
    exact sum_adjoint_mul _ _ _ _ _ _ _ _
  | add p l r ihl ihr =>
    intro G hG
    obtain ⟨n, na, nb, hn, hna, hnb, -, -, -, -, c1, c2, c3, c4, wl, wr⟩ :=
      (WF_add_iff h p l r).mp hw
    simp only [NodeTree.root, Heap.value_of_getElem? hn] at hG
    have tl := NodeTree.tangent_hasShape exp wl q a b
    have tr := NodeTree.tangent_hasShape exp wr q a b
    have il := ihl wl
    have ir := ihr wr
    rw [Heap.value_of_getElem? hna, ← c1, ← c2] at tl il
    rw [Heap.value_of_getElem? hnb, c3, c4, ← c1, ← c2] at tr ir
    simp only [NodeTree.gradAt]
    rw [← il G hG, ← ir G hG]
    unfold mlmatrix.pairing
    rw [hG.1, hG.2.1, ← Finset.sum_add_distrib]
    refine Finset.sum_congr rfl (fun i hi => ?_)
    rw [← Finset.sum_add_distrib]
    refine Finset.sum_congr rfl (fun j hj => ?_)
    simp only [NodeTree.tangent]
    rw [mlmatrix.add_entry tl tr (Finset.mem_range.mp hi) (Finset.mem_range.mp hj), mul_add]
  | nl p x ih =>
    intro G hG
    obtain ⟨n, na, hn, hna, -, -, -, -, c1, c2, wx⟩ := (WF_nl_iff h p x).mp hw
    simp only [NodeTree.root, Heap.value_of_getElem? hn] at hG
    have tx := NodeTree.tangent_hasShape exp wx q a b
    have ey := NodeTree.eval_hasShape exp hw
    have ix := ih wx
    simp only [NodeTree.root, Heap.value_of_getElem? hn] at ey
    rw [Heap.value_of_getElem? hna, ← c1, ← c2] at tx ix
    simp only [NodeTree.gradAt]
    rw [← ix _ (mlmatrix.invnl_hasShape ey hG)]
    unfold mlmatrix.pairing
    rw [hG.1, hG.2.1, (mlmatrix.invnl_hasShape ey hG).1, (mlmatrix.invnl_hasShape ey hG).2.1]
    refine Finset.sum_congr rfl (fun i hi => Finset.sum_congr rfl (fun j hj => ?_))
    have hi' := Finset.mem_range.mp hi
    have hj' := Finset.mem_range.mp hj
    rw [mlmatrix.invnl_entry ey hG hi' hj',
      mlmatrix.entry_zipWith (z := (NodeTree.nl p x).tangent exp h q a b)
        (fun v d => v * (1 - v) * d) ey tx ey.2.1 rfl hi' hj']
    ring

/-! ## The gradient buffers after backprop -/

theorem NodeTree.gradAt_eq_zero {α : Type} [Field α] (exp : α → α) (h : Heap α)
    (q a b : Nat) (t : NodeTree) (hq : q ∉ t.leaves) :
    ∀ G : mlmatrix α, t.gradAt exp h q a b G = 0 := by
  induction t with
  | input p =>
    intro G
    simp only [NodeTree.leaves, List.mem_singleton] at hq
    have hpq : ¬ p = q := fun e => hq e.symm
    simp only [NodeTree.gradAt, if_neg hpq]
  | param p =>
    intro G
    simp only [NodeTree.leaves, List.mem_singleton] at hq
    have hpq : ¬ p = q := fun e => hq e.symm
    simp only [NodeTree.gradAt, if_neg hpq]
  | mul p l r ihl ihr =>
    intro G
    simp only [NodeTree.leaves, List.mem_append, not_or] at hq
    simp only [NodeTree.gradAt, ihl hq.1, ihr hq.2, add_zero]
  | add p l r ihl ihr =>
    intro G
    simp only [NodeTree.leaves, List.mem_append, not_or] at hq
    simp only [NodeTree.gradAt, ihl hq.1, ihr hq.2, add_zero]
  | nl p x ih =>
    intro G
    simp only [NodeTree.leaves] at hq
    simp only [NodeTree.gradAt, ih hq]

theorem NodeTree.gradAt_congr {α : Type} [Field α] (exp : α → α) {h h' : Heap α}
    (q a b : Nat) (t : NodeTree) (e : ∀ p, p ∈ t.leaves → h'.value p = h.value p) :
    ∀ G : mlmatrix α, t.gradAt exp h' q a b G = t.gradAt exp h q a b G := by
  induction t with
  | input p => intro G; rfl
  | param p => intro G; rfl
  | mul p l r ihl ihr =>
    intro G
    have el : ∀ p, p ∈ l.leaves → h'.value p = h.value p :=
      fun p hp => e p (by simp [NodeTree.leaves, hp])
    have er : ∀ p, p ∈ r.leaves → h'.value p = h.value p :=
      fun p hp => e p (by simp [NodeTree.leaves, hp])
    simp only [NodeTree.gradAt, ihl el, ihr er, NodeTree.eval_congr exp el,
      NodeTree.eval_congr exp er]
  | add p l r ihl ihr =>
    intro G
    have el : ∀ p, p ∈ l.leaves → h'.value p = h.value p :=
      fun p hp => e p (by simp [NodeTree.leaves, hp])
    have er : ∀ p, p ∈ r.leaves → h'.value p = h.value p :=
      fun p hp => e p (by simp [NodeTree.leaves, hp])
    simp only [NodeTree.gradAt, ihl el, ihr er]
  | nl p x ih =>
    intro G
    have ex : ∀ p, p ∈ x.leaves → h'.value p = h.value p :=
      fun p hp => e p (by simp [NodeTree.leaves, hp])
    simp only [NodeTree.gradAt, ih ex, NodeTree.eval, NodeTree.eval_congr exp ex]

/-- In a tree-shaped graph that is evaluated and back-propagated, the gradient buffer
of every leaf holds the gradient the chain rule computes from the root's gradient. -/
theorem NodeTree.grad_eq_gradAt {α : Type} [Field α] (exp : α → α) (h : Heap α)
    (a b : Nat) (t : NodeTree) (hb : Backpropagated h t) (he : Evaluated exp h t)
    (hnd : t.addrs.Nodup) :
    ∀ q, q ∈ t.leaves → (h.grad q).entry a b = t.gradAt exp h q a b (h.grad t.root) := by
  induction t with
  | input p =>
    intro q hq
    simp only [NodeTree.leaves, List.mem_singleton] at hq
    subst hq
    simp only [NodeTree.gradAt, NodeTree.root, if_pos]
  | param p =>
    intro q hq
    simp only [NodeTree.leaves, List.mem_singleton] at hq
    subst hq
    simp only [NodeTree.gradAt, NodeTree.root, if_pos]
  | mul p l r ihl ihr =>
    intro q hq
    simp only [NodeTree.addrs, List.nodup_cons, List.nodup_append, List.mem_append,
      not_or] at hnd
    obtain ⟨-, hndl, hndr, hdis⟩ := hnd
    obtain ⟨b1, b2, bl, br⟩ := hb
    obtain ⟨-, evl, evr⟩ := he
    simp only [NodeTree.leaves, List.mem_append] at hq
    simp only [NodeTree.gradAt, NodeTree.root]
    rw [← evl.value_root exp, ← evr.value_root exp, ← b1, ← b2]
    rcases hq with hq | hq
    · rw [NodeTree.gradAt_eq_zero exp h q a b r (fun hq' =>
        hdis (l.leaves_subset_addrs q hq) (r.leaves_subset_addrs q hq')), add_zero]
      exact ihl bl evl hndl q hq
    · rw [NodeTree.gradAt_eq_zero exp h q a b l (fun hq' =>
        hdis (l.leaves_subset_addrs q hq') (r.leaves_subset_addrs q hq)), zero_add]
      exact ihr br evr hndr q hq
  | add p l r ihl ihr =>
    intro q hq
    simp only [NodeTree.addrs, List.nodup_cons, List.nodup_append, List.mem_append,
      not_or] at hnd
    obtain ⟨-, hndl, hndr, hdis⟩ := hnd
    obtain ⟨b1, b2, bl, br⟩ := hb
    obtain ⟨-, evl, evr⟩ := he
    simp only [NodeTree.leaves, List.mem_append] at hq
    simp only [NodeTree.gradAt, NodeTree.root]
    rcases hq with hq | hq
    · rw [NodeTree.gradAt_eq_zero exp h q a b r (fun hq' =>
        hdis (l.leaves_subset_addrs q hq) (r.leaves_subset_addrs q hq')), add_zero, ← b1]
      exact ihl bl evl hndl q hq
    · rw [NodeTree.gradAt_eq_zero exp h q a b l (fun hq' =>
        hdis (l.leaves_subset_addrs q hq') (r.leaves_subset_addrs q hq)), zero_add, ← b2]
      exact ihr br evr hndr q hq
  | nl p x ih =>
    intro q hq
    simp only [NodeTree.addrs, List.nodup_cons] at hnd
    obtain ⟨b1, bx⟩ := hb
    have hv := he.value_root exp
    obtain ⟨-, evx⟩ := he
    simp only [NodeTree.leaves] at hq
    simp only [NodeTree.gradAt]
    rw [← hv, NodeTree.root, ← b1]
    exact ih bx evx hnd.2 q hq

/-! ## The chain rule through the loss -/

/-- A continuous linear functional on `r × c` matrices is the sum of its values on
the unit matrices, weighted by the entries. -/
theorem clm_apply_eq_sum (r c : Nat) (L : (Fin r → Fin c → ℝ) →L[ℝ] ℝ)
    (T : Fin r → Fin c → ℝ) :
    L T = ∑ i : Fin r, ∑ j : Fin c, T i j * L (Pi.single i (Pi.single j 1)) := by
  have hT : T = ∑ i : Fin r, ∑ j : Fin c,
      T i j • (Pi.single i (Pi.single j 1) : Fin r → Fin c → ℝ) := by
    funext i' j'
    have h1 : ∀ i : Fin r, ∀ j : Fin c,
        (T i j • (Pi.single i (Pi.single j 1) : Fin r → Fin c → ℝ)) i' j' =
          if i = i' then (if j = j' then T i j else 0) else 0 := by
      intro i j
      by_cases hi : i = i'
      · subst hi
        by_cases hj : j = j'
        · subst hj; simp
        · simp [hj, Pi.single_apply, Ne.symm hj]
      · simp [hi, Pi.single_apply, Ne.symm hi]
    simp only [Finset.sum_apply, h1]
    simp
  conv_lhs => rw [hT]
  simp [map_sum]

/-- The pairing of two buffers as a sum over `Fin r × Fin c`. -/
theorem mlmatrix.pairing_eq_sum_fin (G Y : mlmatrix ℝ) {r c : Nat} (hG : G.HasShape r c) :
    G.pairing Y = ∑ i : Fin r, ∑ j : Fin c, Y.entry i j * G.entry i j := by
  unfold mlmatrix.pairing
  rw [hG.1, hG.2.1, ← Fin.sum_univ_eq_sum_range (fun i =>
    ∑ j in Finset.range c, G.entry i j * Y.entry i j) r]
  refine Finset.sum_congr rfl (fun i _ => ?_)
  rw [← Fin.sum_univ_eq_sum_range (fun j => G.entry i j * Y.entry i j) c]
  refine Finset.sum_congr rfl (fun j _ => ?_)
  ring

/-- The derivative of the loss along one leaf entry is what the chain rule of
`backprop` computes from the gradient `G` of the loss at the root value. -/
theorem NodeTree.hasDerivAt_loss (h : Heap ℝ) (t : NodeTree) (hw : WF h t) (r c : Nat)
    (hr : (h.value t.root).rows = r) (hc : (h.value t.root).cols = c)
    (Loss : (Fin r → Fin c → ℝ) → ℝ) (Loss' : (Fin r → Fin c → ℝ) →L[ℝ] ℝ)
    (hLoss : HasFDerivAt Loss Loss' (fun i j => (t.eval Real.exp h).entry i.val j.val))
    (G : mlmatrix ℝ) (hG : G.HasShape r c)
    (hGrad : ∀ (i : Fin r) (j : Fin c),
      G.entry i.val j.val = Loss' (Pi.single i (Pi.single j 1)))
    (q a b : Nat) (ha : a < (h.value q).rows) (hb : b < (h.value q).cols) :
    HasDerivAt
      (fun x => Loss (fun i j => (t.eval Real.exp (h.perturb q a b x)).entry i.val j.val))
      (t.gradAt Real.exp h q a b G) ((h.value q).entry a b) := by
  subst hr hc
  have hY : HasDerivAt
      (fun x => (fun (i : Fin (h.value t.root).rows) (j : Fin (h.value t.root).cols) =>
        (t.eval Real.exp (h.perturb q a b x)).entry i.val j.val))
      (fun i j => (t.tangent Real.exp h q a b).entry i.val j.val)
      ((h.value q).entry a b) := by
    rw [hasDerivAt_pi]
    intro i
    rw [hasDerivAt_pi]
    intro j
    exact NodeTree.hasDerivAt_eval_entry h q a b t hw i.val j.val i.isLt j.isLt
  have hpoint : (fun (i : Fin (h.value t.root).rows) (j : Fin (h.value t.root).cols) =>
      (t.eval Real.exp (h.perturb q a b ((h.value q).entry a b))).entry i.val j.val) =
      fun i j => (t.eval Real.exp h).entry i.val j.val := by
    rw [NodeTree.eval_congr Real.exp (fun p _ => Heap.perturb_value_self h q a b p)]
  have hcomp := HasFDerivAt.comp_hasDerivAt ((h.value q).entry a b)
    (by rw [hpoint]; exact hLoss) hY
  have hval : Loss' (fun i j => (t.tangent Real.exp h q a b).entry i.val j.val) =
      t.gradAt Real.exp h q a b G := by
    rw [clm_apply_eq_sum, ← NodeTree.pairing_tangent Real.exp h q a b ha hb t hw G hG,
      mlmatrix.pairing_eq_sum_fin G _ hG]
    refine Finset.sum_congr rfl (fun i _ => Finset.sum_congr rfl (fun j _ => ?_))
    rw [hGrad i j]
  rw [hval] at hcomp
  exact hcomp

/-- One training step up to the parameter update: forward evaluation, the gradient
`G` written into the root, gradient propagation.  All three succeed and every leaf
ends with the gradient the chain rule computes from `G`. -/
theorem training_step_gradients {α : Type} [Field α] (exp : α → α) (h : Heap α)
    (t : NodeTree) (fuel : Nat) (hw : WF h t) (hnd : t.addrs.Nodup) (hf : t.depth ≤ fuel)
    (G : mlmatrix α) (hG : G.HasShape (h.value t.root).rows (h.value t.root).cols) :
    ∃ h1 h2 h3, forward_prop exp fuel h (some t.root) = some h1 ∧
      h1.value t.root = t.eval exp h ∧
      h1.setDeriv (some t.root) G = some h2 ∧
      backprop fuel h2 (some t.root) = some h3 ∧
      (∀ q, h3.value q = h1.value q) ∧
      ∀ q, q ∈ t.leaves → ∀ a b, (h3.grad q).entry a b = t.gradAt exp h q a b G := by
  obtain ⟨h1, e1, s1, fr1, -, ev1⟩ := forward_prop_tree exp t h fuel hw hnd hf
  have hleaf1 : ∀ p, p ∈ t.leaves → h1.value p = h.value p :=
    fun p hp => Heap.value_congr (fr1 p (t.leaves_not_inner hnd p hp))
  have hv1 : h1.value t.root = t.eval exp h := by
    rw [ev1.value_root exp]
    exact NodeTree.eval_congr exp hleaf1
  have hw1 : WF h1 t := hw.sameShape s1
  obtain ⟨n1, hn1, hok1⟩ := hw1.root_ok
  have hsh := s1.value_shape t.root
  rw [Heap.value_of_getElem? hn1] at hsh
  obtain ⟨h2, eh2⟩ : ∃ h2 : Heap α, h2 = h1.set t.root { n1 with deriv := G } := ⟨_, rfl⟩
  have hset : h1.setDeriv (some t.root) G = some h2 := by
    rw [eh2]; exact h1.setDeriv_eq _ hn1
  have s2 : h1.SameShape h2 := by
    rw [eh2]
    refine Heap.SameShape.set h1 hn1 ⟨rfl, rfl, rfl, rfl, rfl, rfl, ?_, ?_, ?_⟩
    · show G.rows = n1.deriv.rows
      rw [hG.1, hok1.2.1, hsh.1]
    · show G.cols = n1.deriv.cols
      rw [hG.2.1, hok1.2.2.1, hsh.2.1]
    · show G.data.length = n1.deriv.data.length
      rw [hG.2.2, hok1.2.2.2, hsh.1, hsh.2.1]
  have hn2 : h2[t.root]? = some { n1 with deriv := G } := by
    rw [eh2]; exact List.getElem?_set_self_of_some hn1
  have hv2 : ∀ p, h2.value p = h1.value p := by
    intro p
    by_cases hp : p = t.root
    · subst hp
      rw [Heap.value_of_getElem? hn2, Heap.value_of_getElem? hn1]
    · exact Heap.value_congr (by rw [eh2, List.getElem?_set_ne (fun e => hp e.symm)])
  obtain ⟨h3, e3, s3, fr3, v3, bp3⟩ := backprop_tree t h2 fuel (hw1.sameShape s2) hnd hf
  have hv3 : ∀ p, h3.value p = h1.value p := fun p => (v3 p).trans (hv2 p)
  have ev3 : Evaluated exp h3 t := ev1.congr_values exp (fun p _ => hv3 p)
  have hg3 : h3.grad t.root = G := by
    rw [Heap.grad_congr (fr3 t.root (t.root_not_mem_descendants hnd)),
      Heap.grad_of_getElem? hn2]
  refine ⟨h1, h2, h3, e1, hv1, hset, e3, hv3, ?_⟩
  intro q hq a b
  rw [NodeTree.grad_eq_gradAt exp h3 a b t bp3 ev3 hnd q hq, hg3]
  exact NodeTree.gradAt_congr exp q a b t
    (fun p hp => (hv3 p).trans (hleaf1 p hp)) G

/-- The function `forward_prop` on a well-formed tree leaves the recursive evaluation in the root. -/
theorem forward_prop_value_root {α : Type} [Field α] (exp : α → α) (h : Heap α)
    (t : NodeTree) (fuel : Nat) (hw : WF h t) (hnd : t.addrs.Nodup) (hf : t.depth ≤ fuel) :
    ∃ h1, forward_prop exp fuel h (some t.root) = some h1 ∧
      h1.value t.root = t.eval exp h := by
  obtain ⟨h1, e1, -, fr1, -, ev1⟩ := forward_prop_tree exp t h fuel hw hnd hf
  refine ⟨h1, e1, ?_⟩
  rw [ev1.value_root exp]
  exact NodeTree.eval_congr exp
    (fun p hp => Heap.value_congr (fr1 p (t.leaves_not_inner hnd p hp)))

/-! ## Graphs with shared nodes: a well-formed tree as the unfolding of a graph -/

/-- The heap determines the unfolding of the graph below an address. -/
theorem WF.unique {α : Type} {h : Heap α} {t : NodeTree} (hw : WF h t) :
    ∀ s : NodeTree, WF h s → s.root = t.root → s = t := by
  induction t with
  | input p =>
    intro s hs hr
    obtain ⟨n, hn, hty, -⟩ := (WF_input_iff h p).mp hw
    cases s with
    | input p' => simp only [NodeTree.root] at hr; rw [hr]
    | param p' =>
      simp only [NodeTree.root] at hr; subst hr
      obtain ⟨n', hn', hty', -⟩ := (WF_param_iff h p').mp hs
      rw [hn] at hn'; cases hn'; rw [hty] at hty'; cases hty'
    | mul p' l' r' =>
      simp only [NodeTree.root] at hr; subst hr
      obtain ⟨n', _, _, hn', _, _, hty', -⟩ := (WF_mul_iff h p' l' r').mp hs
      rw [hn] at hn'; cases hn'; rw [hty] at hty'; cases hty'
    | add p' l' r' =>
      simp only [NodeTree.root] at hr; subst hr
      obtain ⟨n', _, _, hn', _, _, hty', -⟩ := (WF_add_iff h p' l' r').mp hs
      rw [hn] at hn'; cases hn'; rw [hty] at hty'; cases hty'
    | nl p' x' =>
      simp only [NodeTree.root] at hr; subst hr
      obtain ⟨n', _, hn', _, hty', -⟩ := (WF_nl_iff h p' x').mp hs
      rw [hn] at hn'; cases hn'; rw [hty] at hty'; cases hty'
  | param p =>
    intro s hs hr
    obtain ⟨n, hn, hty, -⟩ := (WF_param_iff h p).mp hw
    cases s with
    | input p' =>
      simp only [NodeTree.root] at hr; subst hr
      obtain ⟨n', hn', hty', -⟩ := (WF_input_iff h p').mp hs
      rw [hn] at hn'; cases hn'; rw [hty] at hty'; cases hty'
    | param p' => simp only [NodeTree.root] at hr; rw [hr]
    | mul p' l' r' =>
      simp only [NodeTree.root] at hr; subst hr
      obtain ⟨n', _, _, hn', _, _, hty', -⟩ := (WF_mul_iff h p' l' r').mp hs
      rw [hn] at hn'; cases hn'; rw [hty] at hty'; cases hty'
    | add p' l' r' =>
      simp only [NodeTree.root] at hr; subst hr
      obtain ⟨n', _, _, hn', _, _, hty', -⟩ := (WF_add_iff h p' l' r').mp hs
      rw [hn] at hn'; cases hn'; rw [hty] at hty'; cases hty'
    | nl p' x' =>
      simp only [NodeTree.root] at hr; subst hr
      obtain ⟨n', _, hn', _, hty', -⟩ := (WF_nl_iff h p' x').mp hs
      rw [hn] at hn'; cases hn'; rw [hty] at hty'; cases hty'
  | mul p l r ihl ihr =>
    intro s hs hr
    obtain ⟨n, _, _, hn, _, _, hty, hleft, hright, -, -, -, -, wl, wr⟩ :=
      (WF_mul_iff h p l r).mp hw
    cases s with
    | input p' =>
      simp only [NodeTree.root] at hr; subst hr
      obtain ⟨n', hn', hty', -⟩ := (WF_input_iff h p').mp hs
      rw [hn] at hn'; cases hn'; rw [hty] at hty'; cases hty'
    | param p' =>
      simp only [NodeTree.root] at hr; subst hr
      obtain ⟨n', hn', hty', -⟩ := (WF_param_iff h p').mp hs
      rw [hn] at hn'; cases hn'; rw [hty] at hty'; cases hty'
    | mul p' l' r' =>
      simp only [NodeTree.root] at hr; subst hr
      obtain ⟨n', _, _, hn', _, _, -, hleft', hright', -, -, -, -, wl', wr'⟩ :=
        (WF_mul_iff h p' l' r').mp hs
      rw [hn] at hn'; cases hn'
      rw [hleft] at hleft'; rw [hright] at hright'
      rw [ihl wl l' wl' (Option.some.inj hleft').symm,
        ihr wr r' wr' (Option.some.inj hright').symm]
    | add p' l' r' =>
      simp only [NodeTree.root] at hr; subst hr
      obtain ⟨n', _, _, hn', _, _, hty', -⟩ := (WF_add_iff h p' l' r').mp hs
      rw [hn] at hn'; cases hn'; rw [hty] at hty'; cases hty'
    | nl p' x' =>
      simp only [NodeTree.root] at hr; subst hr
      obtain ⟨n', _, hn', _, hty', -⟩ := (WF_nl_iff h p' x').mp hs
      rw [hn] at hn'; cases hn'; rw [hty] at hty'; cases hty'
  | add p l r ihl ihr =>
    intro s hs hr
    obtain ⟨n, _, _, hn, _, _, hty, hleft, hright, -, -, -, -, -, wl, wr⟩ :=
      (WF_add_iff h p l r).mp hw
    cases s with
    | input p' =>
      simp only [NodeTree.root] at hr; subst hr
      obtain ⟨n', hn', hty', -⟩ := (WF_input_iff h p').mp hs
      rw [hn] at hn'; cases hn'; rw [hty] at hty'; cases hty'
    | param p' =>
      simp only [NodeTree.root] at hr; subst hr
      obtain ⟨n', hn', hty', -⟩ := (WF_param_iff h p').mp hs
      rw [hn] at hn'; cases hn'; rw [hty] at hty'; cases hty'
    | mul p' l' r' =>
      simp only [NodeTree.root] at hr; subst hr
      obtain ⟨n', _, _, hn', _, _, hty', -⟩ := (WF_mul_iff h p' l' r').mp hs
      rw [hn] at hn'; cases hn'; rw [hty] at hty'; cases hty'
    | add p' l' r' =>
      simp only [NodeTree.root] at hr; subst hr
      obtain ⟨n', _, _, hn', _, _, -, hleft', hright', -, -, -, -, -, wl', wr'⟩ :=
        (WF_add_iff h p' l' r').mp hs
      rw [hn] at hn'; cases hn'
      rw [hleft] at hleft'; rw [hright] at hright'
      rw [ihl wl l' wl' (Option.some.inj hleft').symm,
        ihr wr r' wr' (Option.some.inj hright').symm]
    | nl p' x' =>
      simp only [NodeTree.root] at hr; subst hr
      obtain ⟨n', _, hn', _, hty', -⟩ := (WF_nl_iff h p' x').mp hs
      rw [hn] at hn'; cases hn'; rw [hty] at hty'; cases hty'
  | nl p x ih =>
    intro s hs hr
    obtain ⟨n, _, hn, _, hty, hleft, -, -, -, -, wx⟩ := (WF_nl_iff h p x).mp hw
    cases s with
    | input p' =>
      simp only [NodeTree.root] at hr; subst hr
      obtain ⟨n', hn', hty', -⟩ := (WF_input_iff h p').mp hs
      rw [hn] at hn'; cases hn'; rw [hty] at hty'; cases hty'
    | param p' =>
      simp only [NodeTree.root] at hr; subst hr
      obtain ⟨n', hn', hty', -⟩ := (WF_param_iff h p').mp hs
      rw [hn] at hn'; cases hn'; rw [hty] at hty'; cases hty'
    | mul p' l' r' =>
      simp only [NodeTree.root] at hr; subst hr
      obtain ⟨n', _, _, hn', _, _, hty', -⟩ := (WF_mul_iff h p' l' r').mp hs
      rw [hn] at hn'; cases hn'; rw [hty] at hty'; cases hty'
    | add p' l' r' =>
      simp only [NodeTree.root] at hr; subst hr
      obtain ⟨n', _, _, hn', _, _, hty', -⟩ := (WF_add_iff h p' l' r').mp hs
      rw [hn] at hn'; cases hn'; rw [hty] at hty'; cases hty'
    | nl p' x' =>
      simp only [NodeTree.root] at hr; subst hr
      obtain ⟨n', _, hn', _, -, hleft', -, -, -, -, wx'⟩ := (WF_nl_iff h p' x').mp hs
      rw [hn] at hn'; cases hn'
      rw [hleft] at hleft'
      rw [ih wx x' wx' (Option.some.inj hleft').symm]

/-- Every node below the root of a well-formed tree is the root of a well-formed
tree of smaller depth. -/
theorem WF.descendant {α : Type} {h : Heap α} {t : NodeTree} (hw : WF h t) :
    ∀ q, q ∈ t.descendants → ∃ s, WF h s ∧ s.root = q ∧ s.depth < t.depth := by
  induction t with
  | input p => intro q hq; simp [NodeTree.descendants] at hq
  | param p => intro q hq; simp [NodeTree.descendants] at hq
  | mul p l r ihl ihr =>
    intro q hq
    obtain ⟨n, _, _, -, -, -, -, -, -, -, -, -, -, wl, wr⟩ := (WF_mul_iff h p l r).mp hw
    simp only [NodeTree.descendants, List.mem_append] at hq
    simp only [NodeTree.depth]
    rcases hq with hq | hq
    · rw [l.addrs_eq] at hq
      rcases List.mem_cons.mp hq with e | e
      · exact ⟨l, wl, e.symm, by omega⟩
      · obtain ⟨s, ws, hs, hd⟩ := ihl wl q e
        exact ⟨s, ws, hs, by omega⟩
    · rw [r.addrs_eq] at hq
      rcases List.mem_cons.mp hq with e | e
      · exact ⟨r, wr, e.symm, by omega⟩
      · obtain ⟨s, ws, hs, hd⟩ := ihr wr q e
        exact ⟨s, ws, hs, by omega⟩
  | add p l r ihl ihr =>
    intro q hq
    obtain ⟨n, _, _, -, -, -, -, -, -, -, -, -, -, -, wl, wr⟩ := (WF_add_iff h p l r).mp hw
    simp only [NodeTree.descendants, List.mem_append] at hq
    simp only [NodeTree.depth]
    rcases hq with hq | hq
    · rw [l.addrs_eq] at hq
      rcases List.mem_cons.mp hq with e | e
      · exact ⟨l, wl, e.symm, by omega⟩
      · obtain ⟨s, ws, hs, hd⟩ := ihl wl q e
        exact ⟨s, ws, hs, by omega⟩
    · rw [r.addrs_eq] at hq
      rcases List.mem_cons.mp hq with e | e
      · exact ⟨r, wr, e.symm, by omega⟩
      · obtain ⟨s, ws, hs, hd⟩ := ihr wr q e
        exact ⟨s, ws, hs, by omega⟩
  | nl p x ih =>
    intro q hq
    obtain ⟨n, _, -, -, -, -, -, -, -, -, wx⟩ := (WF_nl_iff h p x).mp hw
    simp only [NodeTree.descendants] at hq
    simp only [NodeTree.depth]
    rw [x.addrs_eq] at hq
    rcases List.mem_cons.mp hq with e | e
    · exact ⟨x, wx, e.symm, by omega⟩
    · obtain ⟨s, ws, hs, hd⟩ := ih wx q e
      exact ⟨s, ws, hs, by omega⟩

/-- A graph that unfolds into a well-formed tree has no cycle: the root is not below
itself. -/
theorem WF.root_not_below {α : Type} {h : Heap α} {t : NodeTree} (hw : WF h t) :
    t.root ∉ t.descendants := by
  intro hmem
  obtain ⟨s, ws, hs, hd⟩ := hw.descendant t.root hmem
  have := hw.unique s ws hs
  rw [this] at hd
  exact Nat.lt_irrefl _ hd

/-! ## backprop on a graph with shared nodes -/

theorem Heap.set_deriv_value {α : Type} (h : Heap α) {p : Nat} {n : node α}
    (d : mlmatrix α) (hn : h[p]? = some n) (q : Nat) :
    Heap.value (h.set p { n with deriv := d }) q = h.value q := by
  by_cases hq : q = p
  · subst hq
    rw [Heap.value_of_getElem? (List.getElem?_set_self_of_some hn), Heap.value_of_getElem? hn]
  · exact Heap.value_congr (List.getElem?_set_ne (fun e => hq e.symm))

/-- The MatMul case of `backprop_graph`. -/
theorem backprop_graph_mul {α : Type} [Ring α] (p : Nat) (l r : NodeTree)
    (ihl : (∀ (h : Heap α) (fuel : Nat), WF h l → l.depth ≤ fuel →
      ∃ h', backprop fuel h (some l.root) = some h' ∧ h.SameShape h' ∧
        (∀ q, q ∉ l.descendants → h'[q]? = h[q]?) ∧ (∀ q, h'.value q = h.value q)))
    (ihr : (∀ (h : Heap α) (fuel : Nat), WF h r → r.depth ≤ fuel →
      ∃ h', backprop fuel h (some r.root) = some h' ∧ h.SameShape h' ∧
        (∀ q, q ∉ r.descendants → h'[q]? = h[q]?) ∧ (∀ q, h'.value q = h.value q))) :
    ∀ (h : Heap α) (fuel : Nat), WF h (NodeTree.mul p l r) → (NodeTree.mul p l r).depth ≤ fuel →
      ∃ h', backprop fuel h (some (NodeTree.mul p l r).root) = some h' ∧ h.SameShape h' ∧
        (∀ q, q ∉ (NodeTree.mul p l r).descendants → h'[q]? = h[q]?) ∧ (∀ q, h'.value q = h.value q) := by
  intro h fuel hw hf
  obtain ⟨f, rfl⟩ : ∃ f, fuel = f + 1 := ⟨fuel - 1, by simp [NodeTree.depth] at hf; omega⟩
  simp only [NodeTree.depth, Nat.add_le_add_iff_right, max_le_iff] at hf
  obtain ⟨n, a, b, hn, ha, hb, hty, hleft, hright, hok, c1, c2, c3, wl, wr⟩ :=
    (WF_mul_iff h p l r).mp hw
  obtain ⟨a', ha', hoka⟩ := wl.root_ok
  obtain ⟨b', hb', hokb⟩ := wr.root_ok
  rw [ha] at ha'; cases ha'
  rw [hb] at hb'; cases hb'
  have hLT := mat_transpose_eq_transpose a.matrix hoka.1
  have hRT := mat_transpose_eq_transpose b.matrix hokb.1
  have hdl := mat_mul_eq_mul a.deriv n.deriv b.matrix.transpose hok.2.sized
    b.matrix.transpose_hasShape.sized (by rw [hok.2.2.1, c3]; rfl)
    ⟨by rw [hoka.2.1, hok.2.1, c2], by rw [hoka.2.2.1, c1]; rfl, by
      rw [hoka.2.2.2, hok.2.1, c2, c1]; rfl⟩
  obtain ⟨h1, eh1⟩ : ∃ h1 : Heap α,
      h1 = h.set l.root { a with deriv := n.deriv.mul b.matrix.transpose } := ⟨_, rfl⟩
  have hset1 : h.setDeriv (some l.root) (n.deriv.mul b.matrix.transpose) = some h1 := by
    rw [eh1]; exact h.setDeriv_eq _ ha
  have s1 : h.SameShape h1 := by
    rw [eh1]
    refine Heap.SameShape.set h ha ⟨rfl, rfl, rfl, rfl, rfl, rfl, ?_, ?_, ?_⟩
    · show n.deriv.rows = a.deriv.rows
      rw [hoka.2.1, hok.2.1, c2]
    · show b.matrix.rows = a.deriv.cols
      rw [hoka.2.2.1, c1]
    · rw [hoka.2.2.2, (mlmatrix.mul_hasShape _ _).2.2, hok.2.1, c2, c1]; rfl
  have v1 : ∀ q, h1.value q = h.value q := by
    intro q; rw [eh1]; exact h.set_deriv_value _ ha q
  -- the second write reads the heap after the first one
  obtain ⟨n1, a1, b1, hn1, ha1, hb1, -, -, -, hok1, d1, d2, d3, -, wr1⟩ :=
    (WF_mul_iff h1 p l r).mp (hw.sameShape s1)
  obtain ⟨b1', hb1', hokb1⟩ := wr1.root_ok
  rw [hb1] at hb1'; cases hb1'
  have en : n1.matrix = n.matrix := by
    rw [← Heap.value_of_getElem? hn1, ← Heap.value_of_getElem? hn, v1]
  have ea : a1.matrix = a.matrix := by
    rw [← Heap.value_of_getElem? ha1, ← Heap.value_of_getElem? ha, v1]
  have eb : b1.matrix = b.matrix := by
    rw [← Heap.value_of_getElem? hb1, ← Heap.value_of_getElem? hb, v1]
  have hdr := mat_mul_eq_mul b1.deriv a.matrix.transpose n1.deriv
    a.matrix.transpose_hasShape.sized hok1.2.sized (by rw [hok1.2.1, en, c2]; rfl)
    ⟨by rw [hokb1.2.1, eb, ← c1]; rfl, by rw [hokb1.2.2.1, hok1.2.2.1, eb, en, c3], by
      rw [hokb1.2.2.2, hok1.2.2.1, eb, en, c3, ← c1]; rfl⟩
  obtain ⟨h2, eh2⟩ : ∃ h2 : Heap α,
      h2 = h1.set r.root { b1 with deriv := a.matrix.transpose.mul n1.deriv } := ⟨_, rfl⟩
  have hset2 : h1.setDeriv (some r.root) (a.matrix.transpose.mul n1.deriv) = some h2 := by
    rw [eh2]; exact h1.setDeriv_eq _ hb1
  have s2 : h1.SameShape h2 := by
    rw [eh2]
    refine Heap.SameShape.set h1 hb1 ⟨rfl, rfl, rfl, rfl, rfl, rfl, ?_, ?_, ?_⟩
    · show a.matrix.cols = b1.deriv.rows
      rw [hokb1.2.1, eb, c1]
    · show n1.deriv.cols = b1.deriv.cols
      rw [hokb1.2.2.1, hok1.2.2.1, eb, en, c3]
    · rw [hokb1.2.2.2, (mlmatrix.mul_hasShape _ _).2.2, hok1.2.2.1, eb, en, c3, ← c1]; rfl
  have v2 : ∀ q, h2.value q = h1.value q := by
    intro q; rw [eh2]; exact h1.set_deriv_value _ hb1 q
  obtain ⟨h3, e3, s3, fr3, v3⟩ := ihl h2 f (wl.sameShape (s1.trans s2)) hf.1
  obtain ⟨h4, e4, s4, fr4, v4⟩ := ihr h3 f (wr.sameShape ((s1.trans s2).trans s3)) hf.2
  refine ⟨h4, ?_, ((s1.trans s2).trans s3).trans s4, ?_, ?_⟩
  · rw [NodeTree.root, backprop]
    simp only [Heap.deref, hn, Option.bind_eq_bind, Option.some_bind, hty, hleft, hright,
      ha, hb, hLT, hRT, hdl, hset1, hn1, hb1, hdr, hset2, e3, e4]
  · intro q hq
    simp only [NodeTree.descendants, List.mem_append, not_or] at hq
    rw [fr4 q (fun hq' => hq.2 (r.descendants_subset_addrs q hq')),
      fr3 q (fun hq' => hq.1 (l.descendants_subset_addrs q hq')), eh2,
      List.getElem?_set_ne (by rintro rfl; exact hq.2 r.root_mem_addrs), eh1,
      List.getElem?_set_ne (by rintro rfl; exact hq.1 l.root_mem_addrs)]
  · intro q
    rw [v4 q, v3 q, v2 q, v1 q]

/-- The Add case of `backprop_graph`. -/
theorem backprop_graph_add {α : Type} [Ring α] (p : Nat) (l r : NodeTree)
    (ihl : (∀ (h : Heap α) (fuel : Nat), WF h l → l.depth ≤ fuel →
      ∃ h', backprop fuel h (some l.root) = some h' ∧ h.SameShape h' ∧
        (∀ q, q ∉ l.descendants → h'[q]? = h[q]?) ∧ (∀ q, h'.value q = h.value q)))
    (ihr : (∀ (h : Heap α) (fuel : Nat), WF h r → r.depth ≤ fuel →
      ∃ h', backprop fuel h (some r.root) = some h' ∧ h.SameShape h' ∧
        (∀ q, q ∉ r.descendants → h'[q]? = h[q]?) ∧ (∀ q, h'.value q = h.value q))) :
    ∀ (h : Heap α) (fuel : Nat), WF h (NodeTree.add p l r) → (NodeTree.add p l r).depth ≤ fuel →
      ∃ h', backprop fuel h (some (NodeTree.add p l r).root) = some h' ∧ h.SameShape h' ∧
        (∀ q, q ∉ (NodeTree.add p l r).descendants → h'[q]? = h[q]?) ∧ (∀ q, h'.value q = h.value q) := by
  intro h fuel hw hf
  obtain ⟨f, rfl⟩ : ∃ f, fuel = f + 1 := ⟨fuel - 1, by simp [NodeTree.depth] at hf; omega⟩
  simp only [NodeTree.depth, Nat.add_le_add_iff_right, max_le_iff] at hf
  obtain ⟨n, a, b, hn, ha, hb, hty, hleft, hright, hok, c1, c2, c3, c4, wl, wr⟩ :=
    (WF_add_iff h p l r).mp hw
  obtain ⟨a', ha', hoka⟩ := wl.root_ok
  rw [ha] at ha'; cases ha'
  have hdl := mat_copy_eq a.deriv n.deriv n.matrix.rows n.matrix.cols
    ⟨by rw [hoka.2.1, c1], by rw [hoka.2.2.1, c2], by rw [hoka.2.2.2, c1, c2]⟩ hok.2
  obtain ⟨h1, eh1⟩ : ∃ h1 : Heap α, h1 = h.set l.root { a with deriv := n.deriv } :=
    ⟨_, rfl⟩
  have hset1 : h.setDeriv (some l.root) n.deriv = some h1 := by
    rw [eh1]; exact h.setDeriv_eq _ ha
  have s1 : h.SameShape h1 := by
    rw [eh1]
    refine Heap.SameShape.set h ha ⟨rfl, rfl, rfl, rfl, rfl, rfl, ?_, ?_, ?_⟩
    · show n.deriv.rows = a.deriv.rows
      rw [hoka.2.1, hok.2.1, c1]
    · show n.deriv.cols = a.deriv.cols
      rw [hoka.2.2.1, hok.2.2.1, c2]
    · show n.deriv.data.length = a.deriv.data.length
      rw [hoka.2.2.2, hok.2.2.2, c1, c2]
  have v1 : ∀ q, h1.value q = h.value q := by
    intro q; rw [eh1]; exact h.set_deriv_value _ ha q
  obtain ⟨n1, a1, b1, hn1, ha1, hb1, -, -, -, hok1, d1, d2, d3, d4, -, wr1⟩ :=
    (WF_add_iff h1 p l r).mp (hw.sameShape s1)
  obtain ⟨b1', hb1', hokb1⟩ := wr1.root_ok
  rw [hb1] at hb1'; cases hb1'
  have hdr := mat_copy_eq b1.deriv n1.deriv n1.matrix.rows n1.matrix.cols
    ⟨by rw [hokb1.2.1, d3, d1], by rw [hokb1.2.2.1, d4, d2], by
      rw [hokb1.2.2.2, d3, d4, d1, d2]⟩ hok1.2
  obtain ⟨h2, eh2⟩ : ∃ h2 : Heap α, h2 = h1.set r.root { b1 with deriv := n1.deriv } :=
    ⟨_, rfl⟩
  have hset2 : h1.setDeriv (some r.root) n1.deriv = some h2 := by
    rw [eh2]; exact h1.setDeriv_eq _ hb1
  have s2 : h1.SameShape h2 := by
    rw [eh2]
    refine Heap.SameShape.set h1 hb1 ⟨rfl, rfl, rfl, rfl, rfl, rfl, ?_, ?_, ?_⟩
    · show n1.deriv.rows = b1.deriv.rows
      rw [hokb1.2.1, hok1.2.1, d3, d1]
    · show n1.deriv.cols = b1.deriv.cols
      rw [hokb1.2.2.1, hok1.2.2.1, d4, d2]
    · show n1.deriv.data.length = b1.deriv.data.length
      rw [hokb1.2.2.2, hok1.2.2.2, d3, d4, d1, d2]
  have v2 : ∀ q, h2.value q = h1.value q := by
    intro q; rw [eh2]; exact h1.set_deriv_value _ hb1 q
  obtain ⟨h3, e3, s3, fr3, v3⟩ := ihl h2 f (wl.sameShape (s1.trans s2)) hf.1
  obtain ⟨h4, e4, s4, fr4, v4⟩ := ihr h3 f (wr.sameShape ((s1.trans s2).trans s3)) hf.2
  refine ⟨h4, ?_, ((s1.trans s2).trans s3).trans s4, ?_, ?_⟩
  · rw [NodeTree.root, backprop]
    simp only [Heap.deref, hn, Option.bind_eq_bind, Option.some_bind, hty, hleft, hright,
      ha, hdl, hset1, hn1, hb1, hdr, hset2, e3, e4]
  · intro q hq
    simp only [NodeTree.descendants, List.mem_append, not_or] at hq
    rw [fr4 q (fun hq' => hq.2 (r.descendants_subset_addrs q hq')),
      fr3 q (fun hq' => hq.1 (l.descendants_subset_addrs q hq')), eh2,
      List.getElem?_set_ne (by rintro rfl; exact hq.2 r.root_mem_addrs), eh1,
      List.getElem?_set_ne (by rintro rfl; exact hq.1 l.root_mem_addrs)]
  · intro q
    rw [v4 q, v3 q, v2 q, v1 q]

/-- The Nonlinearity case of `backprop_graph`, with the gradient the operand ends with. -/
theorem backprop_graph_nl {α : Type} [Ring α] (p : Nat) (x : NodeTree)
    (ih : (∀ (h : Heap α) (fuel : Nat), WF h x → x.depth ≤ fuel →
      ∃ h', backprop fuel h (some x.root) = some h' ∧ h.SameShape h' ∧
        (∀ q, q ∉ x.descendants → h'[q]? = h[q]?) ∧ (∀ q, h'.value q = h.value q))) :
    ∀ (h : Heap α) (fuel : Nat), WF h (NodeTree.nl p x) → (NodeTree.nl p x).depth ≤ fuel →
      ∃ h', backprop fuel h (some p) = some h' ∧ h.SameShape h' ∧
        (∀ q, q ∉ x.addrs → h'[q]? = h[q]?) ∧ (∀ q, h'.value q = h.value q) ∧
        h'.grad x.root = (h.value p).invnl (h.grad p) := by
  intro h fuel hw hf
  obtain ⟨f, rfl⟩ : ∃ f, fuel = f + 1 := ⟨fuel - 1, by simp [NodeTree.depth] at hf; omega⟩
  simp only [NodeTree.depth, Nat.add_le_add_iff_right] at hf
  obtain ⟨n, a, hn, ha, hty, hleft, hright, hok, c1, c2, wx⟩ := (WF_nl_iff h p x).mp hw
  obtain ⟨a', ha', hoka⟩ := wx.root_ok
  rw [ha] at ha'; cases ha'
  have hdl := mat_invnl_eq a.deriv n.matrix n.deriv n.matrix.rows n.matrix.cols
    ⟨by rw [hoka.2.1, c1], by rw [hoka.2.2.1, c2], by rw [hoka.2.2.2, c1, c2]⟩
    hok.1.hasShape hok.2
  obtain ⟨h1, eh1⟩ : ∃ h1 : Heap α,
      h1 = h.set x.root { a with deriv := n.matrix.invnl n.deriv } := ⟨_, rfl⟩
  have hset1 : h.setDeriv (some x.root) (n.matrix.invnl n.deriv) = some h1 := by
    rw [eh1]; exact h.setDeriv_eq _ ha
  have ha1 : h1[x.root]? = some { a with deriv := n.matrix.invnl n.deriv } := by
    rw [eh1]; exact List.getElem?_set_self_of_some ha
  have s1 : h.SameShape h1 := by
    rw [eh1]
    refine Heap.SameShape.set h ha ⟨rfl, rfl, rfl, rfl, rfl, rfl, ?_, ?_, ?_⟩
    · show n.matrix.rows = a.deriv.rows
      rw [hoka.2.1, c1]
    · show n.matrix.cols = a.deriv.cols
      rw [hoka.2.2.1, c2]
    · have hs : n.matrix.data.length = n.matrix.rows * n.matrix.cols := hok.1
      simp [mlmatrix.invnl, hoka.2.2.2, hok.2.2.2, hs, c1, c2]
  have v1 : ∀ q, h1.value q = h.value q := by
    intro q; rw [eh1]; exact h.set_deriv_value _ ha q
  obtain ⟨h2, e2, s2, fr2, v2⟩ := ih h1 f (wx.sameShape s1) hf
  refine ⟨h2, ?_, s1.trans s2, ?_, ?_, ?_⟩
  · rw [backprop]
    simp only [Heap.deref, hn, Option.bind_eq_bind, Option.some_bind, hty, hleft,
      ha, hdl, hset1, e2]
  · intro q hq
    rw [fr2 q (fun hq' => hq (x.descendants_subset_addrs q hq')), eh1,
      List.getElem?_set_ne (by rintro rfl; exact hq x.root_mem_addrs)]
  · intro q
    rw [v2 q, v1 q]
  · rw [Heap.grad_congr (fr2 x.root wx.root_not_below), Heap.grad_of_getElem? ha1,
      Heap.value_of_getElem? hn, Heap.grad_of_getElem? hn]

/-- The function `backprop` on any graph that unfolds into a well-formed tree, shared nodes
allowed: enough fuel gives a heap of the same shape, with the old values, in which
every node that is not below the root is untouched. -/
theorem backprop_graph {α : Type} [Ring α] (t : NodeTree) :
    ∀ (h : Heap α) (fuel : Nat), WF h t → t.depth ≤ fuel →
      ∃ h', backprop fuel h (some t.root) = some h' ∧ h.SameShape h' ∧
        (∀ q, q ∉ t.descendants → h'[q]? = h[q]?) ∧ (∀ q, h'.value q = h.value q) := by
  induction t with
  | input p =>
    intro h fuel hw hf
    obtain ⟨n, hn, h1, -⟩ := (WF_input_iff h p).mp hw
    obtain ⟨f, rfl⟩ : ∃ f, fuel = f + 1 := ⟨fuel - 1, by simp [NodeTree.depth] at hf; omega⟩
    exact ⟨h, backprop_leaf f h hn (Or.inl h1), Heap.SameShape.refl h, fun _ _ => rfl,
      fun _ => rfl⟩
  | param p =>
    intro h fuel hw hf
    obtain ⟨n, hn, h1, -⟩ := (WF_param_iff h p).mp hw
    obtain ⟨f, rfl⟩ : ∃ f, fuel = f + 1 := ⟨fuel - 1, by simp [NodeTree.depth] at hf; omega⟩
    exact ⟨h, backprop_leaf f h hn (Or.inr h1), Heap.SameShape.refl h, fun _ _ => rfl,
      fun _ => rfl⟩
  | mul p l r ihl ihr => exact backprop_graph_mul p l r ihl ihr
  | add p l r ihl ihr => exact backprop_graph_add p l r ihl ihr
  | nl p x ih =>
    intro h fuel hw hf
    obtain ⟨h', e, s, fr, v, -⟩ := backprop_graph_nl p x ih h fuel hw hf
    exact ⟨h', e, s, fr, v⟩

/-! ## backprop on a MatMul node whose operands are not shared -/

/-- The function `backprop` on a MatMul node of a graph that may share nodes, when neither operand
is the other operand or a node below it: the operands end with `G × Rᵗ` and `Lᵗ × G`. -/
theorem backprop_mul_separate {α : Type} [Ring α] (h : Heap α) (p : Nat) (l r : NodeTree)
    (fuel : Nat) (hw : WF h (.mul p l r)) (hlr : l.root ∉ r.addrs) (hrl : r.root ∉ l.addrs)
    (hf : (NodeTree.mul p l r).depth ≤ fuel) :
    ∃ h', backprop fuel h (some p) = some h' ∧
      h'.grad l.root = (h.grad p).mul (h.value r.root).transpose ∧
      h'.grad r.root = (h.value l.root).transpose.mul (h.grad p) ∧
      (∀ q, h'.value q = h.value q) := by
  obtain ⟨f, rfl⟩ : ∃ f, fuel = f + 1 := ⟨fuel - 1, by simp [NodeTree.depth] at hf; omega⟩
  simp only [NodeTree.depth, Nat.add_le_add_iff_right, max_le_iff] at hf
  obtain ⟨n, a, b, hn, ha, hb, hty, hleft, hright, hok, c1, c2, c3, wl, wr⟩ :=
    (WF_mul_iff h p l r).mp hw
  obtain ⟨a', ha', hoka⟩ := wl.root_ok
  obtain ⟨b', hb', hokb⟩ := wr.root_ok
  rw [ha] at ha'; cases ha'
  rw [hb] at hb'; cases hb'
  have hLT := mat_transpose_eq_transpose a.matrix hoka.1
  have hRT := mat_transpose_eq_transpose b.matrix hokb.1
  have hdl := mat_mul_eq_mul a.deriv n.deriv b.matrix.transpose hok.2.sized
    b.matrix.transpose_hasShape.sized (by rw [hok.2.2.1, c3]; rfl)
    ⟨by rw [hoka.2.1, hok.2.1, c2], by rw [hoka.2.2.1, c1]; rfl, by
      rw [hoka.2.2.2, hok.2.1, c2, c1]; rfl⟩
  obtain ⟨h1, eh1⟩ : ∃ h1 : Heap α,
      h1 = h.set l.root { a with deriv := n.deriv.mul b.matrix.transpose } := ⟨_, rfl⟩
  have hset1 : h.setDeriv (some l.root) (n.deriv.mul b.matrix.transpose) = some h1 := by
    rw [eh1]; exact h.setDeriv_eq _ ha
  have s1 : h.SameShape h1 := by
    rw [eh1]
    refine Heap.SameShape.set h ha ⟨rfl, rfl, rfl, rfl, rfl, rfl, ?_, ?_, ?_⟩
    · show n.deriv.rows = a.deriv.rows
      rw [hoka.2.1, hok.2.1, c2]
    · show b.matrix.rows = a.deriv.cols
      rw [hoka.2.2.1, c1]
    · rw [hoka.2.2.2, (mlmatrix.mul_hasShape _ _).2.2, hok.2.1, c2, c1]; rfl
  have v1 : ∀ q, h1.value q = h.value q := by
    intro q; rw [eh1]; exact h.set_deriv_value _ ha q
  -- the second write reads the heap after the first one
  obtain ⟨n1, a1, b1, hn1, ha1, hb1, -, -, -, hok1, d1, d2, d3, -, wr1⟩ :=
    (WF_mul_iff h1 p l r).mp (hw.sameShape s1)
  obtain ⟨b1', hb1', hokb1⟩ := wr1.root_ok
  rw [hb1] at hb1'; cases hb1'
  have en : n1.matrix = n.matrix := by
    rw [← Heap.value_of_getElem? hn1, ← Heap.value_of_getElem? hn, v1]
  have ea : a1.matrix = a.matrix := by
    rw [← Heap.value_of_getElem? ha1, ← Heap.value_of_getElem? ha, v1]
  have eb : b1.matrix = b.matrix := by
    rw [← Heap.value_of_getElem? hb1, ← Heap.value_of_getElem? hb, v1]
  have hdr := mat_mul_eq_mul b1.deriv a.matrix.transpose n1.deriv
    a.matrix.transpose_hasShape.sized hok1.2.sized (by rw [hok1.2.1, en, c2]; rfl)
    ⟨by rw [hokb1.2.1, eb, ← c1]; rfl, by rw [hokb1.2.2.1, hok1.2.2.1, eb, en, c3], by
      rw [hokb1.2.2.2, hok1.2.2.1, eb, en, c3, ← c1]; rfl⟩
  obtain ⟨h2, eh2⟩ : ∃ h2 : Heap α,
      h2 = h1.set r.root { b1 with deriv := a.matrix.transpose.mul n1.deriv } := ⟨_, rfl⟩
  have hset2 : h1.setDeriv (some r.root) (a.matrix.transpose.mul n1.deriv) = some h2 := by
    rw [eh2]; exact h1.setDeriv_eq _ hb1
  have s2 : h1.SameShape h2 := by
    rw [eh2]
    refine Heap.SameShape.set h1 hb1 ⟨rfl, rfl, rfl, rfl, rfl, rfl, ?_, ?_, ?_⟩
    · show a.matrix.cols = b1.deriv.rows
      rw [hokb1.2.1, eb, c1]
    · show n1.deriv.cols = b1.deriv.cols
      rw [hokb1.2.2.1, hok1.2.2.1, eb, en, c3]
    · rw [hokb1.2.2.2, (mlmatrix.mul_hasShape _ _).2.2, hok1.2.2.1, eb, en, c3, ← c1]; rfl
  have v2 : ∀ q, h2.value q = h1.value q := by
    intro q; rw [eh2]; exact h1.set_deriv_value _ hb1 q
  obtain ⟨h3, e3, s3, fr3, v3⟩ := backprop_graph l h2 f (wl.sameShape (s1.trans s2)) hf.1
  obtain ⟨h4, e4, s4, fr4, v4⟩ := backprop_graph r h3 f
    (wr.sameShape ((s1.trans s2).trans s3)) hf.2
  have hpd := hw.root_not_below
  simp only [NodeTree.root, NodeTree.descendants, List.mem_append, not_or] at hpd
  have hpl : p ≠ l.root := by rintro rfl; exact hpd.1 l.root_mem_addrs
  have hne : l.root ≠ r.root := by
    intro e; rw [e] at hlr; exact hlr r.root_mem_addrs
  have en1 : n1 = n := by
    have : h1[p]? = h[p]? := by rw [eh1, List.getElem?_set_ne hpl.symm]
    rw [hn1, hn] at this
    exact Option.some.inj this
  have el2 : h2[l.root]? = some { a with deriv := n.deriv.mul b.matrix.transpose } := by
    rw [eh2, List.getElem?_set_ne hne.symm, eh1]
    exact List.getElem?_set_self_of_some ha
  have er2 : h2[r.root]? = some { b1 with deriv := a.matrix.transpose.mul n1.deriv } := by
    rw [eh2]; exact List.getElem?_set_self_of_some hb1
  have el4 : h4[l.root]? = h2[l.root]? := by
    rw [fr4 _ (fun hq => hlr (r.descendants_subset_addrs _ hq)),
      fr3 _ (wl.sameShape (s1.trans s2)).root_not_below]
  have er4 : h4[r.root]? = h2[r.root]? := by
    rw [fr4 _ (wr.sameShape ((s1.trans s2).trans s3)).root_not_below,
      fr3 _ (fun hq => hrl (l.descendants_subset_addrs _ hq))]
  refine ⟨h4, ?_, ?_, ?_, ?_⟩
  · rw [backprop]
    simp only [Heap.deref, hn, Option.bind_eq_bind, Option.some_bind, hty, hleft, hright,
      ha, hb, hLT, hRT, hdl, hset1, hn1, hb1, hdr, hset2, e3, e4]
  · rw [Heap.grad_of_getElem? (el4.trans el2), Heap.grad_of_getElem? hn,
      Heap.value_of_getElem? hb]
  · rw [Heap.grad_of_getElem? (er4.trans er2), Heap.grad_of_getElem? hn,
      Heap.value_of_getElem? ha, en1]
  · intro q
    rw [v4 q, v3 q, v2 q, v1 q]

/-! ## Transposition of an arbitrary pre-sized destination -/

/-- Two buffers of one shape that agree on every entry are the same buffer. -/
theorem mlmatrix.ext_entry {α : Type} [Zero α] {x y : mlmatrix α} {r c : Nat}
    (hx : x.HasShape r c) (hy : y.HasShape r c)
    (he : ∀ i j, i < r → j < c → x.entry i j = y.entry i j) : x = y := by
  obtain ⟨xr, xc, xl⟩ := hx
  obtain ⟨yr, yc, yl⟩ := hy
  have hdata : x.data = y.data := by
    apply List.ext_getElem?
    intro k
    by_cases hk : k < r * c
    · obtain ⟨-, h1, h2, h3⟩ := div_mul_add_mod_lt hk
      have e := he _ _ h1 h2
      have hkx : k < x.data.length := by omega
      have hky : k < y.data.length := by omega
      simp only [mlmatrix.entry, xc, yc, h3, List.getElem?_eq_getElem hkx,
        List.getElem?_eq_getElem hky, Option.getD_some] at e
      rw [List.getElem?_eq_getElem hkx, List.getElem?_eq_getElem hky, e]
    · rw [List.getElem?_eq_none (by omega), List.getElem?_eq_none (by omega)]
  cases x
  cases y
  simp_all

/-- On any destination pre-sized to the transposed shape, `mat_transpose` returns a
buffer of that shape whose entry `(i,j)` is entry `(j,i)` of the source. -/
theorem mat_transpose_shaped {α : Type} [Zero α] (dst src : mlmatrix α) (r c : Nat)
    (hs : src.HasShape r c) (hd : dst.HasShape c r) :
    ∃ d, mat_transpose dst src = some d ∧ d.HasShape c r ∧
      ∀ i j, i < c → j < r → d.entry i j = src.entry j i := by
  obtain ⟨sr, sc, sl⟩ := hs
  obtain ⟨dr, dc, dl⟩ := hd
  obtain ⟨d, e, hr, hc, hl, hent, -⟩ := mat_transpose_ok dst src
    (by unfold mlmatrix.Sized; rw [sl, sr, sc]) (by rw [dr, sc]) (by rw [dc, sr])
    (by rw [dl, dr, dc])
  refine ⟨d, e, ⟨by rw [hr, dr], by rw [hc, dc], by rw [hl, dl]⟩, ?_⟩
  intro i j hi hj
  apply d.entry_eq_of_getElem?
  rw [hc]
  exact hent i j (by rw [dr]; exact hi) (by rw [dc]; exact hj)

/-! ## The loader -/

theorem List.set_self_of_getElem? {β : Type} {l : List β} {p : Nat} {a : β}
    (h : l[p]? = some a) : l.set p a = l := by
  apply List.ext_getElem?
  intro k
  by_cases hk : p = k
  · subst hk
    rw [List.getElem?_set_self_of_some h, h]
  · rw [List.getElem?_set_ne hk]

/-- The loop of `load_input`: on a live node with at least 784 value entries and a
dataset that holds sample `idx`, it succeeds; only the first 784 value entries of the
node change, entry `i` to the byte `idx*784 + i` divided by 255. -/
theorem load_input_ok {α : Type} [NatCast α] [Div α] (h : Heap α) (p : Nat) (nd : node α)
    (dataset : List uint8_t) (idx : Nat) (hp : h[p]? = some nd)
    (hlen : 784 ≤ nd.matrix.data.length) (hds : idx * 784 + 784 ≤ dataset.length) :
    ∃ m, load_input h (some p) dataset idx =
        some (h.set p ⟨nd.type, nd.left, nd.right, m, nd.deriv⟩) ∧
      m.rows = nd.matrix.rows ∧ m.cols = nd.matrix.cols ∧
      m.data.length = nd.matrix.data.length ∧
      ∀ k, m.data[k]? = if k < 784 then
          some ((((dataset.getD (idx * 784 + k) 0).val : Nat) : α) / ((255 : Nat) : α))
        else nd.matrix.data[k]? := by
  have hpl : p < h.length := by
    rcases Nat.lt_or_ge p h.length with hlt | hge
    · exact hlt
    · rw [List.getElem?_eq_none hge] at hp; cases hp
  obtain ⟨v, hv⟩ : ∃ v : Nat → α, v = fun k =>
      (((dataset.getD (idx * 784 + k) 0).val : Nat) : α) / ((255 : Nat) : α) := ⟨_, rfl⟩
  have key := forLoop_inv
    (fun i (h' : Heap α) => ∃ m, h' = h.set p ⟨nd.type, nd.left, nd.right, m, nd.deriv⟩ ∧
      m.rows = nd.matrix.rows ∧ m.cols = nd.matrix.cols ∧
      m.data.length = nd.matrix.data.length ∧
      ∀ k, m.data[k]? = if k < i then some (v k) else nd.matrix.data[k]?)
    784 (fun i h => do
      let nd ← h.deref (some p)
      let b ← dataset[idx * 784 + i]?
      let m ← nd.matrix.store i (((b.val : Nat) : α) / ((255 : Nat) : α))
      h.setMatrix (some p) m) h
    ⟨nd.matrix, (List.set_self_of_getElem? hp).symm, rfl, rfl, rfl, by simp⟩
    (by
      rintro i h' hi ⟨m, rfl, mr, mc, ml, mk⟩
      have hb : idx * 784 + i < dataset.length := by omega
      have him : i < m.data.length := by omega
      refine ⟨h.set p ⟨nd.type, nd.left, nd.right, ⟨m.rows, m.cols, m.data.set i (v i)⟩,
        nd.deriv⟩, ?_, ⟨_, rfl, mr, mc, by simpa using ml, ?_⟩⟩
      · simp [Heap.deref, Heap.setMatrix, List.getElem?_set, hpl, mlmatrix.store, him,
          List.getElem?_eq_getElem hb, List.getD_eq_getElem?_getD, hv]
      · intro k
        by_cases hki : k = i
        · subst hki
          simp [List.getElem?_set, him]
        · rw [List.getElem?_set_ne (by omega), mk k]
          by_cases hk : k < i
          · rw [if_pos hk, if_pos (by omega)]
          · rw [if_neg hk, if_neg (by omega)])
  obtain ⟨h', e, m, rfl, mr, mc, ml, mk⟩ := key
  subst hv
  exact ⟨m, e, mr, mc, ml, mk⟩

/-! ## The decision rule -/

/-- The loop of `interpret_result` over a buffer `m` whose `rows*cols` entries exist
and are at least one: it returns an index inside the buffer that holds a maximum and
is preceded by strictly smaller entries only. -/
theorem interpret_result_loop {α : Type} [LinearOrder α] (m : mlmatrix α)
    (hpos : 0 < m.rows * m.cols) (hlen : m.rows * m.cols ≤ m.data.length) :
    ∃ i, forLoop (m.rows * m.cols) (fun i max_idx => do
        let v ← m.load i
        let c ← m.load max_idx
        pure (if v > c then i else max_idx)) 0 = some i ∧
      i < m.rows * m.cols ∧
      (∀ j w u, j < m.rows * m.cols → m.data[j]? = some w → m.data[i]? = some u → w ≤ u) ∧
      (∀ j w u, j < i → m.data[j]? = some w → m.data[i]? = some u → w < u) := by
  have key := forLoop_inv
    (fun k (i : Nat) => i < m.rows * m.cols ∧
      (∀ j w u, j < k → m.data[j]? = some w → m.data[i]? = some u → w ≤ u) ∧
      (∀ j w u, j < i → m.data[j]? = some w → m.data[i]? = some u → w < u))
    (m.rows * m.cols) (fun i max_idx => do
        let v ← m.load i
        let c ← m.load max_idx
        pure (if v > c then i else max_idx)) 0
    ⟨hpos, fun j w u hj => absurd hj (Nat.not_lt_zero j),
      fun j w u hj => absurd hj (Nat.not_lt_zero j)⟩
    (by
      rintro k i hk ⟨hi, hmax, hfirst⟩
      have hk' : k < m.data.length := by omega
      have hi' : i < m.data.length := by omega
      have ek : m.data[k]? = some m.data[k] := List.getElem?_eq_getElem hk'
      have ei : m.data[i]? = some m.data[i] := List.getElem?_eq_getElem hi'
      by_cases hgt : m.data[k] > m.data[i]
      · refine ⟨k, by simp [mlmatrix.load, ek, ei, hgt], hk, ?_, ?_⟩
        · intro j w u hj hw hu
          rw [ek] at hu
          cases hu
          rcases Nat.lt_succ_iff_lt_or_eq.mp hj with hlt | heq
          · exact le_of_lt (lt_of_le_of_lt (hmax j w _ hlt hw ei) hgt)
          · subst heq
            rw [ek] at hw
            cases hw
            exact le_refl _
        · intro j w u hj hw hu
          rw [ek] at hu
          cases hu
          exact lt_of_le_of_lt (hmax j w _ hj hw ei) hgt
      · refine ⟨i, by simp [mlmatrix.load, ek, ei, hgt], hi, ?_, hfirst⟩
        intro j w u hj hw hu
        rcases Nat.lt_succ_iff_lt_or_eq.mp hj with hlt | heq
        · exact hmax j w u hlt hw hu
        · subst heq
          rw [ek] at hw
          rw [ei] at hu
          cases hw
          cases hu
          exact not_lt.mp hgt)
  obtain ⟨i, e, hi, hmax, hfirst⟩ := key
  exact ⟨i, e, hi, hmax, hfirst⟩

/-! ## Rounding in a binary format -/

/-- A number within half a unit of the integer `N`, strictly, rounds to `N`. -/
theorem roundHalfEven_eq (N : Int) (t : ℚ) (h1 : (N : ℚ) - 1 / 2 < t)
    (h2 : t < (N : ℚ) + 1 / 2) : roundHalfEven t = N := by
  unfold roundHalfEven
  rcases le_or_lt (N : ℚ) t with hle | hlt
  · have hf : ⌊t⌋ = N := Int.floor_eq_iff.mpr ⟨hle, by linarith⟩
    rw [hf, if_pos (by linarith)]
  · have hf : ⌊t⌋ = N - 1 := Int.floor_eq_iff.mpr ⟨by push_cast; linarith, by push_cast; linarith⟩
    rw [hf, if_neg (by push_cast; linarith), if_pos (by push_cast; linarith)]
    ring

/-- Rounding stays between integer bounds of its argument. -/
theorem roundHalfEven_mem (a b : Int) (t : ℚ) (ha : (a : ℚ) ≤ t) (hb : t ≤ (b : ℚ)) :
    a ≤ roundHalfEven t ∧ roundHalfEven t ≤ b := by
  have hfa : a ≤ ⌊t⌋ := Int.le_floor.mpr ha
  have hfb : ⌊t⌋ ≤ b := by
    have : (⌊t⌋ : ℚ) ≤ b := le_trans (Int.floor_le t) hb
    exact_mod_cast this
  have hup : ¬ t - ⌊t⌋ < 1 / 2 → ⌊t⌋ + 1 ≤ b := by
    intro hnot
    have hlt : (⌊t⌋ : ℚ) < b := by linarith
    have : ⌊t⌋ < b := by exact_mod_cast hlt
    omega
  unfold roundHalfEven
  split_ifs with c1 c2 c3
  · exact ⟨hfa, hfb⟩
  · exact ⟨by omega, hup c1⟩
  · exact ⟨hfa, hfb⟩
  · exact ⟨by omega, hup c1⟩

/-- The spacing around a number whose exponent `e` is in the normal range. -/
theorem FloatFormat.ulp_eq (f : FloatFormat) (q : ℚ) (e : Int) (hlo : (2 : ℚ) ^ e ≤ |q|)
    (hhi : |q| < (2 : ℚ) ^ (e + 1)) (he : f.emin ≤ e) :
    f.ulp q = (2 : ℚ) ^ (e - ((f.prec : Int) - 1)) := by
  have hpos : 0 < |q| := lt_of_lt_of_le (by positivity) hlo
  have hlog : Int.log 2 |q| = e := by
    apply le_antisymm
    · have := (Int.lt_zpow_iff_log_lt (R := ℚ) (by norm_num : 1 < 2) hpos).mp
        (by exact_mod_cast hhi : |q| < ((2 : ℕ) : ℚ) ^ (e + 1))
      omega
    · exact (Int.zpow_le_iff_le_log (R := ℚ) (by norm_num : 1 < 2) hpos).mp
        (by exact_mod_cast hlo)
  unfold FloatFormat.ulp
  rw [hlog, max_eq_left he]

/-- The rounding of a number of exponent `e`, in terms of the rounded significand. -/
theorem FloatFormat.round_eq (f : FloatFormat) (q : ℚ) (e : Int) (hlo : (2 : ℚ) ^ e ≤ |q|)
    (hhi : |q| < (2 : ℚ) ^ (e + 1)) (he : f.emin ≤ e)
    (hfin : |(roundHalfEven (q / (2 : ℚ) ^ (e - ((f.prec : Int) - 1))) : ℚ) *
      (2 : ℚ) ^ (e - ((f.prec : Int) - 1))| < (2 : ℚ) ^ (f.emax + 1)) :
    f.round q = FloatVal.fin ((roundHalfEven (q / (2 : ℚ) ^ (e - ((f.prec : Int) - 1))) : ℚ) *
      (2 : ℚ) ^ (e - ((f.prec : Int) - 1))) := by
  unfold FloatFormat.round
  rw [f.ulp_eq q e hlo hhi he]
  simp only
  rw [if_pos hfin]

/-! ## Saturation of `sigmoid` in binary32 -/

/-- The sum `1.0f + e` in `double`, for a small `e`. -/
theorem binary64_round_one_add (e : ℚ) (h0 : 0 ≤ e) (h1 : e ≤ 1 / 2 ^ 26) :
    ∃ s, binary64.round (1 + e) = FloatVal.fin s ∧ 1 ≤ s ∧ s ≤ 1 + 1 / 2 ^ 26 := by
  have habs : |1 + e| = 1 + e := abs_of_nonneg (by linarith)
  have hu : (2 : ℚ) ^ ((0 : Int) - ((binary64.prec : Int) - 1)) = 1 / 2 ^ 52 := by
    norm_num [binary64]
  obtain ⟨ha, hb⟩ := roundHalfEven_mem (2 ^ 52) (2 ^ 52 + 2 ^ 26) ((1 + e) / (1 / 2 ^ 52))
    (by rw [le_div_iff₀ (by positivity)]; push_cast; linarith)
    (by rw [div_le_iff₀ (by positivity)]; push_cast; linarith)
  have ha' : ((2 ^ 52 : Int) : ℚ) ≤ (roundHalfEven ((1 + e) / (1 / 2 ^ 52)) : ℚ) :=
    Int.cast_le.mpr ha
  have hb' : (roundHalfEven ((1 + e) / (1 / 2 ^ 52)) : ℚ) ≤ ((2 ^ 52 + 2 ^ 26 : Int) : ℚ) :=
    Int.cast_le.mpr hb
  push_cast at ha' hb'
  have hr := binary64.round_eq (1 + e) 0 (by rw [habs]; norm_num; linarith)
    (by rw [habs]; norm_num; linarith) (by norm_num [binary64])
  rw [hu] at hr
  have hN1 : (1 : ℚ) ≤ (roundHalfEven ((1 + e) / (1 / 2 ^ 52)) : ℚ) * (1 / 2 ^ 52) := by
    linarith
  have hN2 : (roundHalfEven ((1 + e) / (1 / 2 ^ 52)) : ℚ) * (1 / 2 ^ 52) ≤ 1 + 1 / 2 ^ 26 := by
    linarith
  refine ⟨_, hr ?_, hN1, hN2⟩
  rw [abs_of_nonneg (by linarith)]
  have : (2 : ℚ) ^ (binary64.emax + 1) = 2 ^ 1024 := by norm_num [binary64]
  rw [this]
  calc (roundHalfEven ((1 + e) / (1 / 2 ^ 52)) : ℚ) * (1 / 2 ^ 52)
      ≤ 1 + 1 / 2 ^ 26 := hN2
    _ < 2 ^ 1024 := by norm_num

/-- Rounding a non-negative number of exponent `e` keeps it between the numbers of
the format `a * 2 ^ (e - prec + 1)` and `b * 2 ^ (e - prec + 1)` that enclose it. -/
theorem FloatFormat.round_between (f : FloatFormat) (q : ℚ) (e a b : Int) (u : ℚ)
    (hu : (2 : ℚ) ^ (e - ((f.prec : Int) - 1)) = u) (hupos : 0 < u)
    (hlo : (2 : ℚ) ^ e ≤ q) (hhi : q < (2 : ℚ) ^ (e + 1)) (he : f.emin ≤ e)
    (ha0 : 0 ≤ a) (ha : (a : ℚ) * u ≤ q) (hb : q ≤ (b : ℚ) * u)
    (hfin : (b : ℚ) * u < (2 : ℚ) ^ (f.emax + 1)) :
    ∃ r, f.round q = FloatVal.fin r ∧ (a : ℚ) * u ≤ r ∧ r ≤ (b : ℚ) * u := by
  have hq0 : 0 ≤ q := le_trans (by positivity) hlo
  have habs : |q| = q := abs_of_nonneg hq0
  obtain ⟨hA, hB⟩ := roundHalfEven_mem a b (q / u)
    (by rw [le_div_iff₀ hupos]; exact ha) (by rw [div_le_iff₀ hupos]; exact hb)
  have hA' : (a : ℚ) ≤ (roundHalfEven (q / u) : ℚ) := Int.cast_le.mpr hA
  have hB' : (roundHalfEven (q / u) : ℚ) ≤ (b : ℚ) := Int.cast_le.mpr hB
  have hr := f.round_eq q e (by rw [habs]; exact hlo) (by rw [habs]; exact hhi) he
  rw [hu] at hr
  have h1 : (a : ℚ) * u ≤ (roundHalfEven (q / u) : ℚ) * u :=
    mul_le_mul_of_nonneg_right hA' (le_of_lt hupos)
  have h2 : (roundHalfEven (q / u) : ℚ) * u ≤ (b : ℚ) * u :=
    mul_le_mul_of_nonneg_right hB' (le_of_lt hupos)
  have ha0' : (0 : ℚ) ≤ (a : ℚ) := Int.cast_nonneg.mpr ha0
  refine ⟨_, hr ?_, h1, h2⟩
  rw [abs_of_nonneg (le_trans (mul_nonneg ha0' (le_of_lt hupos)) h1)]
  exact lt_of_le_of_lt h2 hfin

/-- The quotient `1.0f / s` in `double`, for `s` just above `1`. -/
theorem binary64_round_inv (s : ℚ) (h1 : 1 ≤ s) (h2 : s ≤ 1 + 1 / 2 ^ 26) :
    ∃ d, binary64.round (1 / s) = FloatVal.fin d ∧ 1 - 1 / 2 ^ 26 ≤ d ∧ d ≤ 1 := by
  have hspos : 0 < s := by linarith
  have hge : 1 - 1 / 2 ^ 26 ≤ 1 / s := by
    rw [le_div_iff₀ hspos]
    nlinarith
  rcases eq_or_lt_of_le h1 with heq | hlt
  · subst heq
    obtain ⟨r, hr, ha, hb⟩ := binary64.round_between (1 / 1) 0 (2 ^ 52) (2 ^ 52) (1 / 2 ^ 52)
      (by norm_num [binary64]) (by positivity) (by norm_num) (by norm_num)
      (by norm_num [binary64]) (by positivity) (by norm_num) (by norm_num)
      (by norm_num [binary64])
    exact ⟨r, hr, by push_cast at ha; linarith, by push_cast at hb; linarith⟩
  · have hlt1 : 1 / s < 1 := by
      rw [div_lt_one hspos]; exact hlt
    obtain ⟨r, hr, ha, hb⟩ := binary64.round_between (1 / s) (-1) (2 ^ 53 - 2 ^ 27) (2 ^ 53)
      (1 / 2 ^ 53) (by norm_num [binary64]) (by positivity)
      (by norm_num at hge ⊢; linarith) (by norm_num at hlt1 ⊢; exact hlt1)
      (by norm_num [binary64]) (by norm_num) (by push_cast; linarith)
      (by push_cast; linarith) (by norm_num [binary64])
    exact ⟨r, hr, by push_cast at ha; linarith, by push_cast at hb; linarith⟩

/-- The conversion to `float` of a `double` just below `1`, or equal to it. -/
theorem binary32_round_near_one (d : ℚ) (h1 : 1 - 1 / 2 ^ 26 ≤ d) (h2 : d ≤ 1) :
    binary32.round d = FloatVal.fin 1 := by
  rcases eq_or_lt_of_le h2 with heq | hlt
  · subst heq
    obtain ⟨r, hr, ha, hb⟩ := binary32.round_between 1 0 (2 ^ 23) (2 ^ 23) (1 / 2 ^ 23)
      (by norm_num [binary32]) (by positivity) (by norm_num) (by norm_num)
      (by norm_num [binary32]) (by positivity) (by norm_num) (by norm_num)
      (by norm_num [binary32])
    have : r = 1 := le_antisymm (by push_cast at hb; linarith) (by push_cast at ha; linarith)
    rw [hr, this]
  · have hr := binary32.round_eq d (-1) (by rw [abs_of_nonneg (by linarith)]; norm_num; linarith)
      (by rw [abs_of_nonneg (by linarith)]; norm_num; linarith) (by norm_num [binary32])
    have hu : (2 : ℚ) ^ ((-1 : Int) - ((binary32.prec : Int) - 1)) = 1 / 2 ^ 24 := by
      norm_num [binary32]
    rw [hu] at hr
    have hN : roundHalfEven (d / (1 / 2 ^ 24)) = 2 ^ 24 := by
      apply roundHalfEven_eq
      · rw [lt_div_iff₀ (by positivity)]; push_cast; linarith
      · rw [div_lt_iff₀ (by positivity)]; push_cast; linarith
    rw [hN] at hr
    have h1' : (((2 ^ 24 : Int) : ℚ)) * (1 / 2 ^ 24) = 1 := by norm_num
    rw [h1'] at hr
    exact hr (by norm_num [binary32])

/-- The evaluation of `sigmoid` step by step when every intermediate value is finite. -/
theorem sigmoid_binary32_eval (exp : FloatVal → FloatVal) (x : FloatVal) (e s d : ℚ)
    (r : FloatVal) (he : exp x.neg = .fin e) (hs : binary64.round (1 + e) = .fin s)
    (hs0 : s ≠ 0) (hd : binary64.round (1 / s) = .fin d) (hr : binary32.round d = r) :
    sigmoid_binary32 exp x = r := by
  simp only [sigmoid_binary32, he, binary64_one_add, hs, binary64_one_div, if_neg hs0, hd,
    binary32_of_double, hr]

/-- In binary32, `sigmoid(20.0f)` is exactly `1.0f` whatever small non-negative value
`exp` returns at `-20`. -/
theorem sigmoid_binary32_saturates (exp : FloatVal → FloatVal) (e : ℚ)
    (he : exp (.fin (-20)) = .fin e) (h0 : 0 ≤ e) (h1 : e ≤ 1 / 2 ^ 26) :
    sigmoid_binary32 exp (.fin 20) = .fin 1 := by
  obtain ⟨s, hs, s1, s2⟩ := binary64_round_one_add e h0 h1
  obtain ⟨d, hd, d1, d2⟩ := binary64_round_inv s s1 s2
  exact sigmoid_binary32_eval exp (.fin 20) e s d _ he hs (by linarith) hd
    (binary32_round_near_one d d1 d2)

/-- In binary32, `sigmoid(0.0f)` is exactly `0.5f` when `exp` returns `1` at `0`. -/
theorem sigmoid_binary32_zero (exp : FloatVal → FloatVal) (he : exp (.fin 0) = .fin 1) :
    sigmoid_binary32 exp (.fin 0) = .fin (1 / 2) := by
  obtain ⟨s, hs, sa, sb⟩ := binary64.round_between (1 + 1) 1 (2 ^ 52) (2 ^ 52) (1 / 2 ^ 51)
    (by norm_num [binary64]) (by positivity) (by norm_num) (by norm_num)
    (by norm_num [binary64]) (by positivity) (by norm_num) (by norm_num)
    (by norm_num [binary64])
  have es : s = 2 := le_antisymm (by push_cast at sb; linarith) (by push_cast at sa; linarith)
  subst es
  obtain ⟨d, hd, da, db⟩ := binary64.round_between (1 / 2) (-1) (2 ^ 52) (2 ^ 52) (1 / 2 ^ 53)
    (by norm_num [binary64]) (by positivity) (by norm_num) (by norm_num)
    (by norm_num [binary64]) (by positivity) (by norm_num) (by norm_num)
    (by norm_num [binary64])
  have ed : d = 1 / 2 := le_antisymm (by push_cast at db; linarith) (by push_cast at da; linarith)
  subst ed
  obtain ⟨r, hr, ra, rb⟩ := binary32.round_between (1 / 2) (-1) (2 ^ 23) (2 ^ 23) (1 / 2 ^ 24)
    (by norm_num [binary32]) (by positivity) (by norm_num) (by norm_num)
    (by norm_num [binary32]) (by positivity) (by norm_num) (by norm_num)
    (by norm_num [binary32])
  have er : r = 1 / 2 := le_antisymm (by push_cast at rb; linarith) (by push_cast at ra; linarith)
  subst er
  exact sigmoid_binary32_eval exp (.fin 0) 1 2 (1 / 2) _
    (by simpa [FloatVal.neg] using he) hs (by norm_num) hd hr

/-! ## The record of forward_prop -/

theorem forward_prop_log_null {α : Type} [Zero α] [One α] [Add α] [Mul α] [Neg α] [Div α]
    (exp : α → α) (fuel : Nat) (s : Heap α × List Nat) :
    forward_prop_log exp fuel s none = some s := by
  cases fuel <;> simp [forward_prop_log]

/-- Without its record, `forward_prop_log` is `forward_prop`. -/
theorem forward_prop_log_erase {α : Type} [Zero α] [One α] [Add α] [Mul α] [Neg α] [Div α]
    (exp : α → α) (fuel : Nat) :
    ∀ (s : Heap α × List Nat) (p : Option Nat),
      (forward_prop_log exp fuel s p).map Prod.fst = forward_prop exp fuel s.1 p := by
  induction fuel with
  | zero =>
    intro s p
    cases p <;> simp [forward_prop_log, forward_prop]
  | succ f ih =>
    intro s p
    cases p with
    | none => simp [forward_prop_log, forward_prop]
    | some p =>
      rw [forward_prop_log, forward_prop]
      cases hn : s.1[p]? with
      | none => simp
      | some n =>
        simp only [Option.bind_eq_bind, Option.some_bind]
        rw [← ih s n.left]
        cases h1 : forward_prop_log exp f s n.left with
        | none => simp
        | some s1 =>
          simp only [Option.map_some', Option.some_bind]
          rw [← ih s1 n.right]
          cases h2 : forward_prop_log exp f s1 n.right with
          | none => simp
          | some s2 =>
            simp only [Option.map_some', Option.some_bind]
            cases n.type <;> simp only [Option.map_some']
            all_goals
              cases s2.1[p]? <;> simp only [Option.none_bind, Option.some_bind, Option.map_none']
              cases s2.1.deref n.left <;>
                simp only [Option.none_bind, Option.some_bind, Option.map_none']
            · rename_i dst l
              cases s2.1.deref n.right <;>
                simp only [Option.none_bind, Option.some_bind, Option.map_none']
              rename_i r
              cases mat_mul dst.matrix l.matrix r.matrix <;>
                simp only [Option.none_bind, Option.some_bind, Option.map_none']
              rename_i m
              cases s2.1.setMatrix (some p) m <;> simp
            · rename_i dst l
              cases s2.1.deref n.right <;>
                simp only [Option.none_bind, Option.some_bind, Option.map_none']
              rename_i r
              cases mat_add dst.matrix l.matrix r.matrix <;>
                simp only [Option.none_bind, Option.some_bind, Option.map_none']
              rename_i m
              cases s2.1.setMatrix (some p) m <;> simp
            · rename_i dst l
              cases mat_nl exp dst.matrix l.matrix <;>
                simp only [Option.none_bind, Option.some_bind, Option.map_none']
              rename_i m
              cases s2.1.setMatrix (some p) m <;> simp

/-- On every graph the constructors can build (`WF`, shared nodes allowed),
`forward_prop` returns, keeps every shape, and recomputes values in the post-order
of the unfolding of the graph: once for every path from the root to a node with
operands. -/
theorem forward_prop_log_graph {α : Type} [Ring α] [Div α] (exp : α → α) (t : NodeTree) :
    ∀ (h : Heap α) (log : List Nat) (fuel : Nat), WF h t → t.depth ≤ fuel →
      ∃ h', forward_prop_log exp fuel (h, log) (some t.root) = some (h', log ++ t.postInner) ∧
        h.SameShape h' := by
  induction t with
  | input p =>
    intro h log fuel hw hf
    obtain ⟨n, hn, h1, h2, h3, -⟩ := (WF_input_iff h p).mp hw
    obtain ⟨f, rfl⟩ : ∃ f, fuel = f + 1 := ⟨fuel - 1, by simp [NodeTree.depth] at hf; omega⟩
    refine ⟨h, ?_, Heap.SameShape.refl h⟩
    rw [NodeTree.root, forward_prop_log]
    simp [hn, h1, h2, h3, forward_prop_log_null, NodeTree.postInner]
  | param p =>
    intro h log fuel hw hf
    obtain ⟨n, hn, h1, h2, h3, -⟩ := (WF_param_iff h p).mp hw
    obtain ⟨f, rfl⟩ : ∃ f, fuel = f + 1 := ⟨fuel - 1, by simp [NodeTree.depth] at hf; omega⟩
    refine ⟨h, ?_, Heap.SameShape.refl h⟩
    rw [NodeTree.root, forward_prop_log]
    simp [hn, h1, h2, h3, forward_prop_log_null, NodeTree.postInner]
  | mul p l r ihl ihr =>
    intro h log fuel hw hf
    obtain ⟨f, rfl⟩ : ∃ f, fuel = f + 1 := ⟨fuel - 1, by simp [NodeTree.depth] at hf; omega⟩
    simp only [NodeTree.depth, Nat.add_le_add_iff_right, max_le_iff] at hf
    obtain ⟨n, a, b, hn, -, -, hty, hleft, hright, -, -, -, -, wl, wr⟩ :=
      (WF_mul_iff h p l r).mp hw
    obtain ⟨h1, e1, s1⟩ := ihl h log f wl hf.1
    obtain ⟨h2, e2, s2⟩ := ihr h1 (log ++ l.postInner) f (wr.sameShape s1) hf.2
    have hw2 : WF h2 (.mul p l r) := hw.sameShape (s1.trans s2)
    obtain ⟨n2, a2, b2, hn2, ha2, hb2, -, -, -, hok2, c1, c2, c3, wl2, wr2⟩ :=
      (WF_mul_iff h2 p l r).mp hw2
    obtain ⟨a', ha', hoka⟩ := wl2.root_ok
    obtain ⟨b', hb', hokb⟩ := wr2.root_ok
    rw [ha2] at ha'; cases ha'
    rw [hb2] at hb'; cases hb'
    have hm := mat_mul_eq_mul n2.matrix a2.matrix b2.matrix hoka.1 hokb.1 c1
      ⟨c2, c3, by rw [hok2.1, c2, c3]⟩
    refine ⟨h2.set p { n2 with matrix := a2.matrix.mul b2.matrix }, ?_, ?_⟩
    · rw [NodeTree.root, forward_prop_log]
      simp only [hn, Option.bind_eq_bind, Option.some_bind, hleft, hright, e1, e2, hty, hn2,
        Heap.deref, ha2, hb2, hm, h2.setMatrix_eq _ hn2, NodeTree.postInner,
        List.append_assoc]
      rfl
    · exact (s1.trans s2).trans (Heap.SameShape.set h2 hn2
        ⟨rfl, rfl, rfl, c2.symm, c3.symm, by
          have hs2 : n2.matrix.data.length = n2.matrix.rows * n2.matrix.cols := hok2.1
          simp [mlmatrix.mul, hs2, c2, c3], rfl, rfl, rfl⟩)
  | add p l r ihl ihr =>
    intro h log fuel hw hf
    obtain ⟨f, rfl⟩ : ∃ f, fuel = f + 1 := ⟨fuel - 1, by simp [NodeTree.depth] at hf; omega⟩
    simp only [NodeTree.depth, Nat.add_le_add_iff_right, max_le_iff] at hf
    obtain ⟨n, a, b, hn, -, -, hty, hleft, hright, -, -, -, -, -, wl, wr⟩ :=
      (WF_add_iff h p l r).mp hw
    obtain ⟨h1, e1, s1⟩ := ihl h log f wl hf.1
    obtain ⟨h2, e2, s2⟩ := ihr h1 (log ++ l.postInner) f (wr.sameShape s1) hf.2
    have hw2 : WF h2 (.add p l r) := hw.sameShape (s1.trans s2)
    obtain ⟨n2, a2, b2, hn2, ha2, hb2, -, -, -, hok2, c1, c2, c3, c4, wl2, wr2⟩ :=
      (WF_add_iff h2 p l r).mp hw2
    obtain ⟨a', ha', hoka⟩ := wl2.root_ok
    obtain ⟨b', hb', hokb⟩ := wr2.root_ok
    rw [ha2] at ha'; cases ha'
    rw [hb2] at hb'; cases hb'
    have hm := mat_add_eq_add n2.matrix a2.matrix b2.matrix hoka.1
      ⟨c3, c4, by rw [hokb.1, c3, c4]⟩ ⟨c1, c2, by rw [hok2.1, c1, c2]⟩
    refine ⟨h2.set p { n2 with matrix := a2.matrix.add b2.matrix }, ?_, ?_⟩
    · rw [NodeTree.root, forward_prop_log]
      simp only [hn, Option.bind_eq_bind, Option.some_bind, hleft, hright, e1, e2, hty, hn2,
        Heap.deref, ha2, hb2, hm, h2.setMatrix_eq _ hn2, NodeTree.postInner,
        List.append_assoc]
      rfl
    · exact (s1.trans s2).trans (Heap.SameShape.set h2 hn2
        ⟨rfl, rfl, rfl, c1.symm, c2.symm, by
          have hsa : a2.matrix.data.length = a2.matrix.rows * a2.matrix.cols := hoka.1
          have hsb : b2.matrix.data.length = b2.matrix.rows * b2.matrix.cols := hokb.1
          have hs2 : n2.matrix.data.length = n2.matrix.rows * n2.matrix.cols := hok2.1
          simp [mlmatrix.add, hs2, hsa, hsb, c1, c2, c3, c4], rfl, rfl, rfl⟩)
  | nl p x ih =>
    intro h log fuel hw hf
    obtain ⟨f, rfl⟩ : ∃ f, fuel = f + 1 := ⟨fuel - 1, by simp [NodeTree.depth] at hf; omega⟩
    simp only [NodeTree.depth, Nat.add_le_add_iff_right] at hf
    obtain ⟨n, a, hn, -, hty, hleft, hright, -, -, -, wx⟩ := (WF_nl_iff h p x).mp hw
    obtain ⟨h1, e1, s1⟩ := ih h log f wx hf
    have hw1 : WF h1 (.nl p x) := hw.sameShape s1
    obtain ⟨n1, a1, hn1, ha1, -, -, -, hok1, c1, c2, wx1⟩ := (WF_nl_iff h1 p x).mp hw1
    obtain ⟨a', ha', hoka⟩ := wx1.root_ok
    rw [ha1] at ha'; cases ha'
    have hm := mat_nl_eq_map exp n1.matrix a1.matrix hoka.1 ⟨c1, c2, by rw [hok1.1, c1, c2]⟩
    refine ⟨h1.set p { n1 with matrix := a1.matrix.map (sigmoid exp) }, ?_, ?_⟩
    · rw [NodeTree.root, forward_prop_log]
      simp only [hn, Option.bind_eq_bind, Option.some_bind, hleft, hright, e1,
        forward_prop_log_null, hty, hn1, Heap.deref, ha1, hm, h1.setMatrix_eq _ hn1,
        NodeTree.postInner, List.append_assoc]
      rfl
    · exact s1.trans (Heap.SameShape.set h1 hn1
        ⟨rfl, rfl, rfl, c1.symm, c2.symm, by
          have hsa : a1.matrix.data.length = a1.matrix.rows * a1.matrix.cols := hoka.1
          have hs1 : n1.matrix.data.length = n1.matrix.rows * n1.matrix.cols := hok1.1
          simp [mlmatrix.map, hs1, hsa, c1, c2], rfl, rfl, rfl⟩)

/-- The post-order list of the nodes with operands is a rearrangement of `inner`. -/
theorem NodeTree.postInner_perm (t : NodeTree) : t.postInner.Perm t.inner := by
  induction t with
  | input p => exact List.Perm.refl _
  | param p => exact List.Perm.refl _
  | mul p l r ihl ihr =>
    simp only [NodeTree.postInner, NodeTree.inner]
    exact (List.perm_append_singleton p _).trans ((ihl.append ihr).cons p)
  | add p l r ihl ihr =>
    simp only [NodeTree.postInner, NodeTree.inner]
    exact (List.perm_append_singleton p _).trans ((ihl.append ihr).cons p)
  | nl p x ih =>
    simp only [NodeTree.postInner, NodeTree.inner]
    exact (List.perm_append_singleton p _).trans (ih.cons p)

/-- In a tree-shaped graph no address with operands is listed twice. -/
theorem NodeTree.inner_nodup (t : NodeTree) (hnd : t.addrs.Nodup) : t.inner.Nodup := by
  induction t with
  | input p => exact List.nodup_nil
  | param p => exact List.nodup_nil
  | mul p l r ihl ihr =>
    simp only [NodeTree.addrs, List.nodup_cons, List.nodup_append, List.mem_append,
      not_or] at hnd
    obtain ⟨⟨hpl, hpr⟩, hndl, hndr, hdis⟩ := hnd
    simp only [NodeTree.inner, List.nodup_cons, List.nodup_append, List.mem_append, not_or]
    exact ⟨⟨fun hq => hpl (l.inner_subset_addrs p hq), fun hq => hpr (r.inner_subset_addrs p hq)⟩,
      ihl hndl, ihr hndr,
      fun q hq hq' => hdis (l.inner_subset_addrs q hq) (r.inner_subset_addrs q hq')⟩
  | add p l r ihl ihr =>
    simp only [NodeTree.addrs, List.nodup_cons, List.nodup_append, List.mem_append,
      not_or] at hnd
    obtain ⟨⟨hpl, hpr⟩, hndl, hndr, hdis⟩ := hnd
    simp only [NodeTree.inner, List.nodup_cons, List.nodup_append, List.mem_append, not_or]
    exact ⟨⟨fun hq => hpl (l.inner_subset_addrs p hq), fun hq => hpr (r.inner_subset_addrs p hq)⟩,
      ihl hndl, ihr hndr,
      fun q hq hq' => hdis (l.inner_subset_addrs q hq) (r.inner_subset_addrs q hq')⟩
  | nl p x ih =>
    simp only [NodeTree.addrs, List.nodup_cons] at hnd
    simp only [NodeTree.inner, List.nodup_cons]
    exact ⟨fun hq => hnd.1 (x.inner_subset_addrs p hq), ih hnd.2⟩

/-! ## Determinism of forward evaluation -/

/-- Two evaluated states of one tree that agree on the leaves agree on every node. -/
theorem Evaluated.values_eq {α : Type} [Zero α] [One α] [Add α] [Mul α] [Neg α] [Div α]
    (exp : α → α) {h1 h2 : Heap α} {t : NodeTree} (e1 : Evaluated exp h1 t)
    (e2 : Evaluated exp h2 t) (hleaf : ∀ q, q ∈ t.leaves → h1.value q = h2.value q) :
    ∀ q, q ∈ t.addrs → h1.value q = h2.value q := by
  induction t with
  | input p =>
    have hroot := (e1.value_root exp).trans
      ((NodeTree.eval_congr exp hleaf).trans (e2.value_root exp).symm)
    intro q hq
    simp only [NodeTree.addrs, List.mem_singleton] at hq
    subst hq
    exact hroot
  | param p =>
    have hroot := (e1.value_root exp).trans
      ((NodeTree.eval_congr exp hleaf).trans (e2.value_root exp).symm)
    intro q hq
    simp only [NodeTree.addrs, List.mem_singleton] at hq
    subst hq
    exact hroot
  | mul p l r ihl ihr =>
    have hroot := (e1.value_root exp).trans
      ((NodeTree.eval_congr exp hleaf).trans (e2.value_root exp).symm)
    obtain ⟨-, a1, b1⟩ := e1
    obtain ⟨-, a2, b2⟩ := e2
    have hl : ∀ q, q ∈ l.leaves → h1.value q = h2.value q :=
      fun q hq => hleaf q (by simp [NodeTree.leaves, hq])
    have hr : ∀ q, q ∈ r.leaves → h1.value q = h2.value q :=
      fun q hq => hleaf q (by simp [NodeTree.leaves, hq])
    intro q hq
    simp only [NodeTree.addrs, List.mem_cons, List.mem_append] at hq
    rcases hq with rfl | hq | hq
    · exact hroot
    · exact ihl a1 a2 hl q hq
    · exact ihr b1 b2 hr q hq
  | add p l r ihl ihr =>
    have hroot := (e1.value_root exp).trans
      ((NodeTree.eval_congr exp hleaf).trans (e2.value_root exp).symm)
    obtain ⟨-, a1, b1⟩ := e1
    obtain ⟨-, a2, b2⟩ := e2
    have hl : ∀ q, q ∈ l.leaves → h1.value q = h2.value q :=
      fun q hq => hleaf q (by simp [NodeTree.leaves, hq])
    have hr : ∀ q, q ∈ r.leaves → h1.value q = h2.value q :=
      fun q hq => hleaf q (by simp [NodeTree.leaves, hq])
    intro q hq
    simp only [NodeTree.addrs, List.mem_cons, List.mem_append] at hq
    rcases hq with rfl | hq | hq
    · exact hroot
    · exact ihl a1 a2 hl q hq
    · exact ihr b1 b2 hr q hq
  | nl p x ih =>
    have hroot := (e1.value_root exp).trans
      ((NodeTree.eval_congr exp hleaf).trans (e2.value_root exp).symm)
    obtain ⟨-, a1⟩ := e1
    obtain ⟨-, a2⟩ := e2
    have hx : ∀ q, q ∈ x.leaves → h1.value q = h2.value q :=
      fun q hq => hleaf q (by simp [NodeTree.leaves, hq])
    intro q hq
    simp only [NodeTree.addrs, List.mem_cons] at hq
    rcases hq with rfl | hq
    · exact hroot
    · exact ih a1 a2 hx q hq

/-! ## Every kernel keeps the dimensions of its destination -/

/-- A property carried by every iteration that returns is carried by the loop. -/
theorem forLoop_preserves {σ : Type} (P : σ → Prop) (n : Nat) (body : Nat → σ → Option σ)
    (hbody : ∀ i s s', body i s = some s' → P s → P s') :
    ∀ s s', forLoop n body s = some s' → P s → P s' := by
  induction n with
  | zero =>
    intro s s' e hP
    rw [forLoop_zero] at e
    cases e
    exact hP
  | succ n ih =>
    intro s s' e hP
    rw [forLoop_succ] at e
    cases h1 : forLoop n body s with
    | none => rw [h1] at e; cases e
    | some s1 =>
      rw [h1] at e
      exact hbody n s1 s' e (ih s s1 h1 hP)

theorem mlmatrix.SameDims.rfl_dims {α : Type} (m : mlmatrix α) : m.SameDims m :=
  ⟨rfl, rfl, rfl⟩

theorem mlmatrix.SameDims.trans_dims {α : Type} {a b c : mlmatrix α} (h1 : a.SameDims b)
    (h2 : b.SameDims c) : a.SameDims c :=
  ⟨h2.1.trans h1.1, h2.2.1.trans h1.2.1, h2.2.2.trans h1.2.2⟩

theorem mlmatrix.store_sameDims {α : Type} {m m' : mlmatrix α} {i : Nat} {v : α}
    (e : m.store i v = some m') : m.SameDims m' := by
  unfold mlmatrix.store at e
  split at e
  · cases e
    exact ⟨rfl, rfl, by simp⟩
  · cases e

/-- A loop whose iterations end in a store into the running buffer. -/
theorem forLoop_sameDims {α : Type} (n : Nat) (body : Nat → mlmatrix α → Option (mlmatrix α))
    (hbody : ∀ i d d', body i d = some d' → d.SameDims d') (dst d : mlmatrix α)
    (e : forLoop n body dst = some d) : dst.SameDims d :=
  forLoop_preserves (fun s => dst.SameDims s) n body
    (fun i s s' es hs => hs.trans_dims (hbody i s s' es)) dst d e (mlmatrix.SameDims.rfl_dims dst)

theorem mat_mul_sameDims {α : Type} [Zero α] [Add α] [Mul α] {dst x y d : mlmatrix α}
    (e : mat_mul dst x y = some d) : dst.SameDims d := by
  refine forLoop_sameDims _ _ (fun i d1 d2 e1 => ?_) dst d e
  refine forLoop_sameDims _ _ (fun j d3 d4 e2 => ?_) d1 d2 e1
  simp only [Option.bind_eq_bind, Option.bind_eq_some] at e2
  obtain ⟨sum, -, e3⟩ := e2
  exact mlmatrix.store_sameDims e3

theorem mat_add_sameDims {α : Type} [Add α] {dst x y d : mlmatrix α}
    (e : mat_add dst x y = some d) : dst.SameDims d := by
  refine forLoop_sameDims _ _ (fun i d1 d2 e1 => ?_) dst d e
  simp only [Option.bind_eq_bind, Option.bind_eq_some] at e1
  obtain ⟨xv, -, yv, -, e3⟩ := e1
  exact mlmatrix.store_sameDims e3

theorem mat_copy_sameDims {α : Type} {dst src d : mlmatrix α}
    (e : mat_copy dst src = some d) : dst.SameDims d := by
  refine forLoop_sameDims _ _ (fun i d1 d2 e1 => ?_) dst d e
  simp only [Option.bind_eq_bind, Option.bind_eq_some] at e1
  obtain ⟨v, -, e3⟩ := e1
  exact mlmatrix.store_sameDims e3

theorem mat_nl_sameDims {α : Type} [One α] [Add α] [Neg α] [Div α] (exp : α → α)
    {dst src d : mlmatrix α} (e : mat_nl exp dst src = some d) : dst.SameDims d := by
  refine forLoop_sameDims _ _ (fun i d1 d2 e1 => ?_) dst d e
  simp only [Option.bind_eq_bind, Option.bind_eq_some] at e1
  obtain ⟨v, -, e3⟩ := e1
  exact mlmatrix.store_sameDims e3

theorem mat_invnl_sameDims {α : Type} [One α] [Sub α] [Mul α] {dx y dy d : mlmatrix α}
    (e : mat_invnl dx y dy = some d) : dx.SameDims d := by
  refine forLoop_sameDims _ _ (fun i d1 d2 e1 => ?_) dx d e
  simp only [Option.bind_eq_bind, Option.bind_eq_some] at e1
  obtain ⟨a, -, b, -, c, -, e3⟩ := e1
  exact mlmatrix.store_sameDims e3

theorem mat_param_update_sameDims {α : Type} [Sub α] [Mul α] {m deriv d : mlmatrix α}
    {alpha : α} (e : mat_param_update m deriv alpha = some d) : m.SameDims d := by
  refine forLoop_sameDims _ _ (fun i d1 d2 e1 => ?_) m d e
  simp only [Option.bind_eq_bind, Option.bind_eq_some] at e1
  obtain ⟨a, -, b, -, e3⟩ := e1
  exact mlmatrix.store_sameDims e3

/-- Replacing the value buffer of a node by one of the same dimensions. -/
theorem Heap.setMatrix_sameShape {α : Type} {h h' : Heap α} {p : Option Nat} {n : node α}
    {m : mlmatrix α} (hn : h.deref p = some n) (hm : n.matrix.SameDims m)
    (e : h.setMatrix p m = some h') : h.SameShape h' := by
  cases p with
  | none => simp [Heap.setMatrix] at e
  | some q =>
    simp only [Heap.deref] at hn
    rw [h.setMatrix_eq m hn] at e
    cases e
    exact Heap.SameShape.set h hn ⟨rfl, rfl, rfl, hm.1, hm.2.1, hm.2.2, rfl, rfl, rfl⟩

/-- Replacing the gradient buffer of a node by one of the same dimensions. -/
theorem Heap.setDeriv_sameShape {α : Type} {h h' : Heap α} {p : Option Nat} {n : node α}
    {d : mlmatrix α} (hn : h.deref p = some n) (hd : n.deriv.SameDims d)
    (e : h.setDeriv p d = some h') : h.SameShape h' := by
  cases p with
  | none => simp [Heap.setDeriv] at e
  | some q =>
    simp only [Heap.deref] at hn
    rw [h.setDeriv_eq d hn] at e
    cases e
    exact Heap.SameShape.set h hn ⟨rfl, rfl, rfl, rfl, rfl, rfl, hd.1, hd.2.1, hd.2.2⟩

/-! ## The traversals keep the shape of every node -/

/-- Whenever `forward_prop` returns, every node has kept its kind, its operands and
the dimensions of its two buffers. -/
theorem forward_prop_sameShape {α : Type} [Zero α] [One α] [Add α] [Mul α] [Neg α] [Div α]
    (exp : α → α) (fuel : Nat) :
    ∀ (h : Heap α) (p : Option Nat) (h' : Heap α),
      forward_prop exp fuel h p = some h' → h.SameShape h' := by
  induction fuel with
  | zero =>
    intro h p h' e
    cases p with
    | none => rw [forward_prop_null] at e; cases e; exact Heap.SameShape.refl h
    | some p => simp [forward_prop] at e
  | succ f ih =>
    intro h p h' e
    cases p with
    | none => rw [forward_prop_null] at e; cases e; exact Heap.SameShape.refl h
    | some p =>
      rw [forward_prop] at e
      simp only [Option.bind_eq_bind, Option.bind_eq_some] at e
      obtain ⟨n, -, h1, e1, h2, e2, e3⟩ := e
      have s12 : h.SameShape h2 := (ih h _ h1 e1).trans (ih h1 _ h2 e2)
      cases hty : n.type <;> rw [hty] at e3 <;> simp only at e3
      · cases e3; exact s12
      · cases e3; exact s12
      · simp only [Option.bind_eq_bind, Option.bind_eq_some] at e3
        obtain ⟨dst, hdst, l, -, r, -, m, hm, e4⟩ := e3
        exact s12.trans (Heap.setMatrix_sameShape (p := some p) hdst (mat_mul_sameDims hm) e4)
      · simp only [Option.bind_eq_bind, Option.bind_eq_some] at e3
        obtain ⟨dst, hdst, l, -, r, -, m, hm, e4⟩ := e3
        exact s12.trans (Heap.setMatrix_sameShape (p := some p) hdst (mat_add_sameDims hm) e4)
      · simp only [Option.bind_eq_bind, Option.bind_eq_some] at e3
        obtain ⟨dst, hdst, l, -, m, hm, e4⟩ := e3
        exact s12.trans (Heap.setMatrix_sameShape (p := some p) hdst (mat_nl_sameDims exp hm) e4)

/-- Whenever `backprop` returns, every node has kept its kind, its operands and the
dimensions of its two buffers. -/
theorem backprop_sameShape {α : Type} [Zero α] [One α] [Add α] [Sub α] [Mul α]
    (fuel : Nat) :
    ∀ (h : Heap α) (p : Option Nat) (h' : Heap α),
      backprop fuel h p = some h' → h.SameShape h' := by
  induction fuel with
  | zero =>
    intro h p h' e
    simp [backprop] at e
  | succ f ih =>
    intro h p h' e
    rw [backprop] at e
    simp only [Option.bind_eq_bind, Option.bind_eq_some] at e
    obtain ⟨n, -, e3⟩ := e
    cases hty : n.type <;> rw [hty] at e3 <;> simp only at e3
    · cases e3; exact Heap.SameShape.refl h
    · cases e3; exact Heap.SameShape.refl h
    · simp only [Option.bind_eq_bind, Option.bind_eq_some] at e3
      obtain ⟨l, hl, r, -, LT, -, RT, -, dl, hdl, h1, eh1, n1, -, r1, hr1, dr, hdr, h2, eh2,
        h3, eh3, e4⟩ := e3
      exact ((Heap.setDeriv_sameShape hl (mat_mul_sameDims hdl) eh1).trans
        (Heap.setDeriv_sameShape hr1 (mat_mul_sameDims hdr) eh2)).trans
        ((ih h2 _ h3 eh3).trans (ih h3 _ h' e4))
    · simp only [Option.bind_eq_bind, Option.bind_eq_some] at e3
      obtain ⟨l, hl, dl, hdl, h1, eh1, n1, -, r1, hr1, dr, hdr, h2, eh2, h3, eh3, e4⟩ := e3
      exact ((Heap.setDeriv_sameShape hl (mat_copy_sameDims hdl) eh1).trans
        (Heap.setDeriv_sameShape hr1 (mat_copy_sameDims hdr) eh2)).trans
        ((ih h2 _ h3 eh3).trans (ih h3 _ h' e4))
    · simp only [Option.bind_eq_bind, Option.bind_eq_some] at e3
      obtain ⟨l, hl, dl, hdl, h1, eh1, e4⟩ := e3
      exact (Heap.setDeriv_sameShape hl (mat_invnl_sameDims hdl) eh1).trans (ih h1 _ h' e4)

/-- Whenever `update_weights` returns, every node has kept its kind, its operands
and the dimensions of its two buffers. -/
theorem update_weights_sameShape {α : Type} [Sub α] [Mul α] [OfScientific α] (fuel : Nat) :
    ∀ (h : Heap α) (p : Option Nat) (h' : Heap α),
      update_weights fuel h p = some h' → h.SameShape h' := by
  induction fuel with
  | zero =>
    intro h p h' e
    cases p with
    | none => rw [update_weights_null] at e; cases e; exact Heap.SameShape.refl h
    | some p => simp [update_weights] at e
  | succ f ih =>
    intro h p h' e
    cases p with
    | none => rw [update_weights_null] at e; cases e; exact Heap.SameShape.refl h
    | some p =>
      rw [update_weights] at e
      cases hn : h[p]? with
      | none => rw [hn] at e; simp at e
      | some n =>
        rw [hn] at e
        simp only [Option.bind_eq_bind, Option.some_bind] at e
        by_cases hty : n.type = node_type.PARAM_NODE
        · rw [if_pos hty] at e
          simp only [Option.bind_eq_bind, Option.bind_eq_some] at e
          obtain ⟨m, hm, h1, e4, h2, e2, e3⟩ := e
          exact (Heap.setMatrix_sameShape (p := some p) hn (mat_param_update_sameDims hm) e4).trans
            ((ih h1 _ h2 e2).trans (ih h2 _ h' e3))
        · rw [if_neg hty] at e
          simp only [Option.bind_eq_bind, Option.some_bind, Option.bind_eq_some] at e
          obtain ⟨h2, e2, e3⟩ := e
          exact (ih h _ h2 e2).trans (ih h2 _ h' e3)

/-- A heap of the same shape keeps the invariant of every node. -/
theorem Heap.SameShape.ok_of_ok {α : Type} {h h' : Heap α} (hs : h.SameShape h') {q : Nat}
    {n : node α} (hn : h[q]? = some n) (hok : n.Ok) : ∃ n', h'[q]? = some n' ∧ n'.Ok := by
  obtain ⟨n', hn', s⟩ := hs.exists hn
  exact ⟨n', hn', s.ok hok⟩

/-! ## Graphs built with the constructors are well formed -/

theorem Heap.getElem?_alloc_lt {α : Type} (h : Heap α) (n : node α) {q : Nat}
    (hq : q < h.length) : (h.alloc n).1[q]? = h[q]? := by
  simp only [Heap.alloc]
  exact List.getElem?_append_left hq

theorem Heap.getElem?_alloc_self {α : Type} (h : Heap α) (n : node α) :
    (h.alloc n).1[(h.alloc n).2]? = some n := by
  simp [Heap.alloc]

theorem Heap.getElem?_alloc_length {α : Type} (h : Heap α) (n : node α) :
    (h.alloc n).1[h.length]? = some n :=
  h.getElem?_alloc_self n

/-- The predicate `WF` reads the nodes of the tree only. -/
theorem WF.congr {α : Type} {h h' : Heap α} {t : NodeTree} (hw : WF h t)
    (e : ∀ q, q ∈ t.addrs → h'[q]? = h[q]?) : WF h' t := by
  induction t with
  | input p =>
    obtain ⟨n, hn, rest⟩ := (WF_input_iff h p).mp hw
    exact (WF_input_iff h' p).mpr ⟨n, by rw [e p (by simp [NodeTree.addrs])]; exact hn, rest⟩
  | param p =>
    obtain ⟨n, hn, rest⟩ := (WF_param_iff h p).mp hw
    exact (WF_param_iff h' p).mpr ⟨n, by rw [e p (by simp [NodeTree.addrs])]; exact hn, rest⟩
  | mul p l r ihl ihr =>
    obtain ⟨n, a, b, hn, ha, hb, c1, c2, c3, c4, c5, c6, c7, wl, wr⟩ :=
      (WF_mul_iff h p l r).mp hw
    exact (WF_mul_iff h' p l r).mpr ⟨n, a, b,
      by rw [e p (by simp [NodeTree.addrs])]; exact hn,
      by rw [e l.root (by simp [NodeTree.addrs, l.root_mem_addrs])]; exact ha,
      by rw [e r.root (by simp [NodeTree.addrs, r.root_mem_addrs])]; exact hb,
      c1, c2, c3, c4, c5, c6, c7,
      ihl wl (fun q hq => e q (by simp [NodeTree.addrs, hq])),
      ihr wr (fun q hq => e q (by simp [NodeTree.addrs, hq]))⟩
  | add p l r ihl ihr =>
    obtain ⟨n, a, b, hn, ha, hb, c1, c2, c3, c4, c5, c6, c7, c8, wl, wr⟩ :=
      (WF_add_iff h p l r).mp hw
    exact (WF_add_iff h' p l r).mpr ⟨n, a, b,
      by rw [e p (by simp [NodeTree.addrs])]; exact hn,
      by rw [e l.root (by simp [NodeTree.addrs, l.root_mem_addrs])]; exact ha,
      by rw [e r.root (by simp [NodeTree.addrs, r.root_mem_addrs])]; exact hb,
      c1, c2, c3, c4, c5, c6, c7, c8,
      ihl wl (fun q hq => e q (by simp [NodeTree.addrs, hq])),
      ihr wr (fun q hq => e q (by simp [NodeTree.addrs, hq]))⟩
  | nl p x ih =>
    obtain ⟨n, a, hn, ha, c1, c2, c3, c4, c5, c6, wx⟩ := (WF_nl_iff h p x).mp hw
    exact (WF_nl_iff h' p x).mpr ⟨n, a,
      by rw [e p (by simp [NodeTree.addrs])]; exact hn,
      by rw [e x.root (by simp [NodeTree.addrs, x.root_mem_addrs])]; exact ha,
      c1, c2, c3, c4, c5, c6,
      ih wx (fun q hq => e q (by simp [NodeTree.addrs, hq]))⟩

theorem make_matrix_ok {α : Type} [Zero α] (ty : node_type) (l r : Option Nat)
    (rows cols : Nat) (m : mlmatrix α) (hm : m.HasShape rows cols) :
    (⟨ty, l, r, m, make_matrix rows cols⟩ : node α).Ok := by
  obtain ⟨h1, h2, h3⟩ := hm
  refine ⟨?_, ?_⟩
  · show m.data.length = m.rows * m.cols
    rw [h3, h1, h2]
  · show (make_matrix rows cols : mlmatrix α).HasShape m.rows m.cols
    rw [h1, h2]
    exact make_matrix_hasShape rows cols

theorem random_matrix_hasShape {α : Type} [NatCast α] [Sub α] [Div α] [OfScientific α]
    (rand : Nat → Nat) (RAND_MAX rows cols : Nat) :
    (random_matrix rand RAND_MAX rows cols : mlmatrix α × (Nat → Nat)).1.HasShape rows cols := by
  simp [mlmatrix.HasShape, random_matrix]

/-- Every address of a well-formed tree is allocated. -/
theorem WF.addrs_lt {α : Type} {h : Heap α} {t : NodeTree} (hw : WF h t) :
    ∀ q, q ∈ t.addrs → q < h.length := by
  have live : ∀ {p : Nat} {n : node α}, h[p]? = some n → p < h.length := by
    intro p n hn
    rcases Nat.lt_or_ge p h.length with hlt | hge
    · exact hlt
    · rw [List.getElem?_eq_none hge] at hn; cases hn
  induction t with
  | input p =>
    obtain ⟨n, hn, -⟩ := (WF_input_iff h p).mp hw
    intro q hq
    simp only [NodeTree.addrs, List.mem_singleton] at hq
    subst hq
    exact live hn
  | param p =>
    obtain ⟨n, hn, -⟩ := (WF_param_iff h p).mp hw
    intro q hq
    simp only [NodeTree.addrs, List.mem_singleton] at hq
    subst hq
    exact live hn
  | mul p l r ihl ihr =>
    obtain ⟨n, a, b, hn, -, -, -, -, -, -, -, -, -, wl, wr⟩ := (WF_mul_iff h p l r).mp hw
    intro q hq
    simp only [NodeTree.addrs, List.mem_cons, List.mem_append] at hq
    rcases hq with rfl | hq | hq
    · exact live hn
    · exact ihl wl q hq
    · exact ihr wr q hq
  | add p l r ihl ihr =>
    obtain ⟨n, a, b, hn, -, -, -, -, -, -, -, -, -, -, wl, wr⟩ := (WF_add_iff h p l r).mp hw
    intro q hq
    simp only [NodeTree.addrs, List.mem_cons, List.mem_append] at hq
    rcases hq with rfl | hq | hq
    · exact live hn
    · exact ihl wl q hq
    · exact ihr wr q hq
  | nl p x ih =>
    obtain ⟨n, a, hn, -, -, -, -, -, -, -, wx⟩ := (WF_nl_iff h p x).mp hw
    intro q hq
    simp only [NodeTree.addrs, List.mem_cons] at hq
    rcases hq with rfl | hq
    · exact live hn
    · exact ih wx q hq

/-- A well-formed tree stays well formed when a node is stored at a fresh address. -/
theorem WF.alloc {α : Type} {h : Heap α} {t : NodeTree} (hw : WF h t) (n : node α) :
    WF (h.alloc n).1 t :=
  hw.congr (fun q hq => h.getElem?_alloc_lt n (hw.addrs_lt q hq))

/-- The building of a leaf. -/
theorem build_leaf_wf {α : Type} (h : Heap α) (n : node α) (hleaf : n.IsLeaf)
    (hl : n.left = none) (hr : n.right = none) (hok : n.Ok) :
    ∃ t, t.root = (h.alloc n).2 ∧ WF (h.alloc n).1 t ∧ t.addrs.Nodup ∧ t.depth = 1 ∧
      (∀ q, q ∈ t.addrs → h.length ≤ q) ∧ (h.alloc n).1.value t.root = n.matrix := by
  rcases hleaf with hty | hty
  · refine ⟨.input h.length, rfl, ?_, by simp [NodeTree.addrs], rfl, ?_, ?_⟩
    · exact (WF_input_iff _ _).mpr ⟨n, h.getElem?_alloc_self n, hty, hl, hr, hok⟩
    · intro q hq
      simp only [NodeTree.addrs, List.mem_singleton] at hq
      omega
    · exact Heap.value_of_getElem? (h.getElem?_alloc_self n)
  · refine ⟨.param h.length, rfl, ?_, by simp [NodeTree.addrs], rfl, ?_, ?_⟩
    · exact (WF_param_iff _ _).mpr ⟨n, h.getElem?_alloc_self n, hty, hl, hr, hok⟩
    · intro q hq
      simp only [NodeTree.addrs, List.mem_singleton] at hq
      omega
    · exact Heap.value_of_getElem? (h.getElem?_alloc_self n)

/-- The building of a MatMul node over two well-formed operands that conform. -/
theorem build_mul_wf {α : Type} [Zero α] (h : Heap α) (tl tr : NodeTree) (wl : WF h tl)
    (wr : WF h tr) (hconf : (h.value tl.root).cols = (h.value tr.root).rows) :
    ∃ n, make_mul_node h (some tl.root) (some tr.root) = some n ∧
      WF (h.alloc n).1 (.mul h.length tl tr) ∧
      ((h.alloc n).1.value h.length).rows = (h.value tl.root).rows ∧
      ((h.alloc n).1.value h.length).cols = (h.value tr.root).cols := by
  obtain ⟨a, ha, hoka⟩ := wl.root_ok
  obtain ⟨b, hb, hokb⟩ := wr.root_ok
  rw [Heap.value_of_getElem? ha, Heap.value_of_getElem? hb] at hconf
  have hal := wl.addrs_lt tl.root tl.root_mem_addrs
  have hbl := wr.addrs_lt tr.root tr.root_mem_addrs
  refine ⟨⟨node_type.MUL_NODE, some tl.root, some tr.root,
    make_matrix a.matrix.rows b.matrix.cols, make_matrix a.matrix.rows b.matrix.cols⟩,
    by simp [make_mul_node, Heap.deref, ha, hb], ?_, ?_, ?_⟩
  · refine (WF_mul_iff _ _ _ _).mpr ⟨_, a, b, h.getElem?_alloc_self _,
      (h.getElem?_alloc_lt _ hal).trans ha, (h.getElem?_alloc_lt _ hbl).trans hb,
      rfl, rfl, rfl, make_matrix_ok _ _ _ _ _ _ (make_matrix_hasShape _ _), hconf, rfl, rfl,
      wl.alloc _, wr.alloc _⟩
  · rw [Heap.value_of_getElem? (h.getElem?_alloc_length _), Heap.value_of_getElem? ha]
    rfl
  · rw [Heap.value_of_getElem? (h.getElem?_alloc_length _), Heap.value_of_getElem? hb]
    rfl

/-- The building of an Add node over two well-formed operands of one shape. -/
theorem build_add_wf {α : Type} [Zero α] (h : Heap α) (tl tr : NodeTree) (wl : WF h tl)
    (wr : WF h tr) (hrows : (h.value tr.root).rows = (h.value tl.root).rows)
    (hcols : (h.value tr.root).cols = (h.value tl.root).cols) :
    ∃ n, make_add_node h (some tl.root) (some tr.root) = some n ∧
      WF (h.alloc n).1 (.add h.length tl tr) ∧
      ((h.alloc n).1.value h.length).rows = (h.value tl.root).rows ∧
      ((h.alloc n).1.value h.length).cols = (h.value tl.root).cols := by
  obtain ⟨a, ha, hoka⟩ := wl.root_ok
  obtain ⟨b, hb, hokb⟩ := wr.root_ok
  rw [Heap.value_of_getElem? ha, Heap.value_of_getElem? hb] at hrows hcols
  have hal := wl.addrs_lt tl.root tl.root_mem_addrs
  have hbl := wr.addrs_lt tr.root tr.root_mem_addrs
  refine ⟨⟨node_type.ADD_NODE, some tl.root, some tr.root,
    make_matrix a.matrix.rows a.matrix.cols, make_matrix a.matrix.rows a.matrix.cols⟩,
    by simp [make_add_node, Heap.deref, ha], ?_, ?_, ?_⟩
  · refine (WF_add_iff _ _ _ _).mpr ⟨_, a, b, h.getElem?_alloc_self _,
      (h.getElem?_alloc_lt _ hal).trans ha, (h.getElem?_alloc_lt _ hbl).trans hb,
      rfl, rfl, rfl, make_matrix_ok _ _ _ _ _ _ (make_matrix_hasShape _ _), rfl, rfl,
      hrows, hcols, wl.alloc _, wr.alloc _⟩
  · rw [Heap.value_of_getElem? (h.getElem?_alloc_length _), Heap.value_of_getElem? ha]
    rfl
  · rw [Heap.value_of_getElem? (h.getElem?_alloc_length _), Heap.value_of_getElem? ha]
    rfl

/-- The building of a Nonlinearity node over a well-formed operand. -/
theorem build_nl_wf {α : Type} [Zero α] (h : Heap α) (tx : NodeTree) (wx : WF h tx) :
    ∃ n, make_nl_node h (some tx.root) = some n ∧
      WF (h.alloc n).1 (.nl h.length tx) ∧
      ((h.alloc n).1.value h.length).rows = (h.value tx.root).rows ∧
      ((h.alloc n).1.value h.length).cols = (h.value tx.root).cols := by
  obtain ⟨a, ha, hoka⟩ := wx.root_ok
  have hal := wx.addrs_lt tx.root tx.root_mem_addrs
  refine ⟨⟨node_type.NL_NODE, some tx.root, none,
    make_matrix a.matrix.rows a.matrix.cols, make_matrix a.matrix.rows a.matrix.cols⟩,
    by simp [make_nl_node, Heap.deref, ha], ?_, ?_, ?_⟩
  · refine (WF_nl_iff _ _ _).mpr ⟨_, a, h.getElem?_alloc_self _,
      (h.getElem?_alloc_lt _ hal).trans ha,
      rfl, rfl, rfl, make_matrix_ok _ _ _ _ _ _ (make_matrix_hasShape _ _), rfl, rfl,
      wx.alloc _⟩
  · rw [Heap.value_of_getElem? (h.getElem?_alloc_length _), Heap.value_of_getElem? ha]
    rfl
  · rw [Heap.value_of_getElem? (h.getElem?_alloc_length _), Heap.value_of_getElem? ha]
    rfl

theorem Heap.length_alloc {α : Type} (h : Heap α) (n : node α) :
    (h.alloc n).1.length = h.length + 1 := by
  simp [Heap.alloc]

/-- The graph the constructors build from a conformant architecture is a well-formed
tree at fresh, pairwise distinct addresses; the nodes stored before are untouched. -/
theorem Arch.build_wf {α : Type} [Field α] (RAND_MAX : Nat) (a : Arch) (hc : a.Conformant) :
    ∀ (h : Heap α) (g : Nat → Nat), ∃ h' g' t,
      a.build RAND_MAX (h, g) = some ((h', g'), t.root) ∧ WF h' t ∧ t.addrs.Nodup ∧
      t.depth = a.depth ∧ (∀ q, q ∈ t.addrs → h.length ≤ q) ∧ h.length ≤ h'.length ∧
      (∀ q, q < h.length → h'[q]? = h[q]?) ∧
      (h'.value t.root).rows = a.rows ∧ (h'.value t.root).cols = a.cols := by
  induction a with
  | input rows cols =>
    intro h g
    obtain ⟨t, ht, wf, nd, dep, rng, val⟩ := build_leaf_wf h (make_input_node rows cols)
      (Or.inl rfl) rfl rfl (make_matrix_ok _ _ _ _ _ _ (make_matrix_hasShape rows cols))
    refine ⟨_, g, t, ?_, wf, nd, dep, rng, ?_, fun q hq => h.getElem?_alloc_lt _ hq, ?_, ?_⟩
    · rw [ht]; rfl
    · rw [Heap.length_alloc]; omega
    · rw [val]; rfl
    · rw [val]; rfl
  | param rows cols =>
    intro h g
    obtain ⟨t, ht, wf, nd, dep, rng, val⟩ := build_leaf_wf h
      (make_param_node g RAND_MAX rows cols : node α × (Nat → Nat)).1
      (Or.inr rfl) rfl rfl
      (make_matrix_ok _ _ _ _ _ _ (random_matrix_hasShape g RAND_MAX rows cols))
    refine ⟨_, (make_param_node g RAND_MAX rows cols : node α × (Nat → Nat)).2, t, ?_, wf, nd,
      dep, rng, ?_, fun q hq => h.getElem?_alloc_lt _ hq, ?_, ?_⟩
    · rw [ht]; rfl
    · rw [Heap.length_alloc]; omega
    · rw [val]; rfl
    · rw [val]; rfl
  | mul l r ihl ihr =>
    intro h g
    obtain ⟨cl, hcl, hcr⟩ := hc
    obtain ⟨h1, g1, tl, el, wl, ndl, dl, rl, len1, pre1, vr1, vc1⟩ := ihl hcl h g
    obtain ⟨h2, g2, tr, er, wr, ndr, dr, rr, len2, pre2, vr2, vc2⟩ := ihr hcr h1 g1
    have wl2 : WF h2 tl := wl.congr (fun q hq => pre2 q (wl.addrs_lt q hq))
    have hv : h2.value tl.root = h1.value tl.root :=
      Heap.value_congr (pre2 _ (wl.addrs_lt _ tl.root_mem_addrs))
    obtain ⟨n, en, wf, nr, nc⟩ := build_mul_wf h2 tl tr wl2 wr
      (by rw [hv, vc1, vr2]; exact cl)
    refine ⟨(h2.alloc n).1, g2, .mul h2.length tl tr, ?_, wf, ?_, ?_, ?_, ?_, ?_, ?_, ?_⟩
    · simp only [Arch.build, el, er, en, Option.bind_eq_bind, Option.some_bind]
      rfl
    · simp only [NodeTree.addrs, List.nodup_cons, List.nodup_append, List.mem_append, not_or]
      refine ⟨⟨fun hq => ?_, fun hq => ?_⟩, ndl, ndr, fun q hq hq' => ?_⟩
      · exact absurd (wl2.addrs_lt _ hq) (Nat.lt_irrefl _)
      · exact absurd (wr.addrs_lt _ hq) (Nat.lt_irrefl _)
      · exact absurd (wl.addrs_lt q hq) (Nat.not_lt.mpr (rr q hq'))
    · simp only [NodeTree.depth, Arch.depth, dl, dr]
    · intro q hq
      simp only [NodeTree.addrs, List.mem_cons, List.mem_append] at hq
      rcases hq with rfl | hq | hq
      · omega
      · exact rl q hq
      · exact le_trans len1 (rr q hq)
    · rw [Heap.length_alloc]; omega
    · intro q hq
      rw [h2.getElem?_alloc_lt n (by omega), pre2 q (by omega), pre1 q hq]
    · exact nr.trans (by rw [hv, vr1]; rfl)
    · exact nc.trans (by rw [vc2]; rfl)
  | add l r ihl ihr =>
    intro h g
    obtain ⟨c1, c2, hcl, hcr⟩ := hc
    obtain ⟨h1, g1, tl, el, wl, ndl, dl, rl, len1, pre1, vr1, vc1⟩ := ihl hcl h g
    obtain ⟨h2, g2, tr, er, wr, ndr, dr, rr, len2, pre2, vr2, vc2⟩ := ihr hcr h1 g1
    have wl2 : WF h2 tl := wl.congr (fun q hq => pre2 q (wl.addrs_lt q hq))
    have hv : h2.value tl.root = h1.value tl.root :=
      Heap.value_congr (pre2 _ (wl.addrs_lt _ tl.root_mem_addrs))
    obtain ⟨n, en, wf, nr, nc⟩ := build_add_wf h2 tl tr wl2 wr
      (by rw [hv, vr1, vr2]; exact c1) (by rw [hv, vc1, vc2]; exact c2)
    refine ⟨(h2.alloc n).1, g2, .add h2.length tl tr, ?_, wf, ?_, ?_, ?_, ?_, ?_, ?_, ?_⟩
    · simp only [Arch.build, el, er, en, Option.bind_eq_bind, Option.some_bind]
      rfl
    · simp only [NodeTree.addrs, List.nodup_cons, List.nodup_append, List.mem_append, not_or]
      refine ⟨⟨fun hq => ?_, fun hq => ?_⟩, ndl, ndr, fun q hq hq' => ?_⟩
      · exact absurd (wl2.addrs_lt _ hq) (Nat.lt_irrefl _)
      · exact absurd (wr.addrs_lt _ hq) (Nat.lt_irrefl _)
      · exact absurd (wl.addrs_lt q hq) (Nat.not_lt.mpr (rr q hq'))
    · simp only [NodeTree.depth, Arch.depth, dl, dr]
    · intro q hq
      simp only [NodeTree.addrs, List.mem_cons, List.mem_append] at hq
      rcases hq with rfl | hq | hq
      · omega
      · exact rl q hq
      · exact le_trans len1 (rr q hq)
    · rw [Heap.length_alloc]; omega
    · intro q hq
      rw [h2.getElem?_alloc_lt n (by omega), pre2 q (by omega), pre1 q hq]
    · exact nr.trans (by rw [hv, vr1]; rfl)
    · exact nc.trans (by rw [hv, vc1]; rfl)
  | nl x ih =>
    intro h g
    obtain ⟨h1, g1, tx, ex, wx, ndx, dx, rx, len1, pre1, vr1, vc1⟩ := ih hc h g
    obtain ⟨n, en, wf, nr, nc⟩ := build_nl_wf h1 tx wx
    refine ⟨(h1.alloc n).1, g1, .nl h1.length tx, ?_, wf, ?_, ?_, ?_, ?_, ?_, ?_, ?_⟩
    · simp only [Arch.build, ex, en, Option.bind_eq_bind, Option.some_bind]
      rfl
    · simp only [NodeTree.addrs, List.nodup_cons]
      exact ⟨fun hq => absurd (wx.addrs_lt _ hq) (Nat.lt_irrefl _), ndx⟩
    · simp only [NodeTree.depth, Arch.depth, dx]
    · intro q hq
      simp only [NodeTree.addrs, List.mem_cons] at hq
      rcases hq with rfl | hq
      · omega
      · exact rx q hq
    · rw [Heap.length_alloc]; omega
    · intro q hq
      rw [h1.getElem?_alloc_lt n (by omega), pre1 q hq]
    · exact nr.trans (by rw [vr1]; rfl)
    · exact nc.trans (by rw [vc1]; rfl)

/-! ## Underflow of `sigmoid` in binary32 -/

/-- Rounding to `double` a positive number of the normal range at most halves or
doubles it. -/
theorem binary64_round_rel (q : ℚ) (h1 : (2 : ℚ) ^ (-1022 : Int) ≤ q)
    (h2 : q < (2 : ℚ) ^ (1023 : Int)) :
    ∃ s, binary64.round q = FloatVal.fin s ∧ q / 2 ≤ s ∧ s ≤ 2 * q := by
  have hpos : 0 < q := lt_of_lt_of_le (by positivity) h1
  have hlo : (2 : ℚ) ^ Int.log 2 q ≤ q := by
    have := Int.zpow_log_le_self (b := 2) (by norm_num) hpos
    exact_mod_cast this
  have hhi : q < (2 : ℚ) ^ (Int.log 2 q + 1) := by
    have := Int.lt_zpow_succ_log_self (b := 2) (by norm_num) q
    exact_mod_cast this
  have hmin : (-1022 : Int) ≤ Int.log 2 q :=
    (Int.zpow_le_iff_le_log (R := ℚ) (by norm_num : 1 < 2) hpos).mp (by exact_mod_cast h1)
  have hmax : Int.log 2 q < 1023 :=
    (Int.lt_zpow_iff_log_lt (R := ℚ) (by norm_num : 1 < 2) hpos).mp (by exact_mod_cast h2)
  have hu : (2 : ℚ) ^ (Int.log 2 q - ((binary64.prec : Int) - 1)) =
      (2 : ℚ) ^ Int.log 2 q / 2 ^ 52 := by
    have : ((binary64.prec : Int) - 1) = 52 := by norm_num [binary64]
    rw [this, zpow_sub₀ (by norm_num)]
    norm_num
  have hE : (0 : ℚ) < (2 : ℚ) ^ Int.log 2 q := by positivity
  have ea : ((2 ^ 52 : Int) : ℚ) * ((2 : ℚ) ^ Int.log 2 q / 2 ^ 52) = (2 : ℚ) ^ Int.log 2 q := by
    push_cast
    ring
  have eb : ((2 ^ 53 : Int) : ℚ) * ((2 : ℚ) ^ Int.log 2 q / 2 ^ 52) =
      2 * (2 : ℚ) ^ Int.log 2 q := by
    push_cast
    ring
  have hhi2 : q < 2 * (2 : ℚ) ^ Int.log 2 q := by
    rw [zpow_add₀ (by norm_num)] at hhi
    norm_num at hhi
    linarith
  have hfin : 2 * (2 : ℚ) ^ Int.log 2 q < (2 : ℚ) ^ (binary64.emax + 1) := by
    have e1 : 2 * (2 : ℚ) ^ Int.log 2 q = (2 : ℚ) ^ (Int.log 2 q + 1) := by
      rw [zpow_add₀ (by norm_num)]
      norm_num
      ring
    rw [e1]
    exact zpow_lt_zpow_right₀ (by norm_num) (by norm_num [binary64]; omega)
  obtain ⟨s, hs, sa, sb⟩ := binary64.round_between q (Int.log 2 q) (2 ^ 52) (2 ^ 53)
    ((2 : ℚ) ^ Int.log 2 q / 2 ^ 52) hu (by positivity) hlo hhi hmin (by positivity)
    (by rw [ea]; exact hlo) (by rw [eb]; exact le_of_lt hhi2) (by rw [eb]; exact hfin)
  rw [ea] at sa
  rw [eb] at sb
  exact ⟨s, hs, by linarith, by linarith⟩

/-- The conversion to `float` of a positive `double` far below the least `float`. -/
theorem binary32_round_tiny (d : ℚ) (h0 : 0 < d) (h1 : d ≤ 1 / 2 ^ 198) :
    binary32.round d = FloatVal.fin 0 := by
  have habs : |d| = d := abs_of_pos h0
  have hlog : Int.log 2 d < -126 :=
    (Int.lt_zpow_iff_log_lt (R := ℚ) (by norm_num : 1 < 2) h0).mp (by
      have : d < (2 : ℚ) ^ (-126 : Int) := lt_of_le_of_lt h1 (by norm_num)
      exact_mod_cast this)
  have hu : binary32.ulp d = 1 / 2 ^ 149 := by
    unfold FloatFormat.ulp
    rw [habs, max_eq_right (by norm_num [binary32]; omega)]
    norm_num [binary32]
  have hN : roundHalfEven (d / (1 / 2 ^ 149)) = 0 := by
    apply roundHalfEven_eq
    · have : (0 : ℚ) < d / (1 / 2 ^ 149) := by positivity
      push_cast
      linarith
    · rw [div_lt_iff₀ (by positivity)]
      push_cast
      calc d ≤ 1 / 2 ^ 198 := h1
        _ < (0 + 1 / 2) * (1 / 2 ^ 149) := by norm_num
  unfold FloatFormat.round
  rw [hu]
  simp only
  rw [hN]
  simp
  positivity

/-- In binary32, `sigmoid(-200.0f)` is exactly `0.0f` whatever value between `2^200` and
`2^300` `exp` returns at `200` (`e^200` is about `2^288.5`). -/
theorem sigmoid_binary32_underflows (exp : FloatVal → FloatVal) (e : ℚ)
    (he : exp (.fin 200) = .fin e) (h0 : 2 ^ 200 ≤ e) (h1 : e ≤ 2 ^ 300) :
    sigmoid_binary32 exp (.fin (-200)) = .fin 0 := by
  obtain ⟨s, hs, sa, sb⟩ := binary64_round_rel (1 + e)
    (le_trans (by norm_num) (by linarith : (2 : ℚ) ^ 200 ≤ 1 + e))
    (lt_of_le_of_lt (by linarith : 1 + e ≤ 2 ^ 300 + 1) (by norm_num))
  have hspos : 0 < s := by linarith
  have hs1 : (2 : ℚ) ^ 199 ≤ s := by linarith
  have hs2 : s ≤ 2 ^ 302 := by linarith
  have hq1 : 1 / (2 : ℚ) ^ 302 ≤ 1 / s := one_div_le_one_div_of_le hspos hs2
  have hq2 : 1 / s ≤ 1 / (2 : ℚ) ^ 199 := one_div_le_one_div_of_le (by positivity) hs1
  obtain ⟨d, hd, da, db⟩ := binary64_round_rel (1 / s)
    (le_trans (by norm_num) hq1) (lt_of_le_of_lt hq2 (by norm_num))
  have hd0 : 0 < d := lt_of_lt_of_le (half_pos (one_div_pos.mpr hspos)) da
  have hdsmall : d ≤ 1 / 2 ^ 198 := le_trans db (by
    calc 2 * (1 / s) ≤ 2 * (1 / (2 : ℚ) ^ 199) := by linarith
      _ = 1 / 2 ^ 198 := by norm_num)
  exact sigmoid_binary32_eval exp (.fin (-200)) e s d _
    (by simpa [FloatVal.neg] using he) hs (ne_of_gt hspos) hd
    (binary32_round_tiny d hd0 hdsmall)

/-! ## The closed range of `sigmoid` in binary32 -/

/-- Rounding does not go below an integer lower bound of its argument. -/
theorem roundHalfEven_ge (a : Int) (t : ℚ) (ha : (a : ℚ) ≤ t) : a ≤ roundHalfEven t := by
  have hfa : a ≤ ⌊t⌋ := Int.le_floor.mpr ha
  unfold roundHalfEven
  split_ifs <;> omega

/-- The exponent of a number of the unit interval is not positive. -/
theorem Int.log_two_nonpos {q : ℚ} (h1 : q ≤ 1) : Int.log 2 q ≤ 0 := by
  rcases le_or_lt q 0 with hq | hq
  · rw [Int.log_of_right_le_zero 2 hq]
  · have : Int.log 2 q < 1 :=
      (Int.lt_zpow_iff_log_lt (R := ℚ) (by norm_num : 1 < 2) hq).mp (by norm_num; linarith)
    omega

/-- Rounding keeps a number of the unit interval in the unit interval: `0` and `1`
are numbers of every format with `emin ≤ 0 ≤ emax`. -/
theorem FloatFormat.round_unit (f : FloatFormat) (hmin : f.emin ≤ 0) (hmax : 0 ≤ f.emax)
    (hp : 1 ≤ f.prec) (q : ℚ) (h0 : 0 ≤ q) (h1 : q ≤ 1) :
    ∃ r, f.round q = .fin r ∧ 0 ≤ r ∧ r ≤ 1 := by
  have hE : max (Int.log 2 |q|) f.emin ≤ 0 := by
    rw [abs_of_nonneg h0]
    exact max_le (Int.log_two_nonpos h1) hmin
  obtain ⟨n, hn⟩ : ∃ n : Nat, (n : Int) = ((f.prec : Int) - 1) - max (Int.log 2 |q|) f.emin :=
    ⟨(((f.prec : Int) - 1) - max (Int.log 2 |q|) f.emin).toNat,
      Int.toNat_of_nonneg (by omega)⟩
  have hu : f.ulp q = ((2 : ℚ) ^ n)⁻¹ := by
    unfold FloatFormat.ulp
    rw [show max (Int.log 2 |q|) f.emin - ((f.prec : Int) - 1) = -(n : Int) by omega,
      zpow_neg, zpow_natCast]
  have hpow : (0 : ℚ) < (2 : ℚ) ^ n := by positivity
  have hupos : 0 < ((2 : ℚ) ^ n)⁻¹ := inv_pos.mpr hpow
  obtain ⟨hA, hB⟩ := roundHalfEven_mem 0 (2 ^ n) (q / ((2 : ℚ) ^ n)⁻¹)
    (by push_cast; exact div_nonneg h0 (le_of_lt hupos))
    (by
      push_cast
      rw [div_le_iff₀ hupos, mul_inv_cancel₀ (ne_of_gt hpow)]
      exact h1)
  have hA' : (0 : ℚ) ≤ (roundHalfEven (q / ((2 : ℚ) ^ n)⁻¹) : ℚ) := by exact_mod_cast hA
  have hB' : (roundHalfEven (q / ((2 : ℚ) ^ n)⁻¹) : ℚ) ≤ (2 : ℚ) ^ n := by exact_mod_cast hB
  have hr0 : 0 ≤ (roundHalfEven (q / ((2 : ℚ) ^ n)⁻¹) : ℚ) * ((2 : ℚ) ^ n)⁻¹ :=
    mul_nonneg hA' (le_of_lt hupos)
  have hr1 : (roundHalfEven (q / ((2 : ℚ) ^ n)⁻¹) : ℚ) * ((2 : ℚ) ^ n)⁻¹ ≤ 1 := by
    calc (roundHalfEven (q / ((2 : ℚ) ^ n)⁻¹) : ℚ) * ((2 : ℚ) ^ n)⁻¹
        ≤ (2 : ℚ) ^ n * ((2 : ℚ) ^ n)⁻¹ := mul_le_mul_of_nonneg_right hB' (le_of_lt hupos)
      _ = 1 := mul_inv_cancel₀ (ne_of_gt hpow)
  refine ⟨_, ?_, hr0, hr1⟩
  unfold FloatFormat.round
  rw [hu]
  simp only
  rw [if_pos]
  rw [abs_of_nonneg hr0]
  exact lt_of_le_of_lt hr1 (one_lt_zpow₀ (by norm_num) (by omega))

/-- Rounding a number that is at least `1` gives a number that is at least `1`, or
the positive infinity. -/
theorem FloatFormat.round_ge_one (f : FloatFormat) (hmin : f.emin ≤ 0) (hp : 1 ≤ f.prec)
    (q : ℚ) (h1 : 1 ≤ q) : f.round q = .pinf ∨ ∃ r, f.round q = .fin r ∧ 1 ≤ r := by
  have hq : 0 < q := by linarith
  have hlog : 0 ≤ Int.log 2 q :=
    (Int.zpow_le_iff_le_log (R := ℚ) (by norm_num : 1 < 2) hq).mp (by norm_num; exact h1)
  have hlo : (2 : ℚ) ^ Int.log 2 q ≤ q := by
    have := Int.zpow_log_le_self (b := 2) (by norm_num) hq
    exact_mod_cast this
  have hone : (1 : ℚ) ≤ (2 : ℚ) ^ Int.log 2 q := one_le_zpow₀ (by norm_num) hlog
  obtain ⟨m, hm⟩ : ∃ m : Nat, (m : Int) = (f.prec : Int) - 1 := ⟨f.prec - 1, by omega⟩
  have hu : f.ulp q = (2 : ℚ) ^ Int.log 2 q / (2 : ℚ) ^ m := by
    unfold FloatFormat.ulp
    rw [abs_of_pos hq, max_eq_left (by omega), ← hm, zpow_sub₀ (by norm_num), zpow_natCast]
  have hpow : (0 : ℚ) < (2 : ℚ) ^ m := by positivity
  have hupos : 0 < (2 : ℚ) ^ Int.log 2 q / (2 : ℚ) ^ m := by positivity
  have hN := roundHalfEven_ge (2 ^ m) (q / ((2 : ℚ) ^ Int.log 2 q / (2 : ℚ) ^ m))
    (by
      push_cast
      rw [le_div_iff₀ hupos, mul_div_cancel₀ _ (ne_of_gt hpow)]
      exact hlo)
  have hN' : (2 : ℚ) ^ m ≤ (roundHalfEven (q / ((2 : ℚ) ^ Int.log 2 q / (2 : ℚ) ^ m)) : ℚ) := by
    exact_mod_cast hN
  have hr1 : 1 ≤ (roundHalfEven (q / ((2 : ℚ) ^ Int.log 2 q / (2 : ℚ) ^ m)) : ℚ) *
      ((2 : ℚ) ^ Int.log 2 q / (2 : ℚ) ^ m) := by
    calc (1 : ℚ) ≤ (2 : ℚ) ^ Int.log 2 q := hone
      _ = (2 : ℚ) ^ m * ((2 : ℚ) ^ Int.log 2 q / (2 : ℚ) ^ m) :=
        (mul_div_cancel₀ _ (ne_of_gt hpow)).symm
      _ ≤ _ := mul_le_mul_of_nonneg_right hN' (le_of_lt hupos)
  unfold FloatFormat.round
  rw [hu]
  simp only
  split_ifs with c1 c2
  · exact Or.inr ⟨_, rfl, hr1⟩
  · exact Or.inl rfl
  · exact absurd (lt_of_lt_of_le one_pos hr1) c2

/-- Zero is a number of every format. -/
theorem FloatFormat.round_zero (f : FloatFormat) : f.round 0 = .fin 0 := by
  unfold FloatFormat.round
  simp only [zero_div]
  have h0 : roundHalfEven 0 = 0 := roundHalfEven_eq 0 0 (by norm_num) (by norm_num)
  rw [h0]
  simp
  positivity

/-- In binary32, `sigmoid` is exactly `0.0f` where `exp` overflows to the infinity. -/
theorem sigmoid_binary32_overflow (exp : FloatVal → FloatVal) (x : FloatVal)
    (he : exp x.neg = .pinf) : sigmoid_binary32 exp x = .fin 0 := by
  simp only [sigmoid_binary32, he, binary64_one_add, binary64_one_div, binary32_of_double]
  exact binary32.round_zero

/-- For every finite `x`, `sigmoid` as computed in binary32 is a finite number of the
closed interval `[0,1]`, whenever `exp` returns a non-negative number or the
positive infinity. -/
theorem sigmoid_binary32_unit (exp : FloatVal → FloatVal) (hexp : ExpRange exp) (x : ℚ) :
    ∃ r, sigmoid_binary32 exp (.fin x) = .fin r ∧ 0 ≤ r ∧ r ≤ 1 := by
  rcases hexp (-x) with he | ⟨e, he, h0⟩
  · exact ⟨0, sigmoid_binary32_overflow exp (.fin x) he, le_refl 0, zero_le_one⟩
  · rcases binary64.round_ge_one (by norm_num [binary64]) (by norm_num [binary64]) (1 + e)
      (by linarith) with hs | ⟨s, hs, s1⟩
    · refine ⟨0, ?_, le_refl 0, zero_le_one⟩
      have he' : exp (FloatVal.fin x).neg = .fin e := he
      simp only [sigmoid_binary32, he', binary64_one_add, hs, binary64_one_div,
        binary32_of_double]
      exact binary32.round_zero
    · have hspos : 0 < s := by linarith
      obtain ⟨d, hd, d0, d1⟩ := binary64.round_unit (by norm_num [binary64])
        (by norm_num [binary64]) (by norm_num [binary64]) (1 / s)
        (le_of_lt (one_div_pos.mpr hspos)) ((div_le_one hspos).mpr s1)
      obtain ⟨r, hr, r0, r1⟩ := binary32.round_unit (by norm_num [binary32])
        (by norm_num [binary32]) (by norm_num [binary32]) d d0 d1
      exact ⟨r, sigmoid_binary32_eval exp (.fin x) e s d _ he hs (ne_of_gt hspos) hd hr,
        r0, r1⟩

/-- On buffers of one size, `mat_nl_binary32` succeeds and stores at every index the
`sigmoid_binary32` of the source entry. -/
theorem mat_nl_binary32_ok (exp : FloatVal → FloatVal) (dst src : mlmatrix FloatVal)
    (hd : dst.Sized) (hs : src.data.length = dst.data.length) :
    ∃ d, mat_nl_binary32 exp dst src = some d ∧ d.rows = dst.rows ∧ d.cols = dst.cols ∧
      d.data.length = dst.data.length ∧
      ∀ k, k < dst.data.length → ∃ v, src.data[k]? = some v ∧
        d.data[k]? = some (sigmoid_binary32 exp v) := by
  have hlen : dst.data.length = dst.rows * dst.cols := hd
  obtain ⟨d, e, hr, hc, hl, hk⟩ := forLoop_pointwise (dst.rows * dst.cols) dst
    (fun i dst => do
      let v ← src.load i
      dst.store i (sigmoid_binary32 exp v))
    (fun i => sigmoid_binary32 exp (src.data.getD i .nan)) (by omega)
    (by
      intro i d hi _ _
      have hi' : i < src.data.length := by omega
      simp [mlmatrix.load, List.getD_eq_getElem?_getD, List.getElem?_eq_getElem hi'])
  refine ⟨d, e, hr, hc, hl, ?_⟩
  intro k hk'
  have hks : k < src.data.length := by omega
  refine ⟨src.data[k], List.getElem?_eq_getElem hks, ?_⟩
  rw [hk k, if_pos (by omega)]
  simp [List.getD_eq_getElem?_getD, List.getElem?_eq_getElem hks]

/-- In exact real arithmetic `sigmoid` lies strictly between 0 and 1, `sigmoid 0` is
`1/2`, and every entry `mat_nl` writes lies in the open interval `(0,1)`. -/
theorem sigmoid_exact_range :
    (∀ x : ℝ, 0 < sigmoid Real.exp x ∧ sigmoid Real.exp x < 1) ∧
      sigmoid Real.exp 0 = 1 / 2 ∧
      (∀ dst src : mlmatrix ℝ, dst.Sized → src.data.length = dst.data.length →
        ∃ d, mat_nl Real.exp dst src = some d ∧ d.data.length = dst.data.length ∧
          ∀ v ∈ d.data, 0 < v ∧ v < 1) := by
  have hrange : ∀ x : ℝ, 0 < sigmoid Real.exp x ∧ sigmoid Real.exp x < 1 := by
    intro x
    have hpos : 0 < Real.exp (-x) := Real.exp_pos _
    unfold sigmoid
    exact ⟨by positivity, by rw [div_lt_one (by positivity)]; linarith⟩
  refine ⟨hrange, ?_, ?_⟩
  · simp [sigmoid]
    norm_num
  · intro dst src hd hs
    refine ⟨_, mat_nl_ok Real.exp dst src hd hs, by simp [hs], ?_⟩
    intro v hv
    obtain ⟨x, -, rfl⟩ := List.mem_map.mp hv
    exact hrange x

theorem exp_floor2_range : ExpRange exp_floor2 := by
  intro y
  exact Or.inr ⟨(2 : ℚ) ^ ⌊y⌋, rfl, by positivity⟩

/-! ## Claim C1: forward evaluation -/

/-- C1: on a tree-shaped graph (no address occurs twice) whose nodes satisfy the
shape requirements, `forward_prop` given fuel for the depth of the tree returns a
heap in which every MatMul node holds the matrix product of the values of its
operands, every Add node their elementwise sum, every Nonlinearity node the
elementwise sigmoid of its operand's value (`Evaluated`), the Input and Parameter
nodes are unchanged, and hence the root holds the recursive evaluation of the
expression over the values of the leaves. -/
theorem forward_prop_evaluates {α : Type} [Field α] (exp : α → α) (h : Heap α)
    (t : NodeTree) (fuel : Nat) (hw : WF h t) (hnd : t.addrs.Nodup) (hf : t.depth ≤ fuel) :
    ∃ h', forward_prop exp fuel h (some t.root) = some h' ∧ Evaluated exp h' t ∧
      (∀ q, q ∈ t.leaves → h'[q]? = h[q]?) ∧ h'.value t.root = t.eval exp h := by
  obtain ⟨h', e, -, fr, -, ev⟩ := forward_prop_tree exp t h fuel hw hnd hf
  have hleaf : ∀ q, q ∈ t.leaves → h'[q]? = h[q]? :=
    fun q hq => fr q (t.leaves_not_inner hnd q hq)
  refine ⟨h', e, ev, hleaf, ?_⟩
  rw [ev.value_root exp]
  exact NodeTree.eval_congr exp (fun q hq => Heap.value_congr (hleaf q hq))

/-- C1 on the layer `sigmoid(W × X + b)` over the reals. -/
theorem forward_prop_evaluates_witness :
    ∃ h', forward_prop Real.exp 4 layerHeap (some layerTree.root) = some h' ∧
      Evaluated Real.exp h' layerTree ∧
      (∀ q, q ∈ layerTree.leaves → h'[q]? = layerHeap[q]?) ∧
      h'.value layerTree.root = layerTree.eval Real.exp layerHeap :=
  forward_prop_evaluates Real.exp layerHeap layerTree 4 (by decide) (by decide) (by decide)

/-! ## Claims C2, C3 and C4: one step of gradient propagation -/

/-- C2, counterexample: on the MatMul node of `mulSharedHeap`, whose left and right
operand are the same node `X = [[1,2],[3,4]]`, with `G = [[1,0],[0,0]]`, `backprop`
leaves `Xᵗ × G = [[1,0],[2,0]]` in `left.deriv` (the second product overwrites the
first), which is not `G × Rᵗ = [[1,3],[0,0]]`. -/
theorem backprop_mul_shared_operand :
    ∃ h', backprop 2 mulSharedHeap (some 0) = some h' ∧
      h'.grad 1 = ⟨2, 2, [1, 0, 2, 0]⟩ ∧
      (mulSharedHeap.grad 0).mul (mulSharedHeap.value 1).transpose = ⟨2, 2, [1, 3, 0, 0]⟩ ∧
      h'.grad 1 ≠ (mulSharedHeap.grad 0).mul (mulSharedHeap.value 1).transpose := by
  refine ⟨[⟨node_type.MUL_NODE, some 1, some 1, ⟨2, 2, [0, 0, 0, 0]⟩, ⟨2, 2, [1, 0, 0, 0]⟩⟩,
    ⟨node_type.PARAM_NODE, none, none, ⟨2, 2, [1, 2, 3, 4]⟩, ⟨2, 2, [1, 0, 2, 0]⟩⟩],
    ?_, ?_, ?_, ?_⟩ <;> decide

/-- C2, amended: for a MatMul node of a graph the constructors can build (`WF`,
shared nodes allowed) with conformant operands `L` and `R`, when neither operand
node is the other operand or a node below it (as in every tree-shaped graph), and
for any gradient `G` in its `deriv` buffer, `backprop` on that node succeeds and
leaves `G × Rᵗ` in `left.deriv` and `Lᵗ × G` in `right.deriv`, where `L` and `R` are
the values the operands hold (and still hold afterwards); the two products are also
stated with Mathlib's matrices. -/
theorem backprop_mul_node {α : Type} [Ring α] (h : Heap α) (p : Nat) (l r : NodeTree)
    (fuel : Nat) (hw : WF h (.mul p l r)) (hlr : l.root ∉ r.addrs) (hrl : r.root ∉ l.addrs)
    (hf : (NodeTree.mul p l r).depth ≤ fuel) :
    ∃ h', backprop fuel h (some p) = some h' ∧
      h'.grad l.root = (h.grad p).mul (h.value r.root).transpose ∧
      h'.grad r.root = (h.value l.root).transpose.mul (h.grad p) ∧
      h'.value l.root = h.value l.root ∧ h'.value r.root = h.value r.root ∧
      (h'.grad l.root).toMatrix (h.value l.root).rows (h.value l.root).cols =
        (h.grad p).toMatrix (h.value l.root).rows (h.value r.root).cols *
          ((h.value r.root).toMatrix (h.value l.root).cols (h.value r.root).cols).transpose ∧
      (h'.grad r.root).toMatrix (h.value l.root).cols (h.value r.root).cols =
        ((h.value l.root).toMatrix (h.value l.root).rows (h.value l.root).cols).transpose *
          (h.grad p).toMatrix (h.value l.root).rows (h.value r.root).cols := by
  obtain ⟨h', e, bl, br, v⟩ := backprop_mul_separate h p l r fuel hw hlr hrl hf
  obtain ⟨n, a, b, hn, ha, hb, -, -, -, hok, c1, c2, c3, wl, wr⟩ := (WF_mul_iff h p l r).mp hw
  obtain ⟨a', ha', hoka⟩ := wl.root_ok
  obtain ⟨b', hb', hokb⟩ := wr.root_ok
  rw [ha] at ha'; cases ha'
  rw [hb] at hb'; cases hb'
  refine ⟨h', e, bl, br, v l.root, v r.root, ?_, ?_⟩
  · rw [bl, Heap.value_of_getElem? ha, Heap.value_of_getElem? hb, Heap.grad_of_getElem? hn,
      mlmatrix.toMatrix_mul _ _ _ b.matrix.cols _
        ⟨by rw [hok.2.1, c2], by rw [hok.2.2.1, c3], by rw [hok.2.2.2, c2, c3]⟩
        (by rw [c1]; exact b.matrix.transpose_hasShape),
      c1, mlmatrix.toMatrix_transpose _ _ _ hokb.1.hasShape]
  · rw [br, Heap.value_of_getElem? ha, Heap.value_of_getElem? hb, Heap.grad_of_getElem? hn,
      mlmatrix.toMatrix_mul _ _ _ a.matrix.rows _ a.matrix.transpose_hasShape
        ⟨by rw [hok.2.1, c2], by rw [hok.2.2.1, c3], by rw [hok.2.2.2, c2, c3]⟩,
      mlmatrix.toMatrix_transpose _ _ _ hoka.1.hasShape]

/-- C2, amended, at `G = [[1],[2]]`, `L = [[1,2],[3,4]]`, `R = [[5],[6]]`: the left
gradient is `G × Rᵗ = [[5,6],[10,12]]` and the right one `Lᵗ × G = [[7],[10]]`. -/
theorem backprop_mul_node_witness :
    ∃ h', backprop 2 mulHeap (some 0) = some h' ∧
      h'.grad 1 = ⟨2, 2, [5, 6, 10, 12]⟩ ∧ h'.grad 2 = ⟨2, 1, [7, 10]⟩ := by
  obtain ⟨h', e, hl, hr, -⟩ := backprop_mul_node mulHeap 0 (.param 1) (.input 2) 2
    (by decide) (by decide) (by decide) (by decide)
  exact ⟨h', e, hl.trans (by decide), hr.trans (by decide)⟩

/-- C3: for a Nonlinearity node of any graph the constructors can build (`WF`: the
graph below the node unfolds into a finite tree of well-shaped nodes, shared nodes
allowed), with stored value `y` and stored gradient `dy`, `backprop` succeeds and
leaves in the gradient buffer of the operand, at every entry `i`,
`dy[i] * y[i] * (1 - y[i])`: the node's own forward output is used, not the value of
the operand. -/
theorem backprop_nl_node {α : Type} [Ring α] (h : Heap α) (p : Nat) (x : NodeTree)
    (fuel : Nat) (hw : WF h (.nl p x)) (hf : (NodeTree.nl p x).depth ≤ fuel) :
    ∃ h', backprop fuel h (some p) = some h' ∧
      h'.grad x.root = (h.value p).invnl (h.grad p) ∧
      (h'.grad x.root).data.length = (h.value p).data.length ∧
      ∀ i, i < (h.value p).data.length →
        ∃ y dy, (h.value p).data[i]? = some y ∧ (h.grad p).data[i]? = some dy ∧
          (h'.grad x.root).data[i]? = some (dy * y * (1 - y)) := by
  obtain ⟨h', e, -, -, -, bx⟩ := backprop_graph_nl p x (backprop_graph x) h fuel hw hf
  obtain ⟨n, a, hn, -, -, -, -, hok, -⟩ := (WF_nl_iff h p x).mp hw
  have hlen : (h.grad p).data.length = (h.value p).data.length := by
    rw [Heap.grad_of_getElem? hn, Heap.value_of_getElem? hn, hok.2.2.2]
    exact hok.1.symm
  refine ⟨h', e, bx, ?_, ?_⟩
  · rw [bx]; simp [mlmatrix.invnl, hlen]
  · intro i hi
    have hi' : i < (h.grad p).data.length := by omega
    refine ⟨(h.value p).data[i], (h.grad p).data[i],
      List.getElem?_eq_getElem hi, List.getElem?_eq_getElem hi', ?_⟩
    rw [bx]
    simp [mlmatrix.invnl, List.getElem?_zipWith, List.getElem?_eq_getElem hi,
      List.getElem?_eq_getElem hi']

/-- C3 on scenario B: from the operand value `[[0]]` forward evaluation gives the
output `[[0.5]]`, and with the upstream gradient `[[1]]` the gradient of the operand
becomes `[[0.25]]`. -/
theorem backprop_nl_node_witness :
    ∃ h1 h2, forward_prop Real.exp 2 scenarioB (some 0) = some h1 ∧
      h1.value 0 = ⟨1, 1, [0.5]⟩ ∧ h1.grad 0 = ⟨1, 1, [1]⟩ ∧
      backprop 2 h1 (some 0) = some h2 ∧ h2.grad 1 = ⟨1, 1, [0.25]⟩ := by
  obtain ⟨h1, e1, s1, fr1, g1, ev1⟩ := forward_prop_tree Real.exp (.nl 0 (.input 1))
    scenarioB 2 (by decide) (by decide) (by decide)
  have hleaf : h1.value 1 = ⟨1, 1, [0]⟩ :=
    Heap.value_congr (fr1 1 (by decide))
  have hv : h1.value 0 = ⟨1, 1, [0.5]⟩ := by
    rw [ev1.1, NodeTree.root, hleaf]
    simp only [mlmatrix.map, sigmoid, List.map_cons, List.map_nil, neg_zero, Real.exp_zero]
    norm_num
  have hg : h1.grad 0 = ⟨1, 1, [1]⟩ := g1 0
  obtain ⟨h2, e2, hx, -⟩ := backprop_nl_node h1 0 (.input 1) 2
    (WF.sameShape s1 (by decide)) (by decide)
  refine ⟨h1, h2, e1, hv, hg, e2, ?_⟩
  have hx' : h2.grad 1 = (h1.value 0).invnl (h1.grad 0) := hx
  rw [hx', hv, hg]
  simp only [mlmatrix.invnl, List.zipWith_cons_cons, List.zipWith_nil_right]
  norm_num

/-- C4: for an Add node at address `p` whose operands (at `a` and `b`, possibly one
and the same node) are leaves whose gradient buffers have the shape of the node's,
`backprop` on that node succeeds and leaves in `left.deriv` and in `right.deriv` the
node's own gradient, entry for entry, while the node's own `deriv` is unchanged. -/
theorem backprop_add_node {α : Type} [Ring α] (h : Heap α) (p a b : Nat)
    (n na nb : node α) (rows cols fuel : Nat)
    (hn : h[p]? = some n) (hty : n.type = node_type.ADD_NODE)
    (hleft : n.left = some a) (hright : n.right = some b)
    (ha : h[a]? = some na) (hb : h[b]? = some nb) (hla : na.IsLeaf) (hlb : nb.IsLeaf)
    (hs : n.deriv.HasShape rows cols) (hsa : na.deriv.HasShape rows cols)
    (hsb : nb.deriv.HasShape rows cols) (hf : 2 ≤ fuel) :
    ∃ h', backprop fuel h (some p) = some h' ∧
      h'.grad a = n.deriv ∧ h'.grad b = n.deriv ∧ h'.grad p = n.deriv ∧
      h'.value p = n.matrix :=
  backprop_add_leaves h p a b n na nb rows cols fuel hn hty hleft hright ha hb hla hlb hs hsa
    hsb hf

/-- C4 on an Add node with gradient `[[1],[2]]` over a Parameter and an Input. -/
theorem backprop_add_node_witness :
    ∃ h', backprop 2 addHeap (some 0) = some h' ∧
      h'.grad 1 = ⟨2, 1, [1, 2]⟩ ∧ h'.grad 2 = ⟨2, 1, [1, 2]⟩ ∧ h'.grad 0 = ⟨2, 1, [1, 2]⟩ ∧
      h'.value 0 = ⟨2, 1, [0, 0]⟩ :=
  backprop_add_node addHeap 0 1 2 _ _ _ 2 1 2 rfl rfl rfl rfl rfl rfl (by decide) (by decide)
    (by decide) (by decide) (by decide) (by decide)

/-! ## Claim C5: an operand with two consumers -/

/-- C5, counterexample: on the Add node of `sharedHeap`, whose two operands are the
same Parameter node, with gradient `G = [[1]]`, `backprop` leaves `[[1]]` in the
Parameter's gradient buffer, the contribution written last, and not the sum
`G + G = [[2]]` of the two contributions. -/
theorem backprop_shared_not_summed :
    ∃ h', backprop 2 sharedHeap (some 0) = some h' ∧ h'.grad 1 = sharedHeap.grad 0 ∧
      h'.grad 1 ≠ (sharedHeap.grad 0).add (sharedHeap.grad 0) := by
  refine ⟨[⟨node_type.ADD_NODE, some 1, some 1, ⟨1, 1, [0]⟩, ⟨1, 1, [1]⟩⟩,
    ⟨node_type.PARAM_NODE, none, none, ⟨1, 1, [2]⟩, ⟨1, 1, [1]⟩⟩], ?_, ?_, ?_⟩ <;> decide

/-- C5, amended: when the two operands of an Add node are one and the same leaf
(a node with two consumers), `backprop` succeeds and the leaf's gradient buffer holds
the node's gradient `G`, the contribution written last; this is not the sum `G + G`
of the two contributions as soon as `G` has a nonzero entry. -/
theorem backprop_shared_last_write {α : Type} [Ring α] (h : Heap α) (p a : Nat)
    (n na : node α) (rows cols fuel : Nat)
    (hn : h[p]? = some n) (hty : n.type = node_type.ADD_NODE)
    (hleft : n.left = some a) (hright : n.right = some a)
    (ha : h[a]? = some na) (hla : na.IsLeaf)
    (hs : n.deriv.HasShape rows cols) (hsa : na.deriv.HasShape rows cols) (hf : 2 ≤ fuel) :
    ∃ h', backprop fuel h (some p) = some h' ∧ h'.grad a = n.deriv ∧
      ((∃ v, v ∈ n.deriv.data ∧ v ≠ 0) → h'.grad a ≠ n.deriv.add n.deriv) := by
  obtain ⟨h', e, hg, -⟩ := backprop_add_leaves h p a a n na na rows cols fuel hn hty hleft
    hright ha ha hla hla hs hsa hsa hf
  refine ⟨h', e, hg, ?_⟩
  rintro ⟨v, hv, hv0⟩ heq
  rw [hg] at heq
  have hdata : List.zipWith (· + ·) n.deriv.data n.deriv.data = n.deriv.data := by
    have := congrArg mlmatrix.data heq
    simpa [mlmatrix.add] using this.symm
  exact hv0 (zipWith_add_self_eq _ hdata v hv)

/-- C5, amended, on `sharedHeap`. -/
theorem backprop_shared_last_write_witness :
    ∃ h', backprop 2 sharedHeap (some 0) = some h' ∧ h'.grad 1 = ⟨1, 1, [1]⟩ ∧
      ((∃ v, v ∈ [(1 : Int)] ∧ v ≠ 0) →
        h'.grad 1 ≠ (⟨1, 1, [1]⟩ : mlmatrix Int).add ⟨1, 1, [1]⟩) :=
  backprop_shared_last_write sharedHeap 0 1 _ _ 1 1 2 rfl rfl rfl rfl rfl (by decide)
    (by decide) (by decide) (by decide)

/-! ## Claim C6: the gradient buffers hold the derivative of the loss -/

/-- C6: on a tree-shaped graph with conformant shapes, over the reals, let `Loss` be a
scalar function of the `r × c` root value, differentiable at the value the root
evaluates to, and let `G` hold its partial derivatives there.  Then `forward_prop`,
writing `G` into the root's `deriv` buffer and `backprop` all succeed, the root holds
the evaluation of the graph, and for every Parameter node `q` and every entry `(a,b)`
of it: `forward_prop` on the graph with that entry replaced by any `x` leaves in the
root the evaluation of the perturbed graph; the entry `(a,b)` of `q`'s `deriv` buffer
is the derivative of the loss with respect to that entry of the Parameter; and
replacing the entry by `x₀ + ε` changes the loss by `ε` times the `deriv` entry up to
`o(ε)`. -/
theorem backprop_gradient (h : Heap ℝ) (t : NodeTree) (fuel : Nat) (hw : WF h t)
    (hnd : t.addrs.Nodup) (hf : t.depth ≤ fuel) (r c : Nat)
    (hr : (h.value t.root).rows = r) (hc : (h.value t.root).cols = c)
    (Loss : (Fin r → Fin c → ℝ) → ℝ) (Loss' : (Fin r → Fin c → ℝ) →L[ℝ] ℝ)
    (hLoss : HasFDerivAt Loss Loss' (fun i j => (t.eval Real.exp h).entry i.val j.val))
    (G : mlmatrix ℝ) (hG : G.HasShape r c)
    (hGrad : ∀ (i : Fin r) (j : Fin c),
      G.entry i.val j.val = Loss' (Pi.single i (Pi.single j 1))) :
    ∃ h1 h2 h3, forward_prop Real.exp fuel h (some t.root) = some h1 ∧
      h1.value t.root = t.eval Real.exp h ∧
      h1.setDeriv (some t.root) G = some h2 ∧
      backprop fuel h2 (some t.root) = some h3 ∧
      ∀ q, q ∈ t.params → ∀ a b, a < (h.value q).rows → b < (h.value q).cols →
        (∀ x, ∃ hx, forward_prop Real.exp fuel (h.perturb q a b x) (some t.root) = some hx ∧
          hx.value t.root = t.eval Real.exp (h.perturb q a b x)) ∧
        HasDerivAt
          (fun x => Loss (fun i j => (t.eval Real.exp (h.perturb q a b x)).entry i.val j.val))
          ((h3.grad q).entry a b) ((h.value q).entry a b) ∧
        (fun ε =>
          Loss (fun i j => (t.eval Real.exp
            (h.perturb q a b ((h.value q).entry a b + ε))).entry i.val j.val) -
          Loss (fun i j => (t.eval Real.exp h).entry i.val j.val) -
          ε * (h3.grad q).entry a b) =o[nhds 0] fun ε => ε := by
  obtain ⟨h1, h2, h3, e1, hv1, e2, e3, -, hgrad⟩ := training_step_gradients Real.exp h t fuel
    hw hnd hf G (by rw [hr, hc]; exact hG)
  refine ⟨h1, h2, h3, e1, hv1, e2, e3, ?_⟩
  intro q hq a b ha hb
  have hd := NodeTree.hasDerivAt_loss h t hw r c hr hc Loss Loss' hLoss G hG hGrad q a b ha hb
  rw [← hgrad q (t.params_subset_leaves q hq) a b] at hd
  refine ⟨fun x => forward_prop_value_root Real.exp (h.perturb q a b x) t fuel
    (hw.sameShape (Heap.perturb_sameShape h q a b x)) hnd hf, hd, ?_⟩
  have ho := hasDerivAt_iff_isLittleO_nhds_zero.mp hd
  have hself : t.eval Real.exp (h.perturb q a b ((h.value q).entry a b)) =
      t.eval Real.exp h :=
    NodeTree.eval_congr Real.exp (fun p _ => Heap.perturb_value_self h q a b p)
  simp only [hself, smul_eq_mul] at ho
  exact ho

/-- C6 on the layer `sigmoid(W × X + b)` with the loss that reads the single output. -/
theorem backprop_gradient_witness :
    ∃ h1 h2 h3, forward_prop Real.exp 4 layerHeap (some layerTree.root) = some h1 ∧
      h1.value layerTree.root = layerTree.eval Real.exp layerHeap ∧
      h1.setDeriv (some layerTree.root) ⟨1, 1, [1]⟩ = some h2 ∧
      backprop 4 h2 (some layerTree.root) = some h3 ∧
      ∀ q, q ∈ layerTree.params → ∀ a b,
        a < (layerHeap.value q).rows → b < (layerHeap.value q).cols →
        (∀ x, ∃ hx,
          forward_prop Real.exp 4 (layerHeap.perturb q a b x) (some layerTree.root) = some hx ∧
          hx.value layerTree.root = layerTree.eval Real.exp (layerHeap.perturb q a b x)) ∧
        HasDerivAt
          (fun x => (fun Y : Fin 1 → Fin 1 → ℝ => Y 0 0) (fun i j =>
            (layerTree.eval Real.exp (layerHeap.perturb q a b x)).entry i.val j.val))
          ((h3.grad q).entry a b) ((layerHeap.value q).entry a b) ∧
        (fun ε =>
          (fun Y : Fin 1 → Fin 1 → ℝ => Y 0 0) (fun i j => (layerTree.eval Real.exp
            (layerHeap.perturb q a b ((layerHeap.value q).entry a b + ε))).entry i.val j.val) -
          (fun Y : Fin 1 → Fin 1 → ℝ => Y 0 0) (fun i j =>
            (layerTree.eval Real.exp layerHeap).entry i.val j.val) -
          ε * (h3.grad q).entry a b) =o[nhds 0] fun ε => ε :=
  backprop_gradient layerHeap layerTree 4 (by decide) (by decide) (by decide) 1 1 rfl rfl
    (fun Y => Y 0 0)
    ((ContinuousLinearMap.proj 0 : (Fin 1 → ℝ) →L[ℝ] ℝ).comp
      (ContinuousLinearMap.proj 0 : (Fin 1 → Fin 1 → ℝ) →L[ℝ] (Fin 1 → ℝ)))
    (ContinuousLinearMap.hasFDerivAt
      ((ContinuousLinearMap.proj 0 : (Fin 1 → ℝ) →L[ℝ] ℝ).comp
        (ContinuousLinearMap.proj 0 : (Fin 1 → Fin 1 → ℝ) →L[ℝ] (Fin 1 → ℝ))))
    ⟨1, 1, [1]⟩ (by decide)
    (by
      intro i j
      fin_cases i
      fin_cases j
      simp [mlmatrix.entry])

/-! ## Claim C7: the parameter update -/

/-- C7: on a tree-shaped graph, `update_weights` given fuel for the depth of the tree
succeeds; afterwards every entry `i` of the value of every Parameter node is its old
value minus `0.1` times entry `i` of the node's gradient (one step per Parameter
node), the value of every node that is not a Parameter node of the tree is
unchanged, and so is the gradient buffer of every node. -/
theorem update_weights_step {α : Type} [Field α] (h : Heap α) (t : NodeTree) (fuel : Nat)
    (hw : WF h t) (hnd : t.addrs.Nodup) (hf : t.depth ≤ fuel) :
    ∃ h', update_weights fuel h (some t.root) = some h' ∧
      (∀ q, q ∈ t.params →
        (h'.value q).rows = (h.value q).rows ∧ (h'.value q).cols = (h.value q).cols ∧
        (h'.value q).data.length = (h.value q).data.length ∧
        ∀ i, i < (h.value q).data.length →
          ∃ v g, (h.value q).data[i]? = some v ∧ (h.grad q).data[i]? = some g ∧
            (h'.value q).data[i]? = some (v - 0.1 * g)) ∧
      (∀ q, q ∉ t.params → h'.value q = h.value q) ∧
      (∀ q, h'.grad q = h.grad q) := by
  obtain ⟨h', e, s, fr, g, u⟩ := update_weights_tree t h fuel hw hnd hf
  refine ⟨h', e, ?_, fun q hq => Heap.value_congr (fr q hq), g⟩
  intro q hq
  obtain ⟨n, hn, hok⟩ := hw.node_ok q (t.params_subset_addrs q hq)
  have hlen : (h.grad q).data.length = (h.value q).data.length := by
    rw [Heap.grad_of_getElem? hn, Heap.value_of_getElem? hn, hok.2.2.2]
    exact hok.1.symm
  rw [u q hq]
  refine ⟨rfl, rfl, by simp [mlmatrix.step, hlen], ?_⟩
  intro i hi
  have hi' : i < (h.grad q).data.length := by omega
  refine ⟨(h.value q).data[i], (h.grad q).data[i], List.getElem?_eq_getElem hi,
    List.getElem?_eq_getElem hi', ?_⟩
  simp [mlmatrix.step, LEARNING_RATE, List.getElem?_zipWith, List.getElem?_eq_getElem hi,
    List.getElem?_eq_getElem hi']

/-- C7 on scenario A after gradient propagation, the Parameter `[[1,1]]` holding the
gradient `[[3,4]]`. -/
theorem update_weights_step_witness :
    ∃ h', update_weights 2 scenarioATrained (some scenarioATree.root) = some h' ∧
      (∀ q, q ∈ scenarioATree.params →
        (h'.value q).rows = (scenarioATrained.value q).rows ∧
        (h'.value q).cols = (scenarioATrained.value q).cols ∧
        (h'.value q).data.length = (scenarioATrained.value q).data.length ∧
        ∀ i, i < (scenarioATrained.value q).data.length →
          ∃ v g, (scenarioATrained.value q).data[i]? = some v ∧
            (scenarioATrained.grad q).data[i]? = some g ∧
            (h'.value q).data[i]? = some (v - 0.1 * g)) ∧
      (∀ q, q ∉ scenarioATree.params → h'.value q = scenarioATrained.value q) ∧
      (∀ q, h'.grad q = scenarioATrained.grad q) :=
  update_weights_step scenarioATrained scenarioATree 2 (by decide) (by decide) (by decide)

/-! ## Claim C8: scenario A -/

/-- C8: on the graph MatMul(Parameter, Input) with Parameter value `[[1,1]]` and Input
value `[[3],[4]]`, `forward_prop` gives the root value `[[7]]`; with the root gradient
set to `[[1]]`, `backprop` gives the Parameter's gradient `[[3,4]]`; and one
`update_weights` step (rate 0.1) makes the Parameter's value `[[0.7,0.6]]`. -/
theorem scenarioA_run (exp : ℚ → ℚ) :
    ∃ h1 h2 h3 h4, forward_prop exp 2 scenarioA (some 0) = some h1 ∧
      h1.value 0 = ⟨1, 1, [7]⟩ ∧
      h1.setDeriv (some 0) ⟨1, 1, [1]⟩ = some h2 ∧
      backprop 2 h2 (some 0) = some h3 ∧ h3.grad 1 = ⟨1, 2, [3, 4]⟩ ∧
      update_weights 2 h3 (some 0) = some h4 ∧ h4.value 1 = ⟨1, 2, [0.7, 0.6]⟩ := by
  refine ⟨[⟨node_type.MUL_NODE, some 1, some 2, ⟨1, 1, [7]⟩, ⟨1, 1, [0]⟩⟩,
      ⟨node_type.PARAM_NODE, none, none, ⟨1, 2, [1, 1]⟩, ⟨1, 2, [0, 0]⟩⟩,
      ⟨node_type.INPUT_NODE, none, none, ⟨2, 1, [3, 4]⟩, ⟨2, 1, [0, 0]⟩⟩],
    [⟨node_type.MUL_NODE, some 1, some 2, ⟨1, 1, [7]⟩, ⟨1, 1, [1]⟩⟩,
      ⟨node_type.PARAM_NODE, none, none, ⟨1, 2, [1, 1]⟩, ⟨1, 2, [0, 0]⟩⟩,
      ⟨node_type.INPUT_NODE, none, none, ⟨2, 1, [3, 4]⟩, ⟨2, 1, [0, 0]⟩⟩],
    scenarioATrained,
    [⟨node_type.MUL_NODE, some 1, some 2, ⟨1, 1, [7]⟩, ⟨1, 1, [1]⟩⟩,
      ⟨node_type.PARAM_NODE, none, none, ⟨1, 2, [0.7, 0.6]⟩, ⟨1, 2, [3, 4]⟩⟩,
      ⟨node_type.INPUT_NODE, none, none, ⟨2, 1, [3, 4]⟩, ⟨2, 1, [1, 1]⟩⟩],
    ?_, ?_, ?_, ?_, ?_, ?_, ?_⟩
  · with_unfolding_all rfl
  · rfl
  · rfl
  · decide!
  · rfl
  · decide!
  · rfl

/-! ## Claims C9 and C10: the product kernel -/

/-- C9: for `a` of shape `r × n`, `b` of shape `n × c` and any destination `dst`
pre-sized to `r × c`, `mat_mul dst a b` succeeds, keeps the shape of `dst`, and leaves
in every entry `(i,j)` (row-major index `i*c + j`) the sum over `k < n` of
`a[i,k] * b[k,j]`, whatever `dst` held before: the result read as a matrix is the
product of Mathlib's matrices.  The operands are read-only arguments of the kernel:
its only output is the new destination. -/
theorem mat_mul_entries {α : Type} [NonUnitalNonAssocSemiring α] (r n c : Nat)
    (dst a b : mlmatrix α) (ha : a.HasShape r n) (hb : b.HasShape n c)
    (hd : dst.HasShape r c) :
    ∃ d, mat_mul dst a b = some d ∧ d.HasShape r c ∧
      (∀ i j, i < r → j < c →
        d.data[i * c + j]? = some (∑ k in Finset.range n, a.entry i k * b.entry k j) ∧
        d.entry i j = ∑ k in Finset.range n, a.entry i k * b.entry k j) ∧
      d.toMatrix r c = a.toMatrix r n * b.toMatrix n c := by
  obtain ⟨har, hac, hal⟩ := ha
  obtain ⟨hbr, hbc, hbl⟩ := hb
  obtain ⟨hdr, hdc, hdl⟩ := hd
  obtain ⟨d, hd1, hr, hc, hl, hent, -⟩ := mat_mul_ok dst a b
    (by simp [mlmatrix.Sized, har, hac, hal]) (by simp [mlmatrix.Sized, hbr, hbc, hbl])
    (by rw [hac, hbr]) (by rw [har, hbc, hdl])
  have hentry : ∀ i j, i < r → j < c →
      d.data[i * c + j]? = some (∑ k in Finset.range n, a.entry i k * b.entry k j) ∧
      d.entry i j = ∑ k in Finset.range n, a.entry i k * b.entry k j := by
    intro i j hi hj
    have h := hent i j (by rw [har]; exact hi) (by rw [hbc]; exact hj)
    rw [hbc, hac] at h
    refine ⟨h, ?_⟩
    apply mlmatrix.entry_eq_of_getElem?
    rw [hc, hdc]
    exact h
  refine ⟨d, hd1, ⟨by rw [hr, hdr], by rw [hc, hdc], by rw [hl, hdl]⟩, hentry, ?_⟩
  ext i j
  rw [Matrix.mul_apply]
  simp only [mlmatrix.toMatrix, Matrix.of_apply]
  rw [(hentry i.val j.val i.isLt j.isLt).2]
  exact (Fin.sum_univ_eq_sum_range (fun k => a.entry i.val k * b.entry k j.val) n).symm

/-- C9 at the product of `[[1,1]]` and `[[3],[4]]` into a buffer holding `[[5]]`. -/
theorem mat_mul_entries_witness :
    ∃ d, mat_mul (⟨1, 1, [5]⟩ : mlmatrix Int) ⟨1, 2, [1, 1]⟩ ⟨2, 1, [3, 4]⟩ = some d ∧
      d.HasShape 1 1 ∧
      (∀ i j, i < 1 → j < 1 →
        d.data[i * 1 + j]? = some (∑ k in Finset.range 2,
          (⟨1, 2, [1, 1]⟩ : mlmatrix Int).entry i k * (⟨2, 1, [3, 4]⟩ : mlmatrix Int).entry k j) ∧
        d.entry i j = ∑ k in Finset.range 2,
          (⟨1, 2, [1, 1]⟩ : mlmatrix Int).entry i k *
            (⟨2, 1, [3, 4]⟩ : mlmatrix Int).entry k j) ∧
      d.toMatrix 1 1 = (⟨1, 2, [1, 1]⟩ : mlmatrix Int).toMatrix 1 2 *
        (⟨2, 1, [3, 4]⟩ : mlmatrix Int).toMatrix 2 1 :=
  mat_mul_entries 1 2 1 _ _ _ (by decide) (by decide) (by decide)

/-- C10: for every `n`, every `n × m` matrix `A` and every destination pre-sized to
`n × m`, `mat_mul dst I_n A` succeeds and leaves `dst` equal to `A` entry for entry. -/
theorem mat_mul_identity {α : Type} [NonAssocSemiring α] (n m : Nat)
    (dst A : mlmatrix α) (hA : A.HasShape n m) (hd : dst.HasShape n m) :
    ∃ d, mat_mul dst (identity n) A = some d ∧ d.HasShape n m ∧ d.data = A.data ∧
      ∀ i j, i < n → j < m → d.entry i j = A.entry i j := by
  obtain ⟨har, hac, hal⟩ := hA
  obtain ⟨hdr, hdc, hdl⟩ := hd
  have hAs : A.Sized := by simp [mlmatrix.Sized, har, hac, hal]
  obtain ⟨d, hd1, hr, hc, hl, hent, -⟩ := mat_mul_ok dst (identity n) A
    (identity_hasShape n).sized hAs (by simp [identity, har])
    (by simp [identity, hac, hdl])
  have hval : ∀ i j, i < n → j < m → d.data[i * m + j]? = A.data[i * m + j]? := by
    intro i j hi hj
    have h := hent i j (by simpa [identity] using hi) (by rw [hac]; exact hj)
    have hsum : ∑ k in Finset.range (identity n : mlmatrix α).cols,
        (identity n : mlmatrix α).entry i k * A.entry k j = A.entry i j := by
      have hcols : (identity n : mlmatrix α).cols = n := rfl
      rw [hcols, Finset.sum_congr rfl (fun k hk => by
        rw [identity_entry n hi (Finset.mem_range.mp hk)])]
      simp [Finset.sum_ite_eq, hi]
    rw [hsum, hac] at h
    rw [h, ← hac, A.getElem?_entry hAs (by rw [har]; exact hi) (by rw [hac]; exact hj)]
  have hdata : d.data = A.data := by
    apply List.ext_getElem?
    intro k
    by_cases hk : k < n * m
    · have hm : 0 < m := by
        rcases Nat.eq_zero_or_pos m with h0 | h0
        · subst h0; simp at hk
        · exact h0
      have := hval (k / m) (k % m) ((Nat.div_lt_iff_lt_mul hm).mpr hk) (Nat.mod_lt k hm)
      rwa [Nat.div_add_mod' k m] at this
    · rw [List.getElem?_eq_none (by omega), List.getElem?_eq_none (by omega)]
  refine ⟨d, hd1, ⟨by rw [hr, hdr], by rw [hc, hdc], by rw [hl, hdl]⟩, hdata, ?_⟩
  intro i j _ _
  simp [mlmatrix.entry, hdata, hc, hdc, hac]

/-- C10 at `n = 2`, `A = [[1,2,3],[4,5,6]]` and a destination holding sevens. -/
theorem mat_mul_identity_witness :
    ∃ d, mat_mul (⟨2, 3, [7, 7, 7, 7, 7, 7]⟩ : mlmatrix Int) (identity 2)
        ⟨2, 3, [1, 2, 3, 4, 5, 6]⟩ = some d ∧
      d.HasShape 2 3 ∧ d.data = [1, 2, 3, 4, 5, 6] ∧
      ∀ i j, i < 2 → j < 3 →
        d.entry i j = (⟨2, 3, [1, 2, 3, 4, 5, 6]⟩ : mlmatrix Int).entry i j :=
  mat_mul_identity 2 3 _ _ (by decide) (by decide)

/-! ## Claim C11: transposition -/

/-- C11: for every source buffer of shape `r × c` and every destination pre-sized to
`c × r`, whatever it holds, `mat_transpose` succeeds and leaves a `c × r` buffer with
`dst[i,j] = src[j,i]` at every entry, that is Mathlib's transpose of the source; and
transposing the result back into any buffer pre-sized to `r × c` gives the source
buffer again. -/
theorem mat_transpose_entries {α : Type} [Zero α] (dst src : mlmatrix α) (r c : Nat)
    (hs : src.HasShape r c) (hd : dst.HasShape c r) :
    ∃ d, mat_transpose dst src = some d ∧ d.HasShape c r ∧
      (∀ i j, i < c → j < r → d.entry i j = src.entry j i) ∧
      d.toMatrix c r = (src.toMatrix r c).transpose ∧
      ∀ back : mlmatrix α, back.HasShape r c → mat_transpose back d = some src := by
  obtain ⟨d, e, hsh, hent⟩ := mat_transpose_shaped dst src r c hs hd
  refine ⟨d, e, hsh, hent, ?_, ?_⟩
  · ext i j
    simp only [mlmatrix.toMatrix, Matrix.of_apply, Matrix.transpose_apply]
    exact hent i.val j.val i.isLt j.isLt
  · intro back hb
    obtain ⟨d2, e2, hsh2, hent2⟩ := mat_transpose_shaped back d c r hsh hb
    rw [e2]
    congr 1
    exact mlmatrix.ext_entry hsh2 hs
      (fun i j hi hj => (hent2 i j hi hj).trans (hent j i hj hi))

/-- C11 on `src = [[1,2,3],[4,5,6]]` and a destination holding old entries: the
result is `[[1,4],[2,5],[3,6]]`, and transposing back gives `src`. -/
theorem mat_transpose_entries_witness :
    mat_transpose (⟨3, 2, [9, 9, 9, 9, 9, 9]⟩ : mlmatrix Int) ⟨2, 3, [1, 2, 3, 4, 5, 6]⟩ =
        some ⟨3, 2, [1, 4, 2, 5, 3, 6]⟩ ∧
      mat_transpose (⟨2, 3, [7, 7, 7, 7, 7, 7]⟩ : mlmatrix Int) ⟨3, 2, [1, 4, 2, 5, 3, 6]⟩ =
        some ⟨2, 3, [1, 2, 3, 4, 5, 6]⟩ := by
  obtain ⟨d, e, -, -, -, hback⟩ := mat_transpose_entries
    (⟨3, 2, [9, 9, 9, 9, 9, 9]⟩ : mlmatrix Int) ⟨2, 3, [1, 2, 3, 4, 5, 6]⟩ 2 3
    (by decide) (by decide)
  have hd : d = ⟨3, 2, [1, 4, 2, 5, 3, 6]⟩ := by
    have e2 : mat_transpose (⟨3, 2, [9, 9, 9, 9, 9, 9]⟩ : mlmatrix Int)
        ⟨2, 3, [1, 2, 3, 4, 5, 6]⟩ = some ⟨3, 2, [1, 4, 2, 5, 3, 6]⟩ := by decide
    rw [e2] at e
    exact (Option.some.inj e).symm
  subst hd
  exact ⟨e, hback ⟨2, 3, [7, 7, 7, 7, 7, 7]⟩ (by decide)⟩

/-! ## Claim C12: the decision rule -/

/-- C12: for every node whose value buffer is sized and non-empty, over linearly
ordered scalars, `interpret_result` returns an index `i` inside the buffer such that
`value[j] ≤ value[i]` for every `j` of the buffer and `value[j] < value[i]` for every
`j < i`: the maximum, ties resolved to the lowest index. -/
theorem interpret_result_argmax {α : Type} [LinearOrder α] (h : Heap α) (p : Nat)
    (nd : node α) (hp : h[p]? = some nd) (hs : nd.matrix.Sized)
    (hne : nd.matrix.data ≠ []) :
    ∃ i v, interpret_result h (some p) = some i ∧ nd.matrix.data[i]? = some v ∧
      (∀ (j : Nat) (w : α), nd.matrix.data[j]? = some w → w ≤ v) ∧
      (∀ j w, j < i → nd.matrix.data[j]? = some w → w < v) := by
  have hlen : nd.matrix.data.length = nd.matrix.rows * nd.matrix.cols := hs
  have hpos : 0 < nd.matrix.rows * nd.matrix.cols := by
    rw [← hlen]
    exact List.length_pos.mpr hne
  obtain ⟨i, e, hi, hmax, hfirst⟩ := interpret_result_loop nd.matrix hpos (by omega)
  have ei : nd.matrix.data[i]? = some nd.matrix.data[i] :=
    List.getElem?_eq_getElem (by omega)
  refine ⟨i, nd.matrix.data[i], ?_, ei, ?_, ?_⟩
  · simp only [interpret_result, Heap.deref, hp, Option.bind_eq_bind, Option.some_bind]
    exact e
  · intro j w hw
    have hj : j < nd.matrix.data.length := by
      rcases Nat.lt_or_ge j nd.matrix.data.length with hlt | hge
      · exact hlt
      · rw [List.getElem?_eq_none hge] at hw; cases hw
    exact hmax j w _ (by omega) hw ei
  · intro j w hj hw
    exact hfirst j w _ hj hw ei

/-- C12 on scenario C: on the buffer `[[0.1],[0.9],[0.3]]` `interpret_result`
returns the index 1. -/
theorem interpret_result_argmax_witness : interpret_result scenarioC (some 0) = some 1 := by
  obtain ⟨i, v, e, hv, hmax, hfirst⟩ := interpret_result_argmax scenarioC 0
    ⟨node_type.NL_NODE, none, none, ⟨3, 1, [0.1, 0.9, 0.3]⟩, ⟨3, 1, [0, 0, 0]⟩⟩ rfl
    (by decide) (by decide)
  rw [e]
  have h1 : (0.9 : ℚ) ≤ v := hmax 1 0.9 rfl
  have hi3 : i < 3 := by
    rcases Nat.lt_or_ge i 3 with hlt | hge
    · exact hlt
    · rw [List.getElem?_eq_none (by simpa using hge)] at hv; cases hv
  have hi : i = 1 := by
    rcases Nat.lt_trichotomy i 1 with hlt | heq | hgt
    · have : i = 0 := by omega
      subst this
      simp at hv
      subst hv
      norm_num at h1
    · exact heq
    · have : i = 2 := by omega
      subst this
      simp at hv
      subst hv
      norm_num at h1
  rw [hi]

/-! ## Claim C13: one-hot encoding -/

/-- C13: for every sized buffer `m`, whatever it holds, and every class index `n` with
`0 ≤ n < m.rows * m.cols`, `onehot_encode` succeeds; afterwards entry `n` is `1`, every
other entry is `0`, and `rows`, `cols` and the length of the buffer are unchanged. -/
theorem onehot_encode_entries {α : Type} [Zero α] [One α] (m : mlmatrix α) (n : Int)
    (hm : m.Sized) (h0 : 0 ≤ n) (hn : n < ((m.rows * m.cols : Nat) : Int)) :
    ∃ m', onehot_encode m n = some m' ∧
      m'.rows = m.rows ∧ m'.cols = m.cols ∧ m'.data.length = m.data.length ∧
      m'.data = (List.replicate (m.rows * m.cols) (0 : α)).set n.toNat 1 ∧
      ∀ k, k < m.rows * m.cols →
        m'.data[k]? = some (if (k : Int) = n then (1 : α) else 0) := by
  have hs : m.data.length = m.rows * m.cols := hm
  obtain ⟨z, ez, zr, zc, zl, zk⟩ := forLoop_pointwise (m.rows * m.cols) m
    (fun i m => m.store i 0) (fun _ => (0 : α)) (by omega) (fun _ _ _ _ _ => rfl)
  have hlt : n.toNat < z.data.length := by omega
  have hneg : ¬ n < 0 := by omega
  have hdata : z.data = List.replicate (m.rows * m.cols) (0 : α) := by
    apply List.ext_getElem?
    intro k
    rw [zk k]
    by_cases hk : k < m.rows * m.cols
    · simp [hk, List.getElem?_replicate]
    · rw [if_neg hk, List.getElem?_eq_none (by omega), List.getElem?_eq_none (by simp; omega)]
  refine ⟨{ z with data := z.data.set n.toNat 1 }, ?_, zr, zc, by simpa using zl,
    by simp [hdata], ?_⟩
  · unfold onehot_encode
    rw [ez]
    simp [hneg, mlmatrix.store, hlt]
  · intro k hk
    by_cases hkn : (k : Int) = n
    · have : n.toNat = k := by omega
      simp [hkn, this, List.getElem?_set, zl, hs, hk]
    · have : n.toNat ≠ k := by omega
      simp [hkn, List.getElem?_set_ne this, zk k, hk]

/-- C13 on the buffer `[[5,6],[7,8]]` and class `2`: the result is `[[0,0],[1,0]]`. -/
theorem onehot_encode_entries_witness :
    onehot_encode (⟨2, 2, [5, 6, 7, 8]⟩ : mlmatrix Int) 2 = some ⟨2, 2, [0, 0, 1, 0]⟩ := by
  obtain ⟨m', e, hr, hc, -, hd, -⟩ := onehot_encode_entries
    (⟨2, 2, [5, 6, 7, 8]⟩ : mlmatrix Int) 2 (by decide) (by decide) (by decide)
  rw [e]
  cases m'
  simp_all

/-! ## Claim C14: the loader -/

/-- C14: for every dataset of bytes that holds sample `idx` (784 bytes from index
`idx * 784` on) and every node with 784 value entries, `load_input` succeeds; for
every `i` in `0..783` value entry `i` becomes `dataset[idx*784 + i] / 255`, a number
of the closed interval `[0,1]`; the node's `deriv` buffer, its kind and shape, and
every other node are unchanged. -/
theorem load_input_normalizes {α : Type} [LinearOrderedField α] (h : Heap α) (p : Nat)
    (nd : node α) (dataset : List uint8_t) (idx : Nat) (hp : h[p]? = some nd)
    (hlen : nd.matrix.data.length = 784) (hds : idx * 784 + 784 ≤ dataset.length) :
    ∃ h', load_input h (some p) dataset idx = some h' ∧
      h'.grad p = h.grad p ∧ (∀ q, q ≠ p → h'[q]? = h[q]?) ∧ h.SameShape h' ∧
      ∀ i, i < 784 → ∃ b : uint8_t, dataset[idx * 784 + i]? = some b ∧
        (h'.value p).data[i]? = some ((b.val : α) / 255) ∧
        0 ≤ (b.val : α) / 255 ∧ (b.val : α) / 255 ≤ 1 := by
  obtain ⟨m, e, mr, mc, ml, mk⟩ := load_input_ok h p nd dataset idx hp (by omega) hds
  have hset : (h.set p ⟨nd.type, nd.left, nd.right, m, nd.deriv⟩)[p]? =
      some ⟨nd.type, nd.left, nd.right, m, nd.deriv⟩ := List.getElem?_set_self_of_some hp
  refine ⟨_, e, ?_, fun q hq => List.getElem?_set_ne (fun e => hq e.symm), ?_, ?_⟩
  · rw [Heap.grad_of_getElem? hset, Heap.grad_of_getElem? hp]
  · exact Heap.SameShape.set h hp ⟨rfl, rfl, rfl, mr, mc, ml, rfl, rfl, rfl⟩
  · intro i hi
    have hb : idx * 784 + i < dataset.length := by omega
    refine ⟨dataset[idx * 784 + i], List.getElem?_eq_getElem hb, ?_, ?_, ?_⟩
    · rw [Heap.value_of_getElem? hset]
      simp [mk i, hi, List.getD_eq_getElem?_getD, List.getElem?_eq_getElem hb]
    · positivity
    · rw [div_le_one (by norm_num)]
      have : (dataset[idx * 784 + i]).val ≤ 255 := by omega
      exact_mod_cast this

/-- C14 on a `784 × 1` Input node and the second sample of `sampleBytes`: entry 3 of
the value buffer becomes byte `787`, which holds `19`, divided by 255. -/
theorem load_input_normalizes_witness :
    ∃ h', load_input inputHeap (some 0) sampleBytes 1 = some h' ∧
      h'.grad 0 = inputHeap.grad 0 ∧ (h'.value 0).data[3]? = some ((19 : ℚ) / 255) := by
  obtain ⟨h', e, hg, -, -, hv⟩ := load_input_normalizes inputHeap 0 (make_input_node 784 1)
    sampleBytes 1 rfl (List.length_replicate _ _) (by simp [sampleBytes])
  obtain ⟨b, hb, hval, -, -⟩ := hv 3 (by norm_num)
  have hb19 : b = 19 := by
    have : sampleBytes[1 * 784 + 3]? = some 19 := by
      simp [sampleBytes, List.getElem?_map, List.getElem?_range]
      rfl
    rw [this] at hb
    exact (Option.some.inj hb).symm
  subst hb19
  exact ⟨h', e, hg, by simpa using hval⟩

/-! ## Claim C15: the range of the nonlinearity -/

/-- C15, counterexample: evaluated with the arithmetic of its C types, `sigmoid(20.0f)`
is exactly `1.0f`, and `sigmoid(-200.0f)` and `sigmoid(-1000.0f)` are exactly `0.0f`:
none lies strictly between 0 and 1.  At `20`, `1.0 + exp(-20.0)` is a `double` just
above 1, its reciprocal is within `2^-26` of 1, and the conversion of the returned
value to `float`, whose numbers below 1 are `2^-24` apart, gives `1.0f`.  At `-200`,
the reciprocal of `1.0 + exp(200.0)` is a `double` far below the least positive
`float`.  At `-1000`, `exp(1000.0)` is the infinity and its reciprocal is zero. -/
theorem sigmoid_binary32_not_strict :
    sigmoid_binary32 exp_table (.fin 20) = .fin 1 ∧
      sigmoid_binary32 exp_table (.fin (-200)) = .fin 0 ∧
      sigmoid_binary32 exp_table (.fin (-1000)) = .fin 0 ∧
      ¬ ∃ r, sigmoid_binary32 exp_table (.fin 20) = .fin r ∧ 0 < r ∧ r < 1 := by
  have e1 : exp_table (.fin (-20)) = .fin (4983563664716391 / 2 ^ 81) := by
    rw [exp_table, if_pos rfl]
  have e2 : exp_table (.fin 200) = .fin (6543609947616697 * 2 ^ 236) := by
    rw [exp_table, if_neg (by norm_num), if_pos rfl]
  have e3 : exp_table (FloatVal.fin (-1000)).neg = .pinf := by
    rw [FloatVal.neg, neg_neg, exp_table, if_neg (by norm_num), if_neg (by norm_num),
      if_pos rfl]
  have h : sigmoid_binary32 exp_table (.fin 20) = .fin 1 :=
    sigmoid_binary32_saturates exp_table _ e1 (by positivity) (by norm_num)
  have h' : sigmoid_binary32 exp_table (.fin (-200)) = .fin 0 :=
    sigmoid_binary32_underflows exp_table _ e2 (by norm_num) (by norm_num)
  have h'' : sigmoid_binary32 exp_table (.fin (-1000)) = .fin 0 :=
    sigmoid_binary32_overflow exp_table _ e3
  refine ⟨h, h', h'', ?_⟩
  rintro ⟨r, hr, -, hlt⟩
  rw [h] at hr
  cases hr
  exact absurd hlt (lt_irrefl 1)

/-- C15, amended: for every finite `x`, `sigmoid(x) = 1/(1+e^{-x})` as computed by the
program (the sum and the quotient in `double`, the result converted to `float`, for
any `exp` that returns a non-negative number or the positive infinity) is a finite
number of the closed interval `[0,1]`, and `sigmoid(0)` is exactly `0.5` (when
`exp(0)` is `1`); hence `mat_nl` succeeds on buffers of one size and every entry it
writes from a finite entry lies in the closed interval `[0,1]`.  The bounds are
attained: `sigmoid(20.0f)` is exactly `1.0f` as soon as `exp(-20)` is at most `2^-26`,
`sigmoid(-200.0f)` is exactly `0.0f` as soon as `exp(200)` is between `2^200` and
`2^300`, and `sigmoid(x)` is exactly `0.0f` wherever `exp(-x)` overflows. -/
theorem sigmoid_range (exp : FloatVal → FloatVal) (hexp : ExpRange exp) :
    (∀ x : ℚ, ∃ r, sigmoid_binary32 exp (.fin x) = .fin r ∧ 0 ≤ r ∧ r ≤ 1) ∧
      (exp (.fin 0) = .fin 1 → sigmoid_binary32 exp (.fin 0) = .fin (1 / 2)) ∧
      (∀ dst src : mlmatrix FloatVal, dst.Sized → src.data.length = dst.data.length →
        (∀ v ∈ src.data, ∃ x : ℚ, v = .fin x) →
        ∃ d, mat_nl_binary32 exp dst src = some d ∧ d.rows = dst.rows ∧ d.cols = dst.cols ∧
          d.data.length = dst.data.length ∧
          ∀ v ∈ d.data, ∃ r : ℚ, v = .fin r ∧ 0 ≤ r ∧ r ≤ 1) ∧
      (∀ e : ℚ, exp (.fin (-20)) = .fin e → e ≤ 1 / 2 ^ 26 →
        sigmoid_binary32 exp (.fin 20) = .fin 1) ∧
      (∀ e : ℚ, exp (.fin 200) = .fin e → 2 ^ 200 ≤ e → e ≤ 2 ^ 300 →
        sigmoid_binary32 exp (.fin (-200)) = .fin 0) ∧
      (∀ x : ℚ, exp (.fin (-x)) = .pinf → sigmoid_binary32 exp (.fin x) = .fin 0) := by
  refine ⟨sigmoid_binary32_unit exp hexp, sigmoid_binary32_zero exp, ?_, ?_,
    sigmoid_binary32_underflows exp, fun x he => sigmoid_binary32_overflow exp (.fin x) he⟩
  · intro dst src hd hs hfin
    obtain ⟨d, e, hr, hc, hl, hk⟩ := mat_nl_binary32_ok exp dst src hd hs
    refine ⟨d, e, hr, hc, hl, ?_⟩
    intro v hv
    obtain ⟨k, hkv⟩ := List.mem_iff_getElem?.mp hv
    have hklt : k < d.data.length := by
      rcases Nat.lt_or_ge k d.data.length with hlt | hge
      · exact hlt
      · rw [List.getElem?_eq_none hge] at hkv; cases hkv
    obtain ⟨w, hw, hdk⟩ := hk k (by omega)
    rw [hkv] at hdk
    obtain ⟨x, rfl⟩ := hfin w (List.mem_iff_getElem?.mpr ⟨k, hw⟩)
    obtain ⟨r, hr', r0, r1⟩ := sigmoid_binary32_unit exp hexp x
    exact ⟨r, (Option.some.inj hdk).trans hr', r0, r1⟩
  · intro e he h1
    rcases hexp (-20) with hp | ⟨e', he', h0⟩
    · rw [hp] at he; cases he
    · rw [he'] at he
      have hee : e' = e := FloatVal.fin.inj he
      subst hee
      exact sigmoid_binary32_saturates exp e' he' h0 h1

/-- C15, amended, at concrete inputs, for the stand-in `exp_floor2`: `sigmoid(3.0f)`
lies in `[0,1]`, `sigmoid(0.0f)` is `0.5f`, and the entries `mat_nl` writes from
`[0, 5]` lie in `[0,1]`. -/
theorem sigmoid_range_witness :
    (∃ r, sigmoid_binary32 exp_floor2 (.fin 3) = .fin r ∧ 0 ≤ r ∧ r ≤ 1) ∧
      sigmoid_binary32 exp_floor2 (.fin 0) = .fin (1 / 2) ∧
      ∃ d, mat_nl_binary32 exp_floor2 ⟨1, 2, [.nan, .nan]⟩ ⟨1, 2, [.fin 0, .fin 5]⟩ = some d ∧
        ∀ v ∈ d.data, ∃ r : ℚ, v = .fin r ∧ 0 ≤ r ∧ r ≤ 1 := by
  obtain ⟨h1, h2, h3, -⟩ := sigmoid_range exp_floor2 exp_floor2_range
  obtain ⟨d, e, -, -, -, hd⟩ := h3 ⟨1, 2, [.nan, .nan]⟩ ⟨1, 2, [.fin 0, .fin 5]⟩
    (by decide) (by decide) (by
      intro v hv
      simp only [List.mem_cons, List.mem_singleton, List.not_mem_nil, or_false] at hv
      rcases hv with rfl | rfl
      · exact ⟨0, rfl⟩
      · exact ⟨5, rfl⟩)
  exact ⟨h1 3, h2 (by simp [exp_floor2]), d, e, hd⟩

/-! ## Claim C16: how often forward_prop recomputes a value -/

/-- C16, counterexample: on `dagHeap`, where the Add node at address 1 is both operands
of the root, one call of `forward_prop` on the root recomputes the value of node 1
twice (once for each operand of the root), then the root: the record of the kernel
calls is `[1, 1, 0]`. -/
theorem forward_prop_shared_twice :
    ∃ h', forward_prop_log id 3 (dagHeap, []) (some 0) = some (h', [1, 1, 0]) ∧
      forward_prop id 3 dagHeap (some 0) = some h' ∧
      List.count 1 [1, 1, 0] = 2 := by
  refine ⟨[⟨node_type.ADD_NODE, some 1, some 1, ⟨1, 1, [10]⟩, ⟨1, 1, [0]⟩⟩,
    ⟨node_type.ADD_NODE, some 2, some 3, ⟨1, 1, [5]⟩, ⟨1, 1, [0]⟩⟩,
    ⟨node_type.PARAM_NODE, none, none, ⟨1, 1, [2]⟩, ⟨1, 1, [0]⟩⟩,
    ⟨node_type.INPUT_NODE, none, none, ⟨1, 1, [3]⟩, ⟨1, 1, [0]⟩⟩], ?_, ?_, ?_⟩ <;> decide

/-- C16, amended: on every graph the constructors can build, `forward_prop` on the
root returns, and it recomputes the values of the MatMul, Add and Nonlinearity nodes
in the post-order of the unfolding of the graph, a node once for every path from the
root to it (Input and Parameter values are held, not recomputed); so on a tree-shaped
graph every such node is recomputed exactly once, and a node with more than one
consumer is recomputed more than once. -/
theorem forward_prop_recomputes {α : Type} [Ring α] [Div α] (exp : α → α) (h : Heap α)
    (t : NodeTree) (fuel : Nat) (hw : WF h t) (hf : t.depth ≤ fuel) :
    ∃ h' log, forward_prop_log exp fuel (h, []) (some t.root) = some (h', log) ∧
      forward_prop exp fuel h (some t.root) = some h' ∧
      log = t.postInner ∧ (∀ q, log.count q = t.inner.count q) ∧
      (t.addrs.Nodup → (∀ q ∈ t.inner, log.count q = 1) ∧ ∀ q ∈ t.leaves, log.count q = 0) := by
  obtain ⟨h', e, -⟩ := forward_prop_log_graph exp t h [] fuel hw hf
  rw [List.nil_append] at e
  have he := forward_prop_log_erase exp fuel (h, []) (some t.root)
  rw [e] at he
  refine ⟨h', t.postInner, e, he.symm, rfl, fun q => t.postInner_perm.count_eq q, ?_⟩
  intro hnd
  refine ⟨fun q hq => ?_, fun q hq => ?_⟩
  · rw [t.postInner_perm.count_eq q]
    exact List.count_eq_one_of_mem (t.inner_nodup hnd) hq
  · rw [t.postInner_perm.count_eq q]
    exact List.count_eq_zero_of_not_mem (t.leaves_not_inner hnd q hq)

/-- C16, amended, on the shared-node graph `dagHeap` and on the tree of scenario A:
the record is `[1, 1, 0]` on the first and `[0]` on the second. -/
theorem forward_prop_recomputes_witness :
    (∃ h', forward_prop_log id 3 (dagHeap, []) (some 0) = some (h', [1, 1, 0])) ∧
      ∃ h', forward_prop_log id 2 (scenarioA, []) (some 0) = some (h', [0]) := by
  obtain ⟨h1, log1, e1, -, hl1, -⟩ := forward_prop_recomputes id dagHeap dagTree 3
    (by decide) (by decide)
  obtain ⟨h2, log2, e2, -, hl2, -⟩ := forward_prop_recomputes id scenarioA scenarioATree 2
    (by decide) (by decide)
  subst hl1
  subst hl2
  exact ⟨⟨h1, e1⟩, ⟨h2, e2⟩⟩

/-! ## Claim C17: forward evaluation is a function of the leaves -/

/-- C17: for any two states `h1` and `h2` of one well-shaped tree graph that agree on
the value of every Input and Parameter node, whatever the values of the other nodes
and the gradient buffers are, `forward_prop` on the root succeeds in both and leaves
the same value at every node of the graph; and a second call right after the first
succeeds and changes no value in the heap. -/
theorem forward_prop_deterministic {α : Type} [Field α] (exp : α → α) (h1 h2 : Heap α)
    (t : NodeTree) (fuel : Nat) (hw1 : WF h1 t) (hw2 : WF h2 t) (hnd : t.addrs.Nodup)
    (hf : t.depth ≤ fuel) (hleaf : ∀ q, q ∈ t.leaves → h1.value q = h2.value q) :
    ∃ k1 k2, forward_prop exp fuel h1 (some t.root) = some k1 ∧
      forward_prop exp fuel h2 (some t.root) = some k2 ∧
      (∀ q, q ∈ t.addrs → k1.value q = k2.value q) ∧
      ∃ k3, forward_prop exp fuel k1 (some t.root) = some k3 ∧ ∀ q, k3.value q = k1.value q := by
  obtain ⟨k1, e1, s1, fr1, -, ev1⟩ := forward_prop_tree exp t h1 fuel hw1 hnd hf
  obtain ⟨k2, e2, -, fr2, -, ev2⟩ := forward_prop_tree exp t h2 fuel hw2 hnd hf
  obtain ⟨k3, e3, -, fr3, -, ev3⟩ := forward_prop_tree exp t k1 fuel (hw1.sameShape s1) hnd hf
  refine ⟨k1, k2, e1, e2, ?_, k3, e3, ?_⟩
  · apply Evaluated.values_eq exp ev1 ev2
    intro q hq
    rw [Heap.value_congr (fr1 q (t.leaves_not_inner hnd q hq)),
      Heap.value_congr (fr2 q (t.leaves_not_inner hnd q hq))]
    exact hleaf q hq
  · intro q
    by_cases hq : q ∈ t.inner
    · exact Evaluated.values_eq exp ev3 ev1
        (fun p hp => Heap.value_congr (fr3 p (t.leaves_not_inner hnd p hp))) q
        (t.inner_subset_addrs q hq)
    · exact Heap.value_congr (fr3 q hq)

/-- C17 on two states of scenario A that differ in the value of the MatMul node and
in every gradient buffer: after `forward_prop` the root holds `[[7]]` in both. -/
theorem forward_prop_deterministic_witness :
    ∃ k1 k2, forward_prop id 2 scenarioA (some 0) = some k1 ∧
      forward_prop id 2 scenarioAStale (some 0) = some k2 ∧
      k1.value 0 = k2.value 0 ∧ k2.value 0 = ⟨1, 1, [7]⟩ := by
  obtain ⟨k1, k2, e1, e2, hv, -⟩ := forward_prop_deterministic id scenarioA scenarioAStale
    scenarioATree 2 (by decide) (by decide) (by decide) (by decide)
    (by
      intro q hq
      simp only [scenarioATree, NodeTree.leaves, List.singleton_append, List.mem_cons,
        List.mem_singleton, List.not_mem_nil, or_false] at hq
      rcases hq with rfl | rfl <;> rfl)
  have e2' : forward_prop id 2 scenarioAStale (some 0) = some [
      ⟨node_type.MUL_NODE, some 1, some 2, ⟨1, 1, [7]⟩, ⟨1, 1, [5]⟩⟩,
      ⟨node_type.PARAM_NODE, none, none, ⟨1, 2, [1, 1]⟩, ⟨1, 2, [8, 9]⟩⟩,
      ⟨node_type.INPUT_NODE, none, none, ⟨2, 1, [3, 4]⟩, ⟨2, 1, [6, 7]⟩⟩] := by decide!
  have e2c : forward_prop id 2 scenarioAStale (some 0) = some k2 := e2
  rw [e2'] at e2c
  cases e2c
  exact ⟨k1, _, e1, e2', hv 0 (by decide), rfl⟩

/-! ## Claim C18: the constructors and the shapes of the operands -/

/-- C18, counterexample: on `mismatchHeap`, whose node 0 has shape `1 × 2` and whose
node 1 has shape `1 × 1`, so that `left.cols ≠ right.rows` and the shapes differ,
`make_mul_node` returns a MatMul node of shape `1 × 1` and `make_add_node` an Add node
of shape `1 × 2`: nothing is rejected.  The mismatch shows only later, when
`forward_prop` on the MatMul node reads outside a buffer. -/
theorem constructors_accept_mismatch :
    (mismatchHeap.value 0).cols ≠ (mismatchHeap.value 1).rows ∧
      make_mul_node mismatchHeap (some 0) (some 1) =
        some ⟨node_type.MUL_NODE, some 0, some 1, ⟨1, 1, [0]⟩, ⟨1, 1, [0]⟩⟩ ∧
      make_add_node mismatchHeap (some 0) (some 1) =
        some ⟨node_type.ADD_NODE, some 0, some 1, ⟨1, 2, [0, 0]⟩, ⟨1, 2, [0, 0]⟩⟩ ∧
      forward_prop id 2 (mismatchHeap.alloc
        ⟨node_type.MUL_NODE, some 0, some 1, ⟨1, 1, [0]⟩, ⟨1, 1, [0]⟩⟩).1 (some 2) = none := by
  refine ⟨?_, ?_, ?_, ?_⟩ <;> decide

/-- C18, amended: node construction does not validate operand shapes.  For any two
existing operand nodes, conformant or not, `make_mul_node` returns a MatMul node with
zeroed buffers of shape `left.rows × right.cols`, and `make_add_node` returns an Add
node with zeroed buffers of the shape of the left operand (the right operand is not
even read). -/
theorem constructors_unchecked {α : Type} [Zero α] (h : Heap α) (pl pr : Nat)
    (l r : node α) (hl : h[pl]? = some l) (hr : h[pr]? = some r) :
    make_mul_node h (some pl) (some pr) =
        some ⟨node_type.MUL_NODE, some pl, some pr,
          make_matrix l.matrix.rows r.matrix.cols, make_matrix l.matrix.rows r.matrix.cols⟩ ∧
      ∀ right : Option Nat, make_add_node h (some pl) right =
        some ⟨node_type.ADD_NODE, some pl, right,
          make_matrix l.matrix.rows l.matrix.cols, make_matrix l.matrix.rows l.matrix.cols⟩ := by
  refine ⟨?_, fun right => ?_⟩
  · simp [make_mul_node, Heap.deref, hl, hr]
  · simp [make_add_node, Heap.deref, hl]

/-- C18, amended, on the two mismatched leaves of `mismatchHeap`. -/
theorem constructors_unchecked_witness :
    make_mul_node mismatchHeap (some 0) (some 1) =
        some ⟨node_type.MUL_NODE, some 0, some 1, make_matrix 1 1, make_matrix 1 1⟩ ∧
      make_add_node mismatchHeap (some 0) (some 1) =
        some ⟨node_type.ADD_NODE, some 0, some 1, make_matrix 1 2, make_matrix 1 2⟩ := by
  have key := constructors_unchecked mismatchHeap 0 1
    ⟨node_type.PARAM_NODE, none, none, ⟨1, 2, [1, 1]⟩, ⟨1, 2, [0, 0]⟩⟩
    ⟨node_type.INPUT_NODE, none, none, ⟨1, 1, [3]⟩, ⟨1, 1, [0]⟩⟩ rfl rfl
  exact ⟨key.1, key.2 (some 1)⟩

/-! ## Claim C19: the invariant of the buffers of a node -/

/-- C19: every node returned by a constructor satisfies `node.Ok` (the value buffer
holds `rows * cols` entries and the `deriv` buffer has the same `rows` and `cols` and
as many entries), with the shape given for Input and Parameter nodes,
`left.rows × right.cols` for a MatMul node, and the shape of the (left) operand for
Add and Nonlinearity nodes; whenever `forward_prop`, `backprop` or `update_weights`
returns, every node that satisfied `node.Ok` still does, with the same `rows` and
`cols`; and on a well-formed tree all three do return. -/
theorem node_buffers_invariant {α : Type} [Field α] (exp : α → α) :
    (∀ rows cols : Nat, (make_input_node rows cols : node α).Ok ∧
      (make_input_node rows cols : node α).matrix.HasShape rows cols) ∧
    (∀ (rand : Nat → Nat) (RAND_MAX rows cols : Nat),
      (make_param_node rand RAND_MAX rows cols : node α × (Nat → Nat)).1.Ok ∧
      (make_param_node rand RAND_MAX rows cols : node α × (Nat → Nat)).1.matrix.HasShape
        rows cols) ∧
    (∀ (h : Heap α) (pl pr : Nat) (l r : node α), h[pl]? = some l → h[pr]? = some r →
      ∃ n, make_mul_node h (some pl) (some pr) = some n ∧ n.Ok ∧
        n.matrix.HasShape l.matrix.rows r.matrix.cols) ∧
    (∀ (h : Heap α) (pl : Nat) (right : Option Nat) (l : node α), h[pl]? = some l →
      ∃ n, make_add_node h (some pl) right = some n ∧ n.Ok ∧
        n.matrix.HasShape l.matrix.rows l.matrix.cols) ∧
    (∀ (h : Heap α) (px : Nat) (x : node α), h[px]? = some x →
      ∃ n, make_nl_node h (some px) = some n ∧ n.Ok ∧
        n.matrix.HasShape x.matrix.rows x.matrix.cols) ∧
    (∀ (fuel : Nat) (h : Heap α) (p : Option Nat) (h' : Heap α),
      (forward_prop exp fuel h p = some h' ∨ backprop fuel h p = some h' ∨
        update_weights fuel h p = some h') →
      ∀ (q : Nat) (n : node α), h[q]? = some n → n.Ok →
        ∃ n', h'[q]? = some n' ∧ n'.Ok ∧ n'.matrix.rows = n.matrix.rows ∧
          n'.matrix.cols = n.matrix.cols) ∧
    (∀ (h : Heap α) (t : NodeTree) (fuel : Nat), WF h t → t.addrs.Nodup → t.depth ≤ fuel →
      (∃ h', forward_prop exp fuel h (some t.root) = some h') ∧
      (∃ h', backprop fuel h (some t.root) = some h') ∧
      (∃ h', update_weights fuel h (some t.root) = some h')) := by
  refine ⟨?_, ?_, ?_, ?_, ?_, ?_, ?_⟩
  · intro rows cols
    exact ⟨make_matrix_ok _ _ _ _ _ _ (make_matrix_hasShape rows cols),
      make_matrix_hasShape rows cols⟩
  · intro rand RAND_MAX rows cols
    exact ⟨make_matrix_ok _ _ _ _ _ _ (random_matrix_hasShape rand RAND_MAX rows cols),
      random_matrix_hasShape rand RAND_MAX rows cols⟩
  · intro h pl pr l r hl hr
    exact ⟨⟨node_type.MUL_NODE, some pl, some pr, make_matrix l.matrix.rows r.matrix.cols,
      make_matrix l.matrix.rows r.matrix.cols⟩, by simp [make_mul_node, Heap.deref, hl, hr],
      make_matrix_ok _ _ _ _ _ _ (make_matrix_hasShape _ _), make_matrix_hasShape _ _⟩
  · intro h pl right l hl
    exact ⟨⟨node_type.ADD_NODE, some pl, right, make_matrix l.matrix.rows l.matrix.cols,
      make_matrix l.matrix.rows l.matrix.cols⟩, by simp [make_add_node, Heap.deref, hl],
      make_matrix_ok _ _ _ _ _ _ (make_matrix_hasShape _ _), make_matrix_hasShape _ _⟩
  · intro h px x hx
    exact ⟨⟨node_type.NL_NODE, some px, none, make_matrix x.matrix.rows x.matrix.cols,
      make_matrix x.matrix.rows x.matrix.cols⟩, by simp [make_nl_node, Heap.deref, hx],
      make_matrix_ok _ _ _ _ _ _ (make_matrix_hasShape _ _), make_matrix_hasShape _ _⟩
  · intro fuel h p h' hrun q n hn hok
    have hs : h.SameShape h' := by
      rcases hrun with e | e | e
      · exact forward_prop_sameShape exp fuel h p h' e
      · exact backprop_sameShape fuel h p h' e
      · exact update_weights_sameShape fuel h p h' e
    obtain ⟨n', hn', s⟩ := hs.exists hn
    exact ⟨n', hn', s.ok hok, s.2.2.2.1, s.2.2.2.2.1⟩
  · intro h t fuel hw hnd hf
    obtain ⟨k1, e1, -⟩ := forward_prop_tree exp t h fuel hw hnd hf
    obtain ⟨k2, e2, -⟩ := backprop_tree t h fuel hw hnd hf
    obtain ⟨k3, e3, -⟩ := update_weights_tree t h fuel hw hnd hf
    exact ⟨⟨k1, e1⟩, ⟨k2, e2⟩, ⟨k3, e3⟩⟩

/-- C19 at concrete inputs: a MatMul node built over the `1 × 2` Parameter and the
`2 × 1` Input of scenario A has sound buffers of shape `1 × 1`, and after
`update_weights` on scenario A the Parameter still has sound buffers. -/
theorem node_buffers_invariant_witness :
    (∃ n, make_mul_node scenarioA (some 1) (some 2) = some n ∧ n.Ok ∧
      n.matrix.HasShape 1 1) ∧
    ∃ h' n', update_weights 2 scenarioA (some 0) = some h' ∧ h'[1]? = some n' ∧ n'.Ok := by
  obtain ⟨-, -, hmul, -, -, hpres, htot⟩ := node_buffers_invariant (id : ℚ → ℚ)
  refine ⟨hmul scenarioA 1 2 _ _ rfl rfl, ?_⟩
  obtain ⟨-, -, h', e⟩ := htot scenarioA scenarioATree 2 (by decide) (by decide) (by decide)
  obtain ⟨n', hn', hok, -⟩ := hpres 2 scenarioA (some 0) h' (Or.inr (Or.inr e)) 1
    ⟨node_type.PARAM_NODE, none, none, ⟨1, 2, [1, 1]⟩, ⟨1, 2, [0, 0]⟩⟩ rfl (by decide)
  exact ⟨h', n', e, hn', hok⟩

/-! ## Claim C20: the traversals stay inside the graph and the buffers -/

/-- C20: for every architecture in which every MatMul node has
`left.cols == right.rows` and the operands of every Add node have one shape, the
node constructors build a graph on which, in every state (any contents of the
buffers), `forward_prop` and `backprop` on the root return: no absent operand is
dereferenced and no buffer is read or written outside its `rows * cols` entries, the
transposes and the two products of the MatMul case included, since any of these
makes the embedded function return `none`; and every node keeps its shape. -/
theorem built_graph_safe {α : Type} [Field α] (exp : α → α) (RAND_MAX : Nat) (a : Arch)
    (h0 : Heap α) (g : Nat → Nat) (fuel : Nat) (hc : a.Conformant) (hf : a.depth ≤ fuel) :
    ∃ h g' p, a.build RAND_MAX (h0, g) = some ((h, g'), p) ∧
      ∀ k, h.SameShape k →
        (∃ k1, forward_prop exp fuel k (some p) = some k1 ∧ k.SameShape k1) ∧
        (∃ k2, backprop fuel k (some p) = some k2 ∧ k.SameShape k2) := by
  obtain ⟨h, g', t, e, wf, nd, dep, -⟩ := Arch.build_wf RAND_MAX a hc h0 g
  refine ⟨h, g', t.root, e, fun k hk => ?_⟩
  have wk : WF k t := wf.sameShape hk
  obtain ⟨k1, e1, s1, -⟩ := forward_prop_tree exp t k fuel wk nd (by omega)
  obtain ⟨k2, e2, s2, -⟩ := backprop_tree t k fuel wk nd (by omega)
  exact ⟨⟨k1, e1, s1⟩, ⟨k2, e2, s2⟩⟩

/-- C20 on the network of `main`, built on an empty heap, with `RAND_MAX = 2^31 - 1`
and a `rand()` that returns `0, 1, 2, ...`. -/
theorem built_graph_safe_witness :
    ∃ (h : Heap ℚ) (g' : Nat → Nat) (p : Nat),
      mainArch.build 2147483647 (([] : Heap ℚ), fun k => k) = some ((h, g'), p) ∧
      ∀ k, h.SameShape k →
        (∃ k1, forward_prop id 10 k (some p) = some k1 ∧ k.SameShape k1) ∧
        (∃ k2, backprop 10 k (some p) = some k2 ∧ k.SameShape k2) :=
  built_graph_safe id 2147483647 mainArch [] (fun k => k) 10 (by decide) (by decide)
